import Mathlib

/-!
# chess_cpp: the rules engine (Piece, Board, GameMaster)

A shallow embedding of the C++ sources.

* A square is the `std::string` the code indexes with `FILE_INDEX` and
  `RANK_INDEX`; only those two characters are ever read, so a square is the pair
  of their character codes (`'A'` = 65 .. `'H'` = 72, `'1'` = 49 .. `'8'` = 56).
* A `Piece*` is an address (`Ptr`); `nullptr` is `none`.  The live `Piece`
  objects of a board are exactly the entries of its two vectors, so a vector
  entry is stored together with the object it points to, and a pointer is
  dereferenced by looking its address up in the two vectors.  Addresses are only
  ever compared inside one board; `clone()` therefore keeps the address as the
  identity of the copy inside the other board.
* Every operation that the C++ standard leaves undefined (an index outside the
  8x8 array, a null or dangling dereference) and a path loop that is still
  running after `BOARD_SIZE` iterations make the embedded function return
  `none`.  A pointer that is passed on to a callee is dereferenced where it is
  passed, which can only turn a defined run into `none`: whenever an embedded
  function returns `some r`, the C++ function is defined and returns `r`.
* `new` returns an address that no live object of the board has; the embedding
  takes the successor of the largest live address.
* The colour of a piece or a player is the `int` of the source (`WHITE` = 1,
  `BLACK` = -1), and a castling side is the `char` of the source.
-/

namespace Chess

/-! ## Constants (Piece.h, Board.h, GameMaster.h, GameMaster.cpp) -/

abbrev WHITE : Int := 1
abbrev BLACK : Int := -1
abbrev REVERSE : Int := -1
/-- The character '8'. -/
abbrev MAX_RANK : Int := 56
/-- The character '1'. -/
abbrev MIN_RANK : Int := 49
/-- The character 'H'. -/
abbrev MAX_FILE : Int := 72
/-- The character 'A'. -/
abbrev MIN_FILE : Int := 65
abbrev BOARD_SIZE : Nat := 8
abbrev QUEENSIDE : Char := 'Q'
abbrev KINGSIDE : Char := 'K'
abbrev KING_RANGE : Int := 1
abbrev Q_DIRECTION : Int := -1
abbrev K_DIRECTION : Int := 1
abbrev Q_ROOK : Int := 3
abbrev K_ROOK : Int := -2
abbrev KNIGHT_DIFF1 : Int := 1
abbrev KNIGHT_DIFF2 : Int := 2
abbrev ROOK_DIFF : Int := 0
abbrev QUEEN_DIFF : Int := 0
abbrev PAWN_DIFF0 : Int := 0
abbrev PAWN_DIFF1 : Int := 1
abbrev PAWN_DIFF2 : Int := 2

/-! ## Squares and pieces -/

/-- A position string such as "A1": the character codes at `FILE_INDEX` and `RANK_INDEX`. -/
structure Square where
  file : Int
  rank : Int
deriving DecidableEq, Repr

/-- The six subclasses of `Piece`. -/
inductive Kind where
  | Pawn | Knight | Bishop | Rook | Queen | King
deriving DecidableEq, Repr

/-- An address of a `Piece` object. -/
abbrev Ptr := Nat

/-- A `Piece` object: its address, its dynamic type and the members of `Piece`. -/
structure Piece where
  addr : Ptr
  kind : Kind
  _hasMoved : Bool
  _color : Int
  _position : Square
deriving DecidableEq, Repr

/-- The C library `abs` on `int`. -/
def cabs (x : Int) : Int := if x < 0 then -x else x

namespace Piece

/-- The constructor `Piece(color, position, skips)`: `_hasMoved(false)`. -/
def new (addr : Ptr) (kind : Kind) (color : Int) (position : Square) : Piece :=
  { addr := addr, kind := kind, _hasMoved := false, _color := color, _position := position }

def hasMoved (p : Piece) : Bool := p._hasMoved
def getColor (p : Piece) : Int := p._color
def getPosition (p : Piece) : Square := p._position

/-- The member `_skips`, fixed by each subclass constructor: true for King and Knight. -/
def skips (p : Piece) : Bool :=
  match p.kind with
  | Kind.King => true
  | Kind.Knight => true
  | _ => false

def isKing (p : Piece) : Bool :=
  match p.kind with
  | Kind.King => true
  | _ => false

def isPawn (p : Piece) : Bool :=
  match p.kind with
  | Kind.Pawn => true
  | _ => false

/-- The method `Piece::setPosition`: also sets `_hasMoved`. -/
def setPosition (p : Piece) (position : Square) : Piece :=
  { p with _position := position, _hasMoved := true }

end Piece

/-- The method `King::canReach`. -/
def King.canReach (p : Piece) (dest : Square) (_isCapture : Bool) : Bool :=
  let fileDiff := cabs (dest.file - p._position.file)
  let rankDiff := cabs (dest.rank - p._position.rank)
  decide (fileDiff ≤ KING_RANGE) && decide (rankDiff ≤ KING_RANGE)

/-- The method `Knight::canReach`. -/
def Knight.canReach (p : Piece) (dest : Square) (_isCapture : Bool) : Bool :=
  let fileDiff := cabs (dest.file - p._position.file)
  let rankDiff := cabs (dest.rank - p._position.rank)
  (decide (fileDiff = KNIGHT_DIFF1) && decide (rankDiff = KNIGHT_DIFF2)) ||
  (decide (fileDiff = KNIGHT_DIFF2) && decide (rankDiff = KNIGHT_DIFF1))

/-- The method `Bishop::canReach`. -/
def Bishop.canReach (p : Piece) (dest : Square) (_isCapture : Bool) : Bool :=
  let fileDiff := cabs (dest.file - p._position.file)
  let rankDiff := cabs (dest.rank - p._position.rank)
  decide (fileDiff = rankDiff)

/-- The method `Rook::canReach`. -/
def Rook.canReach (p : Piece) (dest : Square) (_isCapture : Bool) : Bool :=
  let fileDiff := cabs (dest.file - p._position.file)
  let rankDiff := cabs (dest.rank - p._position.rank)
  decide (fileDiff = ROOK_DIFF) || decide (rankDiff = ROOK_DIFF)

/-- The method `Queen::canReach`. -/
def Queen.canReach (p : Piece) (dest : Square) (_isCapture : Bool) : Bool :=
  let fileDiff := cabs (dest.file - p._position.file)
  let rankDiff := cabs (dest.rank - p._position.rank)
  decide (fileDiff = QUEEN_DIFF) || decide (rankDiff = QUEEN_DIFF) || decide (fileDiff = rankDiff)

/-- The method `Pawn::canReach`. -/
def Pawn.canReach (p : Piece) (dest : Square) (isCapture : Bool) : Bool :=
  let fileDiff := cabs (dest.file - p._position.file)
  let rankDiff := p._color * (dest.rank - p._position.rank)
  if isCapture then
    decide (fileDiff = PAWN_DIFF1) && decide (rankDiff = PAWN_DIFF1)
  else
    let legalPawnSkip := (!p._hasMoved) && decide (rankDiff = PAWN_DIFF2)
    decide (fileDiff = PAWN_DIFF0) && (decide (rankDiff = PAWN_DIFF1) || legalPawnSkip)

/-- The virtual call `piece->canReach(dest, isCapture)`. -/
def Piece.canReach (p : Piece) (dest : Square) (isCapture : Bool) : Bool :=
  match p.kind with
  | Kind.Pawn => Pawn.canReach p dest isCapture
  | Kind.Knight => Knight.canReach p dest isCapture
  | Kind.Bishop => Bishop.canReach p dest isCapture
  | Kind.Rook => Rook.canReach p dest isCapture
  | Kind.Queen => Queen.canReach p dest isCapture
  | Kind.King => King.canReach p dest isCapture

/-- The expression `(a < b) - (b < a)` of `Piece::getPathTo` (the sgn function). -/
def sgnDirection (a b : Int) : Int :=
  (if a < b then 1 else 0) - (if b < a then 1 else 0)

/-- The `while` loop of `Piece::getPathTo`, run for at most `fuel` iterations; `none` when the
loop condition still holds after them. -/
def getPathToLoop (fileDirection rankDirection destFile destRank : Int) :
    Nat → Int → Int → Option (List Square)
  | 0, positionFile, positionRank =>
    if positionFile ≠ destFile ∨ positionRank ≠ destRank then none else some []
  | fuel + 1, positionFile, positionRank =>
    if positionFile ≠ destFile ∨ positionRank ≠ destRank then
      match getPathToLoop fileDirection rankDirection destFile destRank fuel
          (positionFile + fileDirection) (positionRank + rankDirection) with
      | none => none
      | some rest => some (Square.mk positionFile positionRank :: rest)
    else some []

/-- The default `Piece::getPathTo`, shared by Queen, Bishop and Rook. -/
def Piece.getPathToDefault (p : Piece) (dest : Square) : Option (List Square) :=
  let positionFile := p._position.file
  let destFile := dest.file
  let positionRank := p._position.rank
  let destRank := dest.rank
  let fileDirection := sgnDirection positionFile destFile
  let rankDirection := sgnDirection positionRank destRank
  getPathToLoop fileDirection rankDirection destFile destRank BOARD_SIZE
    (positionFile + fileDirection) (positionRank + rankDirection)

/-- The method `Pawn::getPathTo`. -/
def Pawn.getPathTo (p : Piece) (dest : Square) : List Square :=
  let rankDiff := cabs (dest.rank - p._position.rank)
  if rankDiff = PAWN_DIFF2 then
    [Square.mk dest.file (dest.rank - p._color)]
  else []

/-- The virtual call `piece->getPathTo(dest)`. -/
def Piece.getPathTo (p : Piece) (dest : Square) : Option (List Square) :=
  match p.kind with
  | Kind.Pawn => some (Pawn.getPathTo p dest)
  | Kind.Knight => some []
  | Kind.King => some []
  | Kind.Bishop => p.getPathToDefault dest
  | Kind.Rook => p.getPathToDefault dest
  | Kind.Queen => p.getPathToDefault dest

/-! ## Board -/

/-- The members of one `Board` object other than `_tempBoard`: the 8x8 matrix `_board`
(row `file - MIN_FILE`, column `rank - MIN_RANK`, stored row after row), the two vectors and the
two king pointers. -/
structure Board where
  _board : List (Option Ptr)
  _whitePieces : List Piece
  _blackPieces : List Piece
  _whiteKing : Option Ptr
  _blackKing : Option Ptr
deriving DecidableEq, Repr

/-- The static method `Board::isInBoard`. -/
def isInBoard (position : Square) : Bool :=
  decide (position.rank ≥ MIN_RANK) && decide (position.rank ≤ MAX_RANK) &&
  decide (position.file ≥ MIN_FILE) && decide (position.file ≤ MAX_FILE)

/-- The offset of `_board[file - MIN_FILE][rank - MIN_RANK]` in the matrix; `none` when an
index is outside the array. -/
def gridIndex (position : Square) : Option Nat :=
  if isInBoard position then
    some ((position.file - MIN_FILE).toNat * BOARD_SIZE + (position.rank - MIN_RANK).toNat)
  else none

namespace Board

/-- The objects a pointer of this board can point to. -/
def allPieces (b : Board) : List Piece := b._whitePieces ++ b._blackPieces

/-- Dereference a non-null pointer; `none` when no live object has that address. -/
def deref (b : Board) (a : Ptr) : Option Piece :=
  b.allPieces.find? (fun q => q.addr == a)

/-- The method `Board::_getPiece`; the inner `none` is `nullptr`. -/
def _getPiece (b : Board) (position : Square) : Option (Option Ptr) :=
  match gridIndex position with
  | none => none
  | some i => b._board[i]?

/-- The method `Board::_setPiece`. -/
def _setPiece (b : Board) (piece : Option Ptr) (position : Square) : Option Board :=
  match gridIndex position with
  | none => none
  | some i => if i < b._board.length then some { b with _board := b._board.set i piece } else none

/-- The method `Board::_getPieces`. -/
def _getPieces (b : Board) (color : Int) : List Piece :=
  if color = WHITE then b._whitePieces else b._blackPieces

/-- A write through the reference returned by `_getPieces(color)`. -/
def setPieces (b : Board) (color : Int) (pieces : List Piece) : Board :=
  if color = WHITE then { b with _whitePieces := pieces } else { b with _blackPieces := pieces }

/-- The method `Board::_getKing`. -/
def _getKing (b : Board) (color : Int) : Option Ptr :=
  if color = WHITE then b._whiteKing else b._blackKing

/-- A write to the object at address `a`, wherever it is stored. -/
def updatePiece (b : Board) (a : Ptr) (f : Piece → Piece) : Board :=
  { b with
    _whitePieces := b._whitePieces.map (fun q => if q.addr = a then f q else q)
    _blackPieces := b._blackPieces.map (fun q => if q.addr = a then f q else q) }

/-- The method `Board::_movePiece`. -/
def _movePiece (b : Board) (piece : Option Ptr) (position : Square) : Option Board :=
  match b._setPiece piece position with
  | none => none
  | some b1 =>
    match piece with
    | none => none
    | some a =>
      match b1.deref a with
      | none => none
      | some _ => some (b1.updatePiece a (fun q => q.setPosition position))

/-- The method `Board::_removePiece`: `std::remove` erases every entry equal to the pointer. -/
def _removePiece (b : Board) (position : Square) : Option Board :=
  match b._getPiece position with
  | none => none
  | some none => some b
  | some (some a) =>
    match b.deref a with
    | none => none
    | some piece =>
      let pieces := b._getPieces piece.getColor
      (b.setPieces piece.getColor (pieces.filter (fun q => q.addr ≠ a)))._setPiece none position

/-- One iteration of the loop of `Board::_setUpPieces`. -/
def setUpStep (color : Int) (b : Board) (piece : Piece) : Option Board :=
  match b._setPiece (some piece.addr) piece.getPosition with
  | none => none
  | some b1 =>
    if piece.isKing then
      if color = WHITE then some { b1 with _whiteKing := some piece.addr }
      else some { b1 with _blackKing := some piece.addr }
    else some b1

/-- The loop of `Board::_setUpPieces` over the vector `pieces`. -/
def setUpLoop (color : Int) : Board → List Piece → Option Board
  | b, [] => some b
  | b, piece :: rest =>
    match setUpStep color b piece with
    | none => none
    | some b1 => setUpLoop color b1 rest

/-- The method `Board::_setUpPieces`. -/
def _setUpPieces (b : Board) (color : Int) : Option Board :=
  setUpLoop color b (b._getPieces color)

/-- The assignment `*this = other` (`Board::operator=`): the matrix is cleared, the vectors are
replaced by clones of the other board's pieces, and the matrix and king pointers are set up
again; `_whiteKing` and `_blackKing` are not reset before. -/
def assign (this other : Board) : Option Board :=
  let cleared : Board :=
    { this with
      _board := List.replicate (BOARD_SIZE * BOARD_SIZE) none
      _whitePieces := other._whitePieces
      _blackPieces := other._blackPieces }
  match cleared._setUpPieces WHITE with
  | none => none
  | some b1 => b1._setUpPieces BLACK

/-- The body of `Board::tempMove`, which works on `*_tempBoard` (here `t`). -/
def tempMove (t : Board) (src dest : Square) : Option Board :=
  match t._getPiece dest with
  | none => none
  | some destPiece =>
    match (if destPiece ≠ none then t._removePiece dest else some t) with
    | none => none
    | some t1 =>
      match t1._getPiece src with
      | none => none
      | some srcPiece =>
        match t1._setPiece none src with
        | none => none
        | some t2 => t2._movePiece srcPiece dest

/-- An address `new` can return: one that no live object of the board has. -/
def freshAddr (b : Board) : Ptr :=
  (b.allPieces.map (fun q => q.addr)).foldl max 0 + 1

/-- The body of `Board::tempPromote`, which works on `*_tempBoard` (here `t`); `piece` is
assumed not to be `nullptr`. -/
def tempPromote (t : Board) (piece : Ptr) : Option Board :=
  match t.deref piece with
  | none => none
  | some p =>
    let position := p.getPosition
    let color := p.getColor
    match t._removePiece position with
    | none => none
    | some t1 =>
      let queen := Piece.new t1.freshAddr Kind.Queen color position
      let t2 := t1.setPieces color (t1._getPieces color ++ [queen])
      t2._movePiece (some queen.addr) position

end Board

/-! ## GameMaster -/

/-- The state of a `GameMaster`: its member `_board` (the saved board) and the board that
`_board._tempBoard` points to (the board moves are made on). -/
structure GameMaster where
  _board : Board
  _tempBoard : Board
deriving DecidableEq, Repr

namespace GameMaster

/-- The method `Board::saveMoves`: `*this = *_tempBoard`. -/
def saveMoves (g : GameMaster) : Option GameMaster :=
  match g._board.assign g._tempBoard with
  | none => none
  | some b => some { g with _board := b }

/-- The method `Board::undoMoves`: `*_tempBoard = *this`. -/
def undoMoves (g : GameMaster) : Option GameMaster :=
  match g._tempBoard.assign g._board with
  | none => none
  | some t => some { g with _tempBoard := t }

/-- The method `Board::tempMove` called on `_board`. -/
def tempMove (g : GameMaster) (src dest : Square) : Option GameMaster :=
  match g._tempBoard.tempMove src dest with
  | none => none
  | some t => some { g with _tempBoard := t }

/-- The method `Board::tempPromote` called on `_board`. -/
def tempPromote (g : GameMaster) (piece : Ptr) : Option GameMaster :=
  match g._tempBoard.tempPromote piece with
  | none => none
  | some t => some { g with _tempBoard := t }

/-- The method `Board::getTempPiece`. -/
def getTempPiece (g : GameMaster) (position : Square) : Option (Option Ptr) :=
  g._tempBoard._getPiece position

/-- The method `Board::getTempPieces`. -/
def getTempPieces (g : GameMaster) (color : Int) : List Piece :=
  g._tempBoard._getPieces color

/-- The method `Board::getTempKing`. -/
def getTempKing (g : GameMaster) (color : Int) : Option Ptr :=
  g._tempBoard._getKing color

/-- The method `GameMaster::_reverseColor`. -/
def _reverseColor (color : Int) : Int := color * REVERSE

/-- The method `GameMaster::_isEmptyPath`. -/
def _isEmptyPath (g : GameMaster) : List Square → Option Bool
  | [] => some true
  | position :: rest =>
    match g.getTempPiece position with
    | none => none
    | some (some _) => some false
    | some none => _isEmptyPath g rest

/-- Lines 65-72 of `GameMaster::_isPseudoPath`, after `isCapture` is known. -/
def reachAndPath (g : GameMaster) (piece : Piece) (dest : Square) (isCapture : Bool) :
    Option Bool :=
  if !piece.canReach dest isCapture then some false
  else
    match piece.getPathTo dest with
    | none => none
    | some path => g._isEmptyPath path

/-- The method `GameMaster::_isPseudoPath`; `piece` is the object the argument points to. -/
def _isPseudoPath (g : GameMaster) (piece : Piece) (dest : Square) : Option Bool :=
  if !isInBoard dest then some false
  else
    match g.getTempPiece dest with
    | none => none
    | some none => g.reachAndPath piece dest false
    | some (some d) =>
      match g._tempBoard.deref d with
      | none => none
      | some destPiece =>
        if destPiece.getColor = piece.getColor then some false
        else g.reachAndPath piece dest true

/-- The loop of `GameMaster::isInCheck` over the enemy pieces. -/
def isInCheckLoop (g : GameMaster) (kingPosition : Square) : List Piece → Option Bool
  | [] => some false
  | piece :: rest =>
    match g._isPseudoPath piece kingPosition with
    | none => none
    | some true => some true
    | some false => isInCheckLoop g kingPosition rest

/-- The method `GameMaster::isInCheck`. -/
def isInCheck (g : GameMaster) (color : Int) : Option Bool :=
  match g.getTempKing color with
  | none => none
  | some k =>
    match g._tempBoard.deref k with
    | none => none
    | some king =>
      let kingPosition := king.getPosition
      let enemyPieces := g.getTempPieces (_reverseColor color)
      isInCheckLoop g kingPosition enemyPieces

/-- The method `GameMaster::_isPromotion`. -/
def _isPromotion (g : GameMaster) (src dest : Square) : Option Bool :=
  match g.getTempPiece src with
  | none => none
  | some none => none
  | some (some a) =>
    match g._tempBoard.deref a with
    | none => none
    | some srcPiece =>
      let endOfBoard := if srcPiece.getColor = WHITE then MAX_RANK else MIN_RANK
      some (srcPiece.isPawn && decide (dest.rank = endOfBoard))

/-- The method `GameMaster::move`: the returned flag and the state after the call. -/
def move (g : GameMaster) (src dest : Square) (currentPlayer : Int) (isCurrentInCheck : Bool) :
    Option (Bool × GameMaster) :=
  if !isInBoard src then some (false, g)
  else
    match g.getTempPiece src with
    | none => none
    | some none => some (false, g)
    | some (some a) =>
      match g._tempBoard.deref a with
      | none => none
      | some srcPiece =>
        if srcPiece.getColor ≠ currentPlayer then some (false, g)
        else if isCurrentInCheck && !srcPiece.isKing then some (false, g)
        else
          match g._isPseudoPath srcPiece dest with
          | none => none
          | some false => some (false, g)
          | some true =>
            match g._isPromotion src dest with
            | none => none
            | some promotion =>
              match g.tempMove src dest with
              | none => none
              | some g1 =>
                match g1._tempBoard.deref a with
                | none => none
                | some moved =>
                  match g1.isInCheck moved.getColor with
                  | none => none
                  | some true =>
                    match g1.undoMoves with
                    | none => none
                    | some g2 => some (false, g2)
                  | some false =>
                    match (if promotion then g1.tempPromote a else some g1) with
                    | none => none
                    | some g2 =>
                      match g2.saveMoves with
                      | none => none
                      | some g3 => some (true, g3)

/-- The method `GameMaster::_isPseudoLegalCastling`: `none` inside is the result `false`,
`some (kingSrc, rookSrc)` is the result `true` with the two strings it assigned. -/
def _isPseudoLegalCastling (g : GameMaster) (castlingSide : Char) (currentPlayer : Int) :
    Option (Option (Square × Square)) :=
  match g.getTempKing currentPlayer with
  | none => none
  | some k =>
    match g._tempBoard.deref k with
    | none => none
    | some king =>
      if king.hasMoved then some none
      else
        let kingSrc := king.getPosition
        let rookSrcFile := if castlingSide = QUEENSIDE then MIN_FILE else MAX_FILE
        let rookSrc := Square.mk rookSrcFile kingSrc.rank
        match g.getTempPiece rookSrc with
        | none => none
        | some none => some none
        | some (some r) =>
          match g._tempBoard.deref r with
          | none => none
          | some rook =>
            if rook.hasMoved then some none
            else
              match rook.getPathTo kingSrc with
              | none => none
              | some rookToKingPath =>
                match g._isEmptyPath rookToKingPath with
                | none => none
                | some result => if result then some (some (kingSrc, rookSrc)) else some none

/-- The method `GameMaster::castling`: the returned flag and the state after the call.  The
operator `||` does not evaluate `isInCheck` when its left operand is already true. -/
def castling (g : GameMaster) (castlingSide : Char) (currentPlayer : Int)
    (isCurrentInCheck : Bool) : Option (Bool × GameMaster) :=
  match g._isPseudoLegalCastling castlingSide currentPlayer with
  | none => none
  | some none => some (false, g)
  | some (some (kingSrc, rookSrc)) =>
    let direction := if castlingSide = QUEENSIDE then Q_DIRECTION else K_DIRECTION
    let kingMidFile := kingSrc.file + direction
    let kingDestFile := kingMidFile + direction
    let kingMid := Square.mk kingMidFile kingSrc.rank
    let kingDest := Square.mk kingDestFile kingSrc.rank
    match g.tempMove kingSrc kingMid with
    | none => none
    | some g1 =>
      match (if isCurrentInCheck then some true else g1.isInCheck currentPlayer) with
      | none => none
      | some result1 =>
        match g1.tempMove kingMid kingDest with
        | none => none
        | some g2 =>
          match (if result1 then some true else g2.isInCheck currentPlayer) with
          | none => none
          | some true =>
            match g2.undoMoves with
            | none => none
            | some g3 => some (false, g3)
          | some false =>
            let rookDestFile := rookSrc.file + (if castlingSide = QUEENSIDE then Q_ROOK else K_ROOK)
            let rookDest := Square.mk rookDestFile kingSrc.rank
            match g2.tempMove rookSrc rookDest with
            | none => none
            | some g3 =>
              match g3.saveMoves with
              | none => none
              | some g4 => some (true, g4)

/-- The method `GameMaster::_getKingMoves`: `i` runs over the files, `j` over the ranks. -/
def _getKingMoves (kingsPosition : Square) : List Square :=
  let positionFile := kingsPosition.file
  let positionRank := kingsPosition.rank
  ([-1, 0, 1] : List Int).flatMap (fun i =>
    ([-1, 0, 1] : List Int).map (fun j => Square.mk (positionFile + i) (positionRank + j)))

/-- The loop of `GameMaster::isInCheckmate` over `kingMoves`. -/
def isInCheckmateLoop (color : Int) (kingsPosition : Square) :
    GameMaster → List Square → Option (Bool × GameMaster)
  | g, [] => some (true, g)
  | g, dest :: rest =>
    match g.getTempKing color with
    | none => none
    | some k =>
      match g._tempBoard.deref k with
      | none => none
      | some king =>
        match g._isPseudoPath king dest with
        | none => none
        | some false => isInCheckmateLoop color kingsPosition g rest
        | some true =>
          match g.tempMove kingsPosition dest with
          | none => none
          | some g1 =>
            match g1.isInCheck color with
            | none => none
            | some result =>
              match g1.undoMoves with
              | none => none
              | some g2 =>
                if !result then some (false, g2)
                else isInCheckmateLoop color kingsPosition g2 rest

/-- The method `GameMaster::isInCheckmate`: the returned flag and the state after the call. -/
def isInCheckmate (g : GameMaster) (color : Int) (isColorInCheck : Bool) :
    Option (Bool × GameMaster) :=
  if !isColorInCheck then some (false, g)
  else
    match g.getTempKing color with
    | none => none
    | some k =>
      match g._tempBoard.deref k with
      | none => none
      | some king =>
        let kingsPosition := king.getPosition
        let kingMoves := _getKingMoves kingsPosition
        isInCheckmateLoop color kingsPosition g kingMoves

end GameMaster

/-! ## The data-model invariants -/

/-- The king pointer `k` designates the one king of the vector `l`. -/
def kingIs (k : Option Ptr) (l : List Piece) : Prop :=
  k.isSome = true ∧ (l.filter Piece.isKing).map Piece.addr = k.toList

instance (k : Option Ptr) (l : List Piece) : Decidable (kingIs k l) := by
  unfold kingIs; infer_instance

/-- The invariants of the data model for one board: the matrix and the king pointers are
what `_setUpPieces` computes from the two vectors (the board is its own deep copy, which also
says that every piece stands inside the 8x8 board), no two pieces share a square or an address,
each vector holds pieces of its colour only, and each colour has exactly one king, which its
king pointer designates. -/
def Board.WF (b : Board) : Prop :=
  b.assign b = some b ∧
  (b.allPieces.map Piece.getPosition).Nodup ∧
  (b.allPieces.map Piece.addr).Nodup ∧
  (∀ p ∈ b._whitePieces, p.getColor = WHITE) ∧
  (∀ p ∈ b._blackPieces, p.getColor = BLACK) ∧
  kingIs b._whiteKing b._whitePieces ∧
  kingIs b._blackKing b._blackPieces

instance (b : Board) : Decidable b.WF := by
  unfold Board.WF; infer_instance

/-- The state of the engine between two calls: the saved board satisfies the data-model
invariants and the board moves are made on is equal to it. -/
def GameMaster.WF (g : GameMaster) : Prop :=
  g._board.WF ∧ g._tempBoard = g._board

instance (g : GameMaster) : Decidable g.WF := by
  unfold GameMaster.WF; infer_instance

/-! ## Notions used in the statements -/

/-- The king pointer after the loop of `_setUpPieces` ran over `l`, starting from `k`: the
address of the last king of `l`, or `k` when `l` has no king. -/
def lastKing (k : Option Ptr) : List Piece → Option Ptr
  | [] => k
  | p :: rest => lastKing (if p.isKing then some p.addr else k) rest

/-- The invariant of section 3 of the specification, square by square: the matrix has its
64 entries, the square of every piece of the vectors holds that piece, a square on which no
piece of the vectors stands is empty, no two pieces share a square or an address, and each
vector holds pieces of its colour only.  Nothing is said about the kings. -/
def Board.Consistent (b : Board) : Prop :=
  b._board.length = BOARD_SIZE * BOARD_SIZE ∧
  (∀ p ∈ b.allPieces, b._getPiece p.getPosition = some (some p.addr)) ∧
  (∀ sq, isInBoard sq = true → (∀ p ∈ b.allPieces, p.getPosition ≠ sq) →
    b._getPiece sq = some none) ∧
  (b.allPieces.map Piece.getPosition).Nodup ∧
  (b.allPieces.map Piece.addr).Nodup ∧
  (∀ p ∈ b._whitePieces, p.getColor = WHITE) ∧
  (∀ p ∈ b._blackPieces, p.getColor = BLACK)

/-- The effect of `tempMove` on one vector: the piece standing on `dest` is erased and the
piece with address `a` is placed on `dest`. -/
def movedList (l : List Piece) (a : Ptr) (dest : Square) : List Piece :=
  (l.filter (fun q => q.getPosition ≠ dest)).map
    (fun q => if q.addr = a then q.setPosition dest else q)

/-- What the code can observe of a square: `none` when the square is outside the matrix (or
its entry dangles), `some none` when the square is empty, and `some (some c)` when it holds a
piece of colour `c`. -/
def Board.colorAt (b : Board) (sq : Square) : Option (Option Int) :=
  match b._getPiece sq with
  | none => none
  | some none => some none
  | some (some d) =>
    match b.deref d with
    | none => none
    | some destPiece => some (some destPiece.getColor)

/-- Pseudo-legality of moving the piece `p` to `dest` on the board `t`, in the words of the
specification: `dest` is on the board and not occupied by a piece of the colour of `p`,
`canReach` holds with `isCapture` telling whether `dest` is occupied, and every square of the
path to `dest` is empty. -/
def pseudoLegal (t : Board) (p : Piece) (dest : Square) : Prop :=
  isInBoard dest = true ∧
  ∃ v, t.colorAt dest = some v ∧ v ≠ some p.getColor ∧ p.canReach dest v.isSome = true ∧
    ∃ path, p.getPathTo dest = some path ∧ ∀ sq ∈ path, t.colorAt sq = some none

/-- The conditions under which, by the specification, `move` accepts: `src` is on the board
and holds a piece `p` of the colour of the player, the player is not in check or `p` is a king,
the move of `p` to `dest` is pseudo-legal, and after the move is made on the board moves are
made on the player is not in check. -/
def GameMaster.moveConditions (g : GameMaster) (src dest : Square) (currentPlayer : Int)
    (isCurrentInCheck : Bool) : Prop :=
  isInBoard src = true ∧
  ∃ a p, g.getTempPiece src = some (some a) ∧ g._tempBoard.deref a = some p ∧
    p.getColor = currentPlayer ∧ (isCurrentInCheck = false ∨ p.isKing = true) ∧
    pseudoLegal g._tempBoard p dest ∧
    ∃ g1, g.tempMove src dest = some g1 ∧ g1.isInCheck currentPlayer = some false

/-! ## Example states -/

/-- A board for the examples: the matrix is filled in from the two vectors. -/
def exampleBoard (white black : List Piece) (whiteKing blackKing : Ptr) : Board :=
  { _board := (List.range (BOARD_SIZE * BOARD_SIZE)).map (fun i =>
      ((white ++ black).find? (fun q => gridIndex q.getPosition = some i)).map Piece.addr)
    _whitePieces := white
    _blackPieces := black
    _whiteKing := some whiteKing
    _blackKing := some blackKing }

/-- A state for the examples: both boards are the example board. -/
def exampleState (white black : List Piece) (whiteKing blackKing : Ptr) : GameMaster :=
  { _board := exampleBoard white black whiteKing blackKing
    _tempBoard := exampleBoard white black whiteKing blackKing }

def A1 : Square := ⟨65, 49⟩
def A2 : Square := ⟨65, 50⟩
def A7 : Square := ⟨65, 55⟩
def A8 : Square := ⟨65, 56⟩
def E1 : Square := ⟨69, 49⟩
def E2 : Square := ⟨69, 50⟩
def E5 : Square := ⟨69, 53⟩
def E8 : Square := ⟨69, 56⟩
def H8 : Square := ⟨72, 56⟩
def H5 : Square := ⟨72, 53⟩

/-- White king E1 and rook E2, Black king H8 and rook E8: the white rook is pinned. -/
def pinnedState : GameMaster :=
  exampleState
    [Piece.new 0 Kind.King WHITE E1, Piece.new 1 Kind.Rook WHITE E2]
    [Piece.new 2 Kind.King BLACK H8, Piece.new 3 Kind.Rook BLACK E8] 0 2

/-- White king E1 and pawn A7, Black king H5. -/
def promotionState : GameMaster :=
  exampleState
    [Piece.new 0 Kind.King WHITE E1, (Piece.new 1 Kind.Pawn WHITE A7).setPosition A7]
    [Piece.new 2 Kind.King BLACK H5] 0 2

/-- The state after the White rook of `pinnedState` has captured the Black rook on E8. -/
def pinnedStateAfterCapture : GameMaster :=
  exampleState
    [Piece.new 0 Kind.King WHITE E1, (Piece.new 1 Kind.Rook WHITE E2).setPosition E8]
    [Piece.new 2 Kind.King BLACK H8] 0 2

/-- The state after the pawn of `promotionState` has moved to A8 and become a queen. -/
def promotedState : GameMaster :=
  exampleState
    [Piece.new 0 Kind.King WHITE E1, (Piece.new 3 Kind.Queen WHITE A8).setPosition A8]
    [Piece.new 2 Kind.King BLACK H5] 0 2

def F8 : Square := ⟨70, 56⟩
def H1 : Square := ⟨72, 49⟩

/-- White king E1 and rook H1, neither has moved; Black king A8 and rook F8, which attacks
F1. -/
def castlingThroughCheckState : GameMaster :=
  exampleState
    [Piece.new 0 Kind.King WHITE E1, Piece.new 1 Kind.Rook WHITE H1]
    [Piece.new 2 Kind.King BLACK A8, Piece.new 3 Kind.Rook BLACK F8] 0 2

def D7 : Square := ⟨68, 55⟩
def D8 : Square := ⟨68, 56⟩
def F7 : Square := ⟨70, 55⟩
def H3 : Square := ⟨72, 51⟩

/-- Black king E8 in check from the White rook E1; D8, F8, D7 and F7 hold Black pieces and E7
is on the file of the rook, but the Black rook A1 could capture the White rook. -/
def rookCheckState : GameMaster :=
  exampleState
    [Piece.new 0 Kind.King WHITE H3, Piece.new 1 Kind.Rook WHITE E1]
    [Piece.new 2 Kind.King BLACK E8, Piece.new 3 Kind.Queen BLACK D8,
      Piece.new 4 Kind.Bishop BLACK F8, Piece.new 5 Kind.Pawn BLACK D7,
      Piece.new 6 Kind.Pawn BLACK F7, Piece.new 7 Kind.Rook BLACK A1] 0 2

/-- A trial of the king on `dest` succeeds: the square is on the board and not occupied by a
piece of the king's colour (which is pseudo-legality for a king and a neighbouring square),
and after `tempMove` the colour is not in check. -/
def GameMaster.kingEscapes (g : GameMaster) (color : Int) (king : Piece) (dest : Square) : Prop :=
  isInBoard dest = true ∧
  (∃ v, g._tempBoard.colorAt dest = some v ∧ v ≠ some king.getColor) ∧
  ∃ g1, g.tempMove king.getPosition dest = some g1 ∧ g1.isInCheck color = some false

/-! ## Notions and example states for castling and for the queries -/

namespace GameMaster

/-- The call `_board.getTempPiece(position)` as a statement: the pointer it returns and the
state it leaves.  The method is `const` and its body, `return _tempBoard->_getPiece(position)`,
reads one entry of the matrix, a built-in array. -/
def getTempPieceCall (g : GameMaster) (position : Square) :
    Option (Option Ptr × GameMaster) :=
  match g._tempBoard._getPiece position with
  | none => none
  | some v => some (v, g)

/-- The method `GameMaster::_isEmptyPath` as a statement: its result and the state it leaves,
each iteration of its loop running in the state the one before has left. -/
def _isEmptyPathCall : GameMaster → List Square → Option (Bool × GameMaster)
  | g, [] => some (true, g)
  | g, position :: rest =>
    match g.getTempPieceCall position with
    | none => none
    | some (some _, g1) => some (false, g1)
    | some (none, g1) => _isEmptyPathCall g1 rest

/-- Lines 65-72 of `GameMaster::_isPseudoPath` as statements; `piece` is the pointer, which is
dereferenced in the state the lines run in.  `canReach` and `getPathTo` are `const` methods
of the piece; the vector `getPathTo` allocates is deleted before the return. -/
def reachAndPathCall (g : GameMaster) (piece : Ptr) (dest : Square) (isCapture : Bool) :
    Option (Bool × GameMaster) :=
  match g._tempBoard.deref piece with
  | none => none
  | some p =>
    if !p.canReach dest isCapture then some (false, g)
    else
      match p.getPathTo dest with
      | none => none
      | some path => g._isEmptyPathCall path

/-- The method `GameMaster::_isPseudoPath` as a statement: its result and the state it
leaves; `piece` is the pointer it is given. -/
def _isPseudoPathCall (g : GameMaster) (piece : Ptr) (dest : Square) :
    Option (Bool × GameMaster) :=
  if !isInBoard dest then some (false, g)
  else
    match g.getTempPieceCall dest with
    | none => none
    | some (none, g1) => g1.reachAndPathCall piece dest false
    | some (some d, g1) =>
      match g1._tempBoard.deref d with
      | none => none
      | some destPiece =>
        match g1._tempBoard.deref piece with
        | none => none
        | some p =>
          if destPiece.getColor = p.getColor then some (false, g1)
          else g1.reachAndPathCall piece dest true

/-- The loop of `GameMaster::isInCheck` as statements, over the pointers of the vector that
`getTempPieces` has handed out.  `kingPosition` is a reference to the position of the king:
it is read through the pointer `king` in the state each iteration runs in; each iteration
runs in the state the one before has left. -/
def isInCheckLoopCall (king : Ptr) : GameMaster → List Ptr → Option (Bool × GameMaster)
  | g, [] => some (false, g)
  | g, piece :: rest =>
    match g._tempBoard.deref king with
    | none => none
    | some k =>
      match g._isPseudoPathCall piece k.getPosition with
      | none => none
      | some (true, g1) => some (true, g1)
      | some (false, g1) => isInCheckLoopCall king g1 rest

/-- The method `GameMaster::isInCheck` as a statement: the flag it returns and the state it
leaves.  The method is not `const`: `getTempPieces` hands out a reference to the vector of
the enemy pieces, through which the loop only reads the pointers. -/
def isInCheckCall (g : GameMaster) (color : Int) : Option (Bool × GameMaster) :=
  match g.getTempKing color with
  | none => none
  | some king =>
    match g._tempBoard.deref king with
    | none => none
    | some _ =>
      let enemyPieces := (g.getTempPieces (_reverseColor color)).map Piece.addr
      isInCheckLoopCall king g enemyPieces

/-- The statements `isInCheck(color); isInCheck(color);` in sequence: the second call runs in
the state the first has left; the two flags and the state after the second call. -/
def isInCheckTwice (g : GameMaster) (color : Int) : Option (Bool × Bool × GameMaster) :=
  match g.isInCheckCall color with
  | none => none
  | some (first, g1) =>
    match g1.isInCheckCall color with
    | none => none
    | some (second, g2) => some (first, second, g2)

end GameMaster

/-- The square the rook of a castling is looked for on: the A-file for the queenside and the
H-file otherwise, on the rank of the king. -/
def rookCorner (castlingSide : Char) (kingSrc : Square) : Square :=
  Square.mk (if castlingSide = QUEENSIDE then MIN_FILE else MAX_FILE) kingSrc.rank

/-- Every square strictly between the squares `a` and `b`, taken on the rank of `a`, is
empty. -/
def Board.emptyBetween (t : Board) (a b : Square) : Prop :=
  ∀ f : Int, (a.file < f ∧ f < b.file) ∨ (b.file < f ∧ f < a.file) →
    t._getPiece (Square.mk f a.rank) = some none

/-- Pseudo-legal castling in the words of the specification: the king of the player has not
moved, the corner on the side of the castling holds a rook of the colour of the player that has
not moved, and every square strictly between that rook and the king is empty. -/
def GameMaster.castlingConditions (g : GameMaster) (castlingSide : Char) (currentPlayer : Int) :
    Prop :=
  ∃ king rook, g.getTempKing currentPlayer = some king.addr ∧
    g._tempBoard.deref king.addr = some king ∧ king.hasMoved = false ∧
    g.getTempPiece (rookCorner castlingSide king.getPosition) = some (some rook.addr) ∧
    g._tempBoard.deref rook.addr = some rook ∧
    rook.kind = Kind.Rook ∧ rook.getColor = currentPlayer ∧ rook.hasMoved = false ∧
    g._tempBoard.emptyBetween rook.getPosition king.getPosition

/-- What `_isPseudoLegalCastling` tests: the king of the player has not moved, the corner on
the side of the castling holds a piece that has not moved, of whatever kind and colour, and the
squares strictly between that piece and the king are empty when the piece is a rook, a bishop
or a queen (the path of a knight, a king or a pawn along a rank has no square). -/
def GameMaster.castlingTest (g : GameMaster) (castlingSide : Char) (currentPlayer : Int) :
    Prop :=
  ∃ king rook, g.getTempKing currentPlayer = some king.addr ∧
    g._tempBoard.deref king.addr = some king ∧ king.hasMoved = false ∧
    g.getTempPiece (rookCorner castlingSide king.getPosition) = some (some rook.addr) ∧
    g._tempBoard.deref rook.addr = some rook ∧ rook.hasMoved = false ∧
    ((rook.kind = Kind.Rook ∨ rook.kind = Kind.Bishop ∨ rook.kind = Kind.Queen) →
      g._tempBoard.emptyBetween rook.getPosition king.getPosition)

def G1 : Square := ⟨71, 49⟩
def F1 : Square := ⟨70, 49⟩

/-- White king E1 and rook H1, neither has moved; Black king A8. -/
def castlingReadyState : GameMaster :=
  exampleState
    [Piece.new 0 Kind.King WHITE E1, Piece.new 1 Kind.Rook WHITE H1]
    [Piece.new 2 Kind.King BLACK A8] 0 2

/-- The state after the king of `castlingReadyState` has moved to E2. -/
def kingAwayState : GameMaster :=
  exampleState
    [(Piece.new 0 Kind.King WHITE E1).setPosition E2, Piece.new 1 Kind.Rook WHITE H1]
    [Piece.new 2 Kind.King BLACK A8] 0 2

/-- The state after that king has moved back to E1. -/
def kingReturnedState : GameMaster :=
  exampleState
    [(Piece.new 0 Kind.King WHITE E1).setPosition E1, Piece.new 1 Kind.Rook WHITE H1]
    [Piece.new 2 Kind.King BLACK A8] 0 2

/-- White king E1 and bishop H1, neither has moved; Black king A8. -/
def bishopCornerState : GameMaster :=
  exampleState
    [Piece.new 0 Kind.King WHITE E1, Piece.new 1 Kind.Bishop WHITE H1]
    [Piece.new 2 Kind.King BLACK A8] 0 2

/-- White king E1, which has not moved; Black king A8 and knight H1, which has not moved. -/
def enemyCornerState : GameMaster :=
  exampleState
    [Piece.new 0 Kind.King WHITE E1]
    [Piece.new 2 Kind.King BLACK A8, Piece.new 3 Kind.Knight BLACK H1] 0 2

/-- White king G1 and rook H1, neither has moved; Black king A8. -/
def kingNearEdgeState : GameMaster :=
  exampleState
    [Piece.new 0 Kind.King WHITE G1, Piece.new 1 Kind.Rook WHITE H1]
    [Piece.new 2 Kind.King BLACK A8] 0 2

/-- The state after the castling of `castlingReadyState` on the kingside. -/
def castledState : GameMaster :=
  exampleState
    [(Piece.new 0 Kind.King WHITE E1).setPosition G1,
      (Piece.new 1 Kind.Rook WHITE H1).setPosition F1]
    [Piece.new 2 Kind.King BLACK A8] 0 2

/-! ## The fresh board -/

/-- The statement `pieces.push_back((Piece *) (new K(color, position)))` of `_createPieces`;
`new` returns the next free address. -/
def Board.pushNew (b : Board) (color : Int) (kind : Kind) (position : Square) : Board :=
  b.setPieces color (b._getPieces color ++ [Piece.new b.freshAddr kind color position])

/-- The method `Board::_createPieces`; the `for` loop runs over the eight files. -/
def Board._createPieces (b : Board) (color : Int) : Board :=
  let rankPosition : Int := if color = WHITE then MIN_RANK else MAX_RANK
  let b1 := b.pushNew color Kind.Rook ⟨MIN_FILE, rankPosition⟩
  let b2 := b1.pushNew color Kind.Knight ⟨MIN_FILE + 1, rankPosition⟩
  let b3 := b2.pushNew color Kind.Bishop ⟨MIN_FILE + 2, rankPosition⟩
  let b4 := b3.pushNew color Kind.Queen ⟨MIN_FILE + 3, rankPosition⟩
  let b5 := b4.pushNew color Kind.King ⟨MIN_FILE + 4, rankPosition⟩
  let b6 := b5.pushNew color Kind.Bishop ⟨MIN_FILE + 5, rankPosition⟩
  let b7 := b6.pushNew color Kind.Knight ⟨MIN_FILE + 6, rankPosition⟩
  let b8 := b7.pushNew color Kind.Rook ⟨MIN_FILE + 7, rankPosition⟩
  (List.range BOARD_SIZE).foldl
    (fun acc (i : Nat) =>
      acc.pushNew color Kind.Pawn ⟨MIN_FILE + (i : Int), rankPosition + color⟩)
    b8

/-- The constructor `Board::Board(bool isTemp)`, without the member `_tempBoard`.  The two king
pointers have no initialiser; they are `none` until `_setUpPieces` assigns them. -/
def Board.new : Option Board :=
  let empty : Board :=
    { _board := List.replicate (BOARD_SIZE * BOARD_SIZE) none
      _whitePieces := []
      _blackPieces := []
      _whiteKing := none
      _blackKing := none }
  match ((empty._createPieces WHITE)._createPieces BLACK)._setUpPieces WHITE with
  | none => none
  | some b => b._setUpPieces BLACK

/-- The implicit constructor of `GameMaster`: the member `_board` is built by `Board(false)`,
whose last statement builds the board moves are made on with `new Board(true)`.  The pieces of
that second board are new objects; as for a clone, each is given the address of its counterpart
in the first board. -/
def GameMaster.new : Option GameMaster :=
  match Board.new with
  | none => none
  | some b =>
    match Board.new with
    | none => none
    | some t => some { _board := b, _tempBoard := t }

/-- The eight pieces of a back rank, from file A to file H, with consecutive addresses. -/
def backRank (first : Ptr) (color : Int) (rank : Int) : List Piece :=
  [Piece.new first Kind.Rook color ⟨65, rank⟩,
   Piece.new (first + 1) Kind.Knight color ⟨66, rank⟩,
   Piece.new (first + 2) Kind.Bishop color ⟨67, rank⟩,
   Piece.new (first + 3) Kind.Queen color ⟨68, rank⟩,
   Piece.new (first + 4) Kind.King color ⟨69, rank⟩,
   Piece.new (first + 5) Kind.Bishop color ⟨70, rank⟩,
   Piece.new (first + 6) Kind.Knight color ⟨71, rank⟩,
   Piece.new (first + 7) Kind.Rook color ⟨72, rank⟩]

/-- The eight pawns of a rank, from file A to file H, with consecutive addresses. -/
def pawnRank (first : Ptr) (color : Int) (rank : Int) : List Piece :=
  (List.range 8).map
    (fun (i : Nat) => Piece.new (first + i) Kind.Pawn color ⟨65 + (i : Int), rank⟩)

/-- The starting position of chess, written out: the value of `GameMaster.new`. -/
def startState : GameMaster :=
  exampleState (backRank 1 WHITE 49 ++ pawnRank 9 WHITE 50)
    (backRank 17 BLACK 56 ++ pawnRank 25 BLACK 55) 5 21

/-- The files A to H. -/
def files : List Int := [65, 66, 67, 68, 69, 70, 71, 72]

/-- The fresh state after the pawn of `color` on file `f` has advanced two ranks. -/
def pawnAdvancedState (color : Int) (f : Int) : GameMaster :=
  exampleState
    (backRank 1 WHITE 49 ++ (pawnRank 9 WHITE 50).map (fun q =>
      if color = WHITE ∧ q.getPosition.file = f then q.setPosition ⟨f, 52⟩ else q))
    (backRank 17 BLACK 56 ++ (pawnRank 25 BLACK 55).map (fun q =>
      if color = BLACK ∧ q.getPosition.file = f then q.setPosition ⟨f, 53⟩ else q)) 5 21

def A4 : Square := ⟨65, 52⟩
def A5 : Square := ⟨65, 53⟩

/-- A state whose board moves are made on is ahead of the saved board: the White rook of
`pinnedState` has captured on E8, and the capture is not saved yet. -/
def unsavedState : GameMaster :=
  { _board := pinnedState._board, _tempBoard := pinnedStateAfterCapture._tempBoard }

/-! ## Sequences of calls -/

/-- What every call of the interface keeps of a board, also when a king has been captured: the
board is consistent, and each king pointer designates the king of its vector whenever the
vector still holds a king. -/
def Board.Sound (b : Board) : Prop :=
  b.Consistent ∧
  ((b._whitePieces.filter Piece.isKing).map Piece.addr).Sublist b._whiteKing.toList ∧
  ((b._blackPieces.filter Piece.isKing).map Piece.addr).Sublist b._blackKing.toList

/-- The state between two calls, as every call leaves it: the saved board is sound and the
board moves are made on is equal to it. -/
def GameMaster.Sound (g : GameMaster) : Prop :=
  g._board.Sound ∧ g._tempBoard = g._board

/-- A call of one of the four public methods of `GameMaster` that the claims speak of, with its
arguments. -/
inductive Call where
  | move (src dest : Square) (currentPlayer : Int) (isCurrentInCheck : Bool)
  | castling (castlingSide : Char) (currentPlayer : Int) (isCurrentInCheck : Bool)
  | isInCheck (color : Int)
  | isInCheckmate (color : Int) (isColorInCheck : Bool)
deriving DecidableEq, Repr

/-- The state after one call, when the call is defined. -/
def GameMaster.call (g : GameMaster) : Call → Option GameMaster
  | Call.move src dest currentPlayer isCurrentInCheck =>
    (g.move src dest currentPlayer isCurrentInCheck).map Prod.snd
  | Call.castling castlingSide currentPlayer isCurrentInCheck =>
    (g.castling castlingSide currentPlayer isCurrentInCheck).map Prod.snd
  | Call.isInCheck color => (g.isInCheckCall color).map Prod.snd
  | Call.isInCheckmate color isColorInCheck =>
    (g.isInCheckmate color isColorInCheck).map Prod.snd

/-- The state after a sequence of calls. -/
def GameMaster.calls : GameMaster → List Call → Option GameMaster
  | g, [] => some g
  | g, c :: rest =>
    match g.call c with
    | none => none
    | some g1 => g1.calls rest

/-- The states reachable from the freshly constructed `GameMaster` by calls of the four
methods, with whatever arguments. -/
def GameMaster.Reachable (g : GameMaster) : Prop :=
  ∃ g0 cs, GameMaster.new = some g0 ∧ g0.calls cs = some g

/-! ## Notions and example states for the kings -/

/-- Colour `color` has its king on the board and in its vector: a king of the vector of the
colour stands on a square whose entry in the matrix is that king. -/
def Board.hasKing (b : Board) (color : Int) : Prop :=
  ∃ K ∈ b._getPieces color, K.isKing = true ∧ b._getPiece K.getPosition = some (some K.addr)

instance (b : Board) (color : Int) : Decidable (b.hasKing color) := by
  unfold Board.hasKing; infer_instance

def D1 : Square := ⟨68, 49⟩

/-- White king D1 and rook H1, neither has moved; Black king A8. -/
def kingOnDState : GameMaster :=
  exampleState
    [Piece.new 0 Kind.King WHITE D1, Piece.new 1 Kind.Rook WHITE H1]
    [Piece.new 2 Kind.King BLACK A8] 0 2

/-- The state after the castling of `kingOnDState` on the kingside: the rook has landed on
the king. -/
def ownKingCapturedState : GameMaster :=
  exampleState
    [(Piece.new 1 Kind.Rook WHITE H1).setPosition F1]
    [Piece.new 2 Kind.King BLACK A8] 0 2

/-- The state after the White rook of `rookCheckState` has captured the Black king on E8. -/
def kingCapturedState : GameMaster :=
  exampleState
    [Piece.new 0 Kind.King WHITE H3, (Piece.new 1 Kind.Rook WHITE E1).setPosition E8]
    [Piece.new 3 Kind.Queen BLACK D8, Piece.new 4 Kind.Bishop BLACK F8,
      Piece.new 5 Kind.Pawn BLACK D7, Piece.new 6 Kind.Pawn BLACK F7,
      Piece.new 7 Kind.Rook BLACK A1] 0 2

/-- The state after the king of `castlingReadyState` has moved to F1. -/
def kingSteppedState : GameMaster :=
  exampleState
    [(Piece.new 0 Kind.King WHITE E1).setPosition F1, Piece.new 1 Kind.Rook WHITE H1]
    [Piece.new 2 Kind.King BLACK A8] 0 2

/-! ## The session -/

/-- What `_scanMove` hands back to `_runTurn`: the two squares of a regular move, or the side
of a castling. -/
inductive ScannedMove where
  | regular (src dest : Square)
  | castling (castlingSide : Char)
  deriving DecidableEq, Repr

/-- The members of `Game` that `run` works on. -/
structure Game where
  _gameMaster : GameMaster
  _currentPlayer : Int
  deriving DecidableEq, Repr

/-- The method `Game::_runTurn`, on the move that `_scanMove` has read. -/
def Game._runTurn (this : Game) (isCurrentInCheck : Bool) (scanned : ScannedMove) :
    Option (Bool × Game) :=
  match scanned with
  | ScannedMove.castling castlingSide =>
    match this._gameMaster.castling castlingSide this._currentPlayer isCurrentInCheck with
    | none => none
    | some (res, gameMaster) => some (res, { this with _gameMaster := gameMaster })
  | ScannedMove.regular src dest =>
    match this._gameMaster.move src dest this._currentPlayer isCurrentInCheck with
    | none => none
    | some (res, gameMaster) => some (res, { this with _gameMaster := gameMaster })

/-- A point of `Game::run`: inside the inner loop, where `_runTurn` is about to read a move
(`over = false`), or after the outer loop has ended (`over = true`), with the members of the
game and the local `isCurrentInCheck`. -/
structure Run where
  game : Game
  isCurrentInCheck : Bool
  over : Bool
  deriving DecidableEq, Repr

/-- The test of the outer loop of `Game::run`,
`while(!_gameMaster.isInCheckmate(_currentPlayer, isCurrentInCheck))`. -/
def Game.outerTest (this : Game) (isCurrentInCheck : Bool) : Option Run :=
  match this._gameMaster.isInCheckmate this._currentPlayer isCurrentInCheck with
  | none => none
  | some (res, gameMaster) =>
    some { game := { this with _gameMaster := gameMaster }
           isCurrentInCheck := isCurrentInCheck
           over := res }

/-- One pass of the inner loop of `Game::run` on the next move of the input: a rejected move
leaves the run in the inner loop; after an accepted one the player is switched, the flag is
set to `isInCheck` of the new player and the test of the outer loop is made.  Once the outer
loop has ended no move is read. -/
def Run.read (s : Run) (scanned : ScannedMove) : Option Run :=
  if s.over then some s
  else
    match s.game._runTurn s.isCurrentInCheck scanned with
    | none => none
    | some (false, game) => some { s with game := game }
    | some (true, game) =>
      let game : Game := { game with _currentPlayer := game._currentPlayer * REVERSE }
      match game._gameMaster.isInCheck game._currentPlayer with
      | none => none
      | some isCurrentInCheck => game.outerTest isCurrentInCheck

/-- The run over the moves of the input, one after the other. -/
def Run.reads : Run → List ScannedMove → Option Run
  | s, [] => some s
  | s, scanned :: rest =>
    match s.read scanned with
    | none => none
    | some s2 => s2.reads rest

/-- The method `Game::run` on a game with a freshly constructed `GameMaster`, up to the point
it has reached when the moves of the input have been read: `_currentPlayer = WHITE`,
`isCurrentInCheck = false`, then the loops. -/
def Game.run (moves : List ScannedMove) : Option Run :=
  match GameMaster.new with
  | none => none
  | some gameMaster =>
    match ({ _gameMaster := gameMaster, _currentPlayer := WHITE } : Game).outerTest false with
    | none => none
    | some s => s.reads moves

/-- Every piece of the saved board that has not moved is a piece of the fresh board, on the
square on which the constructor put it. -/
def GameMaster.Home (g : GameMaster) : Prop :=
  ∀ p ∈ g._board.allPieces, p.hasMoved = false → p ∈ startState._board.allPieces

/-- What holds at every point of a run: the state of the engine satisfies the data-model
invariants, the player is WHITE or BLACK, the other colour is not in check, the pieces that
have not moved stand where the constructor put them, and the local `isCurrentInCheck` is the
value of `isInCheck` for the player. -/
def Run.Inv (s : Run) : Prop :=
  s.game._gameMaster.WF ∧
  (s.game._currentPlayer = WHITE ∨ s.game._currentPlayer = BLACK) ∧
  s.game._gameMaster.isInCheck (GameMaster._reverseColor s.game._currentPlayer) = some false ∧
  s.game._gameMaster.Home ∧
  s.game._gameMaster.isInCheck s.game._currentPlayer = some s.isCurrentInCheck

/-! ## The standard position and the scanned text -/

def ranks : List Int := [49, 50, 51, 52, 53, 54, 55, 56]

/-- The standard starting position in the words of the specification: the kind and the colour
of the piece on a square of the board, and nothing for an empty square.  The back rank (1 for
White, 8 for Black) holds Rook, Knight, Bishop, Queen, King, Bishop, Knight, Rook on the files
A to H; the pawns stand on rank 2 for White and on rank 7 for Black. -/
def standardPosition (sq : Square) : Option (Kind × Int) :=
  let backRank : List Kind := [Kind.Rook, Kind.Knight, Kind.Bishop, Kind.Queen, Kind.King,
    Kind.Bishop, Kind.Knight, Kind.Rook]
  if sq.rank = 49 then (backRank.get? (sq.file - 65).toNat).map (fun k => (k, WHITE))
  else if sq.rank = 50 then some (Kind.Pawn, WHITE)
  else if sq.rank = 55 then some (Kind.Pawn, BLACK)
  else if sq.rank = 56 then (backRank.get? (sq.file - 65).toNat).map (fun k => (k, BLACK))
  else none

/-- The kind and the colour of the piece the matrix holds on a square: `none` when the square
is outside the matrix or its entry dangles, `some none` for an empty square. -/
def Board.kindAt (b : Board) (sq : Square) : Option (Option (Kind × Int)) :=
  match b._getPiece sq with
  | none => none
  | some none => some none
  | some (some a) =>
    match b.deref a with
    | none => none
    | some p => some (some (p.kind, p.getColor))

/-- The call `std::string::substr(pos, len)` on the characters of a string: it throws
(`none`) when `pos` is beyond the end. -/
def substr (s : List Char) (pos len : Nat) : Option (List Char) :=
  if pos > s.length then none else some ((s.drop pos).take len)

def Q_INPUT : List Char := ['o', '-', 'o', '-', 'o']
def K_INPUT : List Char := ['o', '-', 'o']
def SQUARE_SIZE : Nat := 2
def SQUARE_NUM : Nat := 2

/-- What `_scanMove` assigns through its references: for a castling the side, for a regular
move the two strings `src` and `dest`. -/
inductive ScannedText where
  | regular (src dest : List Char)
  | castling (castlingSide : Char)
  deriving DecidableEq, Repr

/-- The method `Game::_scanMove` on the token `move` that `std::cin >> move` has read. -/
def Game._scanMove (move : List Char) : Option ScannedText :=
  if move = Q_INPUT ∨ move = K_INPUT then
    some (ScannedText.castling (if move = Q_INPUT then QUEENSIDE else KINGSIDE))
  else
    match substr move 0 SQUARE_SIZE with
    | none => none
    | some src =>
      match substr move SQUARE_SIZE (SQUARE_SIZE * SQUARE_NUM) with
      | none => none
      | some dest => some (ScannedText.regular src dest)

/-- The square a string of two characters names: its first character is the file and its
second the rank. -/
def squareOf : List Char → Option Square
  | [file, rank] => some (Square.mk (file.toNat : Int) (rank.toNat : Int))
  | _ => none

/-- The scanned move with its strings read as squares. -/
def ScannedText.toMove : ScannedText → Option ScannedMove
  | ScannedText.castling castlingSide => some (ScannedMove.castling castlingSide)
  | ScannedText.regular src dest =>
    match squareOf src, squareOf dest with
    | some s, some d => some (ScannedMove.regular s d)
    | _, _ => none

/-! ## Example states for the pawns -/

def E4 : Square := ⟨69, 52⟩
def D5 : Square := ⟨68, 53⟩
def F5 : Square := ⟨70, 53⟩

/-- White king E1 and pawn E4, which has moved; Black king A8 and pawns E5 and D5. -/
def pawnFacingState : GameMaster :=
  exampleState
    [Piece.new 0 Kind.King WHITE E1, (Piece.new 1 Kind.Pawn WHITE E2).setPosition E4]
    [Piece.new 2 Kind.King BLACK A8, (Piece.new 3 Kind.Pawn BLACK ⟨69, 55⟩).setPosition E5,
      (Piece.new 4 Kind.Pawn BLACK ⟨68, 55⟩).setPosition D5] 0 2

/-- The state after the pawn on E4 of `pawnFacingState` has captured the pawn on D5. -/
def pawnCapturedState : GameMaster :=
  exampleState
    [Piece.new 0 Kind.King WHITE E1,
      ((Piece.new 1 Kind.Pawn WHITE E2).setPosition E4).setPosition D5]
    [Piece.new 2 Kind.King BLACK A8, (Piece.new 3 Kind.Pawn BLACK ⟨69, 55⟩).setPosition E5]
    0 2

/-! ## Notions and example states for reachable states -/

/-- The piece `q2` of a later vector is the piece `q` of an earlier one: it has the address,
the kind and the colour of `q`, and it is `q` as it was or it has moved. -/
def Piece.CameFrom (q2 q : Piece) : Prop :=
  q2.addr = q.addr ∧ q2.kind = q.kind ∧ q2.getColor = q.getColor ∧
    (q2 = q ∨ q2.hasMoved = true)

/-- What the operations keep of the vector `l` in the later vector `l2`: every piece of `l2`
is a piece of `l`, as it was or moved, or a queen made by a promotion, which has moved; and
`l2` is not longer than `l`. -/
def keepsPieces (l l2 : List Piece) : Prop :=
  (∀ q2 ∈ l2, (∃ q ∈ l, q2.CameFrom q) ∨ (q2.kind = Kind.Queen ∧ q2.hasMoved = true)) ∧
  l2.length ≤ l.length

/-- What the operations keep of the board `t` in the later board `t2`: the pieces of each
vector, and the king pointers. -/
def Board.Keeps (t t2 : Board) : Prop :=
  keepsPieces t._whitePieces t2._whitePieces ∧ keepsPieces t._blackPieces t2._blackPieces ∧
  t2._whiteKing = t._whiteKing ∧ t2._blackKing = t._blackKing

def F3 : Square := ⟨70, 51⟩

/-- The fresh state after the White knight G1 has gone to F3, the pawn E2 to E4 and the
bishop F1 to E2. -/
def kingsideClearedState : GameMaster :=
  exampleState
    ((backRank 1 WHITE 49 ++ pawnRank 9 WHITE 50).map (fun q =>
      if q.addr = 7 then q.setPosition F3
      else if q.addr = 13 then q.setPosition E4
      else if q.addr = 6 then q.setPosition E2 else q))
    (backRank 17 BLACK 56 ++ pawnRank 25 BLACK 55) 5 21

/-- The state after the castling of White on the kingside in `kingsideClearedState`. -/
def kingsideCastledState : GameMaster :=
  exampleState
    ((backRank 1 WHITE 49 ++ pawnRank 9 WHITE 50).map (fun q =>
      if q.addr = 7 then q.setPosition F3
      else if q.addr = 13 then q.setPosition E4
      else if q.addr = 6 then q.setPosition E2
      else if q.addr = 5 then q.setPosition G1
      else if q.addr = 8 then q.setPosition F1 else q))
    (backRank 17 BLACK 56 ++ pawnRank 25 BLACK 55) 5 21

/-- The fresh state after the White pawn E2 has gone to E4 and the Black pawn D7 to D5. -/
def pawnsMetState : GameMaster :=
  exampleState
    ((backRank 1 WHITE 49 ++ pawnRank 9 WHITE 50).map (fun q =>
      if q.addr = 13 then q.setPosition E4 else q))
    ((backRank 17 BLACK 56 ++ pawnRank 25 BLACK 55).map (fun q =>
      if q.addr = 28 then q.setPosition D5 else q)) 5 21

/-- The state after the White pawn on E4 of `pawnsMetState` has captured the pawn on D5. -/
def pawnsMetCapturedState : GameMaster :=
  exampleState
    ((backRank 1 WHITE 49 ++ pawnRank 9 WHITE 50).map (fun q =>
      if q.addr = 13 then q.setPosition D5 else q))
    ((backRank 17 BLACK 56 ++ pawnRank 25 BLACK 55).filter (fun q => q.addr ≠ 28)) 5 21

/-! ## The matrix -/

theorem isInBoard_iff (sq : Square) :
    isInBoard sq = true ↔
      (MIN_FILE ≤ sq.file ∧ sq.file ≤ MAX_FILE) ∧ (MIN_RANK ≤ sq.rank ∧ sq.rank ≤ MAX_RANK) := by
  unfold isInBoard
  simp only [Bool.and_eq_true, decide_eq_true_eq, ge_iff_le]
  tauto

theorem gridIndex_eq_some (sq : Square) (i : Nat) :
    gridIndex sq = some i ↔
      isInBoard sq = true ∧
        i = (sq.file - MIN_FILE).toNat * BOARD_SIZE + (sq.rank - MIN_RANK).toNat := by
  unfold gridIndex
  by_cases h : isInBoard sq = true
  · simp [h, eq_comm]
  · simp [h]

theorem gridIndex_eq_none (sq : Square) : gridIndex sq = none ↔ isInBoard sq = false := by
  unfold gridIndex
  by_cases h : isInBoard sq = true
  · simp [h]
  · simp [h]

theorem gridIndex_lt {sq : Square} {i : Nat} (h : gridIndex sq = some i) :
    i < BOARD_SIZE * BOARD_SIZE := by
  obtain ⟨hb, hi⟩ := (gridIndex_eq_some sq i).1 h
  have hb2 := (isInBoard_iff sq).1 hb
  simp only [MIN_FILE, MAX_FILE, MIN_RANK, MAX_RANK, BOARD_SIZE] at *
  omega

theorem gridIndex_inj {s1 s2 : Square} {i : Nat} (h1 : gridIndex s1 = some i)
    (h2 : gridIndex s2 = some i) : s1 = s2 := by
  obtain ⟨hb1, hi1⟩ := (gridIndex_eq_some s1 i).1 h1
  obtain ⟨hb2, hi2⟩ := (gridIndex_eq_some s2 i).1 h2
  have c1 := (isInBoard_iff s1).1 hb1
  have c2 := (isInBoard_iff s2).1 hb2
  cases s1 with
  | mk f1 r1 =>
    cases s2 with
    | mk f2 r2 =>
      simp only [MIN_FILE, MAX_FILE, MIN_RANK, MAX_RANK, BOARD_SIZE] at *
      have hf : f1 = f2 := by omega
      have hr : r1 = r2 := by omega
      subst hf; subst hr; rfl

theorem gridIndex_surj {i : Nat} (h : i < BOARD_SIZE * BOARD_SIZE) :
    ∃ sq, gridIndex sq = some i := by
  refine ⟨Square.mk (MIN_FILE + ((i / BOARD_SIZE : Nat) : Int))
    (MIN_RANK + ((i % BOARD_SIZE : Nat) : Int)), ?_⟩
  rw [gridIndex_eq_some, isInBoard_iff]
  simp only [MIN_FILE, MAX_FILE, MIN_RANK, MAX_RANK, BOARD_SIZE] at *
  refine ⟨⟨?_, ?_⟩, ?_⟩ <;> omega

theorem gridIndex_of_inBoard {sq : Square} (h : isInBoard sq = true) :
    ∃ i, gridIndex sq = some i ∧ i < BOARD_SIZE * BOARD_SIZE := by
  cases hi : gridIndex sq with
  | none => rw [gridIndex_eq_none] at hi; rw [hi] at h; cases h
  | some i => exact ⟨i, rfl, gridIndex_lt hi⟩

namespace Board

theorem _getPiece_inBoard {b : Board} {sq : Square} {v : Option Ptr}
    (h : b._getPiece sq = some v) : isInBoard sq = true := by
  unfold _getPiece at h
  cases hi : gridIndex sq with
  | none => rw [hi] at h; cases h
  | some i => exact ((gridIndex_eq_some sq i).1 hi).1

theorem _getPiece_isSome {b : Board} {sq : Square} (hlen : b._board.length = BOARD_SIZE * BOARD_SIZE)
    (h : isInBoard sq = true) : ∃ v, b._getPiece sq = some v := by
  obtain ⟨i, hi, hlt⟩ := gridIndex_of_inBoard h
  unfold _getPiece
  rw [hi]
  have : i < b._board.length := by rw [hlen]; exact hlt
  exact ⟨b._board[i], by simp [List.getElem?_eq_getElem this]⟩

theorem _setPiece_isSome {b : Board} {sq : Square} (v : Option Ptr)
    (hlen : b._board.length = BOARD_SIZE * BOARD_SIZE) (h : isInBoard sq = true) :
    ∃ b1, b._setPiece v sq = some b1 := by
  obtain ⟨i, hi, hlt⟩ := gridIndex_of_inBoard h
  unfold _setPiece
  rw [hi]
  have : i < b._board.length := by rw [hlen]; exact hlt
  simp [this]

/-- What `_setPiece` changes: the matrix entry of the square, and nothing else. -/
theorem _setPiece_spec {b b1 : Board} {sq : Square} {v : Option Ptr}
    (h : b._setPiece v sq = some b1) :
    isInBoard sq = true ∧ b1._whitePieces = b._whitePieces ∧ b1._blackPieces = b._blackPieces ∧
      b1._whiteKing = b._whiteKing ∧ b1._blackKing = b._blackKing ∧
      b1._board.length = b._board.length ∧
      (∀ sq2, b1._getPiece sq2 = if sq2 = sq then some v else b._getPiece sq2) := by
  unfold _setPiece at h
  cases hi : gridIndex sq with
  | none => rw [hi] at h; cases h
  | some i =>
    rw [hi] at h
    by_cases hlt : i < b._board.length
    · simp only [hlt, if_true, Option.some.injEq] at h
      subst h
      refine ⟨((gridIndex_eq_some sq i).1 hi).1, rfl, rfl, rfl, rfl, by simp, ?_⟩
      intro sq2
      by_cases he : sq2 = sq
      · subst he
        simp [_getPiece, hi, List.getElem?_set, hlt]
      · simp only [he, if_false]
        unfold _getPiece
        cases hj : gridIndex sq2 with
        | none => rfl
        | some j =>
          have hne : i ≠ j := by
            intro hij
            subst hij
            exact he (gridIndex_inj hj hi)
          simp [List.getElem?_set, hne]
    · simp [hlt] at h

theorem setUpStep_spec {color : Int} {b b1 : Board} {p : Piece}
    (h : setUpStep color b p = some b1) :
    isInBoard p.getPosition = true ∧ b1._whitePieces = b._whitePieces ∧
      b1._blackPieces = b._blackPieces ∧ b1._board.length = b._board.length ∧
      (∀ sq2, b1._getPiece sq2 =
        if sq2 = p.getPosition then some (some p.addr) else b._getPiece sq2) ∧
      b1._whiteKing = (if color = WHITE then (if p.isKing then some p.addr else b._whiteKing)
        else b._whiteKing) ∧
      b1._blackKing = (if color = WHITE then b._blackKing
        else (if p.isKing then some p.addr else b._blackKing)) := by
  unfold setUpStep at h
  cases hs : b._setPiece (some p.addr) p.getPosition with
  | none => rw [hs] at h; cases h
  | some b2 =>
    rw [hs] at h
    obtain ⟨hin, hw, hb, hwk, hbk, hlen, hget⟩ := _setPiece_spec hs
    by_cases hk : p.isKing = true
    · by_cases hc : color = WHITE
      · simp only [hk, hc, if_true, Option.some.injEq] at h
        subst h
        exact ⟨hin, hw, hb, hlen, hget, by simp [hk, hc], by simp [hc, hbk]⟩
      · simp only [hk, hc, if_true, if_false, Option.some.injEq] at h
        subst h
        exact ⟨hin, hw, hb, hlen, hget, by simp [hc, hwk], by simp [hk, hc]⟩
    · have hk2 : p.isKing = false := by simpa using hk
      simp only [hk2, Bool.false_eq_true, if_false, Option.some.injEq] at h
      subst h
      refine ⟨hin, hw, hb, hlen, hget, ?_, ?_⟩
      · simp [hk, hwk]
      · simp [hk, hbk]

theorem setUpStep_isSome (color : Int) {b : Board} {p : Piece}
    (hlen : b._board.length = BOARD_SIZE * BOARD_SIZE) (h : isInBoard p.getPosition = true) :
    ∃ b1, setUpStep color b p = some b1 := by
  obtain ⟨b2, hb2⟩ := _setPiece_isSome (b := b) (some p.addr) hlen h
  unfold setUpStep
  rw [hb2]
  by_cases hk : p.isKing = true <;> by_cases hc : color = WHITE <;> simp [hk, hc]

theorem setUpLoop_isSome (color : Int) (l : List Piece) :
    ∀ (b : Board), b._board.length = BOARD_SIZE * BOARD_SIZE →
      (∀ p ∈ l, isInBoard p.getPosition = true) → ∃ b1, setUpLoop color b l = some b1 := by
  induction l with
  | nil => intro b _ _; exact ⟨b, rfl⟩
  | cons p rest ih =>
    intro b hlen hall
    obtain ⟨b2, hb2⟩ := setUpStep_isSome color hlen (hall p (List.mem_cons_self _ _))
    have hlen2 : b2._board.length = BOARD_SIZE * BOARD_SIZE := by
      rw [(setUpStep_spec hb2).2.2.2.1]; exact hlen
    obtain ⟨b3, hb3⟩ := ih b2 hlen2 (fun q hq => hall q (List.mem_cons_of_mem _ hq))
    exact ⟨b3, by simp [setUpLoop, hb2, hb3]⟩

/-- What the loop of `_setUpPieces` does to a board. -/
theorem setUpLoop_spec {color : Int} (l : List Piece) :
    ∀ (b b1 : Board), setUpLoop color b l = some b1 →
      (∀ p ∈ l, isInBoard p.getPosition = true) ∧ b1._whitePieces = b._whitePieces ∧
      b1._blackPieces = b._blackPieces ∧ b1._board.length = b._board.length ∧
      (∀ sq, (∀ p ∈ l, p.getPosition ≠ sq) → b1._getPiece sq = b._getPiece sq) ∧
      ((l.map Piece.getPosition).Nodup →
        ∀ p ∈ l, b1._getPiece p.getPosition = some (some p.addr)) ∧
      b1._whiteKing = (if color = WHITE then lastKing b._whiteKing l else b._whiteKing) ∧
      b1._blackKing = (if color = WHITE then b._blackKing else lastKing b._blackKing l) := by
  induction l with
  | nil =>
    intro b b1 h
    simp only [setUpLoop, Option.some.injEq] at h
    subst h
    simp [lastKing]
  | cons p rest ih =>
    intro b b1 h
    simp only [setUpLoop] at h
    cases hs : setUpStep color b p with
    | none => rw [hs] at h; cases h
    | some b2 =>
      rw [hs] at h
      obtain ⟨hin, hw, hb, hlen, hget, hwk, hbk⟩ := setUpStep_spec hs
      obtain ⟨hin2, hw2, hb2, hlen2, hget2, hnd2, hwk2, hbk2⟩ := ih b2 b1 h
      refine ⟨?_, by rw [hw2, hw], by rw [hb2, hb], by rw [hlen2, hlen], ?_, ?_, ?_, ?_⟩
      · intro q hq
        rcases List.mem_cons.1 hq with rfl | hq
        · exact hin
        · exact hin2 q hq
      · intro sq hsq
        rw [hget2 sq (fun q hq => hsq q (List.mem_cons_of_mem _ hq)), hget sq]
        have : sq ≠ p.getPosition := fun e => hsq p (List.mem_cons_self _ _) e.symm
        simp [this]
      · intro hnd q hq
        rw [List.map_cons, List.nodup_cons] at hnd
        rcases List.mem_cons.1 hq with rfl | hq
        · rw [hget2 q.getPosition ?_, hget]
          · simp
          · intro r hr e
            exact hnd.1 (List.mem_map.2 ⟨r, hr, e⟩)
        · exact hnd2 hnd.2 q hq
      · rw [hwk2, hwk]
        by_cases hc : color = WHITE <;> simp [hc, lastKing]
      · rw [hbk2, hbk]
        by_cases hc : color = WHITE <;> simp [hc, lastKing]

theorem lastKing_of_no_king (l : List Piece) :
    ∀ k, l.filter Piece.isKing = [] → lastKing k l = k := by
  induction l with
  | nil => intro k _; rfl
  | cons p rest ih =>
    intro k h
    by_cases hk : p.isKing = true
    · simp [List.filter_cons, hk] at h
    · simp only [List.filter_cons, hk] at h
      simp only [lastKing, hk]
      exact ih k h

theorem lastKing_of_kingIs (l : List Piece) :
    ∀ k k2, kingIs k l → lastKing k2 l = k := by
  induction l with
  | nil =>
    intro k k2 h
    obtain ⟨h1, h2⟩ := h
    cases k with
    | none => cases h1
    | some a => simp at h2
  | cons p rest ih =>
    intro k k2 h
    obtain ⟨h1, h2⟩ := h
    cases k with
    | none => cases h1
    | some a =>
      by_cases hk : p.isKing = true
      · simp only [List.filter_cons, hk, if_true, List.map_cons, Option.toList,
          List.cons.injEq, List.map_eq_nil_iff] at h2
        simp only [lastKing, hk, if_true]
        rw [lastKing_of_no_king rest _ h2.2, h2.1]
      · simp only [List.filter_cons, hk] at h2
        simp only [lastKing, hk]
        exact ih (some a) k2 ⟨rfl, h2⟩

/-- Two boards with the same vectors and king pointers and the same matrix entries are
equal. -/
theorem ext_of_getPiece {b1 b2 : Board}
    (hl1 : b1._board.length = BOARD_SIZE * BOARD_SIZE)
    (hl2 : b2._board.length = BOARD_SIZE * BOARD_SIZE)
    (hw : b1._whitePieces = b2._whitePieces) (hb : b1._blackPieces = b2._blackPieces)
    (hwk : b1._whiteKing = b2._whiteKing) (hbk : b1._blackKing = b2._blackKing)
    (hget : ∀ sq, isInBoard sq = true → b1._getPiece sq = b2._getPiece sq) : b1 = b2 := by
  have hgrid : b1._board = b2._board := by
    apply List.ext_getElem? 
    intro i
    by_cases hi : i < BOARD_SIZE * BOARD_SIZE
    · obtain ⟨sq, hsq⟩ := gridIndex_surj hi
      have := hget sq ((gridIndex_eq_some sq i).1 hsq).1
      simpa [_getPiece, hsq] using this
    · have h1 : b1._board.length ≤ i := by rw [hl1]; omega
      have h2 : b2._board.length ≤ i := by rw [hl2]; omega
      rw [List.getElem?_eq_none h1, List.getElem?_eq_none h2]
  cases b1; cases b2
  simp only at hgrid hw hb hwk hbk
  subst hgrid hw hb hwk hbk
  rfl

theorem assign_isSome (this other : Board)
    (h : ∀ p ∈ other.allPieces, isInBoard p.getPosition = true) :
    ∃ r, this.assign other = some r := by
  unfold assign _setUpPieces
  simp only [_getPieces, if_true]
  obtain ⟨b1, hb1⟩ := setUpLoop_isSome WHITE other._whitePieces
    { this with
      _board := List.replicate (BOARD_SIZE * BOARD_SIZE) none
      _whitePieces := other._whitePieces
      _blackPieces := other._blackPieces } (by simp)
    (fun p hp => h p (List.mem_append_left _ hp))
  rw [hb1]
  obtain ⟨_, hw, hb, hlen, _⟩ := setUpLoop_spec _ _ _ hb1
  have hne : ¬ (BLACK = WHITE) := by decide
  simp only [hne, if_false, hb]
  exact setUpLoop_isSome BLACK other._blackPieces b1 (by rw [hlen]; simp)
    (fun p hp => h p (List.mem_append_right _ hp))

/-- What `operator=` produces: the vectors of the other board, a matrix set up from them,
and king pointers that are reset only where the other board has a king. -/
theorem assign_spec {this other r : Board} (h : this.assign other = some r) :
    (∀ p ∈ other.allPieces, isInBoard p.getPosition = true) ∧
    r._whitePieces = other._whitePieces ∧ r._blackPieces = other._blackPieces ∧
    r._board.length = BOARD_SIZE * BOARD_SIZE ∧
    (∀ sq, isInBoard sq = true → (∀ p ∈ other.allPieces, p.getPosition ≠ sq) →
      r._getPiece sq = some none) ∧
    ((other.allPieces.map Piece.getPosition).Nodup →
      ∀ p ∈ other.allPieces, r._getPiece p.getPosition = some (some p.addr)) ∧
    r._whiteKing = lastKing this._whiteKing other._whitePieces ∧
    r._blackKing = lastKing this._blackKing other._blackPieces := by
  unfold assign _setUpPieces at h
  simp only [_getPieces, if_true] at h
  cases h1 : setUpLoop WHITE
      { this with
        _board := List.replicate (BOARD_SIZE * BOARD_SIZE) none
        _whitePieces := other._whitePieces
        _blackPieces := other._blackPieces } other._whitePieces with
  | none => rw [h1] at h; cases h
  | some b1 =>
    rw [h1] at h
    obtain ⟨hin1, hw1, hb1, hlen1, hget1, hnd1, hwk1, hbk1⟩ := setUpLoop_spec _ _ _ h1
    have hne : ¬ (BLACK = WHITE) := by decide
    simp only [hne, if_false, hb1] at h
    obtain ⟨hin2, hw2, hb2, hlen2, hget2, hnd2, hwk2, hbk2⟩ := setUpLoop_spec _ _ _ h
    simp only [if_true] at hwk1 hbk1
    simp only [hne, if_false] at hwk2 hbk2
    refine ⟨?_, by rw [hw2, hw1], by rw [hb2, hb1], by rw [hlen2, hlen1]; simp, ?_, ?_,
      by rw [hwk2, hwk1], by rw [hbk2, hbk1]⟩
    · intro p hp
      rcases List.mem_append.1 hp with hp | hp
      · exact hin1 p hp
      · exact hin2 p hp
    · intro sq hsq hno
      rw [hget2 sq (fun p hp => hno p (List.mem_append_right _ hp)),
        hget1 sq (fun p hp => hno p (List.mem_append_left _ hp))]
      obtain ⟨i, hi, hlt⟩ := gridIndex_of_inBoard hsq
      simp [_getPiece, hi, List.getElem?_replicate, hlt]
    · intro hnd p hp
      unfold allPieces at hnd
      rw [List.map_append] at hnd
      rcases List.mem_append.1 hp with hp | hp
      · rw [hget2 p.getPosition ?_]
        · exact hnd1 (List.Nodup.of_append_left hnd) p hp
        · intro q hq e
          exact (List.disjoint_of_nodup_append hnd) (List.mem_map.2 ⟨p, hp, rfl⟩)
            (List.mem_map.2 ⟨q, hq, e⟩)
      · exact hnd2 (List.Nodup.of_append_right hnd) p hp

namespace Consistent

theorem inBoard {b : Board} (h : b.Consistent) {p : Piece} (hp : p ∈ b.allPieces) :
    isInBoard p.getPosition = true :=
  _getPiece_inBoard (h.2.1 p hp)

theorem addr_inj {b : Board} (h : b.Consistent) {p q : Piece} (hp : p ∈ b.allPieces)
    (hq : q ∈ b.allPieces) (e : p.addr = q.addr) : p = q :=
  List.inj_on_of_nodup_map h.2.2.2.2.1 hp hq e

theorem pos_inj {b : Board} (h : b.Consistent) {p q : Piece} (hp : p ∈ b.allPieces)
    (hq : q ∈ b.allPieces) (e : p.getPosition = q.getPosition) : p = q :=
  List.inj_on_of_nodup_map h.2.2.2.1 hp hq e

end Consistent

theorem find_addr_of_mem (l : List Piece) (hnd : (l.map Piece.addr).Nodup) {p : Piece}
    (hp : p ∈ l) : l.find? (fun q => q.addr == p.addr) = some p := by
  induction l with
  | nil => cases hp
  | cons x rest ih =>
    rw [List.map_cons, List.nodup_cons] at hnd
    rcases List.mem_cons.1 hp with rfl | hp
    · simp [List.find?_cons]
    · have hne : x.addr ≠ p.addr := fun e => hnd.1 (List.mem_map.2 ⟨p, hp, e.symm⟩)
      have hne2 : (x.addr == p.addr) = false := by simpa using hne
      rw [List.find?_cons, hne2]
      exact ih hnd.2 hp

theorem deref_eq_some {b : Board} {a : Ptr} {p : Piece} (h : b.deref a = some p) :
    p ∈ b.allPieces ∧ p.addr = a := by
  unfold deref at h
  refine ⟨List.mem_of_find?_eq_some h, ?_⟩
  have := List.find?_some h
  simpa using this

theorem deref_of_mem {b : Board} (hnd : (b.allPieces.map Piece.addr).Nodup) {p : Piece}
    (hp : p ∈ b.allPieces) : b.deref p.addr = some p :=
  find_addr_of_mem b.allPieces hnd hp

namespace Consistent

/-- In a consistent board a non-null matrix entry points to a live piece that stands on that
square. -/
theorem occupant {b : Board} (h : b.Consistent) {sq : Square} {a : Ptr}
    (hg : b._getPiece sq = some (some a)) :
    ∃ p, p ∈ b.allPieces ∧ p.addr = a ∧ p.getPosition = sq ∧ b.deref a = some p := by
  by_cases hex : ∃ p ∈ b.allPieces, p.getPosition = sq
  · obtain ⟨p, hp, hpos⟩ := hex
    have := h.2.1 p hp
    rw [hpos, hg] at this
    simp only [Option.some.injEq] at this
    subst this
    exact ⟨p, hp, rfl, hpos, deref_of_mem h.2.2.2.2.1 hp⟩
  · have := h.2.2.1 sq (_getPiece_inBoard hg) (fun p hp e => hex ⟨p, hp, e⟩)
    rw [hg] at this
    simp at this

theorem getPiece_isSome {b : Board} (h : b.Consistent) {sq : Square}
    (hsq : isInBoard sq = true) : ∃ v, b._getPiece sq = some v :=
  _getPiece_isSome h.1 hsq

/-- A consistent board is reproduced by `operator=` up to the king pointers. -/
theorem assign_of_consistent {b x : Board} (h : b.Consistent)
    (hwk : lastKing x._whiteKing b._whitePieces = b._whiteKing)
    (hbk : lastKing x._blackKing b._blackPieces = b._blackKing) : x.assign b = some b := by
  obtain ⟨r, hr⟩ := assign_isSome x b (fun p hp => h.inBoard hp)
  rw [hr]
  obtain ⟨_, hw, hb, hlen, hemp, hocc, hwk2, hbk2⟩ := assign_spec hr
  congr 1
  apply ext_of_getPiece hlen h.1 hw hb (by rw [hwk2, hwk]) (by rw [hbk2, hbk])
  intro sq hsq
  by_cases hex : ∃ p ∈ b.allPieces, p.getPosition = sq
  · obtain ⟨p, hp, hpos⟩ := hex
    rw [← hpos, hocc h.2.2.2.1 p hp, h.2.1 p hp]
  · rw [hemp sq hsq (fun p hp e => hex ⟨p, hp, e⟩),
      h.2.2.1 sq hsq (fun p hp e => hex ⟨p, hp, e⟩)]

end Consistent

theorem WF_iff (b : Board) :
    b.WF ↔ b.Consistent ∧ kingIs b._whiteKing b._whitePieces ∧
      kingIs b._blackKing b._blackPieces := by
  constructor
  · rintro ⟨hfix, hnp, hna, hwc, hbc, hwk, hbk⟩
    obtain ⟨_, _, _, hlen, hemp, hocc, _, _⟩ := assign_spec hfix
    exact ⟨⟨hlen, hocc hnp, hemp, hnp, hna, hwc, hbc⟩, hwk, hbk⟩
  · rintro ⟨hc, hwk, hbk⟩
    exact ⟨hc.assign_of_consistent (lastKing_of_kingIs _ _ _ hwk) (lastKing_of_kingIs _ _ _ hbk),
      hc.2.2.2.1, hc.2.2.2.2.1, hc.2.2.2.2.2.1, hc.2.2.2.2.2.2, hwk, hbk⟩

theorem WF.consistent {b : Board} (h : b.WF) : b.Consistent := ((WF_iff b).1 h).1

/-- Assigning a board that satisfies the invariants yields that very board, whatever the
assigned-to board was. -/
theorem WF.assign_of_WF {b : Board} (h : b.WF) (x : Board) : x.assign b = some b :=
  h.consistent.assign_of_consistent (lastKing_of_kingIs _ _ _ ((WF_iff b).1 h).2.1)
    (lastKing_of_kingIs _ _ _ ((WF_iff b).1 h).2.2)

theorem mem_white_getPieces {b : Board} (h : b.Consistent) {p : Piece}
    (hp : p ∈ b._whitePieces) : b._getPieces p.getColor = b._whitePieces := by
  simp [_getPieces, h.2.2.2.2.2.1 p hp]

theorem mem_black_getPieces {b : Board} (h : b.Consistent) {p : Piece}
    (hp : p ∈ b._blackPieces) : b._getPieces p.getColor = b._blackPieces := by
  have hc := h.2.2.2.2.2.2 p hp
  have hne : ¬ (BLACK = WHITE) := by decide
  simp [_getPieces, hc, hne]

theorem Consistent.not_mem_both {b : Board} (h : b.Consistent) {p : Piece}
    (hw : p ∈ b._whitePieces) (hb : p ∈ b._blackPieces) : False := by
  have hnd := h.2.2.2.2.1
  unfold allPieces at hnd
  rw [List.map_append] at hnd
  exact (List.disjoint_of_nodup_append hnd) (List.mem_map.2 ⟨p, hw, rfl⟩)
    (List.mem_map.2 ⟨p, hb, rfl⟩)

/-- What `_removePiece` does on a consistent board. -/
theorem _removePiece_spec {t : Board} (hc : t.Consistent) {dest : Square}
    (hdest : isInBoard dest = true) :
    ∃ t1, t._removePiece dest = some t1 ∧
      t1._whitePieces = t._whitePieces.filter (fun q => q.getPosition ≠ dest) ∧
      t1._blackPieces = t._blackPieces.filter (fun q => q.getPosition ≠ dest) ∧
      t1._whiteKing = t._whiteKing ∧ t1._blackKing = t._blackKing ∧
      t1._board.length = t._board.length ∧
      (∀ sq, t1._getPiece sq = if sq = dest then some none else t._getPiece sq) := by
  obtain ⟨v, hv⟩ := hc.getPiece_isSome hdest
  cases v with
  | none =>
    refine ⟨t, by simp [_removePiece, hv], ?_, ?_, rfl, rfl, rfl, ?_⟩
    · symm
      rw [List.filter_eq_self]
      intro q hq
      have := hc.2.1 q (List.mem_append_left _ hq)
      simp only [ne_eq, decide_eq_true_eq]
      intro e
      rw [e, hv] at this
      simp at this
    · symm
      rw [List.filter_eq_self]
      intro q hq
      have := hc.2.1 q (List.mem_append_right _ hq)
      simp only [ne_eq, decide_eq_true_eq]
      intro e
      rw [e, hv] at this
      simp at this
    · intro sq
      by_cases e : sq = dest
      · simp [e, hv]
      · simp [e]
  | some d =>
    obtain ⟨pd, hpd, hpda, hpdpos, hderef⟩ := hc.occupant hv
    have hkey : ∀ q ∈ t.allPieces, (q.addr ≠ d ↔ q.getPosition ≠ dest) := by
      intro q hq
      constructor
      · intro h1 h2
        exact h1 (by rw [← hpda, hc.pos_inj hq hpd (h2.trans hpdpos.symm)])
      · intro h1 h2
        exact h1 (by rw [← hpdpos, hc.addr_inj hq hpd (h2.trans hpda.symm)])
    have hlen : 0 < 1 := Nat.one_pos
    rcases List.mem_append.1 hpd with hw | hb
    · obtain ⟨t1, ht1⟩ := _setPiece_isSome
        (b := t.setPieces pd.getColor ((t._getPieces pd.getColor).filter (fun q => q.addr ≠ d)))
        none (by simp only [setPieces]; split <;> exact hc.1) hdest
      obtain ⟨_, h1, h2, h3, h4, h5, h6⟩ := _setPiece_spec ht1
      have hcol := hc.2.2.2.2.2.1 pd hw
      simp only [setPieces, _getPieces, hcol, if_true] at h1 h2 h3 h4 h5 h6
      refine ⟨t1, by simp only [_removePiece, hv, hderef]; exact ht1, ?_, ?_, h3, h4, h5, ?_⟩
      · rw [h1]
        apply List.filter_congr
        intro q hq
        have := hkey q (List.mem_append_left _ hq)
        simp only [ne_eq, decide_eq_decide]
        exact this
      · rw [h2]
        symm
        rw [List.filter_eq_self]
        intro q hq
        simp only [ne_eq, decide_eq_true_eq]
        intro e
        have : q = pd := hc.pos_inj (List.mem_append_right _ hq) hpd (e.trans hpdpos.symm)
        subst this
        exact hc.not_mem_both hw hq
      · intro sq
        rw [h6 sq]
        rfl
    · obtain ⟨t1, ht1⟩ := _setPiece_isSome
        (b := t.setPieces pd.getColor ((t._getPieces pd.getColor).filter (fun q => q.addr ≠ d)))
        none (by simp only [setPieces]; split <;> exact hc.1) hdest
      obtain ⟨_, h1, h2, h3, h4, h5, h6⟩ := _setPiece_spec ht1
      have hcol := hc.2.2.2.2.2.2 pd hb
      have hne : ¬ (BLACK = WHITE) := by decide
      simp only [setPieces, _getPieces, hcol, hne, if_false] at h1 h2 h3 h4 h5 h6
      refine ⟨t1, by simp only [_removePiece, hv, hderef]; exact ht1, ?_, ?_, h3, h4, h5, ?_⟩
      · rw [h1]
        symm
        rw [List.filter_eq_self]
        intro q hq
        simp only [ne_eq, decide_eq_true_eq]
        intro e
        have : q = pd := hc.pos_inj (List.mem_append_left _ hq) hpd (e.trans hpdpos.symm)
        subst this
        exact hc.not_mem_both hq hb
      · rw [h2]
        apply List.filter_congr
        intro q hq
        have := hkey q (List.mem_append_right _ hq)
        simp only [ne_eq, decide_eq_decide]
        exact this
      · intro sq
        rw [h6 sq]
        rfl

end Board

theorem mem_movedList {l : List Piece} {a : Ptr} {dest : Square} {q2 : Piece} :
    q2 ∈ movedList l a dest ↔
      ∃ q ∈ l, q.getPosition ≠ dest ∧ q2 = (if q.addr = a then q.setPosition dest else q) := by
  unfold movedList
  simp only [List.mem_map, List.mem_filter, ne_eq, decide_eq_true_eq]
  constructor
  · rintro ⟨q, ⟨hq, hpos⟩, rfl⟩
    exact ⟨q, hq, hpos, rfl⟩
  · rintro ⟨q, hq, hpos, rfl⟩
    exact ⟨q, ⟨hq, hpos⟩, rfl⟩

theorem movedList_append (l1 l2 : List Piece) (a : Ptr) (dest : Square) :
    movedList (l1 ++ l2) a dest = movedList l1 a dest ++ movedList l2 a dest := by
  simp [movedList]

theorem movedList_map_addr (l : List Piece) (a : Ptr) (dest : Square) :
    (movedList l a dest).map Piece.addr =
      (l.filter (fun q => q.getPosition ≠ dest)).map Piece.addr := by
  unfold movedList
  rw [List.map_map]
  apply List.map_congr_left
  intro q _
  by_cases h : q.addr = a <;> simp [h, Piece.setPosition]

namespace Board

/-- What `tempMove` does on a consistent board when `src` holds a piece and `dest` is another
square of the board: the result, and that it is consistent again. -/
theorem tempMove_spec {t : Board} (hc : t.Consistent) {src dest : Square} {a : Ptr}
    (hsrc : t._getPiece src = some (some a)) (hdest : isInBoard dest = true)
    (hne : dest ≠ src) :
    ∃ t2, t.tempMove src dest = some t2 ∧
      t2._whitePieces = movedList t._whitePieces a dest ∧
      t2._blackPieces = movedList t._blackPieces a dest ∧
      t2._whiteKing = t._whiteKing ∧ t2._blackKing = t._blackKing ∧
      (∀ sq, t2._getPiece sq =
        if sq = dest then some (some a) else if sq = src then some none else t._getPiece sq) ∧
      t2.Consistent := by
  obtain ⟨p, hp, hpa, hppos, hderef⟩ := hc.occupant hsrc
  have hsrcIn : isInBoard src = true := _getPiece_inBoard hsrc
  obtain ⟨v, hv⟩ := hc.getPiece_isSome hdest
  obtain ⟨t1, ht1, hw1, hb1, hwk1, hbk1, hlen1, hget1⟩ := _removePiece_spec hc hdest
  have hrm : (if v ≠ none then t._removePiece dest else some t) = some t1 := by
    by_cases hvn : v = none
    · subst hvn
      simp only [ne_eq, not_true_eq_false, if_false]
      rw [← ht1]
      simp [_removePiece, hv]
    · simp only [ne_eq, hvn, not_false_eq_true, if_true]
      exact ht1
  have hsrc1 : t1._getPiece src = some (some a) := by
    rw [hget1 src]
    simp [Ne.symm hne, hsrc]
  have hl1 : t1._board.length = BOARD_SIZE * BOARD_SIZE := by rw [hlen1]; exact hc.1
  obtain ⟨t2, ht2⟩ := _setPiece_isSome (b := t1) none hl1 hsrcIn
  obtain ⟨_, hw2, hb2, hwk2, hbk2, hlen2, hget2⟩ := _setPiece_spec ht2
  have hl2 : t2._board.length = BOARD_SIZE * BOARD_SIZE := by rw [hlen2]; exact hl1
  obtain ⟨t3, ht3⟩ := _setPiece_isSome (b := t2) (some a) hl2 hdest
  obtain ⟨_, hw3, hb3, hwk3, hbk3, hlen3, hget3⟩ := _setPiece_spec ht3
  have hall3 : t3.allPieces = t.allPieces.filter (fun q => q.getPosition ≠ dest) := by
    simp only [allPieces, hw3, hb3, hw2, hb2, hw1, hb1, List.filter_append]
  have hpposne : p.getPosition ≠ dest := by rw [hppos]; exact Ne.symm hne
  have hp3 : p ∈ t3.allPieces := by
    rw [hall3, List.mem_filter]
    exact ⟨hp, by simpa using hpposne⟩
  have hnd3 : (t3.allPieces.map Piece.addr).Nodup := by
    rw [hall3]
    exact List.Nodup.sublist (List.Sublist.map _ (List.filter_sublist _)) hc.2.2.2.2.1
  have hderef3 : t3.deref a = some p := by
    rw [← hpa]
    exact deref_of_mem hnd3 hp3
  have hmove : t.tempMove src dest =
      some (t3.updatePiece a (fun q => q.setPosition dest)) := by
    simp only [tempMove, hv, hrm, hsrc1, ht2, _movePiece, ht3, hderef3]
  have hwF : (t3.updatePiece a (fun q => q.setPosition dest))._whitePieces =
      movedList t._whitePieces a dest := by
    simp only [updatePiece, movedList, hw3, hw2, hw1]
  have hbF : (t3.updatePiece a (fun q => q.setPosition dest))._blackPieces =
      movedList t._blackPieces a dest := by
    simp only [updatePiece, movedList, hb3, hb2, hb1]
  have hgetF : ∀ sq, (t3.updatePiece a (fun q => q.setPosition dest))._getPiece sq =
      if sq = dest then some (some a) else if sq = src then some none else t._getPiece sq := by
    intro sq
    have : (t3.updatePiece a (fun q => q.setPosition dest))._getPiece sq = t3._getPiece sq := rfl
    rw [this, hget3 sq, hget2 sq, hget1 sq]
    by_cases e1 : sq = dest
    · simp [e1]
    · by_cases e2 : sq = src
      · simp [e1, e2]
      · simp [e1, e2]
  have hallF : (t3.updatePiece a (fun q => q.setPosition dest)).allPieces =
      movedList t.allPieces a dest := by
    simp only [allPieces, hwF, hbF, movedList_append]
  -- facts about the pieces of the new board
  have hmem : ∀ q2 ∈ movedList t.allPieces a dest,
      (q2.addr = a ∧ q2.getPosition = dest) ∨
      (q2.addr ≠ a ∧ q2 ∈ t.allPieces ∧ q2.getPosition ≠ dest ∧ q2.getPosition ≠ src) := by
    intro q2 hq2
    obtain ⟨q, hq, hqpos, rfl⟩ := mem_movedList.1 hq2
    by_cases e : q.addr = a
    · left
      simp [e, Piece.setPosition, Piece.getPosition]
    · right
      simp only [e, if_false]
      refine ⟨e, hq, hqpos, ?_⟩
      intro e2
      exact e (by rw [← hpa, hc.pos_inj hq hp (e2.trans hppos.symm)])
  refine ⟨_, hmove, hwF, hbF, by simp [updatePiece, hwk3, hwk2, hwk1],
    by simp [updatePiece, hbk3, hbk2, hbk1], hgetF, ?_⟩
  refine ⟨by simp only [updatePiece]; rw [hlen3]; exact hl2, ?_, ?_, ?_, ?_, ?_, ?_⟩
  · intro q2 hq2
    rw [hallF] at hq2
    rw [hgetF]
    rcases hmem q2 hq2 with ⟨h1, h2⟩ | ⟨h1, h2, h3, h4⟩
    · simp [h1, h2]
    · simp only [h3, h4, if_false]
      exact hc.2.1 q2 h2
  · intro sq hsq hno
    rw [hallF] at hno
    rw [hgetF]
    have hsd : sq ≠ dest := by
      intro e
      apply hno (p.setPosition dest)
      · rw [mem_movedList]
        exact ⟨p, hp, hpposne, by simp [hpa]⟩
      · simp [Piece.setPosition, Piece.getPosition, e]
    simp only [hsd, if_false]
    by_cases e2 : sq = src
    · simp [e2]
    · simp only [e2, if_false]
      obtain ⟨v2, hv2⟩ := hc.getPiece_isSome hsq
      cases v2 with
      | none => exact hv2
      | some c =>
        exfalso
        obtain ⟨q, hq, hqa, hqpos, _⟩ := hc.occupant hv2
        have hqa2 : q.addr ≠ a := by
          intro e
          apply e2
          rw [← hqpos, ← hppos, hc.addr_inj hq hp (e.trans hpa.symm)]
        apply hno q
        · rw [mem_movedList]
          exact ⟨q, hq, by rw [hqpos]; exact hsd, by simp [hqa2]⟩
        · exact hqpos
  · rw [hallF]
    unfold movedList
    rw [List.map_map]
    apply List.Nodup.map_on
    · intro x hx y hy hxy
      have hx1 := (List.mem_filter.1 hx).1
      have hy1 := (List.mem_filter.1 hy).1
      have hx2 : x.getPosition ≠ dest := by simpa using (List.mem_filter.1 hx).2
      have hy2 : y.getPosition ≠ dest := by simpa using (List.mem_filter.1 hy).2
      simp only [Function.comp] at hxy
      by_cases ex : x.addr = a <;> by_cases ey : y.addr = a
      · exact hc.addr_inj hx1 hy1 (ex.trans ey.symm)
      · simp only [ex, ey, if_true, if_false] at hxy
        exact absurd hxy.symm hy2
      · simp only [ex, ey, if_true, if_false] at hxy
        exact absurd hxy hx2
      · simp only [ex, ey, if_false] at hxy
        exact hc.pos_inj hx1 hy1 hxy
    · exact List.Nodup.filter _ (List.Nodup.of_map _ hc.2.2.2.2.1)
  · rw [hallF, movedList_map_addr]
    exact List.Nodup.sublist (List.Sublist.map _ (List.filter_sublist _)) hc.2.2.2.2.1
  · intro q2 hq2
    rw [hwF] at hq2
    obtain ⟨q, hq, _, rfl⟩ := mem_movedList.1 hq2
    have := hc.2.2.2.2.2.1 q hq
    by_cases e : q.addr = a <;> simpa [e, Piece.setPosition, Piece.getColor] using this
  · intro q2 hq2
    rw [hbF] at hq2
    obtain ⟨q, hq, _, rfl⟩ := mem_movedList.1 hq2
    have := hc.2.2.2.2.2.2 q hq
    by_cases e : q.addr = a <;> simpa [e, Piece.setPosition, Piece.getColor] using this

end Board

/-! ## Paths -/

/-- The loop of `Piece::getPathTo` stops after `n` iterations when the destination is `n` steps
away, and returns the `n` squares it walked over. -/
theorem getPathToLoop_spec (fd rd df dr : Int) (hd : fd ≠ 0 ∨ rd ≠ 0) :
    ∀ (n fuel : Nat) (pf pr : Int), n ≤ fuel → pf + n * fd = df → pr + n * rd = dr →
      getPathToLoop fd rd df dr fuel pf pr =
        some ((List.range n).map
          (fun (i : Nat) => Square.mk (pf + (i : Int) * fd) (pr + (i : Int) * rd))) := by
  intro n
  induction n with
  | zero =>
    intro fuel pf pr _ h1 h2
    simp only [Nat.cast_zero, zero_mul, add_zero] at h1 h2
    cases fuel <;> simp [getPathToLoop, h1, h2]
  | succ n ih =>
    intro fuel pf pr hle h1 h2
    cases fuel with
    | zero => omega
    | succ fuel =>
      have hcond : pf ≠ df ∨ pr ≠ dr := by
        rcases hd with h | h
        · left
          intro e
          rw [e] at h1
          have : ((n + 1 : Nat) : Int) * fd = 0 := by omega
          rcases Int.mul_eq_zero.1 this with h3 | h3
          · omega
          · exact h h3
        · right
          intro e
          rw [e] at h2
          have : ((n + 1 : Nat) : Int) * rd = 0 := by omega
          rcases Int.mul_eq_zero.1 this with h3 | h3
          · omega
          · exact h h3
      have h1' : (pf + fd) + n * fd = df := by rw [← h1]; push_cast; ring
      have h2' : (pr + rd) + n * rd = dr := by rw [← h2]; push_cast; ring
      rw [getPathToLoop, if_pos hcond, ih fuel (pf + fd) (pr + rd) (by omega) h1' h2']
      simp only [List.range_succ_eq_map, List.map_cons, List.map_map, Nat.cast_zero, zero_mul,
        add_zero, Option.some.injEq, List.cons.injEq, true_and]
      apply List.map_congr_left
      intro i _
      simp only [Function.comp, Nat.cast_succ]
      congr 1 <;> ring

theorem sgnDirection_cases (a b : Int) :
    (a < b ∧ sgnDirection a b = 1) ∨ (a = b ∧ sgnDirection a b = 0) ∨
      (b < a ∧ sgnDirection a b = -1) := by
  unfold sgnDirection
  rcases lt_trichotomy a b with h | h | h
  · left; exact ⟨h, by simp [h, not_lt.2 (le_of_lt h)]⟩
  · right; left; subst h; simp
  · right; right; exact ⟨h, by simp [h, not_lt.2 (le_of_lt h)]⟩

theorem cabs_cases (x : Int) : (x < 0 ∧ cabs x = -x) ∨ (0 ≤ x ∧ cabs x = x) := by
  unfold cabs
  by_cases h : x < 0
  · left; exact ⟨h, by simp [h]⟩
  · right; exact ⟨not_lt.1 h, by simp [h]⟩

/-- The shared `Piece::getPathTo` on two squares of the board that lie on a common rank, file
or diagonal: the loop terminates, and its result is the list of the squares strictly between
the two, from the piece towards `dest`. -/
theorem getPathToDefault_spec (p : Piece) (dest : Square)
    (hp : isInBoard p._position = true) (hd : isInBoard dest = true)
    (hal : dest.file - p._position.file = 0 ∨ dest.rank - p._position.rank = 0 ∨
      cabs (dest.file - p._position.file) = cabs (dest.rank - p._position.rank)) :
    p.getPathToDefault dest =
      some ((List.range (max (cabs (dest.file - p._position.file))
          (cabs (dest.rank - p._position.rank)) - 1).toNat).map
        (fun (i : Nat) => Square.mk
          (p._position.file + ((i : Int) + 1) * sgnDirection p._position.file dest.file)
          (p._position.rank + ((i : Int) + 1) * sgnDirection p._position.rank dest.rank))) ∧
    ∀ sq, sq ∈ (List.range (max (cabs (dest.file - p._position.file))
          (cabs (dest.rank - p._position.rank)) - 1).toNat).map
        (fun (i : Nat) => Square.mk
          (p._position.file + ((i : Int) + 1) * sgnDirection p._position.file dest.file)
          (p._position.rank + ((i : Int) + 1) * sgnDirection p._position.rank dest.rank)) →
      isInBoard sq = true := by
  have hp2 := (isInBoard_iff _).1 hp
  have hd2 := (isInBoard_iff _).1 hd
  simp only [MIN_FILE, MAX_FILE, MIN_RANK, MAX_RANK] at hp2 hd2
  have hm1 := le_max_left (cabs (dest.file - p._position.file))
    (cabs (dest.rank - p._position.rank))
  have hm2 := le_max_right (cabs (dest.file - p._position.file))
    (cabs (dest.rank - p._position.rank))
  have hm3 := max_choice (cabs (dest.file - p._position.file))
    (cabs (dest.rank - p._position.rank))
  generalize max (cabs (dest.file - p._position.file))
    (cabs (dest.rank - p._position.rank)) = m at hm1 hm2 hm3 ⊢
  have hn : ((m - 1).toNat : Int) = m - 1 ∨ ((m - 1).toNat = 0 ∧ m - 1 ≤ 0) := by
    by_cases h : 0 ≤ m - 1
    · left; exact Int.toNat_of_nonneg h
    · right; exact ⟨Int.toNat_eq_zero.2 (by omega), by omega⟩
  generalize (m - 1).toNat = n at hn ⊢
  constructor
  · unfold Piece.getPathToDefault
    simp only
    by_cases hsame : p._position.file = dest.file ∧ p._position.rank = dest.rank
    · obtain ⟨e1, e2⟩ := hsame
      have s1 : sgnDirection p._position.file dest.file = 0 := by simp [sgnDirection, e1]
      have s2 : sgnDirection p._position.rank dest.rank = 0 := by simp [sgnDirection, e2]
      have hfuel : (BOARD_SIZE : Nat) = 7 + 1 := rfl
      have hm0 : n = 0 := by
        simp only [e1, e2, sub_self, cabs] at hm3
        simp only [lt_self_iff_false, if_false, or_self] at hm3
        omega
      rw [s1, s2, hfuel, getPathToLoop, hm0]
      simp [e1, e2]
    · have hdir : sgnDirection p._position.file dest.file ≠ 0 ∨
          sgnDirection p._position.rank dest.rank ≠ 0 := by
        rcases sgnDirection_cases p._position.file dest.file with h | h | h <;>
        rcases sgnDirection_cases p._position.rank dest.rank with h' | h' | h' <;>
        first
          | (exfalso; exact hsame ⟨h.1, h'.1⟩)
          | (left; rw [h.2]; decide)
          | (right; rw [h'.2]; decide)
      rw [getPathToLoop_spec _ _ _ _ hdir n]
      · congr 1
        apply List.map_congr_left
        intro i _
        congr 1 <;> ring
      · rcases cabs_cases (dest.file - p._position.file) with h | h <;>
        rcases cabs_cases (dest.rank - p._position.rank) with h' | h' <;>
        (simp only [BOARD_SIZE]; omega)
      · rcases sgnDirection_cases p._position.file dest.file with h | h | h <;>
        rcases cabs_cases (dest.file - p._position.file) with h1 | h1 <;>
        rcases cabs_cases (dest.rank - p._position.rank) with h' | h' <;>
        (rw [h.2]; omega)
      · rcases sgnDirection_cases p._position.rank dest.rank with h | h | h <;>
        rcases cabs_cases (dest.file - p._position.file) with h1 | h1 <;>
        rcases cabs_cases (dest.rank - p._position.rank) with h' | h' <;>
        (rw [h.2]; omega)
  · intro sq hsq
    obtain ⟨i, hi, rfl⟩ := List.mem_map.1 hsq
    rw [List.mem_range] at hi
    rw [isInBoard_iff]
    simp only [MIN_FILE, MAX_FILE, MIN_RANK, MAX_RANK]
    rcases sgnDirection_cases p._position.file dest.file with h | h | h <;>
    rcases sgnDirection_cases p._position.rank dest.rank with h2 | h2 | h2 <;>
    rcases cabs_cases (dest.file - p._position.file) with h1 | h1 <;>
    rcases cabs_cases (dest.rank - p._position.rank) with h' | h' <;>
    (rw [h.2, h2.2]; omega)

/-- Where `canReach` holds for a piece of the board and a square of the board, `getPathTo`
returns a path, and the path stays on the board. -/
theorem getPathTo_isSome (p : Piece) (dest : Square) (isCapture : Bool)
    (hcol : p.getColor = WHITE ∨ p.getColor = BLACK)
    (hp : isInBoard p._position = true) (hd : isInBoard dest = true)
    (hreach : p.canReach dest isCapture = true) :
    ∃ path, p.getPathTo dest = some path ∧ ∀ sq ∈ path, isInBoard sq = true := by
  have hp2 := (isInBoard_iff _).1 hp
  have hd2 := (isInBoard_iff _).1 hd
  simp only [MIN_FILE, MAX_FILE, MIN_RANK, MAX_RANK] at hp2 hd2
  unfold Piece.canReach at hreach
  unfold Piece.getPathTo
  cases hk : p.kind with
  | Pawn =>
    rw [hk] at hreach
    refine ⟨_, rfl, ?_⟩
    intro sq hsq
    unfold Pawn.getPathTo at hsq
    simp only [PAWN_DIFF2] at hsq
    split at hsq
    · rename_i h2
      simp only [List.mem_singleton] at hsq
      subst hsq
      rw [isInBoard_iff]
      simp only [MIN_FILE, MAX_FILE, MIN_RANK, MAX_RANK]
      unfold Pawn.canReach at hreach
      simp only [PAWN_DIFF0, PAWN_DIFF1, PAWN_DIFF2, Piece.getColor, WHITE, BLACK] at hreach hcol
      have hc := cabs_cases (dest.rank - p._position.rank)
      rcases hcol with hcol | hcol <;> rw [hcol] at hreach ⊢ <;>
        cases isCapture <;>
        simp only [Bool.false_eq_true, if_false, if_true, Bool.and_eq_true, Bool.or_eq_true,
          decide_eq_true_eq] at hreach <;>
        omega
    · cases hsq
  | Knight => exact ⟨[], rfl, fun _ h => by cases h⟩
  | King => exact ⟨[], rfl, fun _ h => by cases h⟩
  | Bishop =>
    rw [hk] at hreach
    simp only [Bishop.canReach, decide_eq_true_eq] at hreach
    exact ⟨_, (getPathToDefault_spec p dest hp hd (Or.inr (Or.inr hreach))).1,
      (getPathToDefault_spec p dest hp hd (Or.inr (Or.inr hreach))).2⟩
  | Rook =>
    rw [hk] at hreach
    simp only [Rook.canReach, ROOK_DIFF, Bool.or_eq_true, decide_eq_true_eq] at hreach
    have hal : dest.file - p._position.file = 0 ∨ dest.rank - p._position.rank = 0 ∨
        cabs (dest.file - p._position.file) = cabs (dest.rank - p._position.rank) := by
      have h1 := cabs_cases (dest.file - p._position.file)
      have h2 := cabs_cases (dest.rank - p._position.rank)
      omega
    exact ⟨_, (getPathToDefault_spec p dest hp hd hal).1,
      (getPathToDefault_spec p dest hp hd hal).2⟩
  | Queen =>
    rw [hk] at hreach
    simp only [Queen.canReach, QUEEN_DIFF, Bool.or_eq_true, decide_eq_true_eq] at hreach
    have hal : dest.file - p._position.file = 0 ∨ dest.rank - p._position.rank = 0 ∨
        cabs (dest.file - p._position.file) = cabs (dest.rank - p._position.rank) := by
      have h1 := cabs_cases (dest.file - p._position.file)
      have h2 := cabs_cases (dest.rank - p._position.rank)
      omega
    exact ⟨_, (getPathToDefault_spec p dest hp hd hal).1,
      (getPathToDefault_spec p dest hp hd hal).2⟩

/-! ## Pseudo-legal moves and check -/

namespace Board

theorem Consistent.color {b : Board} (h : b.Consistent) {p : Piece} (hp : p ∈ b.allPieces) :
    p.getColor = WHITE ∨ p.getColor = BLACK := by
  rcases List.mem_append.1 hp with hw | hb
  · exact Or.inl (h.2.2.2.2.2.1 p hw)
  · exact Or.inr (h.2.2.2.2.2.2 p hb)

theorem Consistent.colorAt_of_mem {b : Board} (h : b.Consistent) {p : Piece}
    (hp : p ∈ b.allPieces) : b.colorAt p.getPosition = some (some p.getColor) := by
  unfold colorAt
  simp only [h.2.1 p hp, deref_of_mem h.2.2.2.2.1 hp]

theorem Consistent.colorAt_isSome {b : Board} (h : b.Consistent) {sq : Square}
    (hsq : isInBoard sq = true) : ∃ v, b.colorAt sq = some v := by
  obtain ⟨v, hv⟩ := h.getPiece_isSome hsq
  cases v with
  | none => exact ⟨none, by simp [colorAt, hv]⟩
  | some d =>
    obtain ⟨p, _, _, _, hd⟩ := h.occupant hv
    exact ⟨some p.getColor, by simp [colorAt, hv, hd]⟩

theorem Consistent.colorAt_eq_some_none {b : Board} (h : b.Consistent) {sq : Square} :
    b.colorAt sq = some none ↔ b._getPiece sq = some none := by
  unfold colorAt
  cases hv : b._getPiece sq with
  | none => simp
  | some v =>
    cases v with
    | none => simp
    | some d =>
      obtain ⟨p, _, _, _, hd⟩ := h.occupant hv
      simp [hd]

theorem Consistent.colorAt_eq_some_some {b : Board} (h : b.Consistent) {sq : Square} {c : Int} :
    b.colorAt sq = some (some c) ↔
      ∃ p, p ∈ b.allPieces ∧ p.getPosition = sq ∧ p.getColor = c := by
  constructor
  · intro hc
    unfold colorAt at hc
    cases hv : b._getPiece sq with
    | none => rw [hv] at hc; cases hc
    | some v =>
      cases v with
      | none => rw [hv] at hc; simp at hc
      | some d =>
        obtain ⟨p, hp, _, hpos, hd⟩ := h.occupant hv
        rw [hv] at hc
        simp only [hd, Option.some.injEq] at hc
        exact ⟨p, hp, hpos, hc⟩
  · rintro ⟨p, hp, rfl, rfl⟩
    exact h.colorAt_of_mem hp

end Board

namespace GameMaster

theorem _isEmptyPath_spec (g : GameMaster)
    (hlen : g._tempBoard._board.length = BOARD_SIZE * BOARD_SIZE) (path : List Square)
    (hin : ∀ sq ∈ path, isInBoard sq = true) :
    ∃ b, g._isEmptyPath path = some b ∧
      (b = true ↔ ∀ sq ∈ path, g._tempBoard._getPiece sq = some none) := by
  induction path with
  | nil => exact ⟨true, rfl, by simp⟩
  | cons sq rest ih =>
    obtain ⟨b, hb, hiff⟩ := ih (fun x hx => hin x (List.mem_cons_of_mem _ hx))
    obtain ⟨v, hv⟩ := Board._getPiece_isSome hlen (hin sq (List.mem_cons_self _ _))
    cases v with
    | none =>
      refine ⟨b, by simp [_isEmptyPath, getTempPiece, hv, hb], ?_⟩
      rw [hiff]
      simp [hv]
    | some d =>
      refine ⟨false, by simp [_isEmptyPath, getTempPiece, hv], ?_⟩
      simp [hv]

theorem reachAndPath_spec (g : GameMaster) (hc : g._tempBoard.Consistent) {p : Piece}
    (hp : p ∈ g._tempBoard.allPieces) {dest : Square} (hd : isInBoard dest = true)
    (isCapture : Bool) :
    ∃ b, g.reachAndPath p dest isCapture = some b ∧
      (b = true ↔ p.canReach dest isCapture = true ∧
        ∃ path, p.getPathTo dest = some path ∧
          ∀ sq ∈ path, g._tempBoard.colorAt sq = some none) := by
  unfold reachAndPath
  by_cases hr : p.canReach dest isCapture = true
  · obtain ⟨path, hpath, hin⟩ := getPathTo_isSome p dest isCapture (hc.color hp)
      (hc.inBoard hp) hd hr
    obtain ⟨b, hb, hiff⟩ := g._isEmptyPath_spec hc.1 path hin
    refine ⟨b, by simp [hr, hpath, hb], ?_⟩
    rw [hiff]
    constructor
    · intro h
      exact ⟨hr, path, hpath, fun sq hsq => hc.colorAt_eq_some_none.2 (h sq hsq)⟩
    · rintro ⟨_, path2, hpath2, h⟩
      rw [hpath] at hpath2
      simp only [Option.some.injEq] at hpath2
      subst hpath2
      exact fun sq hsq => hc.colorAt_eq_some_none.1 (h sq hsq)
  · refine ⟨false, by simp [hr], ?_⟩
    simp [hr]

/-- On a consistent board `_isPseudoPath` returns a value for every piece of the board and
every destination, and the value is true exactly for the pseudo-legal moves. -/
theorem _isPseudoPath_spec (g : GameMaster) (hc : g._tempBoard.Consistent) {p : Piece}
    (hp : p ∈ g._tempBoard.allPieces) (dest : Square) :
    ∃ b, g._isPseudoPath p dest = some b ∧ (b = true ↔ pseudoLegal g._tempBoard p dest) := by
  unfold _isPseudoPath pseudoLegal
  by_cases hd : isInBoard dest = true
  · simp only [hd, Bool.not_true, Bool.false_eq_true, if_false, true_and]
    obtain ⟨v, hv⟩ := hc.getPiece_isSome hd
    simp only [getTempPiece, hv]
    cases v with
    | none =>
      obtain ⟨b, hb, hiff⟩ := g.reachAndPath_spec hc hp hd false
      refine ⟨b, hb, ?_⟩
      rw [hiff]
      have hcol : g._tempBoard.colorAt dest = some none := by simp [Board.colorAt, hv]
      constructor
      · rintro ⟨h1, h2⟩
        exact ⟨none, hcol, by simp, h1, h2⟩
      · rintro ⟨v, h0, _, h1, h2⟩
        rw [hcol] at h0
        simp only [Option.some.injEq] at h0
        subst h0
        exact ⟨h1, h2⟩
    | some d =>
      obtain ⟨q, hq, hqa, hqpos, hderef⟩ := hc.occupant hv
      have hcol : g._tempBoard.colorAt dest = some (some q.getColor) := by
        simp [Board.colorAt, hv, hderef]
      simp only [hderef]
      by_cases hsame : q.getColor = p.getColor
      · refine ⟨false, by simp [hsame], ?_⟩
        simp only [Bool.false_eq_true, false_iff, not_exists, not_and]
        intro v h0 h1
        rw [hcol] at h0
        simp only [Option.some.injEq] at h0
        subst h0
        exact absurd (by rw [hsame]) h1
      · obtain ⟨b, hb, hiff⟩ := g.reachAndPath_spec hc hp hd true
        refine ⟨b, by simp [hsame, hb], ?_⟩
        rw [hiff]
        constructor
        · rintro ⟨h1, h2⟩
          exact ⟨some q.getColor, hcol, by simpa using hsame, h1, h2⟩
        · rintro ⟨v, h0, _, h1, h2⟩
          rw [hcol] at h0
          simp only [Option.some.injEq] at h0
          subst h0
          exact ⟨h1, h2⟩
  · refine ⟨false, by simp [hd], ?_⟩
    simp [hd]

theorem isInCheckLoop_spec (g : GameMaster) (hc : g._tempBoard.Consistent)
    (kingPosition : Square) (l : List Piece) (hl : ∀ p ∈ l, p ∈ g._tempBoard.allPieces) :
    ∃ b, g.isInCheckLoop kingPosition l = some b ∧
      (b = true ↔ ∃ p ∈ l, pseudoLegal g._tempBoard p kingPosition) := by
  induction l with
  | nil => exact ⟨false, rfl, by simp⟩
  | cons p rest ih =>
    obtain ⟨b, hb, hiff⟩ := ih (fun x hx => hl x (List.mem_cons_of_mem _ hx))
    obtain ⟨b1, hb1, hiff1⟩ := g._isPseudoPath_spec hc (hl p (List.mem_cons_self _ _))
      kingPosition
    cases b1 with
    | true =>
      refine ⟨true, by simp [isInCheckLoop, hb1], ?_⟩
      simp only [true_iff]
      exact ⟨p, List.mem_cons_self _ _, hiff1.1 rfl⟩
    | false =>
      refine ⟨b, by simp [isInCheckLoop, hb1, hb], ?_⟩
      rw [hiff]
      constructor
      · rintro ⟨q, hq, h⟩
        exact ⟨q, List.mem_cons_of_mem _ hq, h⟩
      · rintro ⟨q, hq, h⟩
        rcases List.mem_cons.1 hq with rfl | hq
        · have := hiff1.2 h
          cases this
        · exact ⟨q, hq, h⟩

theorem getTempPieces_subset (g : GameMaster) (color : Int) :
    ∀ p ∈ g.getTempPieces color, p ∈ g._tempBoard.allPieces := by
  intro p hp
  unfold getTempPieces Board._getPieces at hp
  unfold Board.allPieces
  split at hp
  · exact List.mem_append_left _ hp
  · exact List.mem_append_right _ hp

/-- On a consistent board whose king pointer for `color` designates a live piece, `isInCheck`
returns a value, and the value is true exactly when some piece of the other vector has a
pseudo-legal move to the square of that piece. -/
theorem isInCheck_spec (g : GameMaster) (hc : g._tempBoard.Consistent) {color : Int}
    {k : Ptr} {king : Piece} (hk : g.getTempKing color = some k)
    (hking : g._tempBoard.deref k = some king) :
    ∃ b, g.isInCheck color = some b ∧
      (b = true ↔ ∃ p ∈ g.getTempPieces (_reverseColor color),
        pseudoLegal g._tempBoard p king.getPosition) := by
  unfold isInCheck
  simp only [hk, hking]
  exact g.isInCheckLoop_spec hc king.getPosition _ (g.getTempPieces_subset _)

end GameMaster

/-! ## Kings, promotion, saving and undoing -/

theorem lastKing_of_sublist {k : Option Ptr} {l l2 : List Piece} (h : kingIs k l)
    (hs : ((l2.filter Piece.isKing).map Piece.addr).Sublist
      ((l.filter Piece.isKing).map Piece.addr)) : lastKing k l2 = k := by
  obtain ⟨h1, h2⟩ := h
  cases k with
  | none => cases h1
  | some a =>
    rw [h2] at hs
    simp only [Option.toList] at hs
    rcases List.sublist_singleton.1 hs with h3 | h3
    · exact Board.lastKing_of_no_king l2 _ (List.map_eq_nil_iff.1 h3)
    · exact Board.lastKing_of_kingIs l2 _ _ ⟨rfl, h3⟩

theorem movedList_kings_sublist (l : List Piece) (a : Ptr) (dest : Square) :
    (((movedList l a dest).filter Piece.isKing).map Piece.addr).Sublist
      ((l.filter Piece.isKing).map Piece.addr) := by
  have hk2 : ∀ q : Piece,
      (if q.addr = a then q.setPosition dest else q).isKing = q.isKing := by
    intro q
    by_cases e : q.addr = a <;> simp [e, Piece.setPosition, Piece.isKing]
  have ha2 : ∀ q : Piece, (if q.addr = a then q.setPosition dest else q).addr = q.addr := by
    intro q
    by_cases e : q.addr = a <;> simp [e, Piece.setPosition]
  unfold movedList
  rw [List.filter_map, List.map_map]
  have h1 : List.filter (Piece.isKing ∘ fun q => if q.addr = a then q.setPosition dest else q)
      (l.filter (fun q => q.getPosition ≠ dest)) =
      List.filter Piece.isKing (l.filter (fun q => q.getPosition ≠ dest)) :=
    List.filter_congr (fun q _ => hk2 q)
  rw [h1]
  have h2 : List.map (Piece.addr ∘ fun q => if q.addr = a then q.setPosition dest else q)
      (List.filter Piece.isKing (l.filter (fun q => q.getPosition ≠ dest))) =
      List.map Piece.addr (List.filter Piece.isKing (l.filter (fun q => q.getPosition ≠ dest))) :=
    List.map_congr_left (fun q _ => ha2 q)
  rw [h2]
  exact List.Sublist.map _ (List.Sublist.filter _ (List.filter_sublist _))

namespace Board

/-- Dereferencing after `tempMove`: every piece that did not stand on `dest` is still there,
and the one with address `a` now stands on `dest` and has moved. -/
theorem deref_movedList {t t2 : Board} (hc2 : t2.Consistent) {a : Ptr} {dest : Square}
    (hw : t2._whitePieces = movedList t._whitePieces a dest)
    (hb : t2._blackPieces = movedList t._blackPieces a dest) {q : Piece}
    (hq : q ∈ t.allPieces) (hpos : q.getPosition ≠ dest) :
    t2.deref q.addr = some (if q.addr = a then q.setPosition dest else q) := by
  have hmem : (if q.addr = a then q.setPosition dest else q) ∈ t2.allPieces := by
    unfold allPieces
    rw [hw, hb, ← movedList_append, mem_movedList]
    exact ⟨q, hq, hpos, rfl⟩
  have := deref_of_mem hc2.2.2.2.2.1 hmem
  have ha2 : (if q.addr = a then q.setPosition dest else q).addr = q.addr := by
    by_cases e : q.addr = a <;> simp [e, Piece.setPosition]
  rw [ha2] at this
  exact this

end Board

namespace GameMaster

theorem tempMove_eq {g g1 : GameMaster} {src dest : Square} (h : g.tempMove src dest = some g1) :
    ∃ t1, g._tempBoard.tempMove src dest = some t1 ∧ g1 = { g with _tempBoard := t1 } := by
  unfold tempMove at h
  cases ht : g._tempBoard.tempMove src dest with
  | none => rw [ht] at h; cases h
  | some t1 =>
    rw [ht] at h
    simp only [Option.some.injEq] at h
    exact ⟨t1, rfl, h.symm⟩

theorem undoMoves_of_WF {g : GameMaster} (h : g._board.WF) :
    g.undoMoves = some { g with _tempBoard := g._board } := by
  unfold undoMoves
  rw [h.assign_of_WF]

/-- Saving a consistent board whose vectors keep at most the kings the saved board had. -/
theorem saveMoves_of_consistent {g : GameMaster} (hc : g._tempBoard.Consistent)
    (hwk : lastKing g._board._whiteKing g._tempBoard._whitePieces = g._tempBoard._whiteKing)
    (hbk : lastKing g._board._blackKing g._tempBoard._blackPieces = g._tempBoard._blackKing) :
    g.saveMoves = some { g with _board := g._tempBoard } := by
  unfold saveMoves
  rw [hc.assign_of_consistent hwk hbk]

end GameMaster

theorem le_foldl_max (l : List Nat) :
    ∀ init, init ≤ l.foldl max init ∧ ∀ x ∈ l, x ≤ l.foldl max init := by
  induction l with
  | nil => intro init; simp
  | cons y rest ih =>
    intro init
    obtain ⟨h1, h2⟩ := ih (max init y)
    simp only [List.foldl_cons]
    refine ⟨le_trans (le_max_left _ _) h1, ?_⟩
    intro x hx
    rcases List.mem_cons.1 hx with rfl | hx
    · exact le_trans (le_max_right _ _) h1
    · exact h2 x hx

theorem Piece.new_addr (a : Ptr) (k : Kind) (c : Int) (pos : Square) :
    (Piece.new a k c pos).addr = a := rfl

namespace Board

theorem setPieces_whiteKing (b : Board) (c : Int) (l : List Piece) :
    (b.setPieces c l)._whiteKing = b._whiteKing := by
  unfold setPieces; split <;> rfl

theorem setPieces_blackKing (b : Board) (c : Int) (l : List Piece) :
    (b.setPieces c l)._blackKing = b._blackKing := by
  unfold setPieces; split <;> rfl

theorem setPieces_board (b : Board) (c : Int) (l : List Piece) :
    (b.setPieces c l)._board = b._board := by
  unfold setPieces; split <;> rfl

theorem addr_lt_freshAddr (b : Board) {q : Piece} (hq : q ∈ b.allPieces) :
    q.addr < b.freshAddr := by
  unfold freshAddr
  have := (le_foldl_max (b.allPieces.map (fun q => q.addr)) 0).2 q.addr
    (List.mem_map.2 ⟨q, hq, rfl⟩)
  exact Nat.lt_succ_of_le this

/-- What `tempPromote` does on a consistent board: the piece the pointer designates is erased
and a queen of its colour, which counts as moved, takes its square; the result is consistent
again. -/
theorem tempPromote_spec {t : Board} (hc : t.Consistent) {a : Ptr} {pw : Piece}
    (hd : t.deref a = some pw) :
    ∃ t2 fresh, t.tempPromote a = some t2 ∧
      t2._whitePieces = t._whitePieces.filter (fun q => q.getPosition ≠ pw.getPosition) ++
        (if pw.getColor = WHITE then
          [Piece.mk fresh Kind.Queen true pw.getColor pw.getPosition] else []) ∧
      t2._blackPieces = t._blackPieces.filter (fun q => q.getPosition ≠ pw.getPosition) ++
        (if pw.getColor = WHITE then []
          else [Piece.mk fresh Kind.Queen true pw.getColor pw.getPosition]) ∧
      t2._whiteKing = t._whiteKing ∧ t2._blackKing = t._blackKing ∧
      (∀ sq, t2._getPiece sq =
        if sq = pw.getPosition then some (some fresh) else t._getPiece sq) ∧
      t2.Consistent := by
  obtain ⟨hpw, hpwa⟩ := deref_eq_some hd
  have hin := hc.inBoard hpw
  obtain ⟨t1, ht1, hw1, hb1, hwk1, hbk1, hlen1, hget1⟩ := _removePiece_spec hc hin
  have hall1 : t1.allPieces = t.allPieces.filter (fun q => q.getPosition ≠ pw.getPosition) := by
    simp only [allPieces, hw1, hb1, List.filter_append]
  have hfresh : ∀ q ∈ t1.allPieces, q.addr ≠ t1.freshAddr :=
    fun q hq => Nat.ne_of_lt (t1.addr_lt_freshAddr hq)
  have hl1 : t1._board.length = BOARD_SIZE * BOARD_SIZE := by rw [hlen1]; exact hc.1
  -- the board after `push_back`
  obtain ⟨t3, ht3⟩ := _setPiece_isSome
    (b := t1.setPieces pw.getColor (t1._getPieces pw.getColor ++
      [Piece.new t1.freshAddr Kind.Queen pw.getColor pw.getPosition]))
    (some t1.freshAddr) (by simp only [setPieces]; split <;> exact hl1) hin
  obtain ⟨_, hw3, hb3, hwk3, hbk3, hlen3, hget3⟩ := _setPiece_spec ht3
  have hne : ¬ (BLACK = WHITE) := by decide
  have hw3' : t3._whitePieces = t1._whitePieces ++ (if pw.getColor = WHITE then
      [Piece.new t1.freshAddr Kind.Queen pw.getColor pw.getPosition] else []) := by
    rw [hw3]
    by_cases hcw : pw.getColor = WHITE <;> simp [setPieces, _getPieces, hcw]
  have hb3' : t3._blackPieces = t1._blackPieces ++ (if pw.getColor = WHITE then []
      else [Piece.new t1.freshAddr Kind.Queen pw.getColor pw.getPosition]) := by
    rw [hb3]
    by_cases hcw : pw.getColor = WHITE <;> simp [setPieces, _getPieces, hcw]
  have hperm3 : t3.allPieces.Perm
      (Piece.new t1.freshAddr Kind.Queen pw.getColor pw.getPosition :: t1.allPieces) := by
    unfold allPieces
    rw [hw3', hb3']
    by_cases hcw : pw.getColor = WHITE
    · simp only [hcw, if_true, List.append_nil, List.append_assoc, List.singleton_append]
      exact List.perm_middle
    · simp only [hcw, if_false, List.append_nil]
      rw [← List.append_assoc]
      exact (List.perm_append_singleton _ _)
  have hnd1 : (t1.allPieces.map Piece.addr).Nodup := by
    rw [hall1]
    exact List.Nodup.sublist (List.Sublist.map _ (List.filter_sublist _)) hc.2.2.2.2.1
  have hnd3 : (t3.allPieces.map Piece.addr).Nodup := by
    rw [(hperm3.map Piece.addr).nodup_iff, List.map_cons, List.nodup_cons]
    refine ⟨?_, hnd1⟩
    intro hmem
    obtain ⟨q, hq, hqa⟩ := List.mem_map.1 hmem
    exact hfresh q hq hqa
  have hderef3 : t3.deref t1.freshAddr =
      some (Piece.new t1.freshAddr Kind.Queen pw.getColor pw.getPosition) := by
    have := deref_of_mem hnd3 (hperm3.mem_iff.2 (List.mem_cons_self _ _))
    exact this
  have hprom : t.tempPromote a = some (t3.updatePiece t1.freshAddr
      (fun q => q.setPosition pw.getPosition)) := by
    simp only [tempPromote, hd, ht1, Piece.new_addr, _movePiece, ht3, hderef3]
  have hmapid : ∀ l : List Piece, (∀ q ∈ l, q ∈ t1.allPieces) →
      l.map (fun q => if q.addr = t1.freshAddr then q.setPosition pw.getPosition else q) = l := by
    intro l hl
    conv => rhs; rw [← List.map_id l]
    apply List.map_congr_left
    intro q hq
    simp [hfresh q (hl q hq)]
  have hwF : (t3.updatePiece t1.freshAddr (fun q => q.setPosition pw.getPosition))._whitePieces =
      t._whitePieces.filter (fun q => q.getPosition ≠ pw.getPosition) ++
        (if pw.getColor = WHITE then
          [Piece.mk t1.freshAddr Kind.Queen true pw.getColor pw.getPosition] else []) := by
    simp only [updatePiece, hw3', List.map_append]
    rw [hmapid _ (fun q hq => List.mem_append_left _ hq), hw1]
    by_cases hcw : pw.getColor = WHITE <;> simp [hcw, Piece.new, Piece.setPosition]
  have hbF : (t3.updatePiece t1.freshAddr (fun q => q.setPosition pw.getPosition))._blackPieces =
      t._blackPieces.filter (fun q => q.getPosition ≠ pw.getPosition) ++
        (if pw.getColor = WHITE then []
          else [Piece.mk t1.freshAddr Kind.Queen true pw.getColor pw.getPosition]) := by
    simp only [updatePiece, hb3', List.map_append]
    rw [hmapid _ (fun q hq => List.mem_append_right _ hq), hb1]
    by_cases hcw : pw.getColor = WHITE <;> simp [hcw, Piece.new, Piece.setPosition]
  have hgetF : ∀ sq, (t3.updatePiece t1.freshAddr
      (fun q => q.setPosition pw.getPosition))._getPiece sq =
      if sq = pw.getPosition then some (some t1.freshAddr) else t._getPiece sq := by
    intro sq
    have : (t3.updatePiece t1.freshAddr
      (fun q => q.setPosition pw.getPosition))._getPiece sq = t3._getPiece sq := rfl
    rw [this, hget3 sq]
    by_cases e : sq = pw.getPosition
    · simp [e]
    · simp only [e, if_false]
      have : (t1.setPieces pw.getColor (t1._getPieces pw.getColor ++
        [Piece.new t1.freshAddr Kind.Queen pw.getColor pw.getPosition]))._getPiece sq =
          t1._getPiece sq := by
        simp only [setPieces]; split <;> rfl
      rw [this, hget1 sq]
      simp [e]
  have hpermF : (t3.updatePiece t1.freshAddr
      (fun q => q.setPosition pw.getPosition)).allPieces.Perm
      (Piece.mk t1.freshAddr Kind.Queen true pw.getColor pw.getPosition ::
        t.allPieces.filter (fun q => q.getPosition ≠ pw.getPosition)) := by
    unfold allPieces
    rw [hwF, hbF, List.filter_append]
    by_cases hcw : pw.getColor = WHITE
    · simp only [hcw, if_true, List.append_nil, List.append_assoc, List.singleton_append]
      exact List.perm_middle
    · simp only [hcw, if_false, List.append_nil]
      rw [← List.append_assoc]
      exact (List.perm_append_singleton _ _)
  refine ⟨_, t1.freshAddr, hprom, hwF, hbF, by simp [updatePiece, hwk3, setPieces_whiteKing, hwk1],
    by simp [updatePiece, hbk3, setPieces_blackKing, hbk1], hgetF, ?_⟩
  have hmemF : ∀ q2, q2 ∈ (t3.updatePiece t1.freshAddr
      (fun q => q.setPosition pw.getPosition)).allPieces ↔
      q2 = Piece.mk t1.freshAddr Kind.Queen true pw.getColor pw.getPosition ∨
      (q2 ∈ t.allPieces ∧ q2.getPosition ≠ pw.getPosition) := by
    intro q2
    rw [hpermF.mem_iff, List.mem_cons, List.mem_filter]
    simp
  refine ⟨by simp only [updatePiece]; rw [hlen3, setPieces_board]; exact hl1,
    ?_, ?_, ?_, ?_, ?_, ?_⟩
  · intro q2 hq2
    rw [hgetF]
    rcases (hmemF q2).1 hq2 with rfl | ⟨h1, h2⟩
    · simp [Piece.getPosition]
    · simp only [h2, if_false]
      exact hc.2.1 q2 h1
  · intro sq hsq hno
    rw [hgetF]
    have hsd : sq ≠ pw.getPosition := by
      intro e
      exact hno _ ((hmemF _).2 (Or.inl rfl)) (by simp [Piece.getPosition, e])
    simp only [hsd, if_false]
    apply hc.2.2.1 sq hsq
    intro q hq e
    exact hno q ((hmemF q).2 (Or.inr ⟨hq, by rw [e]; exact hsd⟩)) e
  · rw [(hpermF.map Piece.getPosition).nodup_iff, List.map_cons, List.nodup_cons]
    refine ⟨?_, List.Nodup.sublist (List.Sublist.map _ (List.filter_sublist _)) hc.2.2.2.1⟩
    intro hmem
    obtain ⟨q, hq, hqp⟩ := List.mem_map.1 hmem
    have := (List.mem_filter.1 hq).2
    simp only [ne_eq, decide_eq_true_eq] at this
    exact this hqp
  · rw [(hpermF.map Piece.addr).nodup_iff, List.map_cons, List.nodup_cons]
    refine ⟨?_, by rw [← hall1]; exact hnd1⟩
    intro hmem
    obtain ⟨q, hq, hqa⟩ := List.mem_map.1 hmem
    rw [← hall1] at hq
    exact hfresh q hq hqa
  · intro q2 hq2
    rw [hwF] at hq2
    rcases List.mem_append.1 hq2 with h | h
    · exact hc.2.2.2.2.2.1 q2 (List.mem_filter.1 h).1
    · by_cases hcw : pw.getColor = WHITE
      · simp only [hcw, if_true, List.mem_singleton] at h
        subst h
        rfl
      · simp [hcw] at h
  · intro q2 hq2
    rw [hbF] at hq2
    rcases List.mem_append.1 hq2 with h | h
    · exact hc.2.2.2.2.2.2 q2 (List.mem_filter.1 h).1
    · by_cases hcw : pw.getColor = WHITE
      · simp [hcw] at h
      · simp only [hcw, if_false, List.mem_singleton] at h
        subst h
        rcases hc.color hpw with h1 | h1
        · exact absurd h1 hcw
        · exact h1

end Board

/-! ## The method `move` -/

theorem kingIs_spec {k : Option Ptr} {l : List Piece} (h : kingIs k l) :
    ∃ K, k = some K.addr ∧ K ∈ l ∧ K.isKing = true ∧ l.filter Piece.isKing = [K] := by
  obtain ⟨h1, h2⟩ := h
  cases k with
  | none => cases h1
  | some a =>
    simp only [Option.toList] at h2
    obtain ⟨K, rest, hK, hKa, hrest⟩ := List.map_eq_cons_iff.1 h2
    rw [List.map_eq_nil_iff] at hrest
    subst hrest
    have hmem : K ∈ l.filter Piece.isKing := by rw [hK]; exact List.mem_singleton_self _
    rw [List.mem_filter] at hmem
    exact ⟨K, by rw [hKa], hmem.1, hmem.2, hK⟩

namespace Board

/-- In a board that satisfies the invariants each colour has its king, and the king pointer
of the colour designates it. -/
theorem WF.king {t : Board} (h : t.WF) {c : Int} (hc : c = WHITE ∨ c = BLACK) :
    ∃ K, t._getKing c = some K.addr ∧ K ∈ t._getPieces c ∧ K ∈ t.allPieces ∧
      K.isKing = true ∧ K.getColor = c ∧ t.deref K.addr = some K := by
  have hcons := h.consistent
  obtain ⟨_, hwk, hbk⟩ := (WF_iff t).1 h
  have hne : ¬ (BLACK = WHITE) := by decide
  rcases hc with rfl | rfl
  · obtain ⟨K, h1, h2, h3, _⟩ := kingIs_spec hwk
    have hall : K ∈ t.allPieces := List.mem_append_left _ h2
    exact ⟨K, by simp [_getKing, h1], by simpa [_getPieces] using h2, hall, h3,
      hcons.2.2.2.2.2.1 K h2, deref_of_mem hcons.2.2.2.2.1 hall⟩
  · obtain ⟨K, h1, h2, h3, _⟩ := kingIs_spec hbk
    have hall : K ∈ t.allPieces := List.mem_append_right _ h2
    exact ⟨K, by simp [_getKing, hne, h1], by simpa [_getPieces, hne] using h2, hall, h3,
      hcons.2.2.2.2.2.2 K h2, deref_of_mem hcons.2.2.2.2.1 hall⟩

end Board

theorem pseudoLegal_congr {t t2 : Board} (h : ∀ sq, t2.colorAt sq = t.colorAt sq) (p : Piece)
    (dest : Square) : pseudoLegal t2 p dest ↔ pseudoLegal t p dest := by
  unfold pseudoLegal
  simp only [h]

namespace GameMaster

theorem _isEmptyPath_congr {g g2 : GameMaster} (h : g2._tempBoard = g._tempBoard)
    (path : List Square) : g2._isEmptyPath path = g._isEmptyPath path := by
  induction path with
  | nil => rfl
  | cons sq rest ih => simp only [_isEmptyPath, getTempPiece, h, ih]

theorem _isPseudoPath_congr {g g2 : GameMaster} (h : g2._tempBoard = g._tempBoard)
    (p : Piece) (dest : Square) : g2._isPseudoPath p dest = g._isPseudoPath p dest := by
  simp only [_isPseudoPath, reachAndPath, getTempPiece, h, _isEmptyPath_congr h]

theorem isInCheckLoop_congr {g g2 : GameMaster} (h : g2._tempBoard = g._tempBoard)
    (kingPosition : Square) (l : List Piece) :
    g2.isInCheckLoop kingPosition l = g.isInCheckLoop kingPosition l := by
  induction l with
  | nil => rfl
  | cons p rest ih => simp only [isInCheckLoop, _isPseudoPath_congr h, ih]

/-- The method `isInCheck` reads the board moves are made on, and nothing else. -/
theorem isInCheck_congr (g g2 : GameMaster) (h : g2._tempBoard = g._tempBoard) (color : Int) :
    g2.isInCheck color = g.isInCheck color := by
  simp only [isInCheck, getTempKing, getTempPieces, h, isInCheckLoop_congr h]

theorem promoted_kings_sublist (l : List Piece) (pos : Square) (extra : List Piece)
    (hextra : ∀ q ∈ extra, q.isKing = false) :
    (((l.filter (fun q => q.getPosition ≠ pos) ++ extra).filter Piece.isKing).map
      Piece.addr).Sublist ((l.filter Piece.isKing).map Piece.addr) := by
  rw [List.filter_append]
  have : extra.filter Piece.isKing = [] := by
    rw [List.filter_eq_nil_iff]
    intro q hq
    simp [hextra q hq]
  rw [this, List.append_nil]
  exact List.Sublist.map _ (List.Sublist.filter _ (List.filter_sublist _))

/-- The last steps of an accepted `move`: the optional promotion and `saveMoves` succeed, and
the saved board becomes equal to the board moves are made on. -/
theorem accept_tail {b t1 : Board} (hb : b.WF) (hc1 : t1.Consistent) {a : Ptr} {dest : Square}
    (hw1 : t1._whitePieces = movedList b._whitePieces a dest)
    (hb1 : t1._blackPieces = movedList b._blackPieces a dest)
    (hwk1 : t1._whiteKing = b._whiteKing) (hbk1 : t1._blackKing = b._blackKing)
    {pw : Piece} (hd : t1.deref a = some pw) (promotion : Bool) :
    ∃ t2, (if promotion then t1.tempPromote a else some t1) = some t2 ∧ t2.Consistent ∧
      saveMoves ⟨b, t2⟩ = some ⟨t2, t2⟩ := by
  obtain ⟨_, hkw, hkb⟩ := (Board.WF_iff b).1 hb
  cases promotion with
  | false =>
    refine ⟨t1, by simp, hc1, ?_⟩
    apply saveMoves_of_consistent (g := ⟨b, t1⟩) hc1
    · simp only [hw1, hwk1]
      exact lastKing_of_sublist hkw (movedList_kings_sublist _ _ _)
    · simp only [hb1, hbk1]
      exact lastKing_of_sublist hkb (movedList_kings_sublist _ _ _)
  | true =>
    obtain ⟨t2, fresh, ht2, hw2, hb2, hwk2, hbk2, _, hc2⟩ := Board.tempPromote_spec hc1 hd
    refine ⟨t2, by simp [ht2], hc2, ?_⟩
    apply saveMoves_of_consistent (g := ⟨b, t2⟩) hc2
    · simp only [hw2, hwk2, hwk1]
      apply lastKing_of_sublist hkw
      refine List.Sublist.trans (promoted_kings_sublist _ _ _ ?_)
        (hw1 ▸ movedList_kings_sublist _ _ _)
      intro q hq
      split at hq
      · simp only [List.mem_singleton] at hq
        subst hq
        rfl
      · cases hq
    · simp only [hb2, hbk2, hbk1]
      apply lastKing_of_sublist hkb
      refine List.Sublist.trans (promoted_kings_sublist _ _ _ ?_)
        (hb1 ▸ movedList_kings_sublist _ _ _)
      intro q hq
      split at hq
      · cases hq
      · simp only [List.mem_singleton] at hq
        subst hq
        rfl

theorem with_tempBoard_self {g : GameMaster} (ht : g._tempBoard = g._board) (t1 : Board) :
    ({ ({ g with _tempBoard := t1 } : GameMaster) with _tempBoard := g._board } : GameMaster)
      = g := by
  cases g
  simp only at ht
  subst ht
  rfl

/-- The behaviour of `move` in a state that satisfies the invariants: it returns, and it either
rejects, leaves the state as it was and the acceptance conditions fail, or it accepts, the
conditions hold, and both boards become the board after `tempMove` (and `tempPromote`, for a
pawn that reaches the last rank). -/
theorem move_spec (g : GameMaster) (hwf : g.WF) (src dest : Square) (cp : Int) (chk : Bool) :
    (g.move src dest cp chk = some (false, g) ∧ ¬ moveConditions g src dest cp chk) ∨
    (∃ a p t1 t2, g._tempBoard._getPiece src = some (some a) ∧
      g._tempBoard.deref a = some p ∧ p ∈ g._tempBoard.allPieces ∧ p.getPosition = src ∧
      p.getColor = cp ∧ dest ≠ src ∧ isInBoard dest = true ∧
      g._tempBoard.tempMove src dest = some t1 ∧
      (if (p.isPawn && decide (dest.rank = if p.getColor = WHITE then MAX_RANK else MIN_RANK))
        then t1.tempPromote a else some t1) = some t2 ∧
      g.move src dest cp chk = some (true, ⟨t2, t2⟩) ∧ moveConditions g src dest cp chk) := by
  obtain ⟨hb, ht⟩ := hwf
  have htwf : g._tempBoard.WF := ht ▸ hb
  have hcons : g._tempBoard.Consistent := htwf.consistent
  by_cases hsrc : isInBoard src = true
  swap
  · left
    exact ⟨by simp [move, hsrc], fun h => hsrc h.1⟩
  obtain ⟨v, hv⟩ := hcons.getPiece_isSome hsrc
  cases v with
  | none =>
    left
    refine ⟨by simp [move, hsrc, getTempPiece, hv], ?_⟩
    rintro ⟨_, a, p, h1, _⟩
    simp [getTempPiece, hv] at h1
  | some a =>
    obtain ⟨p, hp, hpa, hppos, hderef⟩ := hcons.occupant hv
    have huniq : ∀ a2 p2, g.getTempPiece src = some (some a2) → g._tempBoard.deref a2 = some p2 →
        p2 = p := by
      intro a2 p2 h1 h2
      simp only [getTempPiece, hv, Option.some.injEq] at h1
      subst h1
      rw [hderef] at h2
      simp only [Option.some.injEq] at h2
      exact h2.symm
    by_cases hcol : p.getColor = cp
    swap
    · left
      refine ⟨by simp [move, hsrc, getTempPiece, hv, hderef, hcol], ?_⟩
      rintro ⟨_, a2, p2, h1, h2, h3, _⟩
      rw [huniq a2 p2 h1 h2] at h3
      exact hcol h3
    by_cases hchk : (chk && !p.isKing) = true
    · left
      refine ⟨by simp [move, hsrc, getTempPiece, hv, hderef, hcol, hchk], ?_⟩
      rintro ⟨_, a2, p2, h1, h2, _, h4, _⟩
      rw [huniq a2 p2 h1 h2] at h4
      simp only [Bool.and_eq_true, Bool.not_eq_true'] at hchk
      rcases h4 with h4 | h4
      · rw [h4] at hchk; exact absurd hchk.1 (by simp)
      · rw [h4] at hchk; exact absurd hchk.2 (by simp)
    obtain ⟨b, hb1, hiff⟩ := g._isPseudoPath_spec hcons hp dest
    cases b with
    | false =>
      left
      refine ⟨by simp [move, hsrc, getTempPiece, hv, hderef, hcol, hchk, hb1], ?_⟩
      rintro ⟨_, a2, p2, h1, h2, _, _, h5, _⟩
      rw [huniq a2 p2 h1 h2] at h5
      exact absurd (hiff.2 h5) (by simp)
    | true =>
      have hpl := hiff.1 rfl
      obtain ⟨hdest, v1, hv1, hv2, _, _⟩ := hpl
      have hne : dest ≠ src := by
        intro e
        have := hcons.colorAt_of_mem hp
        rw [hppos, ← e, hv1] at this
        simp only [Option.some.injEq] at this
        exact hv2 this
      obtain ⟨t1, ht1, hw1, hb1', hwk1, hbk1, hget1, hc1⟩ :=
        Board.tempMove_spec hcons hv hdest hne
      have hprom : g._isPromotion src dest = some (p.isPawn &&
          decide (dest.rank = if p.getColor = WHITE then MAX_RANK else MIN_RANK)) := by
        simp [_isPromotion, getTempPiece, hv, hderef]
      have hmove : g.tempMove src dest = some { g with _tempBoard := t1 } := by
        simp [tempMove, ht1]
      have hpne : p.getPosition ≠ dest := by rw [hppos]; exact Ne.symm hne
      have hderef1 : t1.deref a = some (p.setPosition dest) := by
        have := Board.deref_movedList hc1 hw1 hb1' hp hpne
        simpa [hpa] using this
      have hcp : cp = WHITE ∨ cp = BLACK := hcol ▸ hcons.color hp
      obtain ⟨K, hK1, _, hK3, _, hK5, _⟩ := htwf.king hcp
      have hKpos : K.getPosition ≠ dest := by
        intro e
        have := hcons.colorAt_of_mem hK3
        rw [e, hv1, hK5, ← hcol] at this
        simp only [Option.some.injEq] at this
        exact hv2 this
      have hking1 : ({ g with _tempBoard := t1 } : GameMaster).getTempKing cp = some K.addr := by
        simp only [getTempKing, Board._getKing, hwk1, hbk1]
        exact hK1
      obtain ⟨bc, hbc, _⟩ := isInCheck_spec ({ g with _tempBoard := t1 } : GameMaster) hc1
        hking1 (Board.deref_movedList hc1 hw1 hb1' hK3 hKpos)
      have hmcol : (p.setPosition dest).getColor = cp := by
        simpa [Piece.setPosition, Piece.getColor] using hcol
      cases bc with
      | true =>
        left
        refine ⟨?_, ?_⟩
        · have hundo := undoMoves_of_WF (g := ({ g with _tempBoard := t1 } : GameMaster)) hb
          rw [with_tempBoard_self ht] at hundo
          simp [move, hsrc, getTempPiece, hv, hderef, hcol, hchk, hb1, hprom, hmove, hderef1,
            hmcol, hbc, hundo]
        · rintro ⟨_, _, _, _, _, _, _, _, g1, h6, h7⟩
          rw [hmove] at h6
          simp only [Option.some.injEq] at h6
          subst h6
          rw [hbc] at h7
          simp at h7
      | false =>
        right
        obtain ⟨t2, ht2, hc2, hsave⟩ := accept_tail htwf hc1 hw1 hb1' hwk1 hbk1 hderef1
          (p.isPawn && decide (dest.rank = if p.getColor = WHITE then MAX_RANK else MIN_RANK))
        have hsave2 : saveMoves ⟨g._board, t2⟩ = some ⟨t2, t2⟩ := by rw [← ht]; exact hsave
        refine ⟨a, p, t1, t2, hv, hderef, hp, hppos, hcol, hne, hdest, ht1, ht2, ?_, ?_⟩
        · simp only [move, hsrc, getTempPiece, hv, hderef, hcol, hchk, hb1, hprom, hmove,
            hderef1, hmcol, hbc, Bool.not_true, Bool.false_eq_true, if_false, ne_eq,
            not_true_eq_false]
          by_cases hpr : (p.isPawn &&
              decide (dest.rank = if p.getColor = WHITE then MAX_RANK else MIN_RANK)) = true
          · simp only [hcol] at hpr ht2
            simp only [hpr, if_true] at ht2 ⊢
            simp only [tempPromote, ht2, hsave2]
          · simp only [hcol] at hpr ht2
            simp only [hpr] at ht2 ⊢
            simp only [Bool.false_eq_true, if_false, Option.some.injEq] at ht2 ⊢
            subst ht2
            simp only [hsave2]
        · refine ⟨hsrc, a, p, hv, hderef, hcol, ?_, hiff.1 rfl, _, hmove, hbc⟩
          simp only [Bool.and_eq_true, Bool.not_eq_true', not_and, Bool.not_eq_false] at hchk
          cases chk with
          | false => exact Or.inl rfl
          | true => exact Or.inr (hchk rfl)

end GameMaster

namespace GameMaster

/-- The paths through `GameMaster::move`. -/
theorem move_inv {g g' : GameMaster} {src dest : Square} {currentPlayer : Int}
    {isCurrentInCheck res : Bool}
    (h : g.move src dest currentPlayer isCurrentInCheck = some (res, g')) :
    (res = false ∧ g' = g) ∨
    ∃ a srcPiece promotion g1 moved,
      isInBoard src = true ∧
      g.getTempPiece src = some (some a) ∧ g._tempBoard.deref a = some srcPiece ∧
      srcPiece.getColor = currentPlayer ∧ (isCurrentInCheck && !srcPiece.isKing) = false ∧
      g._isPseudoPath srcPiece dest = some true ∧ g._isPromotion src dest = some promotion ∧
      g.tempMove src dest = some g1 ∧ g1._tempBoard.deref a = some moved ∧
      ((g1.isInCheck moved.getColor = some true ∧ res = false ∧ g1.undoMoves = some g') ∨
       (g1.isInCheck moved.getColor = some false ∧ res = true ∧
         ∃ g2, (if promotion then g1.tempPromote a else some g1) = some g2 ∧
           g2.saveMoves = some g')) := by
  unfold GameMaster.move at h
  repeat' split at h
  all_goals first
    | (exfalso; simp at h; done)
    | (left; simp only [Option.some.injEq, Prod.mk.injEq] at h; exact ⟨h.1.symm, h.2.symm⟩)
    | skip
  all_goals
    right
    simp only [Option.some.injEq, Prod.mk.injEq] at h
    obtain ⟨h1, h2⟩ := h
    subst h1 h2
    refine ⟨_, _, _, _, _, ?_, ‹_›, ‹_›, ?_, ?_, ‹_›, ‹_›, ‹_›, ‹_›, ?_⟩
    · simpa using ‹¬(!isInBoard src) = true›
    · simpa using ‹¬ _ ≠ currentPlayer›
    · exact Bool.eq_false_iff.2 ‹¬(isCurrentInCheck && _) = true›
    · first
        | exact Or.inl ⟨‹_›, rfl, ‹_›⟩
        | exact Or.inr ⟨‹_›, rfl, _, ‹_›, ‹_›⟩

end GameMaster

namespace GameMaster

/-- Replacing a piece that is not a king by a queen of its colour changes neither the colours
seen on the squares, nor the king of that colour, nor the vector of the other colour. -/
theorem tempPromote_view {t1 t2 : Board} (hc1 : t1.Consistent) {a : Ptr} {pw : Piece}
    (hd : t1.deref a = some pw) (ht2 : t1.tempPromote a = some t2) :
    t2.Consistent ∧ (∀ sq, t2.colorAt sq = t1.colorAt sq) ∧
    (∀ q ∈ t1.allPieces, q.getPosition ≠ pw.getPosition →
      q ∈ t2.allPieces ∧ t2.deref q.addr = some q) ∧
    t2._whiteKing = t1._whiteKing ∧ t2._blackKing = t1._blackKing ∧
    t2._getPieces (_reverseColor pw.getColor) = t1._getPieces (_reverseColor pw.getColor) := by
  obtain ⟨t2', fresh, ht2', hw2, hb2, hwk2, hbk2, hget2, hc2⟩ := Board.tempPromote_spec hc1 hd
  rw [ht2] at ht2'
  simp only [Option.some.injEq] at ht2'
  subst ht2'
  obtain ⟨hpw, hpwa⟩ := Board.deref_eq_some hd
  have hsurv : ∀ q ∈ t1.allPieces, q.getPosition ≠ pw.getPosition →
      q ∈ t2.allPieces ∧ t2.deref q.addr = some q := by
    intro q hq hpos
    have hmem : q ∈ t2.allPieces := by
      unfold Board.allPieces at hq ⊢
      rw [hw2, hb2]
      have hdec : decide (q.getPosition ≠ pw.getPosition) = true := by simpa using hpos
      rcases List.mem_append.1 hq with h | h
      · exact List.mem_append_left _ (List.mem_append_left _ (List.mem_filter.2 ⟨h, hdec⟩))
      · exact List.mem_append_right _ (List.mem_append_left _ (List.mem_filter.2 ⟨h, hdec⟩))
    exact ⟨hmem, Board.deref_of_mem hc2.2.2.2.2.1 hmem⟩
  have hqueen : Piece.mk fresh Kind.Queen true pw.getColor pw.getPosition ∈ t2.allPieces := by
    unfold Board.allPieces
    rw [hw2, hb2]
    by_cases hcw : pw.getColor = WHITE
    · simp [hcw]
    · simp [hcw]
  refine ⟨hc2, ?_, hsurv, hwk2, hbk2, ?_⟩
  · intro sq
    by_cases e : sq = pw.getPosition
    · subst e
      rw [hc1.colorAt_of_mem hpw]
      have := hc2.colorAt_of_mem hqueen
      simpa [Piece.getPosition, Piece.getColor] using this
    · have hg := hget2 sq
      simp only [e, if_false] at hg
      unfold Board.colorAt
      rw [hg]
      cases hv : t1._getPiece sq with
      | none => rfl
      | some v =>
        cases v with
        | none => rfl
        | some d =>
          obtain ⟨x, hx, hxa, hxpos, hxd⟩ := hc1.occupant hv
          have := (hsurv x hx (by rw [hxpos]; exact e)).2
          rw [hxa] at this
          simp only [this, hxd]
  · have hne : ¬ (BLACK = WHITE) := by decide
    have hfilt : ∀ l : List Piece, (∀ q ∈ l, q ∈ t1.allPieces) → pw ∉ l →
        l.filter (fun q => q.getPosition ≠ pw.getPosition) = l := by
      intro l hl hnot
      rw [List.filter_eq_self]
      intro q hq
      simp only [ne_eq, decide_eq_true_eq]
      intro e
      exact hnot ((hc1.pos_inj (hl q hq) hpw e) ▸ hq)
    rcases List.mem_append.1 hpw with h | h
    · have hcw := hc1.2.2.2.2.2.1 pw h
      have hr : _reverseColor pw.getColor ≠ WHITE := by rw [hcw]; decide
      simp only [Board._getPieces, hr, if_false, hb2, hcw, if_true, List.append_nil]
      exact hfilt _ (fun q hq => List.mem_append_right _ hq) (fun h2 => hc1.not_mem_both h h2)
    · have hcb := hc1.2.2.2.2.2.2 pw h
      have hr : _reverseColor pw.getColor = WHITE := by rw [hcb]; decide
      simp only [Board._getPieces, hr, if_true, hw2, hcb, hne, if_false, List.append_nil]
      exact hfilt _ (fun q hq => List.mem_append_left _ hq) (fun h2 => hc1.not_mem_both h2 h)

/-- The promotion at the end of `move` does not change whether the mover is in check. -/
theorem isInCheck_tempPromote (b b2 : Board) {t1 t2 : Board} (hc1 : t1.Consistent) {a : Ptr} {pw K : Piece}
    (hd : t1.deref a = some pw) (ht2 : t1.tempPromote a = some t2) (hpk : pw.isKing = false)
    (hK : t1._getKing pw.getColor = some K.addr) (hKd : t1.deref K.addr = some K)
    (hKk : K.isKing = true) :
    isInCheck ⟨b2, t2⟩ pw.getColor = isInCheck ⟨b, t1⟩ pw.getColor := by
  obtain ⟨hc2, hcol, hsurv, hwk, hbk, hen⟩ := tempPromote_view hc1 hd ht2
  obtain ⟨hpw, _⟩ := Board.deref_eq_some hd
  obtain ⟨hKm, _⟩ := Board.deref_eq_some hKd
  have hKpos : K.getPosition ≠ pw.getPosition := by
    intro e
    have := hc1.pos_inj hKm hpw e
    rw [this, hpk] at hKk
    cases hKk
  have hK2 : (⟨b2, t2⟩ : GameMaster).getTempKing pw.getColor = some K.addr := by
    simp only [getTempKing, Board._getKing, hwk, hbk]
    exact hK
  obtain ⟨r1, hr1, hiff1⟩ := isInCheck_spec (⟨b, t1⟩ : GameMaster) hc1
    (show (⟨b, t1⟩ : GameMaster).getTempKing pw.getColor = some K.addr from hK) hKd
  obtain ⟨r2, hr2, hiff2⟩ := isInCheck_spec (⟨b2, t2⟩ : GameMaster) hc2 hK2
    (hsurv K hKm hKpos).2
  rw [hr1, hr2]
  congr 1
  have : r2 = true ↔ r1 = true := by
    rw [hiff1, hiff2]
    simp only [getTempPieces, hen, pseudoLegal_congr hcol]
  cases r1 <;> cases r2 <;> simp_all

end GameMaster

/-! ## The claims about `move` and `isInCheck` -/

namespace GameMaster

/-- C1. In a state that satisfies the data-model invariants, with the board moves are made on
equal to the saved board, `move` returns for every `src`, `dest`, `currentPlayer` and
`isCurrentInCheck`, and whenever it returns false the state after the call (matrix, both
vectors with every piece's kind, colour, position and moved flag, both king pointers, on both
boards) is the state before the call. -/
theorem move_rejected_restores_state (g : GameMaster) (hwf : g.WF) (src dest : Square)
    (currentPlayer : Int) (isCurrentInCheck : Bool) :
    (∃ r, g.move src dest currentPlayer isCurrentInCheck = some r) ∧
    ∀ g2, g.move src dest currentPlayer isCurrentInCheck = some (false, g2) → g2 = g := by
  rcases move_spec g hwf src dest currentPlayer isCurrentInCheck with
    ⟨h, _⟩ | ⟨_, _, _, _, _, _, _, _, _, _, _, _, _, h, _⟩
  · refine ⟨⟨_, h⟩, fun g2 h2 => ?_⟩
    rw [h] at h2
    simp only [Option.some.injEq, Prod.mk.injEq, true_and] at h2
    exact h2.symm
  · refine ⟨⟨_, h⟩, fun g2 h2 => ?_⟩
    rw [h] at h2
    simp at h2

theorem move_rejected_restores_state_witness :
    pinnedState.WF ∧ pinnedState.move E2 A2 WHITE false = some (false, pinnedState) ∧
    ((∃ r, pinnedState.move E2 A2 WHITE false = some r) ∧
      ∀ g2, pinnedState.move E2 A2 WHITE false = some (false, g2) → g2 = pinnedState) :=
  ⟨by decide, by decide,
    move_rejected_restores_state pinnedState (by decide) E2 A2 WHITE false⟩

/-- C3. In a state that satisfies the data-model invariants (both kings present, the two boards
equal), if `move` returns true then `isInCheck(currentPlayer)` on the resulting state returns
false; this covers the promotion, which is made after the safety test. -/
theorem move_accepted_leaves_mover_safe (g : GameMaster) (hwf : g.WF) (src dest : Square)
    (currentPlayer : Int) (isCurrentInCheck : Bool) (g2 : GameMaster)
    (h : g.move src dest currentPlayer isCurrentInCheck = some (true, g2)) :
    g2.isInCheck currentPlayer = some false := by
  have htwf : g._tempBoard.WF := hwf.2 ▸ hwf.1
  rcases move_spec g hwf src dest currentPlayer isCurrentInCheck with
    ⟨h1, _⟩ | ⟨a, p, t1, t2, hv, hderef, hp, hppos, hcol, hne, hdest, ht1, ht2, hm, hcond⟩
  · rw [h1] at h
    simp at h
  rw [hm] at h
  simp only [Option.some.injEq, Prod.mk.injEq, true_and] at h
  subst h
  obtain ⟨_, a2, p2, ha2, hp2, _, _, hpl, g1, hg1, hsafe⟩ := hcond
  obtain ⟨t1', ht1', hg1'⟩ := tempMove_eq hg1
  rw [ht1] at ht1'
  simp only [Option.some.injEq] at ht1'
  subst ht1' hg1'
  by_cases hpr : (p.isPawn &&
      decide (dest.rank = if p.getColor = WHITE then MAX_RANK else MIN_RANK)) = true
  · simp only [hpr, if_true] at ht2
    obtain ⟨t1', ht1', hw1, hb1, hwk1, hbk1, _, hc1⟩ :=
      Board.tempMove_spec htwf.consistent hv hdest hne
    rw [ht1] at ht1'
    simp only [Option.some.injEq] at ht1'
    subst ht1'
    have hpne : p.getPosition ≠ dest := by rw [hppos]; exact Ne.symm hne
    have hderef1 : t1.deref a = some (p.setPosition dest) := by
      have := Board.deref_movedList hc1 hw1 hb1 hp hpne
      have hpa := (Board.deref_eq_some hderef).2
      simpa [hpa] using this
    have hcp : currentPlayer = WHITE ∨ currentPlayer = BLACK := hcol ▸ htwf.consistent.color hp
    obtain ⟨K, hK1, _, hK3, hK4, hK5, _⟩ := htwf.king hcp
    have e2 : p2 = p := by
      simp only [getTempPiece, hv, Option.some.injEq] at ha2
      subst ha2
      rw [hderef] at hp2
      exact (Option.some.inj hp2).symm
    rw [e2] at hpl
    obtain ⟨_, v1, hv1, hv2, _, _⟩ := hpl
    have hKpos : K.getPosition ≠ dest := by
      intro e
      have := htwf.consistent.colorAt_of_mem hK3
      rw [e, hv1, hK5, ← hcol] at this
      simp only [Option.some.injEq] at this
      exact hv2 this
    have hpk : (p.setPosition dest).isKing = false := by
      simp only [Bool.and_eq_true] at hpr
      have := hpr.1
      simp only [Piece.isPawn] at this
      simp only [Piece.setPosition, Piece.isKing]
      split at this <;> simp_all
    have hmc : (p.setPosition dest).getColor = currentPlayer := by
      simpa [Piece.setPosition, Piece.getColor] using hcol
    have hKd1 := Board.deref_movedList hc1 hw1 hb1 hK3 hKpos
    have hKa : (if K.addr = a then K.setPosition dest else K).addr = K.addr := by
      by_cases e : K.addr = a <;> simp [e, Piece.setPosition]
    have hKk : (if K.addr = a then K.setPosition dest else K).isKing = true := by
      by_cases e : K.addr = a <;> simpa [e, Piece.setPosition, Piece.isKing] using hK4
    have hK1' : t1._getKing (p.setPosition dest).getColor =
        some (if K.addr = a then K.setPosition dest else K).addr := by
      rw [hKa, hmc]
      simp only [Board._getKing, hwk1, hbk1]
      exact hK1
    have := isInCheck_tempPromote g._board t2 hc1 hderef1 ht2 hpk hK1'
      (by rw [hKa]; exact hKd1) hKk
    rw [hmc] at this
    rw [this]
    exact hsafe
  · simp only [hpr] at ht2
    simp only [Bool.false_eq_true, if_false, Option.some.injEq] at ht2
    subst ht2
    exact (isInCheck_congr ({ g with _tempBoard := t1 } : GameMaster) ⟨t1, t1⟩ rfl
      currentPlayer).trans hsafe

theorem move_accepted_leaves_mover_safe_witness :
    promotionState.WF ∧ promotionState.move A7 A8 WHITE false = some (true, promotedState) ∧
    promotedState.isInCheck WHITE = some false :=
  ⟨by decide, by decide,
    move_accepted_leaves_mover_safe promotionState (by decide) A7 A8 WHITE false promotedState
      (by decide)⟩

/-- C4. In a state that satisfies the data-model invariants, `move(src, dest, currentPlayer,
isCurrentInCheck)` returns true if and only if: `src` is on the board and holds a piece `p` of
colour `currentPlayer`; `isCurrentInCheck` is false or `p` is a king; `dest` is on the board
and not occupied by a piece of the colour of `p`; `p.canReach(dest, isCapture)` holds, with
`isCapture` telling whether `dest` is occupied; every square of `p.getPathTo(dest)` is empty;
and on the board obtained by `tempMove(src, dest)` the player is not in check. -/
theorem move_accepts_iff (g : GameMaster) (hwf : g.WF) (src dest : Square)
    (currentPlayer : Int) (isCurrentInCheck : Bool) :
    (∃ g2, g.move src dest currentPlayer isCurrentInCheck = some (true, g2)) ↔
    (isInBoard src = true ∧
      ∃ a p, g.getTempPiece src = some (some a) ∧ g._tempBoard.deref a = some p ∧
        p.getColor = currentPlayer ∧ (isCurrentInCheck = false ∨ p.isKing = true) ∧
        (isInBoard dest = true ∧
          ∃ v, g._tempBoard.colorAt dest = some v ∧ v ≠ some p.getColor ∧
            p.canReach dest v.isSome = true ∧
            ∃ path, p.getPathTo dest = some path ∧
              ∀ sq ∈ path, g._tempBoard.colorAt sq = some none) ∧
        ∃ g1, g.tempMove src dest = some g1 ∧ g1.isInCheck currentPlayer = some false) := by
  show _ ↔ g.moveConditions src dest currentPlayer isCurrentInCheck
  rcases move_spec g hwf src dest currentPlayer isCurrentInCheck with
    ⟨h1, h2⟩ | ⟨_, _, _, t2, _, _, _, _, _, _, _, _, _, hm, hcond⟩
  · constructor
    · rintro ⟨g2, hg2⟩
      rw [h1] at hg2
      simp at hg2
    · intro h
      exact absurd h h2
  · exact ⟨fun _ => hcond, fun _ => ⟨_, hm⟩⟩

theorem move_accepts_iff_witness :
    pinnedState.WF ∧
    ((∃ g2, pinnedState.move E2 E5 WHITE false = some (true, g2)) ↔
    (isInBoard E2 = true ∧
      ∃ a p, pinnedState.getTempPiece E2 = some (some a) ∧
        pinnedState._tempBoard.deref a = some p ∧
        p.getColor = WHITE ∧ (false = false ∨ p.isKing = true) ∧
        (isInBoard E5 = true ∧
          ∃ v, pinnedState._tempBoard.colorAt E5 = some v ∧ v ≠ some p.getColor ∧
            p.canReach E5 v.isSome = true ∧
            ∃ path, p.getPathTo E5 = some path ∧
              ∀ sq ∈ path, pinnedState._tempBoard.colorAt sq = some none) ∧
        ∃ g1, pinnedState.tempMove E2 E5 = some g1 ∧ g1.isInCheck WHITE = some false)) :=
  ⟨by decide, move_accepts_iff pinnedState (by decide) E2 E5 WHITE false⟩

/-- C5. `move` returns false, and leaves the state as it is, whenever `src` is outside the
8x8 board, or the square `src` is empty, or the piece on `src` has a colour different from
`currentPlayer`, whatever `dest` and `isCurrentInCheck` are. -/
theorem move_rejects_bad_source (g : GameMaster) (src dest : Square) (currentPlayer : Int)
    (isCurrentInCheck : Bool)
    (h : isInBoard src = false ∨ g.getTempPiece src = some none ∨
      ∃ a p, g.getTempPiece src = some (some a) ∧ g._tempBoard.deref a = some p ∧
        p.getColor ≠ currentPlayer) :
    g.move src dest currentPlayer isCurrentInCheck = some (false, g) := by
  rcases h with h | h | ⟨a, p, h1, h2, h3⟩
  · simp [move, h]
  · have hin : isInBoard src = true := Board._getPiece_inBoard h
    simp [move, hin, h]
  · have hin : isInBoard src = true := Board._getPiece_inBoard h1
    simp [move, hin, h1, h2, h3]

theorem move_rejects_bad_source_witness :
    (isInBoard E2 = false ∨ pinnedState.getTempPiece E2 = some none ∨
      ∃ a p, pinnedState.getTempPiece E2 = some (some a) ∧
        pinnedState._tempBoard.deref a = some p ∧ p.getColor ≠ BLACK) ∧
    pinnedState.move E2 E5 BLACK false = some (false, pinnedState) :=
  ⟨Or.inr (Or.inr ⟨1, Piece.new 1 Kind.Rook WHITE E2, by decide, by decide, by decide⟩),
    move_rejects_bad_source pinnedState E2 E5 BLACK false
      (Or.inr (Or.inr ⟨1, Piece.new 1 Kind.Rook WHITE E2, by decide, by decide, by decide⟩))⟩

/-- C6. Called with `isCurrentInCheck = true`, `move` returns false, and leaves the state as it
is, whenever the piece on `src` is not a king, whatever the board, `dest` and `currentPlayer`
are (also when the move would block the check or capture the checking piece). -/
theorem move_in_check_rejects_non_king (g : GameMaster) (src dest : Square)
    (currentPlayer : Int) (a : Ptr) (p : Piece)
    (h1 : g.getTempPiece src = some (some a)) (h2 : g._tempBoard.deref a = some p)
    (h3 : p.isKing = false) :
    g.move src dest currentPlayer true = some (false, g) := by
  have hin : isInBoard src = true := Board._getPiece_inBoard h1
  by_cases hc : p.getColor = currentPlayer
  · simp [move, hin, h1, h2, h3, hc]
  · simp [move, hin, h1, h2, hc]

theorem move_in_check_rejects_non_king_witness :
    pinnedState.getTempPiece E2 = some (some 1) ∧
    pinnedState._tempBoard.deref 1 = some (Piece.new 1 Kind.Rook WHITE E2) ∧
    (Piece.new 1 Kind.Rook WHITE E2).isKing = false ∧
    pinnedState.move E2 E8 WHITE true = some (false, pinnedState) :=
  ⟨by decide, by decide, by decide,
    move_in_check_rejects_non_king pinnedState E2 E8 WHITE 1 (Piece.new 1 Kind.Rook WHITE E2)
      (by decide) (by decide) (by decide)⟩

end GameMaster

theorem movedList_length_of_no_dest (l : List Piece) (a : Ptr) (dest : Square)
    (h : ∀ q ∈ l, q.getPosition ≠ dest) : (movedList l a dest).length = l.length := by
  unfold movedList
  rw [List.length_map, List.filter_eq_self.2]
  intro q hq
  simpa using h q hq

theorem length_filter_ne_pos (l : List Piece) (hnd : (l.map Piece.getPosition).Nodup)
    {x : Piece} (hx : x ∈ l) :
    (l.filter (fun q => q.getPosition ≠ x.getPosition)).length + 1 = l.length := by
  induction l with
  | nil => cases hx
  | cons y rest ih =>
    rw [List.map_cons, List.nodup_cons] at hnd
    rcases List.mem_cons.1 hx with rfl | hx
    · have : rest.filter (fun q => q.getPosition ≠ x.getPosition) = rest := by
        rw [List.filter_eq_self]
        intro q hq
        simp only [ne_eq, decide_eq_true_eq]
        intro e
        exact hnd.1 (List.mem_map.2 ⟨q, hq, e⟩)
      rw [List.filter_cons]
      simp only [ne_eq, not_true_eq_false, decide_False, Bool.false_eq_true, if_false,
        List.length_cons]
      have h2 := congrArg List.length this
      simp only [ne_eq] at h2
      omega
    · have hne : y.getPosition ≠ x.getPosition := by
        intro e
        exact hnd.1 (List.mem_map.2 ⟨x, hx, e.symm⟩)
      simp only [List.filter_cons, ne_eq, hne, not_false_eq_true, decide_True, if_true,
        List.length_cons]
      have := ih hnd.2 hx
      simp only [ne_eq] at this
      omega

namespace GameMaster

/-- C7. For every accepted `move(src, dest, ...)` that is not a promotion, in a state that
satisfies the data-model invariants: afterwards the square `src` is empty; the square `dest`
holds the piece that was on `src`, with the same address, kind and colour, position `dest` and
`hasMoved = true`; no piece with the address of a piece that stood on `dest` is left; every
other square and every other piece is unchanged (each vector is the old one without the piece
on `dest` and with the moved piece updated in place); the king pointers are unchanged; and the
saved board equals the board moves are made on. -/
theorem move_accepted_frame (g : GameMaster) (hwf : g.WF) (src dest : Square)
    (currentPlayer : Int) (isCurrentInCheck : Bool) (g2 : GameMaster)
    (h : g.move src dest currentPlayer isCurrentInCheck = some (true, g2)) :
    ∃ a p, g.getTempPiece src = some (some a) ∧ g._tempBoard.deref a = some p ∧
      ((p.isPawn && decide (dest.rank = if p.getColor = WHITE then MAX_RANK else MIN_RANK))
          = false →
        g2.getTempPiece src = some none ∧
        g2.getTempPiece dest = some (some a) ∧
        g2._tempBoard.deref a = some { p with _position := dest, _hasMoved := true } ∧
        (∀ q ∈ g._tempBoard.allPieces, q.getPosition = dest →
          ∀ q2 ∈ g2._tempBoard.allPieces, q2.addr ≠ q.addr) ∧
        (∀ sq, sq ≠ src → sq ≠ dest → g2.getTempPiece sq = g.getTempPiece sq) ∧
        (∀ q ∈ g._tempBoard.allPieces, q.addr ≠ a → q.getPosition ≠ dest →
          g2._tempBoard.deref q.addr = some q) ∧
        g2._tempBoard._whitePieces = movedList g._tempBoard._whitePieces a dest ∧
        g2._tempBoard._blackPieces = movedList g._tempBoard._blackPieces a dest ∧
        g2._tempBoard._whiteKing = g._tempBoard._whiteKing ∧
        g2._tempBoard._blackKing = g._tempBoard._blackKing ∧
        g2._board = g2._tempBoard) := by
  have htwf : g._tempBoard.WF := hwf.2 ▸ hwf.1
  have hcons := htwf.consistent
  rcases move_spec g hwf src dest currentPlayer isCurrentInCheck with
    ⟨h1, _⟩ | ⟨a, p, t1, t2, hv, hderef, hp, hppos, hcol, hne, hdest, ht1, ht2, hm, hcond⟩
  · rw [h1] at h
    simp at h
  rw [hm] at h
  simp only [Option.some.injEq, Prod.mk.injEq, true_and] at h
  subst h
  refine ⟨a, p, hv, hderef, ?_⟩
  intro hnp
  simp only [hnp, Bool.false_eq_true, if_false, Option.some.injEq] at ht2
  subst ht2
  obtain ⟨t1', ht1', hw1, hb1, hwk1, hbk1, hget1, hc1⟩ :=
    Board.tempMove_spec hcons hv hdest hne
  rw [ht1] at ht1'
  simp only [Option.some.injEq] at ht1'
  subst ht1'
  have hpa := (Board.deref_eq_some hderef).2
  have hpne : p.getPosition ≠ dest := by rw [hppos]; exact Ne.symm hne
  refine ⟨?_, ?_, ?_, ?_, ?_, ?_, hw1, hb1, hwk1, hbk1, rfl⟩
  · simp [getTempPiece, hget1, Ne.symm hne]
  · simp [getTempPiece, hget1]
  · have := Board.deref_movedList hc1 hw1 hb1 hp hpne
    simpa [hpa, Piece.setPosition] using this
  · intro q hq hqpos q2 hq2 e
    have hq2' : q2 ∈ movedList g._tempBoard.allPieces a dest := by
      unfold Board.allPieces at hq2 ⊢
      rw [movedList_append, ← hw1, ← hb1]
      exact hq2
    obtain ⟨q0, hq0, hq0pos, rfl⟩ := mem_movedList.1 hq2'
    have ha2 : (if q0.addr = a then q0.setPosition dest else q0).addr = q0.addr := by
      by_cases e : q0.addr = a <;> simp [e, Piece.setPosition]
    rw [ha2] at e
    have := hcons.addr_inj hq0 hq e
    rw [this] at hq0pos
    exact hq0pos hqpos
  · intro sq h1 h2
    simp [getTempPiece, hget1, h1, h2]
  · intro q hq hqa hqpos
    have := Board.deref_movedList hc1 hw1 hb1 hq hqpos
    simpa [hqa] using this

theorem move_accepted_frame_witness :
    pinnedState.WF ∧
    pinnedState.move E2 E8 WHITE false = some (true, pinnedStateAfterCapture) ∧
    ∃ a p, pinnedState.getTempPiece E2 = some (some a) ∧
      pinnedState._tempBoard.deref a = some p ∧
      ((p.isPawn && decide (E8.rank = if p.getColor = WHITE then MAX_RANK else MIN_RANK))
          = false →
        pinnedStateAfterCapture.getTempPiece E2 = some none ∧
        pinnedStateAfterCapture.getTempPiece E8 = some (some a) ∧
        pinnedStateAfterCapture._tempBoard.deref a
          = some { p with _position := E8, _hasMoved := true } ∧
        (∀ q ∈ pinnedState._tempBoard.allPieces, q.getPosition = E8 →
          ∀ q2 ∈ pinnedStateAfterCapture._tempBoard.allPieces, q2.addr ≠ q.addr) ∧
        (∀ sq, sq ≠ E2 → sq ≠ E8 →
          pinnedStateAfterCapture.getTempPiece sq = pinnedState.getTempPiece sq) ∧
        (∀ q ∈ pinnedState._tempBoard.allPieces, q.addr ≠ a → q.getPosition ≠ E8 →
          pinnedStateAfterCapture._tempBoard.deref q.addr = some q) ∧
        pinnedStateAfterCapture._tempBoard._whitePieces
          = movedList pinnedState._tempBoard._whitePieces a E8 ∧
        pinnedStateAfterCapture._tempBoard._blackPieces
          = movedList pinnedState._tempBoard._blackPieces a E8 ∧
        pinnedStateAfterCapture._tempBoard._whiteKing = pinnedState._tempBoard._whiteKing ∧
        pinnedStateAfterCapture._tempBoard._blackKing = pinnedState._tempBoard._blackKing ∧
        pinnedStateAfterCapture._board = pinnedStateAfterCapture._tempBoard) :=
  ⟨by decide, by decide,
    move_accepted_frame pinnedState (by decide) E2 E8 WHITE false pinnedStateAfterCapture
      (by decide)⟩

/-- C8. For every accepted move, in a state that satisfies the data-model invariants, whose
moving piece is a pawn and whose `dest` rank is '8' for White or '1' for Black: the piece on
`dest` afterwards, on both boards, is a queen of the pawn's colour with position `dest` (so
`isPawn()` is false), the moved pawn is in none of the vectors any more, and the number of
pieces of that colour is the same as before the move; for every other accepted move the piece
on `dest` is the moving piece, with its kind unchanged. -/
theorem move_promotes_pawn (g : GameMaster) (hwf : g.WF) (src dest : Square)
    (currentPlayer : Int) (isCurrentInCheck : Bool) (g2 : GameMaster)
    (h : g.move src dest currentPlayer isCurrentInCheck = some (true, g2)) :
    ∃ a p, g.getTempPiece src = some (some a) ∧ g._tempBoard.deref a = some p ∧
      p.getColor = currentPlayer ∧ g2._board = g2._tempBoard ∧
      (p.isPawn = true ∧ dest.rank = (if currentPlayer = WHITE then MAX_RANK else MIN_RANK) →
        ∃ fresh, g2.getTempPiece dest = some (some fresh) ∧
          g2._tempBoard.deref fresh = some (Piece.mk fresh Kind.Queen true currentPlayer dest) ∧
          (Piece.mk fresh Kind.Queen true currentPlayer dest).isPawn = false ∧
          (∀ q ∈ g2._tempBoard.allPieces, q.getPosition = dest → q.kind = Kind.Queen) ∧
          (g2._tempBoard._getPieces currentPlayer).length =
            (g._tempBoard._getPieces currentPlayer).length) ∧
      (¬ (p.isPawn = true ∧
          dest.rank = (if currentPlayer = WHITE then MAX_RANK else MIN_RANK)) →
        g2.getTempPiece dest = some (some a) ∧
        ∃ moved, g2._tempBoard.deref a = some moved ∧ moved.kind = p.kind) := by
  have htwf : g._tempBoard.WF := hwf.2 ▸ hwf.1
  have hcons := htwf.consistent
  rcases move_spec g hwf src dest currentPlayer isCurrentInCheck with
    ⟨h1, _⟩ | ⟨a, p, t1, t2, hv, hderef, hp, hppos, hcol, hne, hdest, ht1, ht2, hm, hcond⟩
  · rw [h1] at h
    simp at h
  rw [hm] at h
  simp only [Option.some.injEq, Prod.mk.injEq, true_and] at h
  subst h
  obtain ⟨t1', ht1', hw1, hb1, hwk1, hbk1, hget1, hc1⟩ :=
    Board.tempMove_spec hcons hv hdest hne
  rw [ht1] at ht1'
  simp only [Option.some.injEq] at ht1'
  subst ht1'
  have hpa := (Board.deref_eq_some hderef).2
  have hpne : p.getPosition ≠ dest := by rw [hppos]; exact Ne.symm hne
  have hderef1 : t1.deref a = some (p.setPosition dest) := by
    have := Board.deref_movedList hc1 hw1 hb1 hp hpne
    simpa [hpa] using this
  refine ⟨a, p, hv, hderef, hcol, rfl, ?_, ?_⟩
  · rintro ⟨hpawn, hrank⟩
    have hpr : (p.isPawn &&
        decide (dest.rank = if p.getColor = WHITE then MAX_RANK else MIN_RANK)) = true := by
      simp [hpawn, hcol, hrank]
    simp only [hpr, if_true] at ht2
    obtain ⟨t2', fresh, ht2', hw2, hb2, _, _, hget2, hc2⟩ := Board.tempPromote_spec hc1 hderef1
    rw [ht2] at ht2'
    simp only [Option.some.injEq] at ht2'
    subst ht2'
    have hpos : (p.setPosition dest).getPosition = dest := rfl
    have hpc : (p.setPosition dest).getColor = currentPlayer := by
      simpa [Piece.setPosition, Piece.getColor] using hcol
    rw [hpos, hpc] at hw2 hb2
    have hqueen : Piece.mk fresh Kind.Queen true currentPlayer dest ∈ t2.allPieces := by
      unfold Board.allPieces
      rw [hw2, hb2]
      by_cases hcw : currentPlayer = WHITE
      · simp [hcw]
      · simp [hcw]
    have hmem2 : ∀ q ∈ t2.allPieces, q = Piece.mk fresh Kind.Queen true currentPlayer dest ∨
        q.getPosition ≠ dest := by
      intro q hq
      unfold Board.allPieces at hq
      rw [hw2, hb2] at hq
      simp only [List.mem_append, List.mem_filter, ne_eq, decide_eq_true_eq] at hq
      rcases hq with (⟨_, h⟩ | h) | (⟨_, h⟩ | h)
      · exact Or.inr h
      · split at h
        · simp only [List.mem_singleton] at h
          exact Or.inl h
        · cases h
      · exact Or.inr h
      · split at h
        · cases h
        · simp only [List.mem_singleton] at h
          exact Or.inl h
    -- the pawn is the only piece of its colour on `dest` after the move
    have hpw1 : p.setPosition dest ∈ t1.allPieces := (Board.deref_eq_some hderef1).1
    have hown : ∀ q ∈ g._tempBoard._getPieces currentPlayer, q.getPosition ≠ dest := by
      obtain ⟨_, _, p2, ha2, hp2, _, _, hpl, _⟩ := hcond
      have e2 : p2 = p := by
        simp only [getTempPiece, hv, Option.some.injEq] at ha2
        subst ha2
        rw [hderef] at hp2
        exact (Option.some.inj hp2).symm
      rw [e2] at hpl
      obtain ⟨_, v1, hv1, hv2, _, _⟩ := hpl
      intro q hq e
      have hqall : q ∈ g._tempBoard.allPieces := g.getTempPieces_subset _ q hq
      have hqc : q.getColor = currentPlayer := by
        unfold Board._getPieces at hq
        split at hq
        · rename_i hcw
          rw [hcw]
          exact hcons.2.2.2.2.2.1 q hq
        · rename_i hcw
          rcases hcons.color hp with h1 | h1
          · exact absurd (hcol ▸ h1) hcw
          · rw [← hcol, h1]
            exact hcons.2.2.2.2.2.2 q hq
      have := hcons.colorAt_of_mem hqall
      rw [e, hv1, hqc, ← hcol] at this
      simp only [Option.some.injEq] at this
      exact hv2 this
    refine ⟨fresh, by simp [getTempPiece, hget2, hpos], ?_, rfl, ?_, ?_⟩
    · have := Board.deref_of_mem hc2.2.2.2.2.1 hqueen
      exact this
    · intro q hq hqpos
      rcases hmem2 q hq with rfl | h
      · rfl
      · exact absurd hqpos h
    · have hcw : currentPlayer = WHITE ∨ currentPlayer = BLACK := hcol ▸ hcons.color hp
      have hne2 : ¬ (BLACK = WHITE) := by decide
      rcases hcw with hcw | hcw
      · have hpww : p.setPosition dest ∈ t1._whitePieces := by
          rcases List.mem_append.1 hpw1 with h | h
          · exact h
          · have := hc1.2.2.2.2.2.2 _ h
            rw [hpc, hcw] at this
            exact absurd this.symm hne2
        have hlen := length_filter_ne_pos t1._whitePieces
          (List.Nodup.of_append_left (by
            have := hc1.2.2.2.1
            unfold Board.allPieces at this
            rw [List.map_append] at this
            exact this)) hpww
        rw [hpos] at hlen
        simp only [Board._getPieces, hcw, if_true] at hown ⊢
        simp only [hcw, if_true] at hw2
        rw [hw2, List.length_append, List.length_singleton, hlen, hw1,
          movedList_length_of_no_dest _ _ _ hown]
      · have hpwb : p.setPosition dest ∈ t1._blackPieces := by
          rcases List.mem_append.1 hpw1 with h | h
          · have := hc1.2.2.2.2.2.1 _ h
            rw [hpc, hcw] at this
            exact absurd this hne2
          · exact h
        have hlen := length_filter_ne_pos t1._blackPieces
          (List.Nodup.of_append_right (by
            have := hc1.2.2.2.1
            unfold Board.allPieces at this
            rw [List.map_append] at this
            exact this)) hpwb
        rw [hpos] at hlen
        simp only [Board._getPieces, hcw, hne2, if_false] at hown ⊢
        simp only [hcw, hne2, if_false] at hb2
        rw [hb2, List.length_append, List.length_singleton, hlen, hb1,
          movedList_length_of_no_dest _ _ _ hown]
  · intro hnp
    have hpr : (p.isPawn &&
        decide (dest.rank = if p.getColor = WHITE then MAX_RANK else MIN_RANK)) = false := by
      rw [hcol]
      cases hpawn : p.isPawn with
      | false => simp
      | true =>
        simp only [Bool.true_and, decide_eq_false_iff_not]
        exact fun e => hnp ⟨hpawn, e⟩
    simp only [hpr, Bool.false_eq_true, if_false, Option.some.injEq] at ht2
    subst ht2
    exact ⟨by simp [getTempPiece, hget1], p.setPosition dest, hderef1, rfl⟩

theorem move_promotes_pawn_witness :
    promotionState.WF ∧ promotionState.move A7 A8 WHITE false = some (true, promotedState) ∧
    ∃ a p, promotionState.getTempPiece A7 = some (some a) ∧
      promotionState._tempBoard.deref a = some p ∧
      p.getColor = WHITE ∧ promotedState._board = promotedState._tempBoard ∧
      (p.isPawn = true ∧ A8.rank = (if WHITE = WHITE then MAX_RANK else MIN_RANK) →
        ∃ fresh, promotedState.getTempPiece A8 = some (some fresh) ∧
          promotedState._tempBoard.deref fresh
            = some (Piece.mk fresh Kind.Queen true WHITE A8) ∧
          (Piece.mk fresh Kind.Queen true WHITE A8).isPawn = false ∧
          (∀ q ∈ promotedState._tempBoard.allPieces, q.getPosition = A8 →
            q.kind = Kind.Queen) ∧
          (promotedState._tempBoard._getPieces WHITE).length =
            (promotionState._tempBoard._getPieces WHITE).length) ∧
      (¬ (p.isPawn = true ∧ A8.rank = (if WHITE = WHITE then MAX_RANK else MIN_RANK)) →
        promotedState.getTempPiece A8 = some (some a) ∧
        ∃ moved, promotedState._tempBoard.deref a = some moved ∧ moved.kind = p.kind) :=
  ⟨by decide, by decide,
    move_promotes_pawn promotionState (by decide) A7 A8 WHITE false promotedState (by decide)⟩

end GameMaster

namespace GameMaster

/-- C9. On a board that satisfies the data-model invariants, for `color` WHITE or BLACK,
`isInCheck(color)` returns a value, and the value is true if and only if some piece `p` of the
vector of the opposite colour satisfies `p.canReach(k, true)` and every square of
`p.getPathTo(k)` is empty, where `k` is the square of the king of `color`. -/
theorem isInCheck_iff (g : GameMaster) (hwf : g._tempBoard.WF) (color : Int)
    (hcolor : color = WHITE ∨ color = BLACK) :
    ∃ king, g.getTempKing color = some king.addr ∧
      g._tempBoard.deref king.addr = some king ∧ king.isKing = true ∧
      king.getColor = color ∧
      ∃ b, g.isInCheck color = some b ∧
        (b = true ↔ ∃ p ∈ g.getTempPieces (_reverseColor color),
          p.canReach king.getPosition true = true ∧
          ∃ path, p.getPathTo king.getPosition = some path ∧
            ∀ sq ∈ path, g.getTempPiece sq = some none) := by
  have hcons := hwf.consistent
  obtain ⟨K, hK1, _, hK3, hK4, hK5, hK6⟩ := hwf.king hcolor
  obtain ⟨b, hb, hiff⟩ := isInCheck_spec g hcons (show g.getTempKing color = some K.addr from hK1)
    hK6
  refine ⟨K, hK1, hK6, hK4, hK5, b, hb, ?_⟩
  rw [hiff]
  have hKcol := hcons.colorAt_of_mem hK3
  have hne : ¬ (BLACK = WHITE) := by decide
  have henemy : ∀ p ∈ g.getTempPieces (_reverseColor color), p.getColor ≠ color := by
    intro p hp
    unfold getTempPieces Board._getPieces at hp
    rcases hcolor with rfl | rfl
    · have hr : ¬ (_reverseColor WHITE = WHITE) := by decide
      simp only [hr, if_false] at hp
      rw [hcons.2.2.2.2.2.2 p hp]
      decide
    · have hr : _reverseColor BLACK = WHITE := by decide
      simp only [hr, if_true] at hp
      rw [hcons.2.2.2.2.2.1 p hp]
      decide
  constructor
  · rintro ⟨p, hp, _, v, hv, _, hreach, path, hpath, hempty⟩
    rw [hKcol] at hv
    simp only [Option.some.injEq] at hv
    subst hv
    exact ⟨p, hp, hreach, path, hpath, fun sq hsq => hcons.colorAt_eq_some_none.1 (hempty sq hsq)⟩
  · rintro ⟨p, hp, hreach, path, hpath, hempty⟩
    refine ⟨p, hp, hcons.inBoard hK3, some K.getColor, hKcol, ?_, hreach, path, hpath,
      fun sq hsq => hcons.colorAt_eq_some_none.2 (hempty sq hsq)⟩
    rw [hK5]
    intro e
    simp only [Option.some.injEq] at e
    exact henemy p hp e.symm

theorem isInCheck_iff_witness :
    pinnedState._tempBoard.WF ∧ (BLACK = WHITE ∨ BLACK = BLACK) ∧
    pinnedState.isInCheck BLACK = some false ∧
    ∃ king, pinnedState.getTempKing BLACK = some king.addr ∧
      pinnedState._tempBoard.deref king.addr = some king ∧ king.isKing = true ∧
      king.getColor = BLACK ∧
      ∃ b, pinnedState.isInCheck BLACK = some b ∧
        (b = true ↔ ∃ p ∈ pinnedState.getTempPieces (_reverseColor BLACK),
          p.canReach king.getPosition true = true ∧
          ∃ path, p.getPathTo king.getPosition = some path ∧
            ∀ sq ∈ path, pinnedState.getTempPiece sq = some none) :=
  ⟨by decide, by decide, by decide, isInCheck_iff pinnedState (by decide) BLACK (by decide)⟩

end GameMaster

/-! ## The method `castling` -/

namespace GameMaster

/-- Saving a consistent board whose vectors hold no king that the saved board does not have,
and whose king pointers are those of the saved board. -/
theorem saveMoves_of_sublist {b t : Board} (hb : b.WF) (hc : t.Consistent)
    (hw : ((t._whitePieces.filter Piece.isKing).map Piece.addr).Sublist
      ((b._whitePieces.filter Piece.isKing).map Piece.addr))
    (hbl : ((t._blackPieces.filter Piece.isKing).map Piece.addr).Sublist
      ((b._blackPieces.filter Piece.isKing).map Piece.addr))
    (hwk : t._whiteKing = b._whiteKing) (hbk : t._blackKing = b._blackKing) :
    saveMoves ⟨b, t⟩ = some ⟨t, t⟩ := by
  obtain ⟨_, hkw, hkb⟩ := (Board.WF_iff b).1 hb
  apply saveMoves_of_consistent (g := ⟨b, t⟩) hc
  · simp only [hwk]
    exact lastKing_of_sublist hkw hw
  · simp only [hbk]
    exact lastKing_of_sublist hkb hbl

/-- In a state that satisfies the invariants `_isPseudoLegalCastling` returns, for either side
and either colour. -/
theorem _isPseudoLegalCastling_isSome (g : GameMaster) (hwf : g._tempBoard.WF)
    (castlingSide : Char) {currentPlayer : Int}
    (hcp : currentPlayer = WHITE ∨ currentPlayer = BLACK) :
    ∃ K, g.getTempKing currentPlayer = some K.addr ∧ g._tempBoard.deref K.addr = some K ∧
      K ∈ g._tempBoard.allPieces ∧
      (g._isPseudoLegalCastling castlingSide currentPlayer = some none ∨
       ∃ r, g._tempBoard._getPiece (Square.mk
          (if castlingSide = QUEENSIDE then MIN_FILE else MAX_FILE) K.getPosition.rank)
            = some (some r) ∧ K.hasMoved = false ∧
         g._isPseudoLegalCastling castlingSide currentPlayer = some (some (K.getPosition,
          Square.mk (if castlingSide = QUEENSIDE then MIN_FILE else MAX_FILE)
            K.getPosition.rank))) := by
  have hcons := hwf.consistent
  obtain ⟨K, hK1, _, hK3, _, _, hK6⟩ := hwf.king hcp
  have hk : g.getTempKing currentPlayer = some K.addr := hK1
  refine ⟨K, hK1, hK6, hK3, ?_⟩
  have hKin := (isInBoard_iff _).1 (hcons.inBoard hK3)
  by_cases hm : K.hasMoved = true
  · left
    simp [_isPseudoLegalCastling, hk, hK6, hm]
  have hm2 : K.hasMoved = false := by simpa using hm
  have hrin : isInBoard (Square.mk (if castlingSide = QUEENSIDE then MIN_FILE else MAX_FILE)
      K.getPosition.rank) = true := by
    rw [isInBoard_iff]
    simp only [MIN_FILE, MAX_FILE, MIN_RANK, MAX_RANK] at hKin ⊢
    split <;> omega
  obtain ⟨v, hv⟩ := hcons.getPiece_isSome hrin
  cases v with
  | none =>
    left
    simp [_isPseudoLegalCastling, hk, hK6, hm2, getTempPiece, hv]
  | some r =>
    obtain ⟨R, hR, hRa, hRpos, hRd⟩ := hcons.occupant hv
    by_cases hrm : R.hasMoved = true
    · left
      simp [_isPseudoLegalCastling, hk, hK6, hm2, getTempPiece, hv, hRd, hrm]
    have hrm2 : R.hasMoved = false := by simpa using hrm
    have hpath : ∃ path, R.getPathTo K.getPosition = some path ∧
        ∀ sq ∈ path, isInBoard sq = true := by
      have hal : K.getPosition.file - R._position.file = 0 ∨
          K.getPosition.rank - R._position.rank = 0 ∨
          cabs (K.getPosition.file - R._position.file)
            = cabs (K.getPosition.rank - R._position.rank) := by
        right; left
        have : R._position = _ := hRpos
        rw [this]
        simp
      have hdef := getPathToDefault_spec R K.getPosition (hcons.inBoard hR) (hcons.inBoard hK3)
        hal
      unfold Piece.getPathTo
      cases hkind : R.kind with
      | Pawn =>
        refine ⟨_, rfl, ?_⟩
        intro sq hsq
        unfold Pawn.getPathTo at hsq
        have : R._position = _ := hRpos
        rw [this] at hsq
        simp [cabs] at hsq
      | Knight => exact ⟨[], rfl, fun _ h => by cases h⟩
      | King => exact ⟨[], rfl, fun _ h => by cases h⟩
      | Bishop => exact ⟨_, hdef.1, hdef.2⟩
      | Rook => exact ⟨_, hdef.1, hdef.2⟩
      | Queen => exact ⟨_, hdef.1, hdef.2⟩
    obtain ⟨path, hp1, hp2⟩ := hpath
    obtain ⟨b, hb, _⟩ := g._isEmptyPath_spec hcons.1 path hp2
    cases b with
    | false =>
      left
      simp [_isPseudoLegalCastling, hk, hK6, hm2, getTempPiece, hv, hRd, hrm2, hp1, hb]
    | true =>
      right
      exact ⟨r, hv, hm2, by
        simp [_isPseudoLegalCastling, hk, hK6, hm2, getTempPiece, hv, hRd, hrm2, hp1, hb]⟩

/-- In a state that satisfies the invariants, `castling` returns whenever the king of the player
stands at least two files away from the edge it is to move towards (file C or beyond for the
queenside, file F or before for the kingside). -/
theorem castling_isSome (g : GameMaster) (hwf : g.WF) (castlingSide : Char)
    {currentPlayer : Int} (hcp : currentPlayer = WHITE ∨ currentPlayer = BLACK)
    (isCurrentInCheck : Bool)
    (hfile : ∀ k K, g.getTempKing currentPlayer = some k → g._tempBoard.deref k = some K →
      if castlingSide = QUEENSIDE then MIN_FILE + 2 ≤ K.getPosition.file
      else K.getPosition.file ≤ MAX_FILE - 2) :
    ∃ r, g.castling castlingSide currentPlayer isCurrentInCheck = some r := by
  have htwf : g._tempBoard.WF := hwf.2 ▸ hwf.1
  have hcons := htwf.consistent
  obtain ⟨K, hK1, hK2, hK3, hps⟩ := g._isPseudoLegalCastling_isSome htwf castlingSide hcp
  rcases hps with hps | ⟨r, hr, _, hps⟩
  · simp only [castling, hps]
    exact ⟨_, rfl⟩
  have hf := hfile _ _ hK1 hK2
  have hKin := (isInBoard_iff _).1 (hcons.inBoard hK3)
  unfold castling
  rw [hps]
  simp only
  have hfacts : ((if castlingSide = QUEENSIDE then Q_DIRECTION else K_DIRECTION) = -1 ∧
      (if castlingSide = QUEENSIDE then MIN_FILE else MAX_FILE) = 65 ∧
      (if castlingSide = QUEENSIDE then Q_ROOK else K_ROOK) = 3 ∧
      67 ≤ K.getPosition.file) ∨
      ((if castlingSide = QUEENSIDE then Q_DIRECTION else K_DIRECTION) = 1 ∧
      (if castlingSide = QUEENSIDE then MIN_FILE else MAX_FILE) = 72 ∧
      (if castlingSide = QUEENSIDE then Q_ROOK else K_ROOK) = -2 ∧
      K.getPosition.file ≤ 70) := by
    by_cases hside : castlingSide = QUEENSIDE
    · left
      simp only [hside, if_true, MIN_FILE] at hf
      rw [if_pos hside, if_pos hside, if_pos hside]
      exact ⟨rfl, rfl, rfl, by omega⟩
    · right
      simp only [hside, if_false, MAX_FILE] at hf
      rw [if_neg hside, if_neg hside, if_neg hside]
      exact ⟨rfl, rfl, rfl, by omega⟩
  clear hf
  generalize (if castlingSide = QUEENSIDE then Q_DIRECTION else K_DIRECTION) = dir at hfacts ⊢
  generalize (if castlingSide = QUEENSIDE then MIN_FILE else MAX_FILE) = rf at hfacts hr ⊢
  generalize (if castlingSide = QUEENSIDE then Q_ROOK else K_ROOK) = ro at hfacts ⊢
  simp only [MIN_FILE, MAX_FILE, MIN_RANK, MAX_RANK] at hKin
  -- the three destinations
  have hmidIn : isInBoard (Square.mk (K.getPosition.file + dir) K.getPosition.rank) = true := by
    rw [isInBoard_iff]
    simp only [MIN_FILE, MAX_FILE, MIN_RANK, MAX_RANK]
    omega
  have hdestIn : isInBoard (Square.mk (K.getPosition.file + dir + dir) K.getPosition.rank)
      = true := by
    rw [isInBoard_iff]
    simp only [MIN_FILE, MAX_FILE, MIN_RANK, MAX_RANK]
    omega
  have hrookIn : isInBoard (Square.mk (rf + ro) K.getPosition.rank) = true := by
    rw [isInBoard_iff]
    simp only [MIN_FILE, MAX_FILE, MIN_RANK, MAX_RANK]
    omega
  have hne1 : Square.mk (K.getPosition.file + dir) K.getPosition.rank ≠ K.getPosition := by
    intro e
    have := congrArg Square.file e
    simp only at this
    omega
  have hne2 : Square.mk (K.getPosition.file + dir + dir) K.getPosition.rank
      ≠ Square.mk (K.getPosition.file + dir) K.getPosition.rank := by
    intro e
    have := congrArg Square.file e
    simp only at this
    omega
  have hne3 : Square.mk (rf + ro) K.getPosition.rank ≠ Square.mk rf K.getPosition.rank := by
    intro e
    have := congrArg Square.file e
    simp only at this
    omega
  -- first step of the king
  have hv : g._tempBoard._getPiece K.getPosition = some (some K.addr) := hcons.2.1 K hK3
  obtain ⟨t1, ht1, hw1, hb1, hwk1, hbk1, hget1, hc1⟩ :=
    Board.tempMove_spec hcons hv hmidIn hne1
  have hm1 : g.tempMove K.getPosition (Square.mk (K.getPosition.file + dir) K.getPosition.rank)
      = some { g with _tempBoard := t1 } := by
    simp [tempMove, ht1]
  have hd1 := Board.deref_movedList hc1 hw1 hb1 hK3 (Ne.symm hne1)
  simp only [if_true] at hd1
  have hking1 : ({ g with _tempBoard := t1 } : GameMaster).getTempKing currentPlayer
      = some K.addr := by
    simp only [getTempKing, Board._getKing, hwk1, hbk1]
    exact hK1
  obtain ⟨c1, hc1', _⟩ := isInCheck_spec ({ g with _tempBoard := t1 } : GameMaster) hc1
    hking1 hd1
  have hres1 : ∃ result1, (if isCurrentInCheck then some true
      else ({ g with _tempBoard := t1 } : GameMaster).isInCheck currentPlayer)
        = some result1 := by
    cases isCurrentInCheck with
    | true => exact ⟨true, rfl⟩
    | false => exact ⟨c1, by simpa using hc1'⟩
  obtain ⟨result1, hres1⟩ := hres1
  -- second step of the king
  have hv1 : t1._getPiece (Square.mk (K.getPosition.file + dir) K.getPosition.rank)
      = some (some K.addr) := by
    rw [hget1]
    simp
  obtain ⟨t2, ht2, hw2, hb2, hwk2, hbk2, hget2, hc2⟩ :=
    Board.tempMove_spec hc1 hv1 hdestIn hne2
  have hm2 : ({ g with _tempBoard := t1 } : GameMaster).tempMove
      (Square.mk (K.getPosition.file + dir) K.getPosition.rank)
      (Square.mk (K.getPosition.file + dir + dir) K.getPosition.rank)
      = some { g with _tempBoard := t2 } := by
    simp [tempMove, ht2]
  have hd2 := Board.deref_movedList hc2 hw2 hb2 (Board.deref_eq_some hd1).1
    (show (K.setPosition _).getPosition ≠ _ from Ne.symm hne2)
  have hking2 : ({ g with _tempBoard := t2 } : GameMaster).getTempKing currentPlayer
      = some K.addr := by
    simp only [getTempKing, Board._getKing, hwk2, hbk2, hwk1, hbk1]
    exact hK1
  obtain ⟨c2, hc2', _⟩ := isInCheck_spec ({ g with _tempBoard := t2 } : GameMaster) hc2
    hking2 (show t2.deref K.addr = _ from hd2)
  have hres2 : ∃ result2, (if result1 then some true
      else ({ g with _tempBoard := t2 } : GameMaster).isInCheck currentPlayer)
        = some result2 := by
    cases result1 with
    | true => exact ⟨true, rfl⟩
    | false => exact ⟨c2, by simpa using hc2'⟩
  obtain ⟨result2, hres2⟩ := hres2
  cases result2 with
  | true =>
    have hundo := undoMoves_of_WF (g := ({ g with _tempBoard := t2 } : GameMaster)) hwf.1
    simp only [hm1, hres1, hm2, hres2, hundo]
    exact ⟨_, rfl⟩
  | false =>
    -- the rook
    have hv2 : ∃ x, t2._getPiece (Square.mk rf K.getPosition.rank) = some (some x) := by
      rw [hget2, hget1]
      have e1 : Square.mk rf K.getPosition.rank
          ≠ Square.mk (K.getPosition.file + dir) K.getPosition.rank := by
        intro e
        have := congrArg Square.file e
        simp only at this
        omega
      have e2 : Square.mk rf K.getPosition.rank ≠ K.getPosition := by
        intro e
        have := congrArg Square.file e
        simp only at this
        omega
      by_cases e3 : Square.mk rf K.getPosition.rank
          = Square.mk (K.getPosition.file + dir + dir) K.getPosition.rank
      · exact ⟨K.addr, by simp [e3]⟩
      · exact ⟨r, by simp only [e3, e1, e2, if_false]; exact hr⟩
    obtain ⟨x, hx⟩ := hv2
    obtain ⟨t3, ht3, hw3, hb3, hwk3, hbk3, _, hc3⟩ := Board.tempMove_spec hc2 hx hrookIn hne3
    have hm3 : ({ g with _tempBoard := t2 } : GameMaster).tempMove
        (Square.mk rf K.getPosition.rank) (Square.mk (rf + ro) K.getPosition.rank)
        = some { g with _tempBoard := t3 } := by
      simp [tempMove, ht3]
    have hsave : saveMoves ({ g with _tempBoard := t3 } : GameMaster) = some ⟨t3, t3⟩ := by
      apply saveMoves_of_sublist hwf.1 hc3
      · rw [hw3, hw2, hw1, hwf.2]
        exact ((movedList_kings_sublist _ _ _).trans (movedList_kings_sublist _ _ _)).trans
          (movedList_kings_sublist _ _ _)
      · rw [hb3, hb2, hb1, hwf.2]
        exact ((movedList_kings_sublist _ _ _).trans (movedList_kings_sublist _ _ _)).trans
          (movedList_kings_sublist _ _ _)
      · rw [hwk3, hwk2, hwk1, hwf.2]
      · rw [hbk3, hbk2, hbk1, hwf.2]
    simp only [hm1, hres1, hm2, hres2, hm3, hsave]
    exact ⟨_, rfl⟩

end GameMaster

/-! ## The claims about `castling` and `isInCheckmate` -/

namespace GameMaster

/-- The paths through `GameMaster::castling`. -/
theorem castling_inv {g g2 : GameMaster} {castlingSide : Char} {currentPlayer : Int}
    {isCurrentInCheck res : Bool}
    (h : g.castling castlingSide currentPlayer isCurrentInCheck = some (res, g2)) :
    (res = false ∧ g2 = g) ∨
    ∃ kingSrc rookSrc g3 result1 g4,
      g._isPseudoLegalCastling castlingSide currentPlayer = some (some (kingSrc, rookSrc)) ∧
      g.tempMove kingSrc (Square.mk (kingSrc.file +
        (if castlingSide = QUEENSIDE then Q_DIRECTION else K_DIRECTION)) kingSrc.rank) = some g3 ∧
      (if isCurrentInCheck then some true else g3.isInCheck currentPlayer) = some result1 ∧
      g3.tempMove (Square.mk (kingSrc.file +
          (if castlingSide = QUEENSIDE then Q_DIRECTION else K_DIRECTION)) kingSrc.rank)
        (Square.mk (kingSrc.file +
          (if castlingSide = QUEENSIDE then Q_DIRECTION else K_DIRECTION) +
          (if castlingSide = QUEENSIDE then Q_DIRECTION else K_DIRECTION)) kingSrc.rank)
        = some g4 ∧
      (((if result1 then some true else g4.isInCheck currentPlayer) = some true ∧
          res = false ∧ g4.undoMoves = some g2) ∨
       ((if result1 then some true else g4.isInCheck currentPlayer) = some false ∧
          res = true ∧
          ∃ g5, g4.tempMove rookSrc (Square.mk (rookSrc.file +
            (if castlingSide = QUEENSIDE then Q_ROOK else K_ROOK)) kingSrc.rank) = some g5 ∧
            g5.saveMoves = some g2)) := by
  unfold GameMaster.castling at h
  cases hp : g._isPseudoLegalCastling castlingSide currentPlayer with
  | none => rw [hp] at h; cases h
  | some v =>
    cases v with
    | none =>
      rw [hp] at h
      simp only [Option.some.injEq, Prod.mk.injEq] at h
      exact Or.inl ⟨h.1.symm, h.2.symm⟩
    | some ks =>
      obtain ⟨kingSrc, rookSrc⟩ := ks
      rw [hp] at h
      simp only at h
      right
      cases h3 : g.tempMove kingSrc (Square.mk (kingSrc.file +
          (if castlingSide = QUEENSIDE then Q_DIRECTION else K_DIRECTION)) kingSrc.rank) with
      | none => rw [h3] at h; cases h
      | some g3 =>
        rw [h3] at h
        simp only at h
        cases hr1 : (if isCurrentInCheck then some true else g3.isInCheck currentPlayer) with
        | none => rw [hr1] at h; cases h
        | some result1 =>
          rw [hr1] at h
          simp only at h
          cases h4 : g3.tempMove (Square.mk (kingSrc.file +
                (if castlingSide = QUEENSIDE then Q_DIRECTION else K_DIRECTION)) kingSrc.rank)
              (Square.mk (kingSrc.file +
                (if castlingSide = QUEENSIDE then Q_DIRECTION else K_DIRECTION) +
                (if castlingSide = QUEENSIDE then Q_DIRECTION else K_DIRECTION))
                kingSrc.rank) with
          | none => rw [h4] at h; cases h
          | some g4 =>
            rw [h4] at h
            simp only at h
            refine ⟨kingSrc, rookSrc, g3, result1, g4, rfl, h3, hr1, h4, ?_⟩
            cases hr2 : (if result1 then some true else g4.isInCheck currentPlayer) with
            | none => rw [hr2] at h; cases h
            | some result2 =>
              rw [hr2] at h
              cases result2 with
              | true =>
                simp only at h
                cases hu : g4.undoMoves with
                | none => rw [hu] at h; cases h
                | some g5 =>
                  rw [hu] at h
                  simp only [Option.some.injEq, Prod.mk.injEq] at h
                  obtain ⟨h1, h2⟩ := h
                  subst h1 h2
                  exact Or.inl ⟨rfl, rfl, rfl⟩
              | false =>
                simp only at h
                cases h5 : g4.tempMove rookSrc (Square.mk (rookSrc.file +
                    (if castlingSide = QUEENSIDE then Q_ROOK else K_ROOK)) kingSrc.rank) with
                | none => rw [h5] at h; cases h
                | some g5 =>
                  rw [h5] at h
                  simp only at h
                  cases h6 : g5.saveMoves with
                  | none => rw [h6] at h; cases h
                  | some g6 =>
                    rw [h6] at h
                    simp only [Option.some.injEq, Prod.mk.injEq] at h
                    obtain ⟨h1, h2⟩ := h
                    subst h1 h2
                    exact Or.inr ⟨rfl, rfl, g5, rfl, h6⟩

theorem tempMove_board {g g1 : GameMaster} {src dest : Square}
    (h : g.tempMove src dest = some g1) : g1._board = g._board := by
  obtain ⟨t1, _, rfl⟩ := tempMove_eq h
  rfl

/-- C2. In a state that satisfies the data-model invariants, with the board moves are made on
equal to the saved board, whenever `castling` returns false the state after the call is the
state before the call, also when the king had already been moved one and two squares on the
board moves are made on before the rejection.  And `castling` does return, for WHITE or BLACK,
when the two squares the king is to cross exist (the king stands on file C or beyond for the
queenside, on file F or before for the kingside). -/
theorem castling_rejected_restores_state (g : GameMaster) (hwf : g.WF) (castlingSide : Char)
    (currentPlayer : Int) (isCurrentInCheck : Bool) :
    (∀ g2, g.castling castlingSide currentPlayer isCurrentInCheck = some (false, g2) →
      g2 = g) ∧
    ((currentPlayer = WHITE ∨ currentPlayer = BLACK) →
      (∀ k king, g.getTempKing currentPlayer = some k → g._tempBoard.deref k = some king →
        if castlingSide = QUEENSIDE then MIN_FILE + 2 ≤ king.getPosition.file
        else king.getPosition.file ≤ MAX_FILE - 2) →
      ∃ r, g.castling castlingSide currentPlayer isCurrentInCheck = some r) := by
  refine ⟨?_, fun hcp hfile => castling_isSome g hwf castlingSide hcp isCurrentInCheck hfile⟩
  intro g2 h
  rcases castling_inv h with ⟨_, h2⟩ | ⟨kingSrc, rookSrc, g3, result1, g4, _, h3, _, h4, h5⟩
  · exact h2
  · rcases h5 with ⟨_, _, hu⟩ | ⟨_, hres, _⟩
    · have hb4 : g4._board = g._board := (tempMove_board h4).trans (tempMove_board h3)
      rw [undoMoves_of_WF (hb4 ▸ hwf.1)] at hu
      simp only [Option.some.injEq] at hu
      subst hu
      cases g
      cases g4
      simp only at hb4
      have := hwf.2
      simp only at this
      subst hb4 this
      rfl
    · cases hres

theorem castling_rejected_restores_state_witness :
    castlingThroughCheckState.WF ∧
    (castlingThroughCheckState._isPseudoLegalCastling KINGSIDE WHITE).map Option.isSome
      = some true ∧
    castlingThroughCheckState.castling KINGSIDE WHITE false
      = some (false, castlingThroughCheckState) ∧
    castlingThroughCheckState = castlingThroughCheckState :=
  ⟨by decide, by decide, by decide,
    (castling_rejected_restores_state castlingThroughCheckState (by decide)
      KINGSIDE WHITE false).1 castlingThroughCheckState (by decide)⟩

end GameMaster

namespace GameMaster

theorem mem_getKingMoves (k d : Square) :
    d ∈ _getKingMoves k ↔ cabs (d.file - k.file) ≤ 1 ∧ cabs (d.rank - k.rank) ≤ 1 := by
  unfold _getKingMoves
  simp only [List.mem_flatMap, List.mem_map, List.mem_cons, List.mem_singleton,
    List.not_mem_nil, or_false]
  have h1 := cabs_cases (d.file - k.file)
  have h2 := cabs_cases (d.rank - k.rank)
  constructor
  · rintro ⟨i, hi, j, hj, rfl⟩
    simp only at h1 h2 ⊢
    rcases hi with rfl | rfl | rfl <;> rcases hj with rfl | rfl | rfl <;>
      constructor <;> omega
  · rintro ⟨hf, hr⟩
    refine ⟨d.file - k.file, by omega, d.rank - k.rank, by omega, ?_⟩
    cases d
    simp

theorem king_pseudoLegal_iff (t : Board) (king : Piece) (hk : king.isKing = true)
    (d : Square) (hd : d ∈ _getKingMoves king.getPosition) :
    pseudoLegal t king d ↔
      isInBoard d = true ∧ ∃ v, t.colorAt d = some v ∧ v ≠ some king.getColor := by
  have hkind : king.kind = Kind.King := by
    unfold Piece.isKing at hk
    split at hk
    · assumption
    · cases hk
  have hreach : ∀ b, king.canReach d b = true := by
    intro b
    have := (mem_getKingMoves _ _).1 hd
    simp only [Piece.canReach, hkind, King.canReach, KING_RANGE, Bool.and_eq_true,
      decide_eq_true_eq]
    exact this
  have hpath : king.getPathTo d = some [] := by simp [Piece.getPathTo, hkind]
  unfold pseudoLegal
  constructor
  · rintro ⟨h1, v, h2, h3, _⟩
    exact ⟨h1, v, h2, h3⟩
  · rintro ⟨h1, v, h2, h3⟩
    exact ⟨h1, v, h2, h3, hreach _, [], hpath, fun _ h => by cases h⟩

/-- The loop of `isInCheckmate` in a state that satisfies the invariants: it returns, it leaves
the state as it found it, and its result is true exactly when no trial succeeds. -/
theorem isInCheckmateLoop_spec (g : GameMaster) (hwf : g.WF) {color : Int} {king : Piece}
    (hK1 : g.getTempKing color = some king.addr)
    (hK2 : g._tempBoard.deref king.addr = some king) (l : List Square) :
    ∃ res, isInCheckmateLoop color king.getPosition g l = some (res, g) ∧
      (res = true ↔ ∀ d ∈ l, ¬ (pseudoLegal g._tempBoard king d ∧
        ∃ g1, g.tempMove king.getPosition d = some g1 ∧ g1.isInCheck color = some false)) := by
  have htwf : g._tempBoard.WF := hwf.2 ▸ hwf.1
  have hcons := htwf.consistent
  obtain ⟨hKm, _⟩ := Board.deref_eq_some hK2
  induction l with
  | nil => exact ⟨true, rfl, by simp⟩
  | cons d rest ih =>
    obtain ⟨res, hres, hiff⟩ := ih
    obtain ⟨b, hb, hbiff⟩ := g._isPseudoPath_spec hcons hKm d
    cases b with
    | false =>
      refine ⟨res, by simp [isInCheckmateLoop, hK1, hK2, hb, hres], ?_⟩
      rw [hiff]
      constructor
      · intro h x hx
        rcases List.mem_cons.1 hx with rfl | hx
        · rintro ⟨hpl, _⟩
          exact absurd (hbiff.2 hpl) (by simp)
        · exact h x hx
      · intro h x hx
        exact h x (List.mem_cons_of_mem _ hx)
    | true =>
      have hpl := hbiff.1 rfl
      obtain ⟨hdest, v1, hv1, hv2, _, _⟩ := hpl
      have hne : d ≠ king.getPosition := by
        intro e
        have := hcons.colorAt_of_mem hKm
        rw [← e, hv1] at this
        simp only [Option.some.injEq] at this
        exact hv2 this
      have hv : g._tempBoard._getPiece king.getPosition = some (some king.addr) :=
        hcons.2.1 king hKm
      obtain ⟨t1, ht1, hw1, hb1, hwk1, hbk1, _, hc1⟩ := Board.tempMove_spec hcons hv hdest hne
      have hmove : g.tempMove king.getPosition d = some { g with _tempBoard := t1 } := by
        simp [tempMove, ht1]
      have hking1 : ({ g with _tempBoard := t1 } : GameMaster).getTempKing color
          = some king.addr := by
        simp only [getTempKing, Board._getKing, hwk1, hbk1]
        exact hK1
      obtain ⟨bc, hbc, _⟩ := isInCheck_spec ({ g with _tempBoard := t1 } : GameMaster) hc1
        hking1 (Board.deref_movedList hc1 hw1 hb1 hKm (Ne.symm hne))
      have hundo := undoMoves_of_WF (g := ({ g with _tempBoard := t1 } : GameMaster)) hwf.1
      rw [with_tempBoard_self hwf.2] at hundo
      cases bc with
      | false =>
        refine ⟨false, by simp [isInCheckmateLoop, hK1, hK2, hb, hmove, hbc, hundo], ?_⟩
        simp only [Bool.false_eq_true, false_iff, not_forall]
        exact ⟨d, List.mem_cons_self _ _, fun h => h ⟨hbiff.1 rfl, _, hmove, hbc⟩⟩
      | true =>
        refine ⟨res, by simp [isInCheckmateLoop, hK1, hK2, hb, hmove, hbc, hundo, hres], ?_⟩
        rw [hiff]
        constructor
        · intro h x hx
          rcases List.mem_cons.1 hx with rfl | hx
          · rintro ⟨_, g1, hg1, hsafe⟩
            rw [hmove] at hg1
            simp only [Option.some.injEq] at hg1
            subst hg1
            rw [hbc] at hsafe
            simp at hsafe
          · exact h x hx
        · intro h x hx
          exact h x (List.mem_cons_of_mem _ hx)

/-- C10. In a state that satisfies the data-model invariants, for `color` WHITE or BLACK,
`isInCheckmate(color, isColorInCheck)` returns true if and only if `isColorInCheck` is true and
there is no square `d` whose file and rank each differ by at most 1 from those of the king's
square such that `d` is on the board and not occupied by a piece of the king's colour and,
after the king is moved to `d` on the board moves are made on, `isInCheck(color)` is false.
It returns false whenever `isColorInCheck` is false; and it returns true for the Black king
on E8 checked by the White rook on E1 in a position where the Black rook on A1 has a
pseudo-legal capture of that rook. -/
theorem isInCheckmate_iff (g : GameMaster) (hwf : g.WF) (color : Int)
    (hcolor : color = WHITE ∨ color = BLACK) (isColorInCheck : Bool) :
    (∃ king, g.getTempKing color = some king.addr ∧
      g._tempBoard.deref king.addr = some king ∧ king.isKing = true ∧
      king.getColor = color ∧
      ∃ res, g.isInCheckmate color isColorInCheck = some (res, g) ∧
        (res = true ↔ isColorInCheck = true ∧
          ¬ ∃ d : Square, cabs (d.file - king.getPosition.file) ≤ 1 ∧
            cabs (d.rank - king.getPosition.rank) ≤ 1 ∧ g.kingEscapes color king d)) ∧
    g.isInCheckmate color false = some (false, g) ∧
    (rookCheckState.isInCheck BLACK = some true ∧
      rookCheckState._isPseudoPath (Piece.new 7 Kind.Rook BLACK A1) E1 = some true ∧
      rookCheckState.isInCheckmate BLACK true = some (true, rookCheckState)) := by
  have htwf : g._tempBoard.WF := hwf.2 ▸ hwf.1
  refine ⟨?_, by simp [isInCheckmate], by decide, by decide, by decide⟩
  obtain ⟨K, hK1, _, hK3, hK4, hK5, hK6⟩ := htwf.king hcolor
  refine ⟨K, hK1, hK6, hK4, hK5, ?_⟩
  cases isColorInCheck with
  | false => exact ⟨false, by simp [isInCheckmate], by simp⟩
  | true =>
    obtain ⟨res, hres, hiff⟩ := isInCheckmateLoop_spec g hwf
      (show g.getTempKing color = some K.addr from hK1) hK6 (_getKingMoves K.getPosition)
    refine ⟨res, ?_, ?_⟩
    · have hk : g.getTempKing color = some K.addr := hK1
      simp [isInCheckmate, hk, hK6, hres]
    · rw [hiff]
      constructor
      · intro h
        refine ⟨rfl, ?_⟩
        rintro ⟨d, hf, hr, h1, h2, h3⟩
        have hd := (mem_getKingMoves K.getPosition d).2 ⟨hf, hr⟩
        exact h d hd ⟨(king_pseudoLegal_iff _ K hK4 d hd).2 ⟨h1, h2⟩, h3⟩
      · rintro ⟨_, h⟩ d hd ⟨hpl, hsafe⟩
        obtain ⟨hf, hr⟩ := (mem_getKingMoves K.getPosition d).1 hd
        obtain ⟨h1, h2⟩ := (king_pseudoLegal_iff _ K hK4 d hd).1 hpl
        exact h ⟨d, hf, hr, h1, h2, hsafe⟩

theorem isInCheckmate_iff_witness :
    rookCheckState.WF ∧ (BLACK = WHITE ∨ BLACK = BLACK) ∧
    ((∃ king, rookCheckState.getTempKing BLACK = some king.addr ∧
      rookCheckState._tempBoard.deref king.addr = some king ∧ king.isKing = true ∧
      king.getColor = BLACK ∧
      ∃ res, rookCheckState.isInCheckmate BLACK true = some (res, rookCheckState) ∧
        (res = true ↔ true = true ∧
          ¬ ∃ d : Square, cabs (d.file - king.getPosition.file) ≤ 1 ∧
            cabs (d.rank - king.getPosition.rank) ≤ 1 ∧
            rookCheckState.kingEscapes BLACK king d)) ∧
    rookCheckState.isInCheckmate BLACK false = some (false, rookCheckState) ∧
    (rookCheckState.isInCheck BLACK = some true ∧
      rookCheckState._isPseudoPath (Piece.new 7 Kind.Rook BLACK A1) E1 = some true ∧
      rookCheckState.isInCheckmate BLACK true = some (true, rookCheckState))) :=
  ⟨by decide, by decide, isInCheckmate_iff rookCheckState (by decide) BLACK (by decide) true⟩

end GameMaster

/-! ## The queries `isInCheckmate` and `isInCheck` -/

namespace GameMaster

/-- C11. In a state that satisfies the data-model invariants, with the board moves are made on
equal to the saved board, `isInCheckmate(color, flag)` returns for WHITE and for BLACK and for
either flag, and whatever it returns (also on the early return, when a trial of the king
succeeds) the state after the call, both boards, is the state before the call. -/
theorem isInCheckmate_restores_state (g : GameMaster) (hwf : g.WF) (color : Int)
    (hcolor : color = WHITE ∨ color = BLACK) (isColorInCheck : Bool) :
    (∃ res, g.isInCheckmate color isColorInCheck = some (res, g)) ∧
    ∀ res g2, g.isInCheckmate color isColorInCheck = some (res, g2) → g2 = g := by
  have htwf : g._tempBoard.WF := hwf.2 ▸ hwf.1
  have hex : ∃ res, g.isInCheckmate color isColorInCheck = some (res, g) := by
    cases isColorInCheck with
    | false => exact ⟨false, by simp [isInCheckmate]⟩
    | true =>
      obtain ⟨K, hK1, _, _, _, _, hK6⟩ := htwf.king hcolor
      have hk : g.getTempKing color = some K.addr := hK1
      obtain ⟨res, hres, _⟩ := isInCheckmateLoop_spec g hwf hk hK6 (_getKingMoves K.getPosition)
      exact ⟨res, by simp [isInCheckmate, hk, hK6, hres]⟩
  refine ⟨hex, ?_⟩
  intro res g2 h
  obtain ⟨res0, h0⟩ := hex
  rw [h0] at h
  simp only [Option.some.injEq, Prod.mk.injEq] at h
  exact h.2.symm

theorem isInCheckmate_restores_state_witness :
    rookCheckState.WF ∧ (WHITE = WHITE ∨ WHITE = BLACK) ∧
    rookCheckState.isInCheckmate WHITE true = some (false, rookCheckState) ∧
    rookCheckState.isInCheckmate BLACK true = some (true, rookCheckState) ∧
    ((∃ res, rookCheckState.isInCheckmate WHITE true = some (res, rookCheckState)) ∧
    ∀ res g2, rookCheckState.isInCheckmate WHITE true = some (res, g2) → g2 = rookCheckState) :=
  ⟨by decide, by decide, by decide, by decide,
    isInCheckmate_restores_state rookCheckState (by decide) WHITE (by decide) true⟩

/-- The state `_isEmptyPath` leaves is the state it was called in, and its result is the
result of the embedding that returns the result only. -/
theorem _isEmptyPathCall_eq (g : GameMaster) (path : List Square) :
    g._isEmptyPathCall path = (g._isEmptyPath path).map (fun b => (b, g)) := by
  induction path with
  | nil => rfl
  | cons position rest ih =>
    unfold _isEmptyPathCall _isEmptyPath getTempPieceCall getTempPiece
    cases hv : g._tempBoard._getPiece position with
    | none => rfl
    | some v =>
      cases v with
      | none => exact ih
      | some d => rfl

theorem reachAndPathCall_eq (g : GameMaster) {piece : Ptr} {p : Piece}
    (hp : g._tempBoard.deref piece = some p) (dest : Square) (isCapture : Bool) :
    g.reachAndPathCall piece dest isCapture
      = (g.reachAndPath p dest isCapture).map (fun b => (b, g)) := by
  unfold reachAndPathCall reachAndPath
  rw [hp]
  simp only
  split
  · rfl
  · cases p.getPathTo dest with
    | none => rfl
    | some path => exact g._isEmptyPathCall_eq path

theorem _isPseudoPathCall_eq (g : GameMaster) {piece : Ptr} {p : Piece}
    (hp : g._tempBoard.deref piece = some p) (dest : Square) :
    g._isPseudoPathCall piece dest = (g._isPseudoPath p dest).map (fun b => (b, g)) := by
  unfold _isPseudoPathCall _isPseudoPath getTempPieceCall getTempPiece
  split
  · rfl
  · cases hv : g._tempBoard._getPiece dest with
    | none => rfl
    | some v =>
      cases v with
      | none => exact g.reachAndPathCall_eq hp dest false
      | some d =>
        simp only
        cases hd : g._tempBoard.deref d with
        | none => rfl
        | some destPiece =>
          simp only [hp]
          split
          · rfl
          · exact g.reachAndPathCall_eq hp dest true

theorem isInCheckLoopCall_eq (g : GameMaster) {king : Ptr} {k : Piece}
    (hk : g._tempBoard.deref king = some k) (l : List Piece)
    (hl : ∀ p ∈ l, g._tempBoard.deref p.addr = some p) :
    isInCheckLoopCall king g (l.map Piece.addr)
      = (isInCheckLoop g k.getPosition l).map (fun b => (b, g)) := by
  induction l with
  | nil => rfl
  | cons p rest ih =>
    simp only [List.map_cons]
    unfold isInCheckLoopCall isInCheckLoop
    rw [hk]
    simp only
    rw [g._isPseudoPathCall_eq (hl p (List.mem_cons_self _ _))]
    cases hb : g._isPseudoPath p k.getPosition with
    | none => rfl
    | some b =>
      cases b with
      | true => rfl
      | false => exact ih (fun q hq => hl q (List.mem_cons_of_mem _ hq))

/-- On a board whose pieces have distinct addresses the state `isInCheck` leaves is the state
it was called in, and the flag it returns is the flag of the embedding that returns the flag
only. -/
theorem isInCheckCall_eq (g : GameMaster)
    (hnd : (g._tempBoard.allPieces.map Piece.addr).Nodup) (color : Int) :
    g.isInCheckCall color = (g.isInCheck color).map (fun b => (b, g)) := by
  unfold isInCheckCall isInCheck
  cases hk : g.getTempKing color with
  | none => rfl
  | some king =>
    simp only
    cases hd : g._tempBoard.deref king with
    | none => rfl
    | some k =>
      simp only
      exact g.isInCheckLoopCall_eq hd _
        (fun p hp => Board.deref_of_mem hnd (g.getTempPieces_subset _ p hp))

/-- Whatever `_isEmptyPath` returns, in whatever state, it leaves the state it was called
in. -/
theorem _isEmptyPathCall_state (path : List Square) :
    ∀ (g : GameMaster) res g2, g._isEmptyPathCall path = some (res, g2) → g2 = g := by
  intro g res g2 h
  rw [_isEmptyPathCall_eq] at h
  simp only [Option.map_eq_some', Prod.mk.injEq] at h
  obtain ⟨_, _, _, h2⟩ := h
  exact h2.symm

theorem reachAndPathCall_state {g g2 : GameMaster} {piece : Ptr} {dest : Square}
    {isCapture res : Bool} (h : g.reachAndPathCall piece dest isCapture = some (res, g2)) :
    g2 = g := by
  cases hp : g._tempBoard.deref piece with
  | none => simp [reachAndPathCall, hp] at h
  | some p =>
    rw [g.reachAndPathCall_eq hp] at h
    simp only [Option.map_eq_some', Prod.mk.injEq] at h
    obtain ⟨_, _, _, h2⟩ := h
    exact h2.symm

theorem _isPseudoPathCall_state {g g2 : GameMaster} {piece : Ptr} {dest : Square}
    {res : Bool} (h : g._isPseudoPathCall piece dest = some (res, g2)) : g2 = g := by
  unfold _isPseudoPathCall getTempPieceCall at h
  split at h
  · simp only [Option.some.injEq, Prod.mk.injEq] at h
    exact h.2.symm
  · cases hv : g._tempBoard._getPiece dest with
    | none => rw [hv] at h; cases h
    | some v =>
      rw [hv] at h
      cases v with
      | none => exact reachAndPathCall_state h
      | some d =>
        simp only at h
        cases hd : g._tempBoard.deref d with
        | none => rw [hd] at h; cases h
        | some destPiece =>
          rw [hd] at h
          simp only at h
          cases hp : g._tempBoard.deref piece with
          | none => rw [hp] at h; cases h
          | some p =>
            rw [hp] at h
            simp only at h
            split at h
            · simp only [Option.some.injEq, Prod.mk.injEq] at h
              exact h.2.symm
            · exact reachAndPathCall_state h

theorem isInCheckLoopCall_state (king : Ptr) (l : List Ptr) :
    ∀ (g : GameMaster) res g2, isInCheckLoopCall king g l = some (res, g2) → g2 = g := by
  induction l with
  | nil =>
    intro g res g2 h
    simp only [isInCheckLoopCall, Option.some.injEq, Prod.mk.injEq] at h
    exact h.2.symm
  | cons piece rest ih =>
    intro g res g2 h
    unfold isInCheckLoopCall at h
    cases hk : g._tempBoard.deref king with
    | none => rw [hk] at h; cases h
    | some k =>
      rw [hk] at h
      simp only at h
      cases hp : g._isPseudoPathCall piece k.getPosition with
      | none => rw [hp] at h; cases h
      | some r =>
        obtain ⟨b, g1⟩ := r
        have hg1 : g1 = g := _isPseudoPathCall_state hp
        subst hg1
        rw [hp] at h
        cases b with
        | true =>
          simp only [Option.some.injEq, Prod.mk.injEq] at h
          exact h.2.symm
        | false => exact ih g1 res g2 h

/-- Whatever `isInCheck` returns, in whatever state and for whatever colour, it leaves the
state it was called in: the two boards and every piece are as they were. -/
theorem isInCheckCall_state {g g2 : GameMaster} {color : Int} {res : Bool}
    (h : g.isInCheckCall color = some (res, g2)) : g2 = g := by
  unfold isInCheckCall at h
  cases hk : g.getTempKing color with
  | none => rw [hk] at h; cases h
  | some king =>
    rw [hk] at h
    simp only at h
    cases hd : g._tempBoard.deref king with
    | none => rw [hd] at h; cases h
    | some k =>
      rw [hd] at h
      exact isInCheckLoopCall_state king _ g res g2 h

/-- C12. The call `isInCheck(color)`, with the state threaded through its statements and
those of `_isPseudoPath` and `_isEmptyPath`, leaves the state it was called in, whatever the
state, the colour and the flag it returns: both boards and every piece are as they were.  On
a board that satisfies the data-model invariants the call returns for WHITE and for BLACK;
two calls in sequence, the second in the state the first has left, return the same flag twice
and leave the state as it was; the flag is the one of the embedding that returns the flag
only, and it is the same in every state whose board moves are made on is the same. -/
theorem isInCheck_twice (g : GameMaster) (hwf : g._tempBoard.WF) (color : Int)
    (hcolor : color = WHITE ∨ color = BLACK) :
    (∀ (g0 : GameMaster) (c : Int) (res : Bool) (g2 : GameMaster),
      g0.isInCheckCall c = some (res, g2) → g2 = g0) ∧
    ∃ b, g.isInCheckCall color = some (b, g) ∧
      g.isInCheckTwice color = some (b, b, g) ∧
      (∀ first second g2, g.isInCheckTwice color = some (first, second, g2) →
        first = second ∧ g2 = g) ∧
      g.isInCheck color = some b ∧
      ∀ g2 : GameMaster, g2._tempBoard = g._tempBoard →
        g2.isInCheckCall color = some (b, g2) := by
  refine ⟨fun g0 c res g2 h => isInCheckCall_state h, ?_⟩
  obtain ⟨K, hK1, _, _, _, _, hK6⟩ := hwf.king hcolor
  obtain ⟨b, hb, _⟩ := isInCheck_spec g hwf.consistent
    (show g.getTempKing color = some K.addr from hK1) hK6
  have hcall : g.isInCheckCall color = some (b, g) := by
    rw [g.isInCheckCall_eq hwf.consistent.2.2.2.2.1, hb]
    rfl
  have htwice : g.isInCheckTwice color = some (b, b, g) := by
    simp only [isInCheckTwice, hcall]
  refine ⟨b, hcall, htwice, ?_, hb, ?_⟩
  · intro first second g2 h
    rw [htwice] at h
    simp only [Option.some.injEq, Prod.mk.injEq] at h
    exact ⟨h.1.symm.trans h.2.1, h.2.2.symm⟩
  · intro g2 h
    rw [g2.isInCheckCall_eq (h ▸ hwf.consistent.2.2.2.2.1), isInCheck_congr g g2 h, hb]
    rfl

theorem isInCheck_twice_witness :
    rookCheckState._tempBoard.WF ∧ (BLACK = WHITE ∨ BLACK = BLACK) ∧
    rookCheckState.isInCheckCall BLACK = some (true, rookCheckState) ∧
    rookCheckState.isInCheckCall WHITE = some (false, rookCheckState) ∧
    rookCheckState.isInCheckTwice BLACK = some (true, true, rookCheckState) ∧
    ((∀ (g0 : GameMaster) (c : Int) (res : Bool) (g2 : GameMaster),
      g0.isInCheckCall c = some (res, g2) → g2 = g0) ∧
    ∃ b, rookCheckState.isInCheckCall BLACK = some (b, rookCheckState) ∧
      rookCheckState.isInCheckTwice BLACK = some (b, b, rookCheckState) ∧
      (∀ first second g2,
        rookCheckState.isInCheckTwice BLACK = some (first, second, g2) →
        first = second ∧ g2 = rookCheckState) ∧
      rookCheckState.isInCheck BLACK = some b ∧
      ∀ g2 : GameMaster, g2._tempBoard = rookCheckState._tempBoard →
        g2.isInCheckCall BLACK = some (b, g2)) :=
  ⟨by decide, by decide, by decide, by decide, by decide,
    isInCheck_twice rookCheckState (by decide) BLACK (by decide)⟩

end GameMaster

/-! ## Pseudo-legal castling -/

/-- The path of a piece to a square of its own rank: for a rook, a bishop or a queen the
squares strictly between the two, for the other kinds no square at all. -/
theorem getPathTo_same_rank (t : Board) (R : Piece) (ksq : Square)
    (hR : isInBoard R.getPosition = true) (hK : isInBoard ksq = true)
    (hrank : R.getPosition.rank = ksq.rank) :
    ∃ path, R.getPathTo ksq = some path ∧ (∀ sq ∈ path, isInBoard sq = true) ∧
      ((∀ sq ∈ path, t._getPiece sq = some none) ↔
        ((R.kind = Kind.Rook ∨ R.kind = Kind.Bishop ∨ R.kind = Kind.Queen) →
          t.emptyBetween R.getPosition ksq)) := by
  have hrank2 : R._position.rank = ksq.rank := hrank
  have hal : ksq.file - R._position.file = 0 ∨ ksq.rank - R._position.rank = 0 ∨
      cabs (ksq.file - R._position.file) = cabs (ksq.rank - R._position.rank) := by
    right; left; omega
  obtain ⟨hdef1, hdef2⟩ := getPathToDefault_spec R ksq hR hK hal
  have hs0 : sgnDirection R._position.rank ksq.rank = 0 := by
    simp [sgnDirection, hrank2]
  have hc0 : cabs (ksq.rank - R._position.rank) = 0 := by
    simp [cabs, hrank2]
  rw [hs0, hc0] at hdef1 hdef2
  have hiff : (∀ sq ∈ (List.range (max (cabs (ksq.file - R._position.file)) 0 - 1).toNat).map
        (fun (i : Nat) => Square.mk
          (R._position.file + ((i : Int) + 1) * sgnDirection R._position.file ksq.file)
          (R._position.rank + ((i : Int) + 1) * 0)), t._getPiece sq = some none) ↔
      t.emptyBetween R.getPosition ksq := by
    have hm1 := le_max_left (cabs (ksq.file - R._position.file)) 0
    have hm3 := max_choice (cabs (ksq.file - R._position.file)) 0
    generalize max (cabs (ksq.file - R._position.file)) 0 = m at hm1 hm3 ⊢
    have hn : ((m - 1).toNat : Int) = m - 1 ∨ ((m - 1).toNat = 0 ∧ m - 1 ≤ 0) := by
      by_cases h : 0 ≤ m - 1
      · left; exact Int.toNat_of_nonneg h
      · right; exact ⟨Int.toNat_eq_zero.2 (by omega), by omega⟩
    generalize (m - 1).toNat = n at hn ⊢
    unfold Board.emptyBetween Piece.getPosition
    constructor
    · intro h f hf
      have hcc := cabs_cases (ksq.file - R._position.file)
      rcases sgnDirection_cases R._position.file ksq.file with hs | hs | hs
      · have := h (Square.mk f R._position.rank) (by
          rw [List.mem_map]
          refine ⟨(f - R._position.file - 1).toNat, ?_, ?_⟩
          · rw [List.mem_range]; omega
          · rw [hs.2]
            have e : (((f - R._position.file - 1).toNat : Nat) : Int)
                = f - R._position.file - 1 := Int.toNat_of_nonneg (by omega)
            rw [e]
            congr 1 <;> ring)
        exact this
      · omega
      · have := h (Square.mk f R._position.rank) (by
          rw [List.mem_map]
          refine ⟨(R._position.file - f - 1).toNat, ?_, ?_⟩
          · rw [List.mem_range]; omega
          · rw [hs.2]
            have e : (((R._position.file - f - 1).toNat : Nat) : Int)
                = R._position.file - f - 1 := Int.toNat_of_nonneg (by omega)
            rw [e]
            congr 1 <;> ring)
        exact this
    · intro h sq hsq
      obtain ⟨i, hi, rfl⟩ := List.mem_map.1 hsq
      rw [List.mem_range] at hi
      have hcc := cabs_cases (ksq.file - R._position.file)
      have e0 : R._position.rank + ((i : Int) + 1) * 0 = R._position.rank := by ring
      rw [e0]
      apply h
      rcases sgnDirection_cases R._position.file ksq.file with hs | hs | hs <;>
        (rw [hs.2]; omega)
  unfold Piece.getPathTo
  cases hkind : R.kind with
  | Pawn =>
    refine ⟨_, rfl, ?_, ?_⟩
    · intro sq hsq
      simp [Pawn.getPathTo, hc0] at hsq
    · simp [Pawn.getPathTo, hc0]
  | Knight => exact ⟨[], rfl, fun _ h => (by cases h), by simp⟩
  | King => exact ⟨[], rfl, fun _ h => (by cases h), by simp⟩
  | Bishop => exact ⟨_, hdef1, hdef2, by simpa using hiff⟩
  | Rook => exact ⟨_, hdef1, hdef2, by simpa using hiff⟩
  | Queen => exact ⟨_, hdef1, hdef2, by simpa using hiff⟩

namespace GameMaster

theorem rookCorner_inBoard (castlingSide : Char) {sq : Square} (h : isInBoard sq = true) :
    isInBoard (rookCorner castlingSide sq) = true := by
  rw [isInBoard_iff] at h ⊢
  unfold rookCorner
  simp only [MIN_FILE, MAX_FILE, MIN_RANK, MAX_RANK] at h ⊢
  split <;> omega

/-- In a state that satisfies the invariants `_isPseudoLegalCastling` returns, and it returns
true exactly when `castlingTest` holds; the strings it assigns are the square of the king and
the corner. -/
theorem _isPseudoLegalCastling_spec (g : GameMaster) (hwf : g._tempBoard.WF)
    (castlingSide : Char) {currentPlayer : Int}
    (hcp : currentPlayer = WHITE ∨ currentPlayer = BLACK) :
    ∃ K, g.getTempKing currentPlayer = some K.addr ∧ g._tempBoard.deref K.addr = some K ∧
      K ∈ g._tempBoard.allPieces ∧
      ((g._isPseudoLegalCastling castlingSide currentPlayer = some none ∧
          ¬ g.castlingTest castlingSide currentPlayer) ∨
       (g._isPseudoLegalCastling castlingSide currentPlayer
          = some (some (K.getPosition, rookCorner castlingSide K.getPosition)) ∧
        g.castlingTest castlingSide currentPlayer ∧ K.hasMoved = false ∧
        ∃ R, R ∈ g._tempBoard.allPieces ∧
          g._tempBoard._getPiece (rookCorner castlingSide K.getPosition) = some (some R.addr) ∧
          R.getPosition = rookCorner castlingSide K.getPosition ∧ R.hasMoved = false ∧
          ((R.kind = Kind.Rook ∨ R.kind = Kind.Bishop ∨ R.kind = Kind.Queen) →
            g._tempBoard.emptyBetween R.getPosition K.getPosition))) := by
  have hcons := hwf.consistent
  obtain ⟨K, hK1, _, hK3, _, _, hK6⟩ := hwf.king hcp
  have hk : g.getTempKing currentPlayer = some K.addr := hK1
  refine ⟨K, hK1, hK6, hK3, ?_⟩
  -- whatever witnesses `castlingTest` has, they are this king and the piece in the corner
  have huniq : ∀ king rook : Piece, g.getTempKing currentPlayer = some king.addr →
      g._tempBoard.deref king.addr = some king →
      g.getTempPiece (rookCorner castlingSide king.getPosition) = some (some rook.addr) →
      g._tempBoard.deref rook.addr = some rook →
      king = K ∧ g._tempBoard._getPiece (rookCorner castlingSide K.getPosition)
        = some (some rook.addr) := by
    intro king rook h1 h2 h3 _
    rw [hk] at h1
    simp only [Option.some.injEq] at h1
    rw [← h1, hK6] at h2
    simp only [Option.some.injEq] at h2
    subst h2
    exact ⟨rfl, h3⟩
  by_cases hm : K.hasMoved = true
  · left
    refine ⟨by simp [_isPseudoLegalCastling, hk, hK6, hm], ?_⟩
    rintro ⟨king, rook, h1, h2, h3, h4, h5, _⟩
    obtain ⟨rfl, _⟩ := huniq king rook h1 h2 h4 h5
    rw [hm] at h3
    cases h3
  have hm2 : K.hasMoved = false := by simpa using hm
  have hrin := rookCorner_inBoard castlingSide (hcons.inBoard hK3)
  obtain ⟨v, hv⟩ := hcons.getPiece_isSome hrin
  have hv2 : g._tempBoard._getPiece (Square.mk
      (if castlingSide = QUEENSIDE then MIN_FILE else MAX_FILE) K.getPosition.rank) = some v := hv
  cases v with
  | none =>
    left
    refine ⟨by simp [_isPseudoLegalCastling, hk, hK6, hm2, getTempPiece, hv2], ?_⟩
    rintro ⟨king, rook, h1, h2, h3, h4, h5, _⟩
    obtain ⟨rfl, h6⟩ := huniq king rook h1 h2 h4 h5
    rw [hv] at h6
    cases h6
  | some r =>
    obtain ⟨R, hR, hRa, hRpos, hRd⟩ := hcons.occupant hv
    subst hRa
    have hrank : R.getPosition.rank = K.getPosition.rank := by rw [hRpos]; rfl
    obtain ⟨path, hp1, hp2, hp3⟩ := getPathTo_same_rank g._tempBoard R K.getPosition
      (hcons.inBoard hR) (hcons.inBoard hK3) hrank
    obtain ⟨b, hb, hbiff⟩ := g._isEmptyPath_spec hcons.1 path hp2
    have hrook : ∀ king rook : Piece, g.getTempKing currentPlayer = some king.addr →
        g._tempBoard.deref king.addr = some king →
        g.getTempPiece (rookCorner castlingSide king.getPosition) = some (some rook.addr) →
        g._tempBoard.deref rook.addr = some rook → king = K ∧ rook = R := by
      intro king rook h1 h2 h3 h4
      obtain ⟨rfl, h6⟩ := huniq king rook h1 h2 h3 h4
      rw [hv] at h6
      simp only [Option.some.injEq] at h6
      rw [← h6, hRd] at h4
      simp only [Option.some.injEq] at h4
      exact ⟨rfl, h4.symm⟩
    by_cases hrm : R.hasMoved = true
    · left
      refine ⟨by simp [_isPseudoLegalCastling, hk, hK6, hm2, getTempPiece, hv2, hRd, hrm], ?_⟩
      rintro ⟨king, rook, h1, h2, h3, h4, h5, h6, _⟩
      obtain ⟨rfl, rfl⟩ := hrook king rook h1 h2 h4 h5
      rw [hrm] at h6
      cases h6
    have hrm2 : R.hasMoved = false := by simpa using hrm
    cases b with
    | false =>
      left
      refine ⟨by simp [_isPseudoLegalCastling, hk, hK6, hm2, getTempPiece, hv2, hRd, hrm2, hp1,
        hb], ?_⟩
      rintro ⟨king, rook, h1, h2, h3, h4, h5, h6, h7⟩
      obtain ⟨rfl, rfl⟩ := hrook king rook h1 h2 h4 h5
      have := hbiff.2 (hp3.2 h7)
      cases this
    | true =>
      right
      have hbt := hp3.1 (hbiff.1 rfl)
      refine ⟨?_, ⟨K, R, hk, hK6, hm2, hv, hRd, hrm2, hbt⟩, hm2, R, hR, hv, hRpos, hrm2, hbt⟩
      simp [_isPseudoLegalCastling, hk, hK6, hm2, getTempPiece, hv2, hRd, hrm2, hp1, hb,
        rookCorner]

end GameMaster

namespace GameMaster

/-- The run of `castling` after its pseudo-legality test has passed, in a state that satisfies
the invariants and in which the king stands at least two files away from the edge it moves
towards: the two steps of the king are made, `isInCheck` has a value after each, and the call
rejects and restores the state when the flag or one of the two values is true, and otherwise
moves the piece of the corner and saves. -/
theorem castling_spec (g : GameMaster) (hwf : g.WF) (castlingSide : Char)
    {currentPlayer : Int} (isCurrentInCheck : Bool) {K : Piece}
    (hK1 : g.getTempKing currentPlayer = some K.addr)
    (hK2 : g._tempBoard.deref K.addr = some K) {r : Ptr}
    (hr : g._tempBoard._getPiece (rookCorner castlingSide K.getPosition) = some (some r))
    (hps : g._isPseudoLegalCastling castlingSide currentPlayer
      = some (some (K.getPosition, rookCorner castlingSide K.getPosition)))
    (hfile : if castlingSide = QUEENSIDE then MIN_FILE + 2 ≤ K.getPosition.file
      else K.getPosition.file ≤ MAX_FILE - 2) :
    ∃ t1 t2 c1 c2,
      g._tempBoard.tempMove K.getPosition (Square.mk (K.getPosition.file +
        (if castlingSide = QUEENSIDE then Q_DIRECTION else K_DIRECTION)) K.getPosition.rank)
        = some t1 ∧ t1.Consistent ∧
      ({ g with _tempBoard := t1 } : GameMaster).isInCheck currentPlayer = some c1 ∧
      t1.tempMove (Square.mk (K.getPosition.file +
          (if castlingSide = QUEENSIDE then Q_DIRECTION else K_DIRECTION)) K.getPosition.rank)
        (Square.mk (K.getPosition.file +
          (if castlingSide = QUEENSIDE then Q_DIRECTION else K_DIRECTION) +
          (if castlingSide = QUEENSIDE then Q_DIRECTION else K_DIRECTION)) K.getPosition.rank)
        = some t2 ∧ t2.Consistent ∧
      ({ g with _tempBoard := t2 } : GameMaster).isInCheck currentPlayer = some c2 ∧
      ((isCurrentInCheck = true ∨ c1 = true ∨ c2 = true) →
        g.castling castlingSide currentPlayer isCurrentInCheck = some (false, g)) ∧
      ((isCurrentInCheck = false ∧ c1 = false ∧ c2 = false) →
        ∃ t3, t2.tempMove (rookCorner castlingSide K.getPosition)
            (Square.mk ((rookCorner castlingSide K.getPosition).file +
              (if castlingSide = QUEENSIDE then Q_ROOK else K_ROOK)) K.getPosition.rank)
            = some t3 ∧
          g.castling castlingSide currentPlayer isCurrentInCheck = some (true, ⟨t3, t3⟩)) := by
  have htwf : g._tempBoard.WF := hwf.2 ▸ hwf.1
  have hcons := htwf.consistent
  obtain ⟨hK3, _⟩ := Board.deref_eq_some hK2
  have hKin := (isInBoard_iff _).1 (hcons.inBoard hK3)
  unfold castling
  rw [hps]
  simp only
  unfold rookCorner at hr ⊢
  simp only
  have hfacts : ((if castlingSide = QUEENSIDE then Q_DIRECTION else K_DIRECTION) = -1 ∧
      (if castlingSide = QUEENSIDE then MIN_FILE else MAX_FILE) = 65 ∧
      (if castlingSide = QUEENSIDE then Q_ROOK else K_ROOK) = 3 ∧
      67 ≤ K.getPosition.file) ∨
      ((if castlingSide = QUEENSIDE then Q_DIRECTION else K_DIRECTION) = 1 ∧
      (if castlingSide = QUEENSIDE then MIN_FILE else MAX_FILE) = 72 ∧
      (if castlingSide = QUEENSIDE then Q_ROOK else K_ROOK) = -2 ∧
      K.getPosition.file ≤ 70) := by
    by_cases hside : castlingSide = QUEENSIDE
    · left
      simp only [hside, if_true, MIN_FILE] at hfile
      rw [if_pos hside, if_pos hside, if_pos hside]
      exact ⟨rfl, rfl, rfl, by omega⟩
    · right
      simp only [hside, if_false, MAX_FILE] at hfile
      rw [if_neg hside, if_neg hside, if_neg hside]
      exact ⟨rfl, rfl, rfl, by omega⟩
  clear hfile
  generalize (if castlingSide = QUEENSIDE then Q_DIRECTION else K_DIRECTION) = dir at hfacts ⊢
  generalize (if castlingSide = QUEENSIDE then MIN_FILE else MAX_FILE) = rf at hfacts hr ⊢
  generalize (if castlingSide = QUEENSIDE then Q_ROOK else K_ROOK) = ro at hfacts ⊢
  simp only [MIN_FILE, MAX_FILE, MIN_RANK, MAX_RANK] at hKin
  have hmidIn : isInBoard (Square.mk (K.getPosition.file + dir) K.getPosition.rank) = true := by
    rw [isInBoard_iff]
    simp only [MIN_FILE, MAX_FILE, MIN_RANK, MAX_RANK]
    omega
  have hdestIn : isInBoard (Square.mk (K.getPosition.file + dir + dir) K.getPosition.rank)
      = true := by
    rw [isInBoard_iff]
    simp only [MIN_FILE, MAX_FILE, MIN_RANK, MAX_RANK]
    omega
  have hrookIn : isInBoard (Square.mk (rf + ro) K.getPosition.rank) = true := by
    rw [isInBoard_iff]
    simp only [MIN_FILE, MAX_FILE, MIN_RANK, MAX_RANK]
    omega
  have hne1 : Square.mk (K.getPosition.file + dir) K.getPosition.rank ≠ K.getPosition := by
    intro e
    have := congrArg Square.file e
    simp only at this
    omega
  have hne2 : Square.mk (K.getPosition.file + dir + dir) K.getPosition.rank
      ≠ Square.mk (K.getPosition.file + dir) K.getPosition.rank := by
    intro e
    have := congrArg Square.file e
    simp only at this
    omega
  have hne3 : Square.mk (rf + ro) K.getPosition.rank ≠ Square.mk rf K.getPosition.rank := by
    intro e
    have := congrArg Square.file e
    simp only at this
    omega
  -- first step of the king
  have hv : g._tempBoard._getPiece K.getPosition = some (some K.addr) := hcons.2.1 K hK3
  obtain ⟨t1, ht1, hw1, hb1, hwk1, hbk1, hget1, hc1⟩ :=
    Board.tempMove_spec hcons hv hmidIn hne1
  have hm1 : g.tempMove K.getPosition (Square.mk (K.getPosition.file + dir) K.getPosition.rank)
      = some { g with _tempBoard := t1 } := by
    simp [tempMove, ht1]
  have hd1 := Board.deref_movedList hc1 hw1 hb1 hK3 (Ne.symm hne1)
  simp only [if_true] at hd1
  have hking1 : ({ g with _tempBoard := t1 } : GameMaster).getTempKing currentPlayer
      = some K.addr := by
    simp only [getTempKing, Board._getKing, hwk1, hbk1]
    exact hK1
  obtain ⟨c1, hc1', _⟩ := isInCheck_spec ({ g with _tempBoard := t1 } : GameMaster) hc1
    hking1 hd1
  -- second step of the king
  have hv1 : t1._getPiece (Square.mk (K.getPosition.file + dir) K.getPosition.rank)
      = some (some K.addr) := by
    rw [hget1]
    simp
  obtain ⟨t2, ht2, hw2, hb2, hwk2, hbk2, hget2, hc2⟩ :=
    Board.tempMove_spec hc1 hv1 hdestIn hne2
  have hm2 : ({ g with _tempBoard := t1 } : GameMaster).tempMove
      (Square.mk (K.getPosition.file + dir) K.getPosition.rank)
      (Square.mk (K.getPosition.file + dir + dir) K.getPosition.rank)
      = some { g with _tempBoard := t2 } := by
    simp [tempMove, ht2]
  have hd2 := Board.deref_movedList hc2 hw2 hb2 (Board.deref_eq_some hd1).1
    (show (K.setPosition _).getPosition ≠ _ from Ne.symm hne2)
  have hking2 : ({ g with _tempBoard := t2 } : GameMaster).getTempKing currentPlayer
      = some K.addr := by
    simp only [getTempKing, Board._getKing, hwk2, hbk2, hwk1, hbk1]
    exact hK1
  obtain ⟨c2, hc2', _⟩ := isInCheck_spec ({ g with _tempBoard := t2 } : GameMaster) hc2
    hking2 (show t2.deref K.addr = _ from hd2)
  have hundo := undoMoves_of_WF (g := ({ g with _tempBoard := t2 } : GameMaster)) hwf.1
  rw [with_tempBoard_self hwf.2] at hundo
  refine ⟨t1, t2, c1, c2, ht1, hc1, hc1', ht2, hc2, hc2', ?_, ?_⟩
  · intro hor
    cases isCurrentInCheck with
    | true => simp only [hm1, hm2, if_true, hundo]
    | false =>
      cases c1 with
      | true => simp [hm1, hm2, hc1', hundo]
      | false =>
        cases c2 with
        | true => simp [hm1, hm2, hc1', hc2', hundo]
        | false => simp at hor
  · rintro ⟨rfl, rfl, rfl⟩
    have hv2 : ∃ x, t2._getPiece (Square.mk rf K.getPosition.rank) = some (some x) := by
      rw [hget2, hget1]
      have e1 : Square.mk rf K.getPosition.rank
          ≠ Square.mk (K.getPosition.file + dir) K.getPosition.rank := by
        intro e
        have := congrArg Square.file e
        simp only at this
        omega
      have e2 : Square.mk rf K.getPosition.rank ≠ K.getPosition := by
        intro e
        have := congrArg Square.file e
        simp only at this
        omega
      by_cases e3 : Square.mk rf K.getPosition.rank
          = Square.mk (K.getPosition.file + dir + dir) K.getPosition.rank
      · exact ⟨K.addr, by simp [e3]⟩
      · exact ⟨r, by simp only [e3, e1, e2, if_false]; exact hr⟩
    obtain ⟨x, hx⟩ := hv2
    obtain ⟨t3, ht3, hw3, hb3, hwk3, hbk3, _, hc3⟩ := Board.tempMove_spec hc2 hx hrookIn hne3
    have hm3 : ({ g with _tempBoard := t2 } : GameMaster).tempMove
        (Square.mk rf K.getPosition.rank) (Square.mk (rf + ro) K.getPosition.rank)
        = some { g with _tempBoard := t3 } := by
      simp [tempMove, ht3]
    have hsave : saveMoves ({ g with _tempBoard := t3 } : GameMaster) = some ⟨t3, t3⟩ := by
      apply saveMoves_of_sublist hwf.1 hc3
      · rw [hw3, hw2, hw1, hwf.2]
        exact ((movedList_kings_sublist _ _ _).trans (movedList_kings_sublist _ _ _)).trans
          (movedList_kings_sublist _ _ _)
      · rw [hb3, hb2, hb1, hwf.2]
        exact ((movedList_kings_sublist _ _ _).trans (movedList_kings_sublist _ _ _)).trans
          (movedList_kings_sublist _ _ _)
      · rw [hwk3, hwk2, hwk1, hwf.2]
      · rw [hbk3, hbk2, hbk1, hwf.2]
    refine ⟨t3, ht3, ?_⟩
    simp [hm1, hc1', hm2, hc2', hm3, hsave]

end GameMaster

/-- `tempMove` to a square on which no piece of the vector stands erases nothing. -/
theorem movedList_of_no_dest (l : List Piece) (a : Ptr) (dest : Square)
    (h : ∀ q ∈ l, q.getPosition ≠ dest) :
    movedList l a dest = l.map (fun q => if q.addr = a then q.setPosition dest else q) := by
  unfold movedList
  rw [List.filter_eq_self.2]
  intro q hq
  simpa using h q hq

/-- The three moves of a castling on one vector, when no piece of the vector stands on the
two squares the king crosses. -/
theorem movedList_three (l : List Piece) (a b : Ptr) (hab : a ≠ b) (mid dest : Square)
    (hmd : dest ≠ mid) (hl : ∀ q ∈ l, q.getPosition ≠ mid ∧ q.getPosition ≠ dest) :
    movedList (movedList (movedList l a mid) a dest) b mid =
      l.map (fun q => if q.addr = a then q.setPosition dest
        else if q.addr = b then q.setPosition mid else q) := by
  rw [movedList_of_no_dest l a mid (fun q hq => (hl q hq).1)]
  rw [movedList_of_no_dest _ a dest]
  · rw [movedList_of_no_dest _ b mid]
    · rw [List.map_map, List.map_map]
      apply List.map_congr_left
      intro q _
      simp only [Function.comp]
      by_cases hq : q.addr = a
      · have hb : ¬ a = b := hab
        simp [hq, Piece.setPosition, hb]
      · simp [hq]
    · intro q hq
      rw [List.map_map] at hq
      obtain ⟨q0, hq0, rfl⟩ := List.mem_map.1 hq
      simp only [Function.comp]
      by_cases hq : q0.addr = a
      · simp only [hq, if_true, Piece.setPosition, Piece.getPosition]
        exact hmd
      · simp only [hq, if_false]
        exact (hl q0 hq0).1
  · intro q hq
    obtain ⟨q0, hq0, rfl⟩ := List.mem_map.1 hq
    by_cases hq : q0.addr = a
    · simp only [hq, if_true, Piece.setPosition, Piece.getPosition]
      exact Ne.symm hmd
    · simp only [hq, if_false]
      exact (hl q0 hq0).2

namespace Board

/-- Dereferencing in a board whose vectors are those of `t` with every piece rewritten by a
function that keeps the address. -/
theorem deref_map {t t2 : Board} (f : Piece → Piece) (hf : ∀ q, (f q).addr = q.addr)
    (hw : t2._whitePieces = t._whitePieces.map f) (hb : t2._blackPieces = t._blackPieces.map f)
    (a : Ptr) : t2.deref a = (t.deref a).map f := by
  unfold deref allPieces
  rw [hw, hb, ← List.map_append, List.find?_map]
  have hfun : ((fun q : Piece => q.addr == a) ∘ f) = (fun q : Piece => q.addr == a) := by
    funext q
    simp [Function.comp, hf]
  rw [hfun]

/-- The three moves of a castling on a consistent board: the king `K` goes to `mid` and on to
`dest`, two empty squares, and the piece `R` goes to `mid`. -/
theorem tempMove_three {t t1 t2 t3 : Board} (hc : t.Consistent) {K R : Piece}
    (hK : K ∈ t.allPieces) (hR : R ∈ t.allPieces) {mid dest : Square}
    (hmidIn : isInBoard mid = true) (hdestIn : isInBoard dest = true)
    (h1 : mid ≠ K.getPosition) (h2 : dest ≠ mid) (h3 : dest ≠ K.getPosition)
    (h4 : R.getPosition ≠ K.getPosition) (h5 : R.getPosition ≠ mid)
    (h6 : R.getPosition ≠ dest)
    (hmidE : t._getPiece mid = some none) (hdestE : t._getPiece dest = some none)
    (ht1 : t.tempMove K.getPosition mid = some t1) (ht2 : t1.tempMove mid dest = some t2)
    (ht3 : t2.tempMove R.getPosition mid = some t3) :
    t3._whitePieces = t._whitePieces.map (fun q => if q.addr = K.addr then q.setPosition dest
        else if q.addr = R.addr then q.setPosition mid else q) ∧
    t3._blackPieces = t._blackPieces.map (fun q => if q.addr = K.addr then q.setPosition dest
        else if q.addr = R.addr then q.setPosition mid else q) ∧
    t3._whiteKing = t._whiteKing ∧ t3._blackKing = t._blackKing ∧
    (∀ sq, t3._getPiece sq =
      if sq = mid then some (some R.addr) else if sq = dest then some (some K.addr)
      else if sq = K.getPosition then some none else if sq = R.getPosition then some none
      else t._getPiece sq) ∧
    t3.Consistent := by
  obtain ⟨t1', ht1', hw1, hb1, hwk1, hbk1, hget1, hc1⟩ :=
    tempMove_spec hc (hc.2.1 K hK) hmidIn h1
  rw [ht1] at ht1'
  simp only [Option.some.injEq] at ht1'
  subst ht1'
  have hv1 : t1._getPiece mid = some (some K.addr) := by
    rw [hget1]
    simp
  obtain ⟨t2', ht2', hw2, hb2, hwk2, hbk2, hget2, hc2⟩ := tempMove_spec hc1 hv1 hdestIn h2
  rw [ht2] at ht2'
  simp only [Option.some.injEq] at ht2'
  subst ht2'
  have hv2 : t2._getPiece R.getPosition = some (some R.addr) := by
    rw [hget2, hget1]
    simp only [h6, h5, h4, if_false]
    exact hc.2.1 R hR
  obtain ⟨t3', ht3', hw3, hb3, hwk3, hbk3, hget3, hc3⟩ :=
    tempMove_spec hc2 hv2 hmidIn (Ne.symm h5)
  rw [ht3] at ht3'
  simp only [Option.some.injEq] at ht3'
  subst ht3'
  have hab : K.addr ≠ R.addr := by
    intro e
    have := hc.addr_inj hK hR e
    exact h4 (by rw [this])
  have hfree : ∀ q ∈ t.allPieces, q.getPosition ≠ mid ∧ q.getPosition ≠ dest := by
    intro q hq
    have hq2 := hc.2.1 q hq
    constructor
    · intro e
      rw [e, hmidE] at hq2
      cases hq2
    · intro e
      rw [e, hdestE] at hq2
      cases hq2
  refine ⟨?_, ?_, ?_, ?_, ?_, hc3⟩
  · rw [hw3, hw2, hw1]
    exact movedList_three _ _ _ hab _ _ h2
      (fun q hq => hfree q (List.mem_append_left _ hq))
  · rw [hb3, hb2, hb1]
    exact movedList_three _ _ _ hab _ _ h2
      (fun q hq => hfree q (List.mem_append_right _ hq))
  · rw [hwk3, hwk2, hwk1]
  · rw [hbk3, hbk2, hbk1]
  · intro sq
    rw [hget3, hget2, hget1]
    by_cases e1 : sq = mid
    · simp [e1]
    by_cases e2 : sq = dest
    · subst e2
      simp [e1, Ne.symm h6]
    by_cases e3 : sq = K.getPosition
    · subst e3
      simp [e1, e2, Ne.symm h4]
    by_cases e4 : sq = R.getPosition
    · simp [e4, h5, h6, h4]
    simp [e1, e2, e3, e4]

end Board

/-! ## The claims about castling -/

namespace GameMaster

/-- What `castlingConditions` says of a state whose king and corner piece are known. -/
theorem castlingConditions_inv {g : GameMaster} {castlingSide : Char} {currentPlayer : Int}
    (h : g.castlingConditions castlingSide currentPlayer) {k : Ptr} {K : Piece}
    (hk : g.getTempKing currentPlayer = some k) (hK : g._tempBoard.deref k = some K)
    {r : Ptr} {R : Piece}
    (hr : g.getTempPiece (rookCorner castlingSide K.getPosition) = some (some r))
    (hR : g._tempBoard.deref r = some R) :
    R.kind = Kind.Rook ∧ R.getColor = currentPlayer := by
  obtain ⟨king, rook, h1, h2, _, h4, h5, h6, h7, _⟩ := h
  rw [hk] at h1
  simp only [Option.some.injEq] at h1
  subst h1
  rw [hK] at h2
  simp only [Option.some.injEq] at h2
  subst h2
  rw [hr] at h4
  simp only [Option.some.injEq] at h4
  subst h4
  rw [hR] at h5
  simp only [Option.some.injEq] at h5
  subst h5
  exact ⟨h6, h7⟩

/-- C13 does not hold as stated: with the White king on E1 and a White bishop on H1, neither
of which has moved, `castling('K', WHITE, false)` returns true although the piece in the corner
is not a rook; and it returns true with a Black knight on H1, which is neither a rook nor of
the colour of the player. -/
theorem castling_accepts_other_piece :
    bishopCornerState.WF ∧
    (bishopCornerState.castling KINGSIDE WHITE false).map Prod.fst = some true ∧
    ¬ bishopCornerState.castlingConditions KINGSIDE WHITE ∧
    enemyCornerState.WF ∧
    (enemyCornerState.castling KINGSIDE WHITE false).map Prod.fst = some true ∧
    ¬ enemyCornerState.castlingConditions KINGSIDE WHITE := by
  refine ⟨by decide, by decide, ?_, by decide, by decide, ?_⟩
  · intro h
    have := castlingConditions_inv h (k := 0) (K := Piece.new 0 Kind.King WHITE E1) (r := 1)
      (R := Piece.new 1 Kind.Bishop WHITE H1) (by decide) (by decide) (by decide) (by decide)
    exact absurd this.1 (by decide)
  · intro h
    have := castlingConditions_inv h (k := 0) (K := Piece.new 0 Kind.King WHITE E1) (r := 3)
      (R := Piece.new 3 Kind.Knight BLACK H1) (by decide) (by decide) (by decide) (by decide)
    exact absurd this.2 (by decide)

/-- C13, amended. In a state that satisfies the data-model invariants, `castling` returns false
(and leaves the state as it is) unless all of these hold: the king of the player has
`hasMoved` false; the square of the A-file (queenside) or H-file (kingside) on the rank of the
king holds a piece with `hasMoved` false, of whatever kind and colour; and, when that piece is
a rook, a bishop or a queen, every square strictly between it and the king is empty.  These
conditions are exactly those under which `_isPseudoLegalCastling` returns true, and the
conditions of the specification imply them. -/
theorem castling_false_unless_test (g : GameMaster) (hwf : g.WF) (castlingSide : Char)
    (currentPlayer : Int) (hcp : currentPlayer = WHITE ∨ currentPlayer = BLACK)
    (isCurrentInCheck : Bool) :
    (g.castlingTest castlingSide currentPlayer ∨
      g.castling castlingSide currentPlayer isCurrentInCheck = some (false, g)) ∧
    ((∃ ks, g._isPseudoLegalCastling castlingSide currentPlayer = some (some ks)) ↔
      g.castlingTest castlingSide currentPlayer) ∧
    (g.castlingConditions castlingSide currentPlayer →
      g.castlingTest castlingSide currentPlayer) := by
  have htwf : g._tempBoard.WF := hwf.2 ▸ hwf.1
  obtain ⟨K, _, _, _, hps⟩ := g._isPseudoLegalCastling_spec htwf castlingSide hcp
  refine ⟨?_, ?_, ?_⟩
  · rcases hps with ⟨h1, _⟩ | ⟨_, h2, _⟩
    · right
      simp only [castling, h1]
    · left
      exact h2
  · rcases hps with ⟨h1, h2⟩ | ⟨h1, h2, _⟩
    · constructor
      · rintro ⟨ks, hks⟩
        rw [h1] at hks
        cases hks
      · intro h
        exact absurd h h2
    · exact ⟨fun _ => h2, fun _ => ⟨_, h1⟩⟩
  · rintro ⟨king, rook, h1, h2, h3, h4, h5, _, _, h8, h9⟩
    exact ⟨king, rook, h1, h2, h3, h4, h5, h8, fun _ => h9⟩

theorem castling_false_unless_test_witness :
    kingReturnedState.WF ∧ (WHITE = WHITE ∨ WHITE = BLACK) ∧
    kingReturnedState.castling KINGSIDE WHITE false = some (false, kingReturnedState) ∧
    ((kingReturnedState.castlingTest KINGSIDE WHITE ∨
      kingReturnedState.castling KINGSIDE WHITE false = some (false, kingReturnedState)) ∧
    ((∃ ks, kingReturnedState._isPseudoLegalCastling KINGSIDE WHITE = some (some ks)) ↔
      kingReturnedState.castlingTest KINGSIDE WHITE) ∧
    (kingReturnedState.castlingConditions KINGSIDE WHITE →
      kingReturnedState.castlingTest KINGSIDE WHITE)) :=
  ⟨by decide, by decide, by decide,
    castling_false_unless_test kingReturnedState (by decide) KINGSIDE WHITE (by decide) false⟩

/-- C14. In every state in which the king of the player has `hasMoved` true, `castling`
returns false for either side and either flag, whatever stands between the king and the corner,
and the state after the call is the state before it.  The witness is a king that has moved from
E1 to E2 and back to E1, next to a rook on H1 with which castling was accepted before the king
moved. -/
theorem castling_rejects_moved_king (g : GameMaster) (castlingSide : Char) (currentPlayer : Int)
    (isCurrentInCheck : Bool) (k : Ptr) (king : Piece)
    (hk : g.getTempKing currentPlayer = some k) (hd : g._tempBoard.deref k = some king)
    (hm : king.hasMoved = true) :
    g.castling castlingSide currentPlayer isCurrentInCheck = some (false, g) := by
  have hps : g._isPseudoLegalCastling castlingSide currentPlayer = some none := by
    unfold _isPseudoLegalCastling
    rw [hk]
    simp only
    rw [hd]
    simp only [hm, if_true]
  unfold castling
  rw [hps]

theorem castling_rejects_moved_king_witness :
    castlingReadyState.move E1 E2 WHITE false = some (true, kingAwayState) ∧
    kingAwayState.move E2 E1 WHITE false = some (true, kingReturnedState) ∧
    (castlingReadyState.castling KINGSIDE WHITE false).map Prod.fst = some true ∧
    kingReturnedState.getTempKing WHITE = some 0 ∧
    kingReturnedState._tempBoard.deref 0 = some ((Piece.new 0 Kind.King WHITE E1).setPosition E1) ∧
    kingReturnedState.castling KINGSIDE WHITE false = some (false, kingReturnedState) :=
  ⟨by decide, by decide, by decide, by decide, by decide,
    castling_rejects_moved_king kingReturnedState KINGSIDE WHITE false 0
      ((Piece.new 0 Kind.King WHITE E1).setPosition E1) (by decide) (by decide) (by decide)⟩

/-- C15 does not hold as stated: with the White king on G1 and the White rook on H1, neither of
which has moved, castling on the kingside is pseudo-legal, also in the words of the
specification, but the second step of the king leads to a square outside the matrix, and the
call has no defined result, for either flag. -/
theorem castling_undefined_near_edge :
    kingNearEdgeState.WF ∧
    kingNearEdgeState.castlingConditions KINGSIDE WHITE ∧
    kingNearEdgeState._isPseudoLegalCastling KINGSIDE WHITE = some (some (G1, H1)) ∧
    kingNearEdgeState.castling KINGSIDE WHITE true = none ∧
    kingNearEdgeState.castling KINGSIDE WHITE false = none := by
  refine ⟨by decide, ?_, by decide, by decide, by decide⟩
  refine ⟨Piece.new 0 Kind.King WHITE G1, Piece.new 1 Kind.Rook WHITE H1, by decide, by decide,
    by decide, by decide, by decide, by decide, by decide, by decide, ?_⟩
  intro f hf
  have h1 : (Piece.new 1 Kind.Rook WHITE H1).getPosition.file = 72 := rfl
  have h2 : (Piece.new 0 Kind.King WHITE G1).getPosition.file = 71 := rfl
  rw [h1, h2] at hf
  omega

/-- C15, amended. In a state that satisfies the data-model invariants, when
`_isPseudoLegalCastling` returns true and the king stands at least two files away from the edge
it moves towards (file C or beyond for the queenside, file F or before for the kingside, as on
file E): `castling` returns false, and restores the state, if `isCurrentInCheck` is true, or if
the player is in check after the king has moved one square towards the corner, or if the player
is in check after the king has moved two squares; otherwise it returns true. -/
theorem castling_accepts_iff_safe (g : GameMaster) (hwf : g.WF) (castlingSide : Char)
    (currentPlayer : Int) (hcp : currentPlayer = WHITE ∨ currentPlayer = BLACK)
    (isCurrentInCheck : Bool) (kingSrc rookSrc : Square)
    (hps : g._isPseudoLegalCastling castlingSide currentPlayer = some (some (kingSrc, rookSrc)))
    (hfile : if castlingSide = QUEENSIDE then MIN_FILE + 2 ≤ kingSrc.file
      else kingSrc.file ≤ MAX_FILE - 2) :
    ∃ g1 g2 c1 c2,
      g.tempMove kingSrc (Square.mk (kingSrc.file +
        (if castlingSide = QUEENSIDE then Q_DIRECTION else K_DIRECTION)) kingSrc.rank)
        = some g1 ∧
      g1.isInCheck currentPlayer = some c1 ∧
      g1.tempMove (Square.mk (kingSrc.file +
          (if castlingSide = QUEENSIDE then Q_DIRECTION else K_DIRECTION)) kingSrc.rank)
        (Square.mk (kingSrc.file +
          (if castlingSide = QUEENSIDE then Q_DIRECTION else K_DIRECTION) +
          (if castlingSide = QUEENSIDE then Q_DIRECTION else K_DIRECTION)) kingSrc.rank)
        = some g2 ∧
      g2.isInCheck currentPlayer = some c2 ∧
      ((isCurrentInCheck = true ∨ c1 = true ∨ c2 = true) →
        g.castling castlingSide currentPlayer isCurrentInCheck = some (false, g)) ∧
      ((isCurrentInCheck = false ∧ c1 = false ∧ c2 = false) →
        ∃ g3, g.castling castlingSide currentPlayer isCurrentInCheck = some (true, g3)) := by
  have htwf : g._tempBoard.WF := hwf.2 ▸ hwf.1
  obtain ⟨K, hK1, hK2, _, hsp⟩ := g._isPseudoLegalCastling_spec htwf castlingSide hcp
  rcases hsp with ⟨h1, _⟩ | ⟨h1, _, _, R, _, hR, _⟩
  · rw [h1] at hps
    cases hps
  rw [h1] at hps
  simp only [Option.some.injEq, Prod.mk.injEq] at hps
  obtain ⟨rfl, rfl⟩ := hps
  obtain ⟨t1, t2, c1, c2, ht1, _, hc1, ht2, _, hc2, hrej, hacc⟩ :=
    castling_spec g hwf castlingSide isCurrentInCheck hK1 hK2 hR h1 hfile
  refine ⟨{ g with _tempBoard := t1 }, { g with _tempBoard := t2 }, c1, c2, ?_, hc1, ?_, hc2,
    hrej, ?_⟩
  · simp [tempMove, ht1]
  · simp [tempMove, ht2]
  · intro h
    obtain ⟨t3, _, h3⟩ := hacc h
    exact ⟨_, h3⟩

theorem castling_accepts_iff_safe_witness :
    castlingThroughCheckState.WF ∧ (WHITE = WHITE ∨ WHITE = BLACK) ∧
    castlingThroughCheckState._isPseudoLegalCastling KINGSIDE WHITE = some (some (E1, H1)) ∧
    (castlingThroughCheckState.tempMove E1 F1).bind (fun g1 => g1.isInCheck WHITE)
      = some true ∧
    castlingThroughCheckState.castling KINGSIDE WHITE false
      = some (false, castlingThroughCheckState) ∧
    ∃ g1 g2 c1 c2,
      castlingThroughCheckState.tempMove E1 (Square.mk (E1.file +
        (if KINGSIDE = QUEENSIDE then Q_DIRECTION else K_DIRECTION)) E1.rank) = some g1 ∧
      g1.isInCheck WHITE = some c1 ∧
      g1.tempMove (Square.mk (E1.file +
          (if KINGSIDE = QUEENSIDE then Q_DIRECTION else K_DIRECTION)) E1.rank)
        (Square.mk (E1.file +
          (if KINGSIDE = QUEENSIDE then Q_DIRECTION else K_DIRECTION) +
          (if KINGSIDE = QUEENSIDE then Q_DIRECTION else K_DIRECTION)) E1.rank) = some g2 ∧
      g2.isInCheck WHITE = some c2 ∧
      ((false = true ∨ c1 = true ∨ c2 = true) →
        castlingThroughCheckState.castling KINGSIDE WHITE false
          = some (false, castlingThroughCheckState)) ∧
      ((false = false ∧ c1 = false ∧ c2 = false) →
        ∃ g3, castlingThroughCheckState.castling KINGSIDE WHITE false = some (true, g3)) :=
  ⟨by decide, by decide, by decide, by decide, by decide,
    castling_accepts_iff_safe castlingThroughCheckState (by decide) KINGSIDE WHITE (by decide)
      false E1 H1 (by decide) (by decide)⟩

/-- C16. In a state that satisfies the data-model invariants, for every accepted castling by
a king that stands on file E (code 69) of rank `r`, with a rook in the corner on the side of
the castling: on the kingside the king ends on G `r` (file code 71) and the rook on F `r`
(70), on the queenside the king ends on C `r` (67) and the rook on D `r` (68); the squares the
king and the rook came from are empty, both pieces have `hasMoved` true, every other square
and every other piece is as before, in the same place of its vector, and the saved board is
equal to the board moves are made on.  The witness is the White king on E1 and rook on H1 with
F1 and G1 empty and not attacked: `castling('K', WHITE, false)` is accepted, the king is on G1
and the rook on F1. -/
theorem castling_accepted_frame (g : GameMaster) (hwf : g.WF) (castlingSide : Char)
    (currentPlayer : Int) (hcp : currentPlayer = WHITE ∨ currentPlayer = BLACK)
    (isCurrentInCheck : Bool) (g2 : GameMaster)
    (h : g.castling castlingSide currentPlayer isCurrentInCheck = some (true, g2))
    (king rook : Piece) (hk1 : g.getTempKing currentPlayer = some king.addr)
    (hk2 : g._tempBoard.deref king.addr = some king) (hE : king.getPosition.file = 69)
    (hr1 : g.getTempPiece (rookCorner castlingSide king.getPosition) = some (some rook.addr))
    (hr2 : g._tempBoard.deref rook.addr = some rook) (hkind : rook.kind = Kind.Rook) :
    g2.getTempPiece (Square.mk (if castlingSide = QUEENSIDE then 67 else 71)
      king.getPosition.rank) = some (some king.addr) ∧
    g2._tempBoard.deref king.addr = some { king with
      _position := Square.mk (if castlingSide = QUEENSIDE then 67 else 71)
        king.getPosition.rank,
      _hasMoved := true } ∧
    g2.getTempPiece (Square.mk (if castlingSide = QUEENSIDE then 68 else 70)
      king.getPosition.rank) = some (some rook.addr) ∧
    g2._tempBoard.deref rook.addr = some { rook with
      _position := Square.mk (if castlingSide = QUEENSIDE then 68 else 70)
        king.getPosition.rank,
      _hasMoved := true } ∧
    g2.getTempPiece king.getPosition = some none ∧
    g2.getTempPiece (rookCorner castlingSide king.getPosition) = some none ∧
    (∀ sq, sq.rank ≠ king.getPosition.rank ∨
        (if castlingSide = QUEENSIDE then sq.file ≠ 65 ∧ sq.file ≠ 67 ∧ sq.file ≠ 68 ∧
          sq.file ≠ 69 else sq.file ≠ 69 ∧ sq.file ≠ 70 ∧ sq.file ≠ 71 ∧ sq.file ≠ 72) →
      g2.getTempPiece sq = g.getTempPiece sq) ∧
    (∀ q ∈ g._tempBoard.allPieces, q.addr ≠ king.addr → q.addr ≠ rook.addr →
      g2._tempBoard.deref q.addr = some q) ∧
    g2._tempBoard._whitePieces = g._tempBoard._whitePieces.map (fun q =>
      if q.addr = king.addr then q.setPosition (Square.mk
        (if castlingSide = QUEENSIDE then 67 else 71) king.getPosition.rank)
      else if q.addr = rook.addr then q.setPosition (Square.mk
        (if castlingSide = QUEENSIDE then 68 else 70) king.getPosition.rank)
      else q) ∧
    g2._tempBoard._blackPieces = g._tempBoard._blackPieces.map (fun q =>
      if q.addr = king.addr then q.setPosition (Square.mk
        (if castlingSide = QUEENSIDE then 67 else 71) king.getPosition.rank)
      else if q.addr = rook.addr then q.setPosition (Square.mk
        (if castlingSide = QUEENSIDE then 68 else 70) king.getPosition.rank)
      else q) ∧
    g2._tempBoard._whiteKing = g._tempBoard._whiteKing ∧
    g2._tempBoard._blackKing = g._tempBoard._blackKing ∧
    g2._board = g2._tempBoard := by
  have htwf : g._tempBoard.WF := hwf.2 ▸ hwf.1
  have hcons := htwf.consistent
  obtain ⟨K, hK1, hK2, hK3, hsp⟩ := g._isPseudoLegalCastling_spec htwf castlingSide hcp
  -- the king and the piece of the corner are those of the statement
  have hKk : K = king := by
    rw [hk1] at hK1
    simp only [Option.some.injEq] at hK1
    rw [← hK1, hk2] at hK2
    simp only [Option.some.injEq] at hK2
    exact hK2.symm
  subst hKk
  rcases hsp with ⟨h1, _⟩ | ⟨hps, _, _, R, hRm, hR, hRpos, _, hbetween⟩
  · simp only [castling, h1] at h
    cases h
  have hRr : R = rook := by
    have e : g._tempBoard._getPiece (rookCorner castlingSide K.getPosition)
        = some (some rook.addr) := hr1
    rw [hR] at e
    simp only [Option.some.injEq] at e
    have hd := Board.deref_of_mem hcons.2.2.2.2.1 hRm
    rw [e, hr2] at hd
    simp only [Option.some.injEq] at hd
    exact hd.symm
  subst hRr
  have hbtw := hbetween (Or.inl hkind)
  have hKin := (isInBoard_iff _).1 (hcons.inBoard hK3)
  simp only [MIN_FILE, MAX_FILE, MIN_RANK, MAX_RANK] at hKin
  have hfile : if castlingSide = QUEENSIDE then MIN_FILE + 2 ≤ K.getPosition.file
      else K.getPosition.file ≤ MAX_FILE - 2 := by
    rw [hE]
    split <;> decide
  obtain ⟨t1, t2, c1, c2, ht1, _, _, ht2, _, _, hrej, hacc⟩ :=
    castling_spec g hwf castlingSide isCurrentInCheck hk1 hk2 hR hps hfile
  have hall : isCurrentInCheck = false ∧ c1 = false ∧ c2 = false := by
    by_contra hne
    have hor : isCurrentInCheck = true ∨ c1 = true ∨ c2 = true := by
      cases isCurrentInCheck <;> cases c1 <;> cases c2 <;> simp at hne ⊢
    rw [hrej hor] at h
    simp at h
  obtain ⟨t3, ht3, hres⟩ := hacc hall
  rw [hres] at h
  simp only [Option.some.injEq, Prod.mk.injEq, true_and] at h
  subst h
  -- the squares
  have hsq : ((if castlingSide = QUEENSIDE then Q_DIRECTION else K_DIRECTION) = -1 ∧
      (if castlingSide = QUEENSIDE then MIN_FILE else MAX_FILE) = 65 ∧
      (if castlingSide = QUEENSIDE then Q_ROOK else K_ROOK) = 3 ∧
      (if castlingSide = QUEENSIDE then (67 : Int) else 71) = 67 ∧
      (if castlingSide = QUEENSIDE then (68 : Int) else 70) = 68 ∧ castlingSide = QUEENSIDE) ∨
      ((if castlingSide = QUEENSIDE then Q_DIRECTION else K_DIRECTION) = 1 ∧
      (if castlingSide = QUEENSIDE then MIN_FILE else MAX_FILE) = 72 ∧
      (if castlingSide = QUEENSIDE then Q_ROOK else K_ROOK) = -2 ∧
      (if castlingSide = QUEENSIDE then (67 : Int) else 71) = 71 ∧
      (if castlingSide = QUEENSIDE then (68 : Int) else 70) = 70 ∧
        ¬ castlingSide = QUEENSIDE) := by
    by_cases hside : castlingSide = QUEENSIDE
    · left
      rw [if_pos hside, if_pos hside, if_pos hside, if_pos hside, if_pos hside]
      exact ⟨rfl, rfl, rfl, rfl, rfl, hside⟩
    · right
      rw [if_neg hside, if_neg hside, if_neg hside, if_neg hside, if_neg hside]
      exact ⟨rfl, rfl, rfl, rfl, rfl, hside⟩
  unfold rookCorner at ht3 hRpos hR hr1 ⊢
  unfold Board.emptyBetween at hbtw
  rw [hRpos] at hbtw
  simp only at ht3 hbtw
  rw [hE] at ht1 ht2 hbtw
  generalize (if castlingSide = QUEENSIDE then Q_DIRECTION else K_DIRECTION) = dir
    at hsq ht1 ht2
  generalize (if castlingSide = QUEENSIDE then MIN_FILE else MAX_FILE) = rf
    at hsq ht3 hRpos hbtw
  generalize (if castlingSide = QUEENSIDE then Q_ROOK else K_ROOK) = ro at hsq ht3
  generalize hkd : (if castlingSide = QUEENSIDE then (67 : Int) else 71) = kd at hsq ⊢
  generalize hrd : (if castlingSide = QUEENSIDE then (68 : Int) else 70) = rd at hsq ⊢
  have hmid : Square.mk (69 + dir) K.getPosition.rank = Square.mk rd K.getPosition.rank := by
    congr 1
    omega
  have hdest : Square.mk (69 + dir + dir) K.getPosition.rank
      = Square.mk kd K.getPosition.rank := by
    congr 1
    omega
  have hrdest : Square.mk (rf + ro) K.getPosition.rank = Square.mk rd K.getPosition.rank := by
    congr 1
    omega
  rw [hmid] at ht1 ht2
  rw [hdest] at ht2
  rw [hrdest, ← hRpos] at ht3
  have hposK : K.getPosition = Square.mk 69 K.getPosition.rank := by
    cases hp : K.getPosition with
    | mk f r =>
      rw [hp] at hE
      simp only at hE
      subst hE
      rfl
  have hmidE : g._tempBoard._getPiece (Square.mk rd K.getPosition.rank) = some none :=
    hbtw rd (by omega)
  have hdestE : g._tempBoard._getPiece (Square.mk kd K.getPosition.rank) = some none :=
    hbtw kd (by omega)
  have hinb : ∀ f : Int, 65 ≤ f → f ≤ 72 → isInBoard (Square.mk f K.getPosition.rank) = true := by
    intro f h1 h2
    rw [isInBoard_iff]
    simp only [MIN_FILE, MAX_FILE, MIN_RANK, MAX_RANK]
    omega
  have hne : ∀ {a b : Int}, a ≠ b →
      Square.mk a K.getPosition.rank ≠ Square.mk b K.getPosition.rank := by
    intro a b hab e
    exact hab (congrArg Square.file e)
  obtain ⟨hw, hb, hwk, hbk, hget, hc3⟩ := Board.tempMove_three hcons hK3 hRm
    (hinb rd (by omega) (by omega)) (hinb kd (by omega) (by omega))
    (by rw [hposK]; exact hne (by omega)) (hne (by omega))
    (by rw [hposK]; exact hne (by omega))
    (by rw [hRpos, hposK]; exact hne (by omega))
    (by rw [hRpos]; exact hne (by omega)) (by rw [hRpos]; exact hne (by omega))
    hmidE hdestE ht1 ht2 ht3
  have hfaddr : ∀ q : Piece, (if q.addr = K.addr then
      q.setPosition (Square.mk kd K.getPosition.rank)
      else if q.addr = R.addr then q.setPosition (Square.mk rd K.getPosition.rank)
      else q).addr = q.addr := by
    intro q
    split
    · rfl
    · split <;> rfl
  have hderef := Board.deref_map _ hfaddr hw hb
  have hab : K.addr ≠ R.addr := by
    intro e
    have := hcons.addr_inj hK3 hRm e
    have e2 : K.getPosition.file = R.getPosition.file := by rw [this]
    rw [hRpos, hE] at e2
    simp only at e2
    omega
  refine ⟨?_, ?_, ?_, ?_, ?_, ?_, ?_, ?_, hw, hb, hwk, hbk, rfl⟩
  · simp only [getTempPiece]
    rw [hget]
    simp only [hne (show kd ≠ rd by omega), if_false, if_true]
  · rw [hderef, hk2]
    simp [Piece.setPosition]
  · simp only [getTempPiece]
    rw [hget]
    simp
  · rw [hderef, hr2]
    simp [Piece.setPosition, Ne.symm hab]
  · simp only [getTempPiece]
    rw [hget, hposK]
    simp only [hne (show (69 : Int) ≠ rd by omega), hne (show (69 : Int) ≠ kd by omega),
      if_false, if_true]
  · simp only [getTempPiece]
    rw [hget, hRpos]
    have e1 : (Square.mk rf K.getPosition.rank = K.getPosition) = False := by
      rw [hposK]
      exact eq_false (hne (by omega))
    simp only [hne (show rf ≠ rd by omega), hne (show rf ≠ kd by omega), e1,
      if_false, if_true]
  · intro sq hsqn
    simp only [getTempPiece]
    rw [hget]
    have n1 : sq ≠ Square.mk rd K.getPosition.rank := by
      rintro rfl
      simp only [ne_eq, not_true_eq_false, false_or] at hsqn
      rcases hsq with hq | hq
      · rw [if_pos hq.2.2.2.2.2] at hsqn; omega
      · rw [if_neg hq.2.2.2.2.2] at hsqn; omega
    have n2 : sq ≠ Square.mk kd K.getPosition.rank := by
      rintro rfl
      simp only [ne_eq, not_true_eq_false, false_or] at hsqn
      rcases hsq with hq | hq
      · rw [if_pos hq.2.2.2.2.2] at hsqn; omega
      · rw [if_neg hq.2.2.2.2.2] at hsqn; omega
    have n3 : sq ≠ K.getPosition := by
      rintro rfl
      simp only [ne_eq, not_true_eq_false, false_or] at hsqn
      rcases hsq with hq | hq
      · rw [if_pos hq.2.2.2.2.2] at hsqn; omega
      · rw [if_neg hq.2.2.2.2.2] at hsqn; omega
    have n4 : sq ≠ R.getPosition := by
      rintro rfl
      rw [hRpos] at hsqn
      simp only [ne_eq, not_true_eq_false, false_or] at hsqn
      rcases hsq with hq | hq
      · rw [if_pos hq.2.2.2.2.2] at hsqn; omega
      · rw [if_neg hq.2.2.2.2.2] at hsqn; omega
    simp only [n1, n2, n3, n4, if_false]
  · intro q hq hqk hqr
    rw [hderef, Board.deref_of_mem hcons.2.2.2.2.1 hq]
    simp [hqk, hqr]

theorem castling_accepted_frame_witness :
    castlingReadyState.WF ∧
    castlingReadyState.castling KINGSIDE WHITE false = some (true, castledState) ∧
    castledState.getTempPiece G1 = some (some 0) ∧
    castledState.getTempPiece F1 = some (some 1) ∧
    castledState._tempBoard.deref 0 = some ((Piece.new 0 Kind.King WHITE E1).setPosition G1) ∧
    castledState._tempBoard.deref 1 = some ((Piece.new 1 Kind.Rook WHITE H1).setPosition F1) ∧
    castledState.getTempPiece E1 = some none ∧
    castledState.getTempPiece H1 = some none ∧
    castledState._board = castledState._tempBoard :=
  ⟨by decide, by decide, by decide, by decide, by decide, by decide, by decide, by decide,
    (castling_accepted_frame castlingReadyState (by decide) KINGSIDE WHITE (by decide) false
      castledState (by decide) (Piece.new 0 Kind.King WHITE E1) (Piece.new 1 Kind.Rook WHITE H1)
      (by decide) (by decide) (by decide) (by decide) (by decide) (by decide)).2.2.2.2.2.2.2.2.2.2.2.2⟩

end GameMaster

/-! ## The shapes of the moves (`canReach`) -/

theorem cabs_eq_abs (x : Int) : cabs x = |x| := by
  unfold cabs
  split
  · rw [abs_of_neg (by assumption)]
  · rw [abs_of_nonneg (by omega)]

/-- C17. For every pair of squares `src` and `dest`, a King on `src` reaches `dest` if and only
if the files differ by at most 1 and the ranks differ by at most 1, and a Knight on `src`
reaches `dest` if and only if the differences of the files and of the ranks are 1 and 2, or 2
and 1; this holds whatever the `isCapture` flag, the colour and `hasMoved` are. -/
theorem king_knight_canReach_iff (addr : Ptr) (moved : Bool) (color : Int) (src dest : Square)
    (isCapture : Bool) :
    ((Piece.mk addr Kind.King moved color src).canReach dest isCapture = true ↔
      |dest.file - src.file| ≤ 1 ∧ |dest.rank - src.rank| ≤ 1) ∧
    ((Piece.mk addr Kind.Knight moved color src).canReach dest isCapture = true ↔
      (|dest.file - src.file| = 1 ∧ |dest.rank - src.rank| = 2) ∨
      (|dest.file - src.file| = 2 ∧ |dest.rank - src.rank| = 1)) := by
  constructor
  · simp only [Piece.canReach, King.canReach, cabs_eq_abs, KING_RANGE]
    simp
  · simp only [Piece.canReach, Knight.canReach, cabs_eq_abs, KNIGHT_DIFF1, KNIGHT_DIFF2]
    simp

/-- C18 does not hold as stated: a Bishop on A1 reaches A1, its own square, although the
common value of the two differences is 0. -/
theorem bishop_reaches_own_square :
    isInBoard A1 = true ∧
    (Piece.mk 0 Kind.Bishop false WHITE A1).canReach A1 false = true ∧
    (Piece.mk 0 Kind.Bishop false WHITE A1).canReach A1 true = true ∧
    ¬ (|A1.file - A1.file| = |A1.rank - A1.rank| ∧ |A1.file - A1.file| ≠ 0) := by
  decide

/-- C18, amended. For every pair of squares `src` and `dest` and either `isCapture` value, a
Bishop on `src` satisfies `canReach(dest, isCapture)` if and only if the differences of the
files and of the ranks have the same absolute value; the value 0 is not excluded, so a Bishop
reaches its own square. -/
theorem bishop_canReach_iff (addr : Ptr) (moved : Bool) (color : Int) (src dest : Square)
    (isCapture : Bool) :
    ((Piece.mk addr Kind.Bishop moved color src).canReach dest isCapture = true ↔
      |dest.file - src.file| = |dest.rank - src.rank|) ∧
    (Piece.mk addr Kind.Bishop moved color src).canReach src isCapture = true := by
  constructor
  · simp only [Piece.canReach, Bishop.canReach, cabs_eq_abs]
    simp
  · simp only [Piece.canReach, Bishop.canReach, cabs_eq_abs]
    simp

/-- C19. For every pair of squares `src` and `dest` and either `isCapture` value, a Rook on
`src` satisfies `canReach` if and only if the files are equal or the ranks are equal, and a
Queen on `src` satisfies `canReach` if and only if a Rook on `src` or a Bishop on `src`
does. -/
theorem rook_queen_canReach_iff (addr : Ptr) (moved : Bool) (color : Int) (src dest : Square)
    (isCapture : Bool) :
    ((Piece.mk addr Kind.Rook moved color src).canReach dest isCapture = true ↔
      dest.file - src.file = 0 ∨ dest.rank - src.rank = 0) ∧
    ((Piece.mk addr Kind.Queen moved color src).canReach dest isCapture = true ↔
      (Piece.mk addr Kind.Rook moved color src).canReach dest isCapture = true ∨
      (Piece.mk addr Kind.Bishop moved color src).canReach dest isCapture = true) := by
  constructor
  · simp only [Piece.canReach, Rook.canReach, cabs_eq_abs, ROOK_DIFF]
    simp
  · simp only [Piece.canReach, Queen.canReach, Rook.canReach, Bishop.canReach, QUEEN_DIFF,
      ROOK_DIFF]
    simp

/-- C20. For every pair of squares `src` and `dest` and every `hasMoved` flag, a Pawn on
`src` satisfies `canReach(dest, true)` if and only if the files differ by exactly 1 and the
forward rank difference (rank of `dest` minus rank of `src` for WHITE, the opposite for BLACK)
is 1; it satisfies `canReach(dest, false)` if and only if the files are equal and the forward
rank difference is 1, or is 2 with `hasMoved` false.  A pawn reaches no square of its own rank
or of a rank behind it. -/
theorem pawn_canReach_iff (addr : Ptr) (moved : Bool) (src dest : Square) :
    ((Piece.mk addr Kind.Pawn moved WHITE src).canReach dest true = true ↔
      |dest.file - src.file| = 1 ∧ dest.rank - src.rank = 1) ∧
    ((Piece.mk addr Kind.Pawn moved BLACK src).canReach dest true = true ↔
      |dest.file - src.file| = 1 ∧ src.rank - dest.rank = 1) ∧
    ((Piece.mk addr Kind.Pawn moved WHITE src).canReach dest false = true ↔
      dest.file - src.file = 0 ∧
        (dest.rank - src.rank = 1 ∨ (dest.rank - src.rank = 2 ∧ moved = false))) ∧
    ((Piece.mk addr Kind.Pawn moved BLACK src).canReach dest false = true ↔
      dest.file - src.file = 0 ∧
        (src.rank - dest.rank = 1 ∨ (src.rank - dest.rank = 2 ∧ moved = false))) ∧
    (∀ isCapture, dest.rank - src.rank ≤ 0 →
      (Piece.mk addr Kind.Pawn moved WHITE src).canReach dest isCapture = false) ∧
    (∀ isCapture, src.rank - dest.rank ≤ 0 →
      (Piece.mk addr Kind.Pawn moved BLACK src).canReach dest isCapture = false) := by
  have hb : ∀ x : Int, BLACK * x = -x := by
    intro x
    simp only [BLACK]
    omega
  have hw : ∀ x : Int, WHITE * x = x := by
    intro x
    simp only [WHITE]
    omega
  refine ⟨?_, ?_, ?_, ?_, ?_, ?_⟩
  · simp only [Piece.canReach, Pawn.canReach, cabs_eq_abs, hw, PAWN_DIFF1]
    simp
  · simp only [Piece.canReach, Pawn.canReach, cabs_eq_abs, hb, PAWN_DIFF1]
    simp
  · simp only [Piece.canReach, Pawn.canReach, cabs_eq_abs, hw, PAWN_DIFF0, PAWN_DIFF1,
      PAWN_DIFF2]
    cases moved <;> simp
  · simp only [Piece.canReach, Pawn.canReach, cabs_eq_abs, hb, PAWN_DIFF0, PAWN_DIFF1,
      PAWN_DIFF2]
    cases moved <;> simp
  · intro isCapture h
    have h1 : dest.rank - src.rank ≠ 1 := by omega
    have h2 : dest.rank - src.rank ≠ 2 := by omega
    cases isCapture <;>
      simp [Piece.canReach, Pawn.canReach, hw, h1, h2, PAWN_DIFF1, PAWN_DIFF2]
  · intro isCapture h
    have h1 : src.rank - dest.rank ≠ 1 := by omega
    have h2 : src.rank - dest.rank ≠ 2 := by omega
    cases isCapture <;>
      simp [Piece.canReach, Pawn.canReach, hb, h1, h2, PAWN_DIFF1, PAWN_DIFF2]


/-! ## The paths of the pieces (`getPathTo`) and the fixed predicates -/

theorem sgnDirection_eq_sign (a b : Int) : sgnDirection a b = Int.sign (b - a) := by
  rcases sgnDirection_cases a b with h | h | h
  · rw [h.2, Int.sign_eq_one_of_pos (by omega)]
  · rw [h.2, h.1, sub_self, Int.sign_zero]
  · rw [h.2, Int.sign_eq_neg_one_of_neg (by omega)]

/-- What `canReach` of a rook, a bishop or a queen says of the two squares. -/
theorem sliding_canReach_aligned {p : Piece} {dest : Square} {isCapture : Bool}
    (hkind : p.kind = Kind.Bishop ∨ p.kind = Kind.Rook ∨ p.kind = Kind.Queen)
    (hreach : p.canReach dest isCapture = true) :
    dest.file - p._position.file = 0 ∨ dest.rank - p._position.rank = 0 ∨
      cabs (dest.file - p._position.file) = cabs (dest.rank - p._position.rank) := by
  have h1 := cabs_cases (dest.file - p._position.file)
  have h2 := cabs_cases (dest.rank - p._position.rank)
  unfold Piece.canReach at hreach
  rcases hkind with hk | hk | hk
  · rw [hk] at hreach
    simp only [Bishop.canReach, decide_eq_true_eq] at hreach
    exact Or.inr (Or.inr hreach)
  · rw [hk] at hreach
    simp only [Rook.canReach, ROOK_DIFF, Bool.or_eq_true, decide_eq_true_eq] at hreach
    rcases hreach with h | h
    · left; omega
    · right; left; omega
  · rw [hk] at hreach
    simp only [Queen.canReach, QUEEN_DIFF, Bool.or_eq_true, decide_eq_true_eq] at hreach
    rcases hreach with (h | h) | h
    · left; omega
    · right; left; omega
    · exact Or.inr (Or.inr h)

/-- C21. For a Bishop, a Rook or a Queen on a square `src` of the board and a square `dest` of
the board with `canReach(dest)` true, `getPathTo(dest)` returns exactly the squares
`src + k * (sgn Δfile, sgn Δrank)` for `k` from 1 to `max(|Δfile|, |Δrank|) - 1`, in
increasing `k`; the list contains neither `src` nor `dest`, and it is empty when `dest` is
next to `src`. -/
theorem sliding_getPathTo_eq (p : Piece) (dest : Square) (isCapture : Bool)
    (hkind : p.kind = Kind.Bishop ∨ p.kind = Kind.Rook ∨ p.kind = Kind.Queen)
    (hp : isInBoard p.getPosition = true) (hd : isInBoard dest = true)
    (hreach : p.canReach dest isCapture = true) :
    p.getPathTo dest = some ((List.range
      (max |dest.file - p.getPosition.file| |dest.rank - p.getPosition.rank| - 1).toNat).map
        (fun (i : Nat) => Square.mk
          (p.getPosition.file + ((i : Int) + 1) * Int.sign (dest.file - p.getPosition.file))
          (p.getPosition.rank + ((i : Int) + 1) * Int.sign (dest.rank - p.getPosition.rank)))) ∧
    (∀ path, p.getPathTo dest = some path →
      p.getPosition ∉ path ∧ dest ∉ path ∧
      (max |dest.file - p.getPosition.file| |dest.rank - p.getPosition.rank| = 1 →
        path = [])) := by
  have hal := sliding_canReach_aligned hkind hreach
  obtain ⟨hdef, _⟩ := getPathToDefault_spec p dest hp hd hal
  have hget : p.getPathTo dest = p.getPathToDefault dest := by
    unfold Piece.getPathTo
    rcases hkind with hk | hk | hk <;> rw [hk]
  rw [hget, hdef]
  simp only [sgnDirection_eq_sign, cabs_eq_abs, Piece.getPosition]
  refine ⟨trivial, ?_⟩
  intro path hpath
  simp only [Option.some.injEq] at hpath
  subst hpath
  have h1 := cabs_cases (dest.file - p._position.file)
  have h2 := cabs_cases (dest.rank - p._position.rank)
  rw [cabs_eq_abs] at h1 h2
  rw [cabs_eq_abs, cabs_eq_abs] at hal
  have hs1 := sgnDirection_cases p._position.file dest.file
  have hs2 := sgnDirection_cases p._position.rank dest.rank
  rw [sgnDirection_eq_sign] at hs1 hs2
  have hm1 := le_max_left |dest.file - p._position.file| |dest.rank - p._position.rank|
  have hm2 := le_max_right |dest.file - p._position.file| |dest.rank - p._position.rank|
  have hm3 := max_choice |dest.file - p._position.file| |dest.rank - p._position.rank|
  generalize max |dest.file - p._position.file| |dest.rank - p._position.rank| = m
    at hm1 hm2 hm3 ⊢
  generalize |dest.file - p._position.file| = af at h1 hal hm1 hm2 hm3
  generalize |dest.rank - p._position.rank| = ar at h2 hal hm1 hm2 hm3
  generalize Int.sign (dest.file - p._position.file) = sf at hs1 ⊢
  generalize Int.sign (dest.rank - p._position.rank) = sr at hs2 ⊢
  have hn : ((m - 1).toNat : Int) = m - 1 ∨ ((m - 1).toNat = 0 ∧ m - 1 ≤ 0) := by
    by_cases h : 0 ≤ m - 1
    · left; exact Int.toNat_of_nonneg h
    · right; exact ⟨Int.toNat_eq_zero.2 (by omega), by omega⟩
  generalize (m - 1).toNat = n at hn ⊢
  refine ⟨?_, ?_, ?_⟩
  · intro hmem
    obtain ⟨i, hi, e⟩ := List.mem_map.1 hmem
    rw [List.mem_range] at hi
    have e1 := congrArg Square.file e
    have e2 := congrArg Square.rank e
    simp only at e1 e2
    rcases hs1 with hs | hs | hs <;> rcases hs2 with hs' | hs' | hs' <;>
      (rw [hs.2] at e1; rw [hs'.2] at e2; omega)
  · intro hmem
    obtain ⟨i, hi, e⟩ := List.mem_map.1 hmem
    rw [List.mem_range] at hi
    have e1 := congrArg Square.file e
    have e2 := congrArg Square.rank e
    simp only at e1 e2
    rcases hs1 with hs | hs | hs <;> rcases hs2 with hs' | hs' | hs' <;>
      (rw [hs.2] at e1; rw [hs'.2] at e2; omega)
  · intro h
    have : n = 0 := by omega
    rw [this]
    rfl

theorem sliding_getPathTo_eq_witness :
    ((Kind.Rook = Kind.Bishop ∨ Kind.Rook = Kind.Rook ∨ Kind.Rook = Kind.Queen) ∧
      isInBoard A1 = true ∧ isInBoard A8 = true ∧
      (Piece.new 1 Kind.Rook WHITE A1).canReach A8 false = true) ∧
    (Piece.new 1 Kind.Rook WHITE A1).getPathTo A8
      = some [A2, ⟨65, 51⟩, ⟨65, 52⟩, ⟨65, 53⟩, ⟨65, 54⟩, A7] ∧
    (Piece.new 1 Kind.Rook WHITE A1).getPathTo A2 = some [] ∧
    ∀ path, (Piece.new 1 Kind.Rook WHITE A1).getPathTo A8 = some path →
      (Piece.new 1 Kind.Rook WHITE A1).getPosition ∉ path ∧ A8 ∉ path ∧
      (max |A8.file - (Piece.new 1 Kind.Rook WHITE A1).getPosition.file|
          |A8.rank - (Piece.new 1 Kind.Rook WHITE A1).getPosition.rank| = 1 → path = []) :=
  ⟨by decide, by decide, by decide,
    (sliding_getPathTo_eq (Piece.new 1 Kind.Rook WHITE A1) A8 false (by decide) (by decide)
      (by decide) (by decide)).2⟩

/-- C22. For every `src` and `dest`, `getPathTo` of a Knight and of a King returns the empty
list.  For a Pawn on `src` with `canReach(dest, isCapture)` true, `getPathTo(dest)` returns
the one square between `src` and `dest` on the file of the pawn when the ranks differ by 2,
and the empty list otherwise. -/
theorem knight_king_pawn_getPathTo (addr : Ptr) (moved : Bool) (color : Int)
    (src dest : Square) :
    (Piece.mk addr Kind.Knight moved color src).getPathTo dest = some [] ∧
    (Piece.mk addr Kind.King moved color src).getPathTo dest = some [] ∧
    ∀ isCapture, (Piece.mk addr Kind.Pawn moved color src).canReach dest isCapture = true →
      (Piece.mk addr Kind.Pawn moved color src).getPathTo dest =
        some (if |dest.rank - src.rank| = 2
          then [Square.mk src.file (src.rank + (dest.rank - src.rank) / 2)] else []) := by
  refine ⟨rfl, rfl, ?_⟩
  intro isCapture h
  have hc := cabs_cases (dest.rank - src.rank)
  have hf := cabs_cases (dest.file - src.file)
  simp only [Piece.getPathTo, Pawn.getPathTo, cabs_eq_abs, PAWN_DIFF2]
  rw [cabs_eq_abs] at hc hf
  by_cases h2 : |dest.rank - src.rank| = 2
  · rw [if_pos h2, if_pos h2]
    simp only [Piece.canReach, Pawn.canReach, PAWN_DIFF0, PAWN_DIFF1, PAWN_DIFF2,
      cabs_eq_abs] at h
    have hd : dest.rank - src.rank = 2 ∨ dest.rank - src.rank = -2 := by omega
    cases isCapture with
    | true =>
      simp only [if_true, Bool.and_eq_true, decide_eq_true_eq] at h
      rcases hd with e | e <;> (rw [e] at h; omega)
    | false =>
      simp only [Bool.false_eq_true, if_false, Bool.and_eq_true, decide_eq_true_eq,
        Bool.or_eq_true, Bool.not_eq_true'] at h
      obtain ⟨hfile, hrank⟩ := h
      have hfile2 : dest.file = src.file := by omega
      rcases hd with e | e
      · rw [e] at hrank
        have hcol : color = 1 := by omega
        rw [hcol, hfile2, e]
        have hr : dest.rank = src.rank + 2 := by omega
        rw [hr]
        simp
        omega
      · rw [e] at hrank
        have hcol : color = -1 := by omega
        rw [hcol, hfile2, e]
        have hr : dest.rank = src.rank - 2 := by omega
        rw [hr]
        simp
        omega
  · rw [if_neg h2, if_neg h2]

theorem knight_king_pawn_getPathTo_witness :
    (Piece.mk 9 Kind.Pawn false WHITE A2).canReach ⟨65, 52⟩ false = true ∧
    (Piece.mk 9 Kind.Pawn false WHITE A2).getPathTo ⟨65, 52⟩ = some [⟨65, 51⟩] ∧
    (Piece.mk 9 Kind.Pawn false WHITE A2).getPathTo ⟨65, 52⟩ =
      some (if |(⟨65, 52⟩ : Square).rank - A2.rank| = 2
        then [Square.mk A2.file (A2.rank + ((⟨65, 52⟩ : Square).rank - A2.rank) / 2)]
        else []) :=
  ⟨by decide, by decide,
    (knight_king_pawn_getPathTo 9 false WHITE A2 ⟨65, 52⟩).2.2 false (by decide)⟩

/-- C30. `isKing()` is true exactly for a King and `isPawn()` exactly for a Pawn; `skips()`
is true exactly for a Knight and a King; the pieces with `skips()` true are exactly those for
which `getPathTo` returns the empty list for every `dest`; and for them the two lines of
`_isPseudoPath` that build the path and test that it is empty give what `canReach` gives, as
if the path test were skipped. -/
theorem skips_iff_empty_paths (p : Piece) :
    (p.isKing = true ↔ p.kind = Kind.King) ∧
    (p.isPawn = true ↔ p.kind = Kind.Pawn) ∧
    (p.skips = true ↔ p.kind = Kind.Knight ∨ p.kind = Kind.King) ∧
    (p.skips = true ↔ ∀ dest, p.getPathTo dest = some []) ∧
    (p.skips = true → ∀ (g : GameMaster) (dest : Square) (isCapture : Bool),
      g.reachAndPath p dest isCapture = some (p.canReach dest isCapture)) := by
  have hslide : p.getPathToDefault (Square.mk (p._position.file + 2) p._position.rank)
      ≠ some [] := by
    unfold Piece.getPathToDefault
    simp only
    have s1 : sgnDirection p._position.file (p._position.file + 2) = 1 := by
      simp [sgnDirection]
    have s2 : sgnDirection p._position.rank p._position.rank = 0 := by
      simp [sgnDirection]
    rw [s1, s2]
    have hfuel : (BOARD_SIZE : Nat) = 7 + 1 := rfl
    rw [hfuel, getPathToLoop]
    have hne : p._position.file + 1 ≠ p._position.file + 2 := by omega
    simp only [hne, ne_eq, not_false_eq_true, true_or, if_true]
    split <;> simp
  have hpawn : Pawn.getPathTo p (Square.mk p._position.file (p._position.rank + 2)) ≠ [] := by
    simp [Pawn.getPathTo, cabs]
  refine ⟨?_, ?_, ?_, ?_, ?_⟩
  · unfold Piece.isKing
    cases p.kind <;> simp
  · unfold Piece.isPawn
    cases p.kind <;> simp
  · unfold Piece.skips
    cases p.kind <;> simp
  · constructor
    · intro h dest
      unfold Piece.skips at h
      unfold Piece.getPathTo
      cases hk : p.kind <;> rw [hk] at h <;> simp at h ⊢
    · intro h
      unfold Piece.skips
      cases hk : p.kind with
      | Knight => rfl
      | King => rfl
      | Pawn =>
        have := h (Square.mk p._position.file (p._position.rank + 2))
        simp only [Piece.getPathTo, hk, Option.some.injEq] at this
        exact absurd this hpawn
      | Bishop =>
        have := h (Square.mk (p._position.file + 2) p._position.rank)
        simp only [Piece.getPathTo, hk] at this
        exact absurd this hslide
      | Rook =>
        have := h (Square.mk (p._position.file + 2) p._position.rank)
        simp only [Piece.getPathTo, hk] at this
        exact absurd this hslide
      | Queen =>
        have := h (Square.mk (p._position.file + 2) p._position.rank)
        simp only [Piece.getPathTo, hk] at this
        exact absurd this hslide
  · intro h g dest isCapture
    have hpath : p.getPathTo dest = some [] := by
      unfold Piece.skips at h
      unfold Piece.getPathTo
      cases hk : p.kind <;> rw [hk] at h <;> simp at h ⊢
    unfold GameMaster.reachAndPath
    rw [hpath]
    cases p.canReach dest isCapture <;> simp [GameMaster._isEmptyPath]



theorem skips_iff_empty_paths_witness :
    (Piece.new 1 Kind.Knight WHITE A1).skips = true ∧
    (Piece.new 1 Kind.Knight WHITE A1).getPathTo H8 = some [] ∧
    castlingReadyState.reachAndPath (Piece.new 1 Kind.Knight WHITE A1) ⟨66, 51⟩ false
      = some true :=
  ⟨by decide,
    (skips_iff_empty_paths (Piece.new 1 Kind.Knight WHITE A1)).2.2.2.1.1 (by decide) H8,
    ((skips_iff_empty_paths (Piece.new 1 Kind.Knight WHITE A1)).2.2.2.2 (by decide)
      castlingReadyState ⟨66, 51⟩ false).trans (by decide)⟩

/-! ## Saving and undoing, and the fresh board -/

set_option maxRecDepth 100000 in
theorem new_eq_startState : GameMaster.new = some startState := by decide

set_option maxRecDepth 100000 in
theorem startState_WF : startState.WF := by decide

namespace GameMaster

/-- C23. When the board moves are made on satisfies the data-model invariants, `saveMoves`
makes the saved board equal to it (the same pieces in the same order in the two vectors, the
same matrix, the king pointers designating the kings) and leaves it as it is; when the saved
board satisfies the invariants, `undoMoves` makes the board moves are made on equal to it and
leaves it as it is.  So `undoMoves` right after `saveMoves`, and `saveMoves` right after
`undoMoves`, change nothing. -/
theorem saveMoves_undoMoves_spec (g : GameMaster) :
    (g._tempBoard.WF → g.saveMoves = some ⟨g._tempBoard, g._tempBoard⟩) ∧
    (g._board.WF → g.undoMoves = some ⟨g._board, g._board⟩) ∧
    (g._tempBoard.WF → ∀ g1, g.saveMoves = some g1 → g1.undoMoves = some g1) ∧
    (g._board.WF → ∀ g1, g.undoMoves = some g1 → g1.saveMoves = some g1) := by
  have hsave : g._tempBoard.WF → g.saveMoves = some ⟨g._tempBoard, g._tempBoard⟩ := by
    intro h
    obtain ⟨hc, hkw, hkb⟩ := (Board.WF_iff _).1 h
    exact saveMoves_of_consistent hc (Board.lastKing_of_kingIs _ _ _ hkw)
      (Board.lastKing_of_kingIs _ _ _ hkb)
  have hundo : g._board.WF → g.undoMoves = some ⟨g._board, g._board⟩ := by
    intro h
    exact undoMoves_of_WF h
  refine ⟨hsave, hundo, ?_, ?_⟩
  · intro h g1 h1
    rw [hsave h] at h1
    simp only [Option.some.injEq] at h1
    subst h1
    exact undoMoves_of_WF (g := ⟨g._tempBoard, g._tempBoard⟩) h
  · intro h g1 h1
    rw [hundo h] at h1
    simp only [Option.some.injEq] at h1
    subst h1
    obtain ⟨hc, hkw, hkb⟩ := (Board.WF_iff _).1 h
    exact saveMoves_of_consistent (g := ⟨g._board, g._board⟩) hc
      (Board.lastKing_of_kingIs _ _ _ hkw) (Board.lastKing_of_kingIs _ _ _ hkb)

theorem saveMoves_undoMoves_spec_witness :
    unsavedState._tempBoard.WF ∧ unsavedState._board.WF ∧
    unsavedState._tempBoard ≠ unsavedState._board ∧
    unsavedState.saveMoves = some pinnedStateAfterCapture ∧
    unsavedState.undoMoves = some pinnedState ∧
    pinnedStateAfterCapture.undoMoves = some pinnedStateAfterCapture ∧
    pinnedState.saveMoves = some pinnedState :=
  ⟨by decide, by decide, by decide,
    (saveMoves_undoMoves_spec unsavedState).1 (by decide),
    (saveMoves_undoMoves_spec unsavedState).2.1 (by decide),
    (saveMoves_undoMoves_spec unsavedState).2.2.1 (by decide) _
      ((saveMoves_undoMoves_spec unsavedState).1 (by decide)),
    (saveMoves_undoMoves_spec unsavedState).2.2.2 (by decide) _
      ((saveMoves_undoMoves_spec unsavedState).2.1 (by decide))⟩

set_option maxRecDepth 100000 in
/-- C28. The constructor builds the starting position, and on it, for every file `f` from A
to H, `move(f2, f4, WHITE, false)` returns true, after which the square `f2` is empty and `f4`
holds the pawn of that file with `hasMoved` true; in the same way `move(f7, f5, BLACK, false)`
returns true on the fresh board. -/
theorem fresh_pawns_advance_two :
    GameMaster.new = some startState ∧
    ∀ f ∈ files,
      startState.move ⟨f, 50⟩ ⟨f, 52⟩ WHITE false = some (true, pawnAdvancedState WHITE f) ∧
      (pawnAdvancedState WHITE f).getTempPiece ⟨f, 50⟩ = some none ∧
      ((pawnAdvancedState WHITE f).getTempPiece ⟨f, 52⟩).bind
        (fun a => a.bind (pawnAdvancedState WHITE f)._tempBoard.deref)
        = some (Piece.mk (9 + (f - 65).toNat) Kind.Pawn true WHITE ⟨f, 52⟩) ∧
      startState.move ⟨f, 55⟩ ⟨f, 53⟩ BLACK false = some (true, pawnAdvancedState BLACK f) ∧
      (pawnAdvancedState BLACK f).getTempPiece ⟨f, 55⟩ = some none ∧
      ((pawnAdvancedState BLACK f).getTempPiece ⟨f, 53⟩).bind
        (fun a => a.bind (pawnAdvancedState BLACK f)._tempBoard.deref)
        = some (Piece.mk (25 + (f - 65).toNat) Kind.Pawn true BLACK ⟨f, 53⟩) := by
  decide!

/-- C29. In a state that satisfies the data-model invariants, a move of a pawn whose forward
rank difference (the colour of the pawn times the rank of `dest` minus the rank of `src`) is 3
or more returns false and leaves the state as it is; and a move with forward rank difference 2
returns false and leaves the state as it is when the pawn has `hasMoved` true, or the square
between is occupied, or `dest` is occupied.  The witness is `move(A2, A5, WHITE, false)` on the
fresh board. -/
theorem move_rejects_long_pawn_move (g : GameMaster) (hwf : g.WF) (src dest : Square)
    (currentPlayer : Int) (isCurrentInCheck : Bool) (a : Ptr) (p : Piece)
    (hsrc : g.getTempPiece src = some (some a)) (hd : g._tempBoard.deref a = some p)
    (hpawn : p.kind = Kind.Pawn) :
    (3 ≤ p.getColor * (dest.rank - src.rank) →
      g.move src dest currentPlayer isCurrentInCheck = some (false, g)) ∧
    (p.getColor * (dest.rank - src.rank) = 2 →
      (p.hasMoved = true ∨
        (∃ x, g.getTempPiece (Square.mk src.file (src.rank + p.getColor)) = some (some x)) ∨
        (∃ x, g.getTempPiece dest = some (some x))) →
      g.move src dest currentPlayer isCurrentInCheck = some (false, g)) := by
  have htwf : g._tempBoard.WF := hwf.2 ▸ hwf.1
  have hcons := htwf.consistent
  obtain ⟨p0, hp0, hp0a, hp0pos, hp0d⟩ := hcons.occupant
    (show g._tempBoard._getPiece src = some (some a) from hsrc)
  have hpp : p0 = p := by
    rw [hd] at hp0d
    simp only [Option.some.injEq] at hp0d
    exact hp0d.symm
  subst hpp
  have hcol : p0.getColor = WHITE ∨ p0.getColor = BLACK := hcons.color hp0
  have hcol2 : p0._color = 1 ∨ p0._color = -1 := hcol
  have hpos : p0._position = src := hp0pos
  -- an accepted move of this pawn satisfies `canReach` and has an empty path
  have hacc : (∃ g2, g.move src dest currentPlayer isCurrentInCheck = some (true, g2)) →
      ∃ v, g._tempBoard.colorAt dest = some v ∧ Pawn.canReach p0 dest v.isSome = true ∧
        ∀ sq ∈ Pawn.getPathTo p0 dest, g._tempBoard.colorAt sq = some none := by
    rintro ⟨g2, hg2⟩
    rcases move_spec g hwf src dest currentPlayer isCurrentInCheck with ⟨h1, _⟩ | h1
    · rw [h1] at hg2
      simp at hg2
    · obtain ⟨_, _, _, _, _, _, _, _, _, _, _, _, _, _, hcond⟩ := h1
      obtain ⟨_, a2, p2, ha2, hp2, _, _, hpl, _⟩ := hcond
      rw [hsrc] at ha2
      simp only [Option.some.injEq] at ha2
      subst ha2
      rw [hd] at hp2
      simp only [Option.some.injEq] at hp2
      subst hp2
      obtain ⟨_, v, hv, _, hreach, path, hpath, hempty⟩ := hpl
      refine ⟨v, hv, ?_, ?_⟩
      · simpa [Piece.canReach, hpawn] using hreach
      · simp only [Piece.getPathTo, hpawn, Option.some.injEq] at hpath
        subst hpath
        exact hempty
  have hrej : (¬ ∃ g2, g.move src dest currentPlayer isCurrentInCheck = some (true, g2)) →
      g.move src dest currentPlayer isCurrentInCheck = some (false, g) := by
    intro hno
    rcases move_spec g hwf src dest currentPlayer isCurrentInCheck with ⟨h1, _⟩ | h1
    · exact h1
    · obtain ⟨_, _, _, t2, _, _, _, _, _, _, _, _, _, h13, _⟩ := h1
      exact absurd ⟨_, h13⟩ hno
  constructor
  · intro h3
    apply hrej
    intro hex
    obtain ⟨v, _, hreach, _⟩ := hacc hex
    simp only [Pawn.canReach, PAWN_DIFF0, PAWN_DIFF1, PAWN_DIFF2, hpos] at hreach
    have hc : p0._color * (dest.rank - src.rank) ≥ 3 := h3
    cases hvs : v.isSome <;> rw [hvs] at hreach <;>
      simp at hreach <;> omega
  · intro h2 hor
    apply hrej
    intro hex
    obtain ⟨v, hv, hreach, hpath⟩ := hacc hex
    have hc : p0._color * (dest.rank - src.rank) = 2 := h2
    simp only [Pawn.canReach, PAWN_DIFF0, PAWN_DIFF1, PAWN_DIFF2, hpos] at hreach
    cases hvs : v.isSome with
    | true =>
      rw [hvs] at hreach
      simp at hreach
      omega
    | false =>
      rw [hvs] at hreach
      simp only [Bool.false_eq_true, if_false, Bool.and_eq_true, decide_eq_true_eq,
        Bool.or_eq_true, Bool.not_eq_true'] at hreach
      obtain ⟨hfile, hrank⟩ := hreach
      have hvnone : v = none := by
        cases v with
        | none => rfl
        | some x => simp at hvs
      subst hvnone
      have hfc := cabs_cases (dest.file - src.file)
      have hrc := cabs_cases (dest.rank - src.rank)
      rcases hor with hm | ⟨x, hx⟩ | ⟨x, hx⟩
      · have hm2 : p0._hasMoved = true := hm
        rw [hm2] at hrank
        simp at hrank
        omega
      · have hmid : Pawn.getPathTo p0 dest
            = [Square.mk src.file (src.rank + p0.getColor)] := by
          unfold Pawn.getPathTo
          simp only [hpos, PAWN_DIFF2]
          have hr2 : cabs (dest.rank - src.rank) = 2 := by
            rcases hcol2 with hc1 | hc1 <;> (rw [hc1] at hc; omega)
          rw [if_pos hr2]
          have e1 : dest.file = src.file := by omega
          have e2 : dest.rank - p0._color = src.rank + p0.getColor := by
            show dest.rank - p0._color = src.rank + p0._color
            rcases hcol2 with hc1 | hc1 <;> (rw [hc1] at hc ⊢; omega)
          rw [e1, e2]
        have hsq := hpath _ (by rw [hmid]; exact List.mem_singleton.2 rfl)
        unfold Board.colorAt at hsq
        have hx2 : g._tempBoard._getPiece (Square.mk src.file (src.rank + p0.getColor))
            = some (some x) := hx
        rw [hx2] at hsq
        simp only at hsq
        split at hsq <;> simp at hsq
      · unfold Board.colorAt at hv
        have hx2 : g._tempBoard._getPiece dest = some (some x) := hx
        rw [hx2] at hv
        simp only at hv
        split at hv <;> simp at hv

set_option maxRecDepth 100000 in
theorem move_rejects_long_pawn_move_witness :
    startState.WF ∧ startState.getTempPiece A2 = some (some 9) ∧
    startState._tempBoard.deref 9 = some (Piece.new 9 Kind.Pawn WHITE A2) ∧
    3 ≤ (Piece.new 9 Kind.Pawn WHITE A2).getColor * (A5.rank - A2.rank) ∧
    startState.move A2 A5 WHITE false = some (false, startState) :=
  ⟨by decide, by decide, by decide, by decide,
    (move_rejects_long_pawn_move startState (by decide) A2 A5 WHITE false 9
      (Piece.new 9 Kind.Pawn WHITE A2) (by decide) (by decide) (by decide)).1 (by decide)⟩


end GameMaster


/-! ## What every call keeps -/

theorem lastKing_of_sublist_toList {k : Option Ptr} {l : List Piece}
    (h : ((l.filter Piece.isKing).map Piece.addr).Sublist k.toList) : lastKing k l = k := by
  cases k with
  | none =>
    have h2 : (l.filter Piece.isKing).map Piece.addr = [] := by
      simpa using h
    exact Board.lastKing_of_no_king l _ (List.map_eq_nil_iff.1 h2)
  | some a =>
    have h3 : (l.filter Piece.isKing).map Piece.addr = [] ∨
        (l.filter Piece.isKing).map Piece.addr = [a] := by
      have hlen := h.length_le
      simp only [Option.toList, List.length_singleton] at hlen
      rcases hm : (l.filter Piece.isKing).map Piece.addr with _ | ⟨x, rest⟩
      · left; rfl
      · right
        rw [hm] at h hlen
        simp only [List.length_cons] at hlen
        have hr : rest = [] := List.length_eq_zero.1 (by omega)
        subst hr
        have hx : x ∈ (some a).toList := h.subset (List.mem_singleton.2 rfl)
        simp only [Option.toList, List.mem_singleton] at hx
        rw [hx]
    rcases h3 with h3 | h3
    · exact Board.lastKing_of_no_king l _ (List.map_eq_nil_iff.1 h3)
    · exact Board.lastKing_of_kingIs l _ _ ⟨rfl, h3⟩

namespace Board

theorem WF.sound {b : Board} (h : b.WF) : b.Sound := by
  obtain ⟨hc, hkw, hkb⟩ := (WF_iff b).1 h
  exact ⟨hc, by rw [hkw.2], by rw [hkb.2]⟩

/-- A sound board is reproduced by `operator=` on a board with the same king pointers. -/
theorem Sound.assign_of_sound {b x : Board} (h : b.Sound) (hwk : x._whiteKing = b._whiteKing)
    (hbk : x._blackKing = b._blackKing) : x.assign b = some b := by
  apply h.1.assign_of_consistent
  · rw [hwk]; exact lastKing_of_sublist_toList h.2.1
  · rw [hbk]; exact lastKing_of_sublist_toList h.2.2

/-- When `tempMove` returns on a consistent board, `src` held a piece and `dest` is another
square of the board. -/
theorem tempMove_inv {t t2 : Board} (hc : t.Consistent) {src dest : Square}
    (h : t.tempMove src dest = some t2) :
    ∃ a, t._getPiece src = some (some a) ∧ isInBoard dest = true ∧ dest ≠ src := by
  unfold Board.tempMove at h
  cases hv : t._getPiece dest with
  | none => rw [hv] at h; cases h
  | some v =>
    rw [hv] at h
    simp only at h
    have hdest := _getPiece_inBoard hv
    obtain ⟨t1, ht1, _, _, _, _, _, hget1⟩ := _removePiece_spec hc hdest
    cases hr : (if v ≠ none then t._removePiece dest else some t) with
    | none => rw [hr] at h; cases h
    | some t1' =>
      rw [hr] at h
      simp only at h
      cases hs : t1'._getPiece src with
      | none => rw [hs] at h; cases h
      | some srcPiece =>
        rw [hs] at h
        simp only at h
        cases hsp : t1'._setPiece none src with
        | none => rw [hsp] at h; cases h
        | some t2' =>
          rw [hsp] at h
          simp only at h
          cases srcPiece with
          | none =>
            unfold Board._movePiece at h
            cases hx : t2'._setPiece none dest <;> rw [hx] at h <;> simp at h
          | some a =>
            refine ⟨a, ?_, hdest, ?_⟩
            · by_cases hvn : v = none
              · simp only [hvn, ne_eq, not_true_eq_false, if_false, Option.some.injEq] at hr
                rw [hr]
                exact hs
              · simp only [ne_eq, hvn, not_false_eq_true, if_true] at hr
                rw [ht1] at hr
                simp only [Option.some.injEq] at hr
                subst hr
                rw [hget1] at hs
                by_cases e : src = dest
                · rw [if_pos e] at hs
                  cases hs
                · rw [if_neg e] at hs
                  exact hs
            · intro e
              subst e
              by_cases hvn : v = none
              · simp only [hvn, ne_eq, not_true_eq_false, if_false, Option.some.injEq] at hr
                subst hr
                rw [hv, hvn] at hs
                cases hs
              · simp only [ne_eq, hvn, not_false_eq_true, if_true] at hr
                rw [ht1] at hr
                simp only [Option.some.injEq] at hr
                subst hr
                rw [hget1] at hs
                simp at hs

/-- Whenever `tempMove` returns on a sound board, its result is sound and has the same king
pointers. -/
theorem Sound.tempMove_sound {t t2 : Board} (hs : t.Sound) {src dest : Square}
    (h : t.tempMove src dest = some t2) :
    t2.Sound ∧ t2._whiteKing = t._whiteKing ∧ t2._blackKing = t._blackKing := by
  obtain ⟨a, hsrc, hdest, hne⟩ := tempMove_inv hs.1 h
  obtain ⟨t2', ht2', hw, hb, hwk, hbk, _, hc2⟩ := tempMove_spec hs.1 hsrc hdest hne
  rw [h] at ht2'
  simp only [Option.some.injEq] at ht2'
  subst ht2'
  refine ⟨⟨hc2, ?_, ?_⟩, hwk, hbk⟩
  · rw [hw, hwk]
    exact (movedList_kings_sublist _ _ _).trans hs.2.1
  · rw [hb, hbk]
    exact (movedList_kings_sublist _ _ _).trans hs.2.2

/-- Whenever `tempPromote` returns on a sound board, its result is sound and has the same king
pointers. -/
theorem Sound.tempPromote_sound {t t2 : Board} (hs : t.Sound) {a : Ptr}
    (h : t.tempPromote a = some t2) :
    t2.Sound ∧ t2._whiteKing = t._whiteKing ∧ t2._blackKing = t._blackKing := by
  cases hd : t.deref a with
  | none =>
    unfold Board.tempPromote at h
    rw [hd] at h
    cases h
  | some pw =>
    obtain ⟨t2', fresh, ht2', hw, hb, hwk, hbk, _, hc2⟩ := tempPromote_spec hs.1 hd
    rw [h] at ht2'
    simp only [Option.some.injEq] at ht2'
    subst ht2'
    refine ⟨⟨hc2, ?_, ?_⟩, hwk, hbk⟩
    · rw [hw, hwk]
      refine (GameMaster.promoted_kings_sublist _ _ _ ?_).trans hs.2.1
      intro q hq
      split at hq
      · simp only [List.mem_singleton] at hq
        subst hq
        rfl
      · cases hq
    · rw [hb, hbk]
      refine (GameMaster.promoted_kings_sublist _ _ _ ?_).trans hs.2.2
      intro q hq
      split at hq
      · cases hq
      · simp only [List.mem_singleton] at hq
        subst hq
        rfl

end Board

namespace GameMaster

theorem WF.sound_of_WF {g : GameMaster} (h : g.WF) : g.Sound :=
  ⟨h.1.sound, h.2⟩

theorem mk_board_board {g : GameMaster} (h : g._tempBoard = g._board) :
    (⟨g._board, g._board⟩ : GameMaster) = g := by
  cases g
  simp only at h
  subst h
  rfl

/-- Undoing on top of a sound saved board gives back the state in which the two boards are
that board. -/
theorem undoMoves_of_sound {g : GameMaster} (hs : g._board.Sound)
    (hwk : g._tempBoard._whiteKing = g._board._whiteKing)
    (hbk : g._tempBoard._blackKing = g._board._blackKing) :
    g.undoMoves = some ⟨g._board, g._board⟩ := by
  unfold undoMoves
  rw [hs.assign_of_sound hwk hbk]

/-- Saving a sound board makes the two boards that board. -/
theorem saveMoves_of_sound {g : GameMaster} (hs : g._tempBoard.Sound)
    (hwk : g._board._whiteKing = g._tempBoard._whiteKing)
    (hbk : g._board._blackKing = g._tempBoard._blackKing) :
    g.saveMoves = some ⟨g._tempBoard, g._tempBoard⟩ := by
  unfold saveMoves
  rw [hs.assign_of_sound hwk hbk]

/-- Whatever `move` returns in a sound state, the state after the call is sound. -/
theorem Sound.move_sound {g g2 : GameMaster} (hs : g.Sound) {src dest : Square}
    {currentPlayer : Int} {isCurrentInCheck res : Bool}
    (h : g.move src dest currentPlayer isCurrentInCheck = some (res, g2)) : g2.Sound := by
  have hts : g._tempBoard.Sound := hs.2 ▸ hs.1
  rcases move_inv h with ⟨_, rfl⟩ | ⟨a, srcPiece, promotion, g1, moved, _, _, _, _, _, _, _,
    hmove, _, hrest⟩
  · exact hs
  obtain ⟨t1, ht1, rfl⟩ := tempMove_eq hmove
  obtain ⟨hs1, hwk1, hbk1⟩ := hts.tempMove_sound ht1
  rcases hrest with ⟨_, _, hundo⟩ | ⟨_, _, g3, hprom, hsave⟩
  · rw [undoMoves_of_sound (g := { g with _tempBoard := t1 }) hs.1
      (by rw [hwk1, hs.2]) (by rw [hbk1, hs.2])] at hundo
    simp only [Option.some.injEq] at hundo
    subst hundo
    exact ⟨hs.1, rfl⟩
  · have h3 : ∃ t3, g3 = { g with _tempBoard := t3 } ∧ t3.Sound ∧
        t3._whiteKing = g._tempBoard._whiteKing ∧ t3._blackKing = g._tempBoard._blackKing := by
      cases promotion with
      | false =>
        simp only [Bool.false_eq_true, if_false, Option.some.injEq] at hprom
        exact ⟨t1, hprom.symm, hs1, hwk1, hbk1⟩
      | true =>
        simp only [if_true] at hprom
        unfold tempPromote at hprom
        simp only at hprom
        cases hp : t1.tempPromote a with
        | none => rw [hp] at hprom; cases hprom
        | some t3 =>
          rw [hp] at hprom
          simp only [Option.some.injEq] at hprom
          obtain ⟨hs3, hwk3, hbk3⟩ := hs1.tempPromote_sound hp
          exact ⟨t3, hprom.symm, hs3, hwk3.trans hwk1, hbk3.trans hbk1⟩
    obtain ⟨t3, rfl, hs3, hwk3, hbk3⟩ := h3
    rw [saveMoves_of_sound (g := { g with _tempBoard := t3 }) hs3
      (by rw [hwk3, hs.2]) (by rw [hbk3, hs.2])] at hsave
    simp only [Option.some.injEq] at hsave
    subst hsave
    exact ⟨hs3, rfl⟩

/-- Whatever `castling` returns in a sound state, the state after the call is sound. -/
theorem Sound.castling_sound {g g2 : GameMaster} (hs : g.Sound) {castlingSide : Char}
    {currentPlayer : Int} {isCurrentInCheck res : Bool}
    (h : g.castling castlingSide currentPlayer isCurrentInCheck = some (res, g2)) :
    g2.Sound := by
  have hts : g._tempBoard.Sound := hs.2 ▸ hs.1
  rcases castling_inv h with ⟨_, rfl⟩ | ⟨kingSrc, rookSrc, g3, result1, g4, _, h3, _, h4, h5⟩
  · exact hs
  obtain ⟨t3, ht3, rfl⟩ := tempMove_eq h3
  obtain ⟨hs3, hwk3, hbk3⟩ := hts.tempMove_sound ht3
  obtain ⟨t4, ht4, rfl⟩ := tempMove_eq h4
  obtain ⟨hs4, hwk4, hbk4⟩ := hs3.tempMove_sound ht4
  rcases h5 with ⟨_, _, hundo⟩ | ⟨_, _, g5, h5, hsave⟩
  · rw [undoMoves_of_sound (g := { g with _tempBoard := t4 }) hs.1
      (by rw [hwk4, hwk3, hs.2]) (by rw [hbk4, hbk3, hs.2])] at hundo
    simp only [Option.some.injEq] at hundo
    subst hundo
    exact ⟨hs.1, rfl⟩
  · obtain ⟨t5, ht5, rfl⟩ := tempMove_eq h5
    obtain ⟨hs5, hwk5, hbk5⟩ := hs4.tempMove_sound ht5
    rw [saveMoves_of_sound (g := { g with _tempBoard := t5 }) hs5
      (by rw [hwk5, hwk4, hwk3, hs.2]) (by rw [hbk5, hbk4, hbk3, hs.2])] at hsave
    simp only [Option.some.injEq] at hsave
    subst hsave
    exact ⟨hs5, rfl⟩

/-- Whatever the loop of `isInCheckmate` returns in a sound state, it returns in that state. -/
theorem Sound.isInCheckmateLoop_state {g : GameMaster} (hs : g.Sound) (color : Int)
    (kingsPosition : Square) (l : List Square) :
    ∀ res g2, isInCheckmateLoop color kingsPosition g l = some (res, g2) → g2 = g := by
  have hts : g._tempBoard.Sound := hs.2 ▸ hs.1
  induction l with
  | nil =>
    intro res g2 h
    simp only [isInCheckmateLoop, Option.some.injEq, Prod.mk.injEq] at h
    exact h.2.symm
  | cons d rest ih =>
    intro res g2 h
    unfold isInCheckmateLoop at h
    cases hk : g.getTempKing color with
    | none => rw [hk] at h; cases h
    | some k =>
      rw [hk] at h
      simp only at h
      cases hd : g._tempBoard.deref k with
      | none => rw [hd] at h; cases h
      | some king =>
        rw [hd] at h
        simp only at h
        cases hp : g._isPseudoPath king d with
        | none => rw [hp] at h; cases h
        | some b =>
          rw [hp] at h
          cases b with
          | false => exact ih res g2 h
          | true =>
            simp only at h
            cases hm : g.tempMove kingsPosition d with
            | none => rw [hm] at h; cases h
            | some g1 =>
              rw [hm] at h
              simp only at h
              obtain ⟨t1, ht1, rfl⟩ := tempMove_eq hm
              obtain ⟨_, hwk1, hbk1⟩ := hts.tempMove_sound ht1
              cases hc : ({ g with _tempBoard := t1 } : GameMaster).isInCheck color with
              | none => rw [hc] at h; cases h
              | some result =>
                rw [hc] at h
                simp only at h
                have hundo := undoMoves_of_sound (g := { g with _tempBoard := t1 }) hs.1
                  (by rw [hwk1, hs.2]) (by rw [hbk1, hs.2])
                rw [hundo] at h
                simp only at h
                have hg : (⟨g._board, g._board⟩ : GameMaster) = g := mk_board_board hs.2
                rw [hg] at h
                cases result with
                | false =>
                  simp only [Bool.not_false, if_true, Option.some.injEq, Prod.mk.injEq] at h
                  exact h.2.symm
                | true =>
                  simp only [Bool.not_true, Bool.false_eq_true, if_false] at h
                  exact ih res g2 h

/-- Whatever `isInCheckmate` returns in a sound state, it returns in that state. -/
theorem Sound.isInCheckmate_state {g g2 : GameMaster} (hs : g.Sound) {color : Int}
    {isColorInCheck res : Bool}
    (h : g.isInCheckmate color isColorInCheck = some (res, g2)) : g2 = g := by
  unfold isInCheckmate at h
  cases isColorInCheck with
  | false =>
    simp only [Bool.not_false, if_true, Option.some.injEq, Prod.mk.injEq] at h
    exact h.2.symm
  | true =>
    simp only [Bool.not_true, Bool.false_eq_true, if_false] at h
    cases hk : g.getTempKing color with
    | none => rw [hk] at h; cases h
    | some k =>
      rw [hk] at h
      simp only at h
      cases hd : g._tempBoard.deref k with
      | none => rw [hd] at h; cases h
      | some king =>
        rw [hd] at h
        exact hs.isInCheckmateLoop_state color _ _ res g2 h

/-- Every call of the four methods that returns in a sound state leaves a sound state. -/
theorem Sound.call_sound {g g2 : GameMaster} (hs : g.Sound) {c : Call}
    (h : g.call c = some g2) : g2.Sound := by
  cases c with
  | move src dest currentPlayer isCurrentInCheck =>
    simp only [call, Option.map_eq_some', Prod.exists, exists_eq_right] at h
    obtain ⟨res, h⟩ := h
    exact hs.move_sound h
  | castling castlingSide currentPlayer isCurrentInCheck =>
    simp only [call, Option.map_eq_some', Prod.exists, exists_eq_right] at h
    obtain ⟨res, h⟩ := h
    exact hs.castling_sound h
  | isInCheck color =>
    simp only [call, Option.map_eq_some', Prod.exists, exists_eq_right] at h
    obtain ⟨res, h⟩ := h
    rw [isInCheckCall_state h]
    exact hs
  | isInCheckmate color isColorInCheck =>
    simp only [call, Option.map_eq_some', Prod.exists, exists_eq_right] at h
    obtain ⟨res, h⟩ := h
    rw [hs.isInCheckmate_state h]
    exact hs

theorem Sound.calls_sound {g : GameMaster} (hs : g.Sound) (cs : List Call) :
    ∀ g2, g.calls cs = some g2 → g2.Sound := by
  induction cs generalizing g with
  | nil =>
    intro g2 h
    simp only [calls, Option.some.injEq] at h
    subst h
    exact hs
  | cons c rest ih =>
    intro g2 h
    unfold calls at h
    cases hc : g.call c with
    | none => rw [hc] at h; cases h
    | some g1 =>
      rw [hc] at h
      exact ih (hs.call_sound hc) g2 h

end GameMaster

namespace Board

/-- Consistency in the words of the specification: a square holds a piece exactly when the
piece is in the vector of its colour with that square as its position. -/
theorem Consistent.holds_iff {b : Board} (h : b.Consistent) (sq : Square) (p : Piece) :
    (b._getPiece sq = some (some p.addr) ∧ b.deref p.addr = some p) ↔
      (p ∈ b._getPieces p.getColor ∧ p.getPosition = sq) := by
  constructor
  · rintro ⟨h1, h2⟩
    obtain ⟨p', hp', _, hpos, hd⟩ := h.occupant h1
    rw [h2] at hd
    simp only [Option.some.injEq] at hd
    subst hd
    refine ⟨?_, hpos⟩
    rcases List.mem_append.1 hp' with hw | hb
    · have := h.2.2.2.2.2.1 p hw
      rw [this]
      simpa [_getPieces] using hw
    · have := h.2.2.2.2.2.2 p hb
      rw [this]
      simpa [_getPieces] using hb
  · rintro ⟨h1, h2⟩
    have hp : p ∈ b.allPieces := by
      unfold _getPieces at h1
      split at h1
      · exact List.mem_append_left _ h1
      · exact List.mem_append_right _ h1
    exact ⟨h2 ▸ h.2.1 p hp, deref_of_mem h.2.2.2.2.1 hp⟩

end Board

namespace GameMaster

theorem Reachable.sound_of_reachable {g : GameMaster} (h : g.Reachable) : g.Sound := by
  obtain ⟨g0, cs, h0, hcs⟩ := h
  rw [new_eq_startState] at h0
  simp only [Option.some.injEq] at h0
  subst h0
  exact (WF.sound_of_WF startState_WF).calls_sound cs g hcs

/-- C24. In every state reachable from the freshly constructed `GameMaster` by a sequence of
calls of `move`, `castling`, `isInCheck` and `isInCheckmate`, with whatever arguments, on the
saved board and on the board moves are made on: a square holds a piece if and only if that
piece is in the vector of its colour with that square as its position, and no two pieces of
the vectors have the same position. -/
theorem reachable_consistent (g : GameMaster) (h : g.Reachable) :
    ∀ b, b = g._board ∨ b = g._tempBoard →
      (∀ sq p, (b._getPiece sq = some (some p.addr) ∧ b.deref p.addr = some p) ↔
        (p ∈ b._getPieces p.getColor ∧ p.getPosition = sq)) ∧
      (b.allPieces.map Piece.getPosition).Nodup := by
  have hs := h.sound_of_reachable
  intro b hb
  have hc : b.Consistent := by
    rcases hb with rfl | rfl
    · exact hs.1.1
    · rw [hs.2]; exact hs.1.1
  exact ⟨hc.holds_iff, hc.2.2.2.1⟩

set_option maxRecDepth 100000 in
theorem reachable_consistent_witness :
    (pawnAdvancedState WHITE 65).Reachable ∧
    ∀ b, b = (pawnAdvancedState WHITE 65)._board ∨ b = (pawnAdvancedState WHITE 65)._tempBoard →
      (∀ sq p, (b._getPiece sq = some (some p.addr) ∧ b.deref p.addr = some p) ↔
        (p ∈ b._getPieces p.getColor ∧ p.getPosition = sq)) ∧
      (b.allPieces.map Piece.getPosition).Nodup :=
  ⟨⟨startState, [Call.move A2 A4 WHITE false], new_eq_startState, by decide⟩,
    reachable_consistent (pawnAdvancedState WHITE 65)
      ⟨startState, [Call.move A2 A4 WHITE false], new_eq_startState, by decide⟩⟩

/-- C27. In the freshly constructed `GameMaster` the board moves are made on is equal to the
saved board.  If the two are equal before a call of `move`, `castling`, `isInCheck` or
`isInCheckmate`, on a sound board (which every board that satisfies the data-model invariants
is), they are equal after the call returns, whatever the arguments and the result, and the
board is sound again; so the two boards are equal in every reachable state. -/
theorem scratch_equals_committed :
    (∀ g0, GameMaster.new = some g0 → g0._tempBoard = g0._board ∧ g0._board.Sound) ∧
    (∀ (g : GameMaster) (c : Call) (g2 : GameMaster), g._board.Sound →
      g._tempBoard = g._board → g.call c = some g2 →
      g2._tempBoard = g2._board ∧ g2._board.Sound) ∧
    (∀ b : Board, b.WF → b.Sound) ∧
    (∀ g : GameMaster, g.Reachable → g._tempBoard = g._board) := by
  refine ⟨?_, ?_, fun b hb => hb.sound, fun g hg => hg.sound_of_reachable.2⟩
  · intro g0 h0
    rw [new_eq_startState] at h0
    simp only [Option.some.injEq] at h0
    subst h0
    exact ⟨startState_WF.2, startState_WF.1.sound⟩
  · intro g c g2 hs he hc
    have := Sound.call_sound (g := g) ⟨hs, he⟩ hc
    exact ⟨this.2, this.1⟩

set_option maxRecDepth 100000 in
theorem scratch_equals_committed_witness :
    GameMaster.new = some startState ∧ startState._tempBoard = startState._board ∧
    startState._board.WF ∧
    startState.call (Call.move A2 A4 WHITE false) = some (pawnAdvancedState WHITE 65) ∧
    startState.call (Call.move A2 A5 WHITE false) = some startState ∧
    (pawnAdvancedState WHITE 65)._tempBoard = (pawnAdvancedState WHITE 65)._board ∧
    (pawnAdvancedState WHITE 65)._board.Sound :=
  ⟨new_eq_startState, by decide, by decide, by decide, by decide,
    scratch_equals_committed.2.1 startState (Call.move A2 A4 WHITE false)
      (pawnAdvancedState WHITE 65)
      (scratch_equals_committed.2.2.1 _ (by decide)) (by decide) (by decide)⟩

end GameMaster

/-! ## The kings are kept -/

/-- `tempMove` to a square on which no king of the vector stands keeps the kings of the
vector. -/
theorem movedList_kings_eq (l : List Piece) (a : Ptr) (dest : Square)
    (h : ∀ q ∈ l, q.isKing = true → q.getPosition ≠ dest) :
    ((movedList l a dest).filter Piece.isKing).map Piece.addr
      = (l.filter Piece.isKing).map Piece.addr := by
  have hk2 : ∀ q : Piece,
      (if q.addr = a then q.setPosition dest else q).isKing = q.isKing := by
    intro q
    by_cases e : q.addr = a <;> simp [e, Piece.setPosition, Piece.isKing]
  have ha2 : ∀ q : Piece, (if q.addr = a then q.setPosition dest else q).addr = q.addr := by
    intro q
    by_cases e : q.addr = a <;> simp [e, Piece.setPosition]
  unfold movedList
  rw [List.filter_map, List.map_map]
  have h1 : List.filter (Piece.isKing ∘ fun q => if q.addr = a then q.setPosition dest else q)
      (l.filter (fun q => q.getPosition ≠ dest)) =
      List.filter Piece.isKing (l.filter (fun q => q.getPosition ≠ dest)) :=
    List.filter_congr (fun q _ => hk2 q)
  rw [h1]
  have h2 : List.map (Piece.addr ∘ fun q => if q.addr = a then q.setPosition dest else q)
      (List.filter Piece.isKing (l.filter (fun q => q.getPosition ≠ dest))) =
      List.map Piece.addr (List.filter Piece.isKing (l.filter (fun q => q.getPosition ≠ dest))) :=
    List.map_congr_left (fun q _ => ha2 q)
  rw [h2, List.filter_filter]
  congr 1
  apply List.filter_congr
  intro q hq
  by_cases hk : q.isKing = true
  · have := h q hq hk
    simp [hk, this]
  · simp [hk]

/-- Replacing a piece that is not a king by pieces that are not kings keeps the kings. -/
theorem promoted_kings_eq (l : List Piece) (pos : Square) (extra : List Piece)
    (hextra : ∀ q ∈ extra, q.isKing = false)
    (h : ∀ q ∈ l, q.isKing = true → q.getPosition ≠ pos) :
    ((l.filter (fun q => q.getPosition ≠ pos) ++ extra).filter Piece.isKing).map Piece.addr
      = (l.filter Piece.isKing).map Piece.addr := by
  rw [List.filter_append]
  have : extra.filter Piece.isKing = [] := by
    rw [List.filter_eq_nil_iff]
    intro q hq
    simp [hextra q hq]
  rw [this, List.append_nil, List.filter_filter]
  congr 1
  apply List.filter_congr
  intro q hq
  by_cases hk : q.isKing = true
  · have := h q hq hk
    simp [hk, this]
  · simp [hk]

namespace Board

/-- In a board that satisfies the invariants every king is the king of its colour. -/
theorem WF.king_unique {t : Board} (h : t.WF) {q : Piece} (hq : q ∈ t.allPieces)
    (hk : q.isKing = true) :
    (q.getColor = WHITE ∨ q.getColor = BLACK) ∧ t._getKing q.getColor = some q.addr := by
  have hcons := h.consistent
  obtain ⟨_, hwk, hbk⟩ := (WF_iff t).1 h
  have hne : ¬ (BLACK = WHITE) := by decide
  rcases List.mem_append.1 hq with hw | hb
  · obtain ⟨K, h1, _, _, h4⟩ := kingIs_spec hwk
    have hm : q ∈ t._whitePieces.filter Piece.isKing := List.mem_filter.2 ⟨hw, hk⟩
    rw [h4, List.mem_singleton] at hm
    subst hm
    have hc := hcons.2.2.2.2.2.1 q hw
    exact ⟨Or.inl hc, by simp [_getKing, hc, h1]⟩
  · obtain ⟨K, h1, _, _, h4⟩ := kingIs_spec hbk
    have hm : q ∈ t._blackPieces.filter Piece.isKing := List.mem_filter.2 ⟨hb, hk⟩
    rw [h4, List.mem_singleton] at hm
    subst hm
    have hc := hcons.2.2.2.2.2.2 q hb
    exact ⟨Or.inr hc, by simp [_getKing, hc, hne, h1]⟩

/-- A piece of the board is in the vector that `_getPieces` returns for its colour. -/
theorem Consistent.mem_getPieces {b : Board} (h : b.Consistent) {p : Piece}
    (hp : p ∈ b.allPieces) : p ∈ b._getPieces p.getColor := by
  rcases List.mem_append.1 hp with hw | hb
  · rw [mem_white_getPieces h hw]; exact hw
  · rw [mem_black_getPieces h hb]; exact hb

/-- A `tempMove` that captures no king keeps the invariants. -/
theorem WF.tempMove_keeps {t t2 : Board} (h : t.WF) {src dest : Square}
    (hm : t.tempMove src dest = some t2)
    (hnk : ∀ q ∈ t.allPieces, q.isKing = true → q.getPosition ≠ dest) : t2.WF := by
  have hcons := h.consistent
  obtain ⟨_, hwk, hbk⟩ := (WF_iff t).1 h
  obtain ⟨a, hsrc, hdest, hne⟩ := tempMove_inv hcons hm
  obtain ⟨t2', ht2', hw, hb, hwk2, hbk2, _, hc2⟩ := tempMove_spec hcons hsrc hdest hne
  rw [hm] at ht2'
  simp only [Option.some.injEq] at ht2'
  subst ht2'
  rw [WF_iff]
  refine ⟨hc2, ?_, ?_⟩
  · refine ⟨by rw [hwk2]; exact hwk.1, ?_⟩
    rw [hw, hwk2, movedList_kings_eq _ _ _
      (fun q hq => hnk q (List.mem_append_left _ hq))]
    exact hwk.2
  · refine ⟨by rw [hbk2]; exact hbk.1, ?_⟩
    rw [hb, hbk2, movedList_kings_eq _ _ _
      (fun q hq => hnk q (List.mem_append_right _ hq))]
    exact hbk.2

end Board

namespace GameMaster

/-- On a board that satisfies the invariants, a colour whose king stands on a square to which
a piece of the other colour has a pseudo-legal move is in check. -/
theorem isInCheck_of_attacked (g : GameMaster) (hwf : g._tempBoard.WF) {q p : Piece}
    (hq : q ∈ g._tempBoard.allPieces) (hk : q.isKing = true)
    (hp : p ∈ g._tempBoard.allPieces) (hcol : p.getColor ≠ q.getColor)
    (hpl : pseudoLegal g._tempBoard p q.getPosition) :
    g.isInCheck q.getColor = some true := by
  have hcons := hwf.consistent
  obtain ⟨hqc, hqk⟩ := hwf.king_unique hq hk
  have hqd := Board.deref_of_mem hcons.2.2.2.2.1 hq
  obtain ⟨b, hb, hiff⟩ := isInCheck_spec g hcons (show g.getTempKing q.getColor = _ from hqk) hqd
  have hpc := hcons.color hp
  have hrev : _reverseColor q.getColor = p.getColor := by
    unfold _reverseColor
    simp only [REVERSE]
    rcases hqc with h1 | h1 <;> rcases hpc with h2 | h2 <;>
      simp only [h1, h2, WHITE, BLACK] at hcol ⊢ <;> omega
  have : b = true := hiff.2 ⟨p, by
    rw [hrev]
    exact hcons.mem_getPieces hp, hpl⟩
  rw [hb, this]

/-- In a state in which the colour `c` is not in check, no king stands on a square to which a
piece of the other colour has a pseudo-legal move. -/
theorem no_king_on_dest (g : GameMaster) (hwf : g._tempBoard.WF) {p : Piece}
    (hp : p ∈ g._tempBoard.allPieces)
    (hopp : g.isInCheck (_reverseColor p.getColor) = some false) {dest : Square}
    (hpl : pseudoLegal g._tempBoard p dest) :
    ∀ q ∈ g._tempBoard.allPieces, q.isKing = true → q.getPosition ≠ dest := by
  intro q hq hk e
  subst e
  have hcons := hwf.consistent
  have hcq := hcons.colorAt_of_mem hq
  have hcol : p.getColor ≠ q.getColor := by
    obtain ⟨_, v, hv, hvne, _⟩ := hpl
    rw [hcq] at hv
    simp only [Option.some.injEq] at hv
    subst hv
    exact fun e2 => hvne (by rw [e2])
  have hchk := isInCheck_of_attacked g hwf hq hk hp hcol hpl
  have hpc := hcons.color hp
  have hqc := hcons.color hq
  have hrev : _reverseColor p.getColor = q.getColor := by
    unfold _reverseColor
    simp only [REVERSE]
    rcases hqc with h1 | h1 <;> rcases hpc with h2 | h2 <;>
      simp only [h1, h2, WHITE, BLACK] at hcol ⊢ <;> omega
  rw [hrev, hchk] at hopp
  cases hopp

/-- In a state that satisfies the invariants and in which the other colour is not in check,
the state after `move`, whatever it returns, satisfies the invariants: no king is captured. -/
theorem move_keeps_WF {g g2 : GameMaster} (hwf : g.WF) {src dest : Square}
    {currentPlayer : Int} {isCurrentInCheck res : Bool}
    (hopp : g.isInCheck (_reverseColor currentPlayer) = some false)
    (h : g.move src dest currentPlayer isCurrentInCheck = some (res, g2)) :
    g2.WF ∧ (res = true →
      ∀ q ∈ g._tempBoard.allPieces, q.isKing = true → q.getPosition ≠ dest) := by
  have htwf : g._tempBoard.WF := hwf.2 ▸ hwf.1
  have hcons := htwf.consistent
  rcases move_spec g hwf src dest currentPlayer isCurrentInCheck with ⟨h1, _⟩ |
    ⟨a, p, t1, t2, hsrc, hderef, hpmem, hppos, hpcol, hne, hdest, htm, hprom, hmove, hcond⟩
  · rw [h1] at h
    simp only [Option.some.injEq, Prod.mk.injEq] at h
    obtain ⟨h1, h2⟩ := h
    subst h1 h2
    exact ⟨hwf, fun hf => by cases hf⟩
  rw [hmove] at h
  simp only [Option.some.injEq, Prod.mk.injEq] at h
  obtain ⟨_, h2⟩ := h
  subst h2
  have hpl : pseudoLegal g._tempBoard p dest := by
    obtain ⟨_, a2, p2, ha2, hp2, _, _, hpl, _⟩ := hcond
    have e : g._tempBoard._getPiece src = some (some a2) := ha2
    rw [hsrc] at e
    simp only [Option.some.injEq] at e
    subst e
    rw [hderef] at hp2
    simp only [Option.some.injEq] at hp2
    subst hp2
    exact hpl
  have hnk := no_king_on_dest g htwf hpmem (by rw [hpcol]; exact hopp) hpl
  refine ⟨?_, fun _ => hnk⟩
  have hwf1 : t1.WF := htwf.tempMove_keeps htm hnk
  obtain ⟨t1', ht1', hw1, hb1, _, _, _, hc1⟩ := Board.tempMove_spec hcons hsrc hdest hne
  rw [htm] at ht1'
  simp only [Option.some.injEq] at ht1'
  subst ht1'
  have hd1 := Board.deref_movedList hc1 hw1 hb1 hpmem (by rw [hppos]; exact Ne.symm hne)
  have hpa : p.addr = a := (Board.deref_eq_some hderef).2
  simp only [hpa, if_true] at hd1
  refine ⟨?_, rfl⟩
  show t2.WF
  by_cases hpr : (p.isPawn && decide (dest.rank = if p.getColor = WHITE then MAX_RANK
      else MIN_RANK)) = true
  · rw [if_pos hpr] at hprom
    obtain ⟨t2', fresh, ht2', hw2, hb2, hwk2, hbk2, _, hc2⟩ := Board.tempPromote_spec hc1 hd1
    rw [hprom] at ht2'
    simp only [Option.some.injEq] at ht2'
    subst ht2'
    obtain ⟨_, hkw1, hkb1⟩ := (Board.WF_iff t1).1 hwf1
    have hpawn : p.isPawn = true := by
      simp only [Bool.and_eq_true] at hpr
      exact hpr.1
    have hnotking : ∀ q ∈ t1.allPieces, q.isKing = true →
        q.getPosition ≠ (p.setPosition dest).getPosition := by
      intro q hq hk e
      have := hc1.pos_inj hq (Board.deref_eq_some hd1).1 e
      subst this
      unfold Piece.isKing Piece.setPosition at hk
      unfold Piece.isPawn at hpawn
      simp only at hk
      cases hkind : p.kind <;> rw [hkind] at hk hpawn <;> simp at hk hpawn
    rw [Board.WF_iff]
    refine ⟨hc2, ⟨by rw [hwk2]; exact hkw1.1, ?_⟩, ⟨by rw [hbk2]; exact hkb1.1, ?_⟩⟩
    · rw [hw2, hwk2, promoted_kings_eq _ _ _ _
        (fun q hq => hnotking q (List.mem_append_left _ hq))]
      · exact hkw1.2
      · intro q hq
        split at hq
        · simp only [List.mem_singleton] at hq
          subst hq
          rfl
        · cases hq
    · rw [hb2, hbk2, promoted_kings_eq _ _ _ _
        (fun q hq => hnotking q (List.mem_append_right _ hq))]
      · exact hkb1.2
      · intro q hq
        split at hq
        · cases hq
        · simp only [List.mem_singleton] at hq
          subst hq
          rfl
  · rw [if_neg hpr] at hprom
    simp only [Option.some.injEq] at hprom
    subst hprom
    exact hwf1

end GameMaster

namespace GameMaster

/-- In a state that satisfies the invariants, in which the other colour is not in check and
the king of the player stands on file E, the state after `castling`, whatever it returns,
satisfies the invariants: no king is captured. -/
theorem castling_keeps_WF {g g2 : GameMaster} (hwf : g.WF) {castlingSide : Char}
    {currentPlayer : Int} (hcp : currentPlayer = WHITE ∨ currentPlayer = BLACK)
    {isCurrentInCheck res : Bool}
    (hopp : g.isInCheck (_reverseColor currentPlayer) = some false)
    (hE : ∀ K ∈ g._board.allPieces, K.isKing = true → K.getColor = currentPlayer →
      K.hasMoved = false → K.getPosition.file = 69)
    (h : g.castling castlingSide currentPlayer isCurrentInCheck = some (res, g2)) :
    g2.WF := by
  have htwf : g._tempBoard.WF := hwf.2 ▸ hwf.1
  have hcons := htwf.consistent
  obtain ⟨K, hK1, hK2, hK3, hsp⟩ := g._isPseudoLegalCastling_spec htwf castlingSide hcp
  rcases hsp with ⟨h1, _⟩ | ⟨hps, _, hKm, R, hRm, hR, hRpos, _, _⟩
  · simp only [castling, h1, Option.some.injEq, Prod.mk.injEq] at h
    rw [← h.2]
    exact hwf
  obtain ⟨K0, hK01, _, hK03, hK04, hK05, hK06⟩ := htwf.king hcp
  have hKK : K0 = K := by
    have e : g._tempBoard._getKing currentPlayer = some K.addr := hK1
    rw [hK01] at e
    simp only [Option.some.injEq] at e
    exact hcons.addr_inj hK03 hK3 e
  subst hKK
  have hKE : K0.getPosition.file = 69 := hE K0 (hwf.2 ▸ hK03) hK04 hK05 hKm
  have hfile : if castlingSide = QUEENSIDE then MIN_FILE + 2 ≤ K0.getPosition.file
      else K0.getPosition.file ≤ MAX_FILE - 2 := by
    rw [hKE]
    split <;> decide
  obtain ⟨t1, t2, c1, c2, ht1, hc1, hchk1, ht2, hc2, _, hrej, hacc⟩ :=
    castling_spec g hwf castlingSide isCurrentInCheck hK1 hK2 hR hps hfile
  by_cases hall : isCurrentInCheck = false ∧ c1 = false ∧ c2 = false
  swap
  · have hor : isCurrentInCheck = true ∨ c1 = true ∨ c2 = true := by
      cases isCurrentInCheck <;> cases c1 <;> cases c2 <;> simp at hall ⊢
    rw [hrej hor] at h
    simp only [Option.some.injEq, Prod.mk.injEq] at h
    rw [← h.2]
    exact hwf
  obtain ⟨t3, ht3, hres⟩ := hacc hall
  rw [hres] at h
  simp only [Option.some.injEq, Prod.mk.injEq] at h
  rw [← h.2]
  refine ⟨?_, rfl⟩
  show t3.WF
  -- the squares
  have hdir : (if castlingSide = QUEENSIDE then Q_DIRECTION else K_DIRECTION) = 1 ∨
      (if castlingSide = QUEENSIDE then Q_DIRECTION else K_DIRECTION) = -1 := by
    split
    · right; rfl
    · left; rfl
  have hrd : (rookCorner castlingSide K0.getPosition).file +
      (if castlingSide = QUEENSIDE then Q_ROOK else K_ROOK)
      = K0.getPosition.file + (if castlingSide = QUEENSIDE then Q_DIRECTION else K_DIRECTION) := by
    rw [hKE]
    unfold rookCorner
    simp only
    split <;> decide
  rw [hrd] at ht3
  generalize (if castlingSide = QUEENSIDE then Q_DIRECTION else K_DIRECTION) = dir
    at hdir ht1 ht2 ht3
  have hKpos : K0.getPosition = Square.mk K0.getPosition.file K0.getPosition.rank := rfl
  have hmidne : Square.mk (K0.getPosition.file + dir) K0.getPosition.rank ≠ K0.getPosition := by
    intro e
    have := congrArg Square.file e
    simp only at this
    omega
  have hdestne : Square.mk (K0.getPosition.file + dir + dir) K0.getPosition.rank
      ≠ Square.mk (K0.getPosition.file + dir) K0.getPosition.rank := by
    intro e
    have := congrArg Square.file e
    simp only at this
    omega
  have hnear : ∀ sq sq2 : Square, sq2.rank = sq.rank →
      (sq2.file = sq.file + dir ∨ sq2.file + dir = sq.file) →
      sq2 ∈ _getKingMoves sq := by
    intro sq sq2 h2 h3
    rw [mem_getKingMoves]
    have hc1 := cabs_cases (sq2.file - sq.file)
    have hc2 := cabs_cases (sq2.rank - sq.rank)
    constructor <;> omega
  -- the first step captures no king
  have hnk1 : ∀ q ∈ g._tempBoard.allPieces, q.isKing = true →
      q.getPosition ≠ Square.mk (K0.getPosition.file + dir) K0.getPosition.rank := by
    intro q hq hk e
    obtain ⟨hqc, hqk⟩ := htwf.king_unique hq hk
    by_cases hcol : q.getColor = K0.getColor
    · rw [hcol, hK05, hK01] at hqk
      simp only [Option.some.injEq] at hqk
      have := hcons.addr_inj hK03 hq hqk
      subst this
      exact hmidne e.symm
    · have hpl : pseudoLegal g._tempBoard K0 q.getPosition := by
        rw [king_pseudoLegal_iff _ K0 hK04 _ (by
          rw [e]
          exact hnear K0.getPosition _ rfl (Or.inl rfl))]
        exact ⟨hcons.inBoard hq, _, hcons.colorAt_of_mem hq, fun e2 => hcol (by
          simp only [Option.some.injEq] at e2
          exact e2)⟩
      have := isInCheck_of_attacked g htwf hq hk hK03 (Ne.symm hcol) hpl
      have hrev : _reverseColor currentPlayer = q.getColor := by
        unfold _reverseColor
        simp only [REVERSE]
        rw [hK05] at hcol
        rcases hqc with h1 | h1 <;> rcases hcp with h2 | h2 <;>
          rw [h1, h2] at hcol <;> rw [h1, h2] <;> first | rfl | exact absurd rfl hcol
      rw [hrev, this] at hopp
      cases hopp
  have hwf1 : t1.WF := htwf.tempMove_keeps ht1 hnk1
  -- the king after the first step
  obtain ⟨a1, hsrc1, hdest1, hne1⟩ := Board.tempMove_inv hcons ht1
  obtain ⟨t1', ht1', hw1, hb1, hwk1, hbk1, hget1, _⟩ :=
    Board.tempMove_spec hcons hsrc1 hdest1 hne1
  rw [ht1] at ht1'
  simp only [Option.some.injEq] at ht1'
  subst ht1'
  have ha1 : a1 = K0.addr := by
    have := hcons.2.1 K0 hK03
    rw [hsrc1] at this
    simp only [Option.some.injEq] at this
    exact this
  subst ha1
  have hd1 := Board.deref_movedList hc1 hw1 hb1 hK03 (Ne.symm hmidne)
  simp only [if_true] at hd1
  obtain ⟨hK1m, _⟩ := Board.deref_eq_some hd1
  -- the second step captures no king
  have hnk2 : ∀ q ∈ t1.allPieces, q.isKing = true →
      q.getPosition ≠ Square.mk (K0.getPosition.file + dir + dir) K0.getPosition.rank := by
    intro q hq hk e
    obtain ⟨hqc, hqk⟩ := hwf1.king_unique hq hk
    have hK1k : (K0.setPosition
        (Square.mk (K0.getPosition.file + dir) K0.getPosition.rank)).isKing = true := hK04
    obtain ⟨_, hK1u⟩ := hwf1.king_unique hK1m hK1k
    by_cases hcol : q.getColor = K0.getColor
    · have hcol2 : q.getColor = (K0.setPosition
          (Square.mk (K0.getPosition.file + dir) K0.getPosition.rank)).getColor := hcol
      rw [hcol2, hK1u] at hqk
      simp only [Option.some.injEq] at hqk
      have := hc1.addr_inj hK1m hq hqk
      subst this
      exact hdestne e.symm
    · have hpl : pseudoLegal t1 q (K0.setPosition
          (Square.mk (K0.getPosition.file + dir) K0.getPosition.rank)).getPosition := by
        rw [king_pseudoLegal_iff _ q hk _ (by
          rw [e]
          exact hnear _ _ rfl (Or.inr rfl))]
        exact ⟨hc1.inBoard hK1m, _, hc1.colorAt_of_mem hK1m, fun e2 => hcol (by
          simp only [Option.some.injEq] at e2
          exact e2.symm)⟩
      have := isInCheck_of_attacked ({ g with _tempBoard := t1 } : GameMaster) hwf1 hK1m hK1k
        hq hcol hpl
      have hcc : (K0.setPosition
          (Square.mk (K0.getPosition.file + dir) K0.getPosition.rank)).getColor
          = currentPlayer := hK05
      rw [hcc, hchk1] at this
      simp only [Option.some.injEq] at this
      rw [this] at hall
      simp at hall
  have hwf2 : t2.WF := hwf1.tempMove_keeps ht2 hnk2
  -- the third step lands on the square the king has left
  obtain ⟨a2, hsrc2, hdest2, hne2⟩ := Board.tempMove_inv hc1 ht2
  obtain ⟨t2', ht2', _, _, _, _, hget2, _⟩ := Board.tempMove_spec hc1 hsrc2 hdest2 hne2
  rw [ht2] at ht2'
  simp only [Option.some.injEq] at ht2'
  subst ht2'
  have hnk3 : ∀ q ∈ t2.allPieces, q.isKing = true →
      q.getPosition ≠ Square.mk (K0.getPosition.file + dir) K0.getPosition.rank := by
    intro q hq _ e
    have := hc2.2.1 q hq
    rw [e, hget2] at this
    simp only [Ne.symm hdestne, if_false, if_true] at this
    cases this
  exact hwf2.tempMove_keeps ht3 hnk3

end GameMaster


namespace Board

/-- On a board that satisfies the invariants each colour has its king. -/
theorem WF.hasKing_of_WF {t : Board} (h : t.WF) {c : Int} (hc : c = WHITE ∨ c = BLACK) :
    t.hasKing c := by
  obtain ⟨K, _, h2, h3, h4, _, _⟩ := h.king hc
  exact ⟨K, h2, h4, h.consistent.2.1 K h3⟩

end Board

namespace GameMaster

/-- C26, as stated, fails. `rookCheckState` satisfies the data-model invariants, the Black king
on E8 is attacked by the White rook on E1, and `move("E1", "E8", WHITE, false)` is accepted and
removes the Black king. `kingOnDState` satisfies them too, the unmoved White king stands on D1,
and `castling(KINGSIDE, WHITE, false)` is accepted: the king goes to F1 and the rook lands on
it, which removes the White king. -/
theorem move_castling_capture_king :
    (rookCheckState.WF ∧
      rookCheckState.move E1 E8 WHITE false = some (true, kingCapturedState) ∧
      ¬ kingCapturedState._board.hasKing BLACK ∧
      kingCapturedState._board._blackPieces.filter Piece.isKing = []) ∧
    (kingOnDState.WF ∧ kingOnDState.isInCheck BLACK = some false ∧
      kingOnDState.castling KINGSIDE WHITE false = some (true, ownKingCapturedState) ∧
      ¬ ownKingCapturedState._board.hasKing WHITE ∧
      ownKingCapturedState._board._whitePieces.filter Piece.isKing = []) := by
  decide

/-- C26, amended. In a state that satisfies the data-model invariants (matrix and vectors
consistent, one king per colour, the board moves are made on equal to the saved board) and in
which the colour that is not to move is not in check, `move` returns for every argument tuple,
and after it returns the state satisfies the invariants again and each colour has its king on
the board and in its vector; the same holds of `castling` when the king of the player stands
on file E. -/
theorem move_castling_keep_kings (g : GameMaster) (hwf : g.WF) (currentPlayer : Int)
    (hcp : currentPlayer = WHITE ∨ currentPlayer = BLACK)
    (hopp : g.isInCheck (_reverseColor currentPlayer) = some false) :
    (∀ src dest isCurrentInCheck,
      (∃ r, g.move src dest currentPlayer isCurrentInCheck = some r) ∧
      ∀ res g2, g.move src dest currentPlayer isCurrentInCheck = some (res, g2) →
        g2.WF ∧ g2._board.hasKing WHITE ∧ g2._board.hasKing BLACK) ∧
    ((∀ K ∈ g._board._getPieces currentPlayer, K.isKing = true → K.getPosition.file = 69) →
      ∀ castlingSide isCurrentInCheck,
        (∃ r, g.castling castlingSide currentPlayer isCurrentInCheck = some r) ∧
        ∀ res g2, g.castling castlingSide currentPlayer isCurrentInCheck = some (res, g2) →
          g2.WF ∧ g2._board.hasKing WHITE ∧ g2._board.hasKing BLACK) := by
  have htwf : g._tempBoard.WF := hwf.2 ▸ hwf.1
  refine ⟨fun src dest flag => ⟨?_, ?_⟩, fun hE castlingSide flag => ⟨?_, ?_⟩⟩
  · rcases g.move_spec hwf src dest currentPlayer flag with ⟨h, _⟩ |
      ⟨_, _, _, _, _, _, _, _, _, _, _, _, _, h, _⟩
    · exact ⟨_, h⟩
    · exact ⟨_, h⟩
  · intro res g2 h
    have h2 := (move_keeps_WF hwf hopp h).1
    exact ⟨h2, h2.1.hasKing_of_WF (Or.inl rfl), h2.1.hasKing_of_WF (Or.inr rfl)⟩
  · refine g.castling_isSome hwf castlingSide hcp flag ?_
    intro k K hk hK
    obtain ⟨K0, hK01, hK02, hK03, hK04, _, hK06⟩ := htwf.king hcp
    have e : g._tempBoard._getKing currentPlayer = some k := hk
    rw [hK01] at e
    simp only [Option.some.injEq] at e
    subst e
    rw [hK06] at hK
    simp only [Option.some.injEq] at hK
    subst hK
    rw [hE K0 (hwf.2 ▸ hK02) hK04]
    split <;> decide
  · intro res g2 h
    have h2 := castling_keeps_WF hwf hcp hopp (fun K hK hk hc _ =>
      hE K (hc ▸ (hwf.1.consistent.mem_getPieces hK)) hk) h
    exact ⟨h2, h2.1.hasKing_of_WF (Or.inl rfl), h2.1.hasKing_of_WF (Or.inr rfl)⟩

theorem move_castling_keep_kings_witness :
    castlingReadyState.WF ∧ castlingReadyState.isInCheck (_reverseColor WHITE) = some false ∧
    castlingReadyState.move E1 F1 WHITE false = some (true, kingSteppedState) ∧
    (kingSteppedState.WF ∧ kingSteppedState._board.hasKing WHITE ∧
      kingSteppedState._board.hasKing BLACK) ∧
    castlingReadyState.castling KINGSIDE WHITE false = some (true, castledState) ∧
    (castledState.WF ∧ castledState._board.hasKing WHITE ∧ castledState._board.hasKing BLACK) :=
  ⟨by decide, by decide, by decide,
    ((move_castling_keep_kings castlingReadyState (by decide) WHITE (Or.inl rfl)
      (by decide)).1 E1 F1 false).2 true kingSteppedState (by decide),
    by decide,
    ((move_castling_keep_kings castlingReadyState (by decide) WHITE (Or.inl rfl)
      (by decide)).2 (by decide) KINGSIDE false).2 true castledState (by decide)⟩

end GameMaster

/-! ## The kings in a session -/

/-- A square of the path of a piece to `dest`, both on the board, is on the file of `dest` or
strictly inside the board: it is not the corner of a rank. -/
theorem path_file {p : Piece} {dest : Square} {isCapture : Bool}
    (hp : isInBoard p._position = true) (hd : isInBoard dest = true)
    (hreach : p.canReach dest isCapture = true) {path : List Square}
    (hpath : p.getPathTo dest = some path) {sq : Square} (hsq : sq ∈ path) :
    sq.file = dest.file ∨ (MIN_FILE < sq.file ∧ sq.file < MAX_FILE) := by
  have hp2 := (isInBoard_iff _).1 hp
  have hd2 := (isInBoard_iff _).1 hd
  simp only [MIN_FILE, MAX_FILE, MIN_RANK, MAX_RANK] at hp2 hd2 ⊢
  have hslide : (p.kind = Kind.Bishop ∨ p.kind = Kind.Rook ∨ p.kind = Kind.Queen) →
      p.getPathTo dest = p.getPathToDefault dest →
      sq.file = dest.file ∨ (65 < sq.file ∧ sq.file < 72) := by
    intro hkind hget
    have hal := sliding_canReach_aligned hkind hreach
    obtain ⟨hdef, _⟩ := getPathToDefault_spec p dest hp hd hal
    rw [hget, hdef] at hpath
    simp only [Option.some.injEq] at hpath
    subst hpath
    have h1 := cabs_cases (dest.file - p._position.file)
    have h2 := cabs_cases (dest.rank - p._position.rank)
    have hs1 := sgnDirection_cases p._position.file dest.file
    have hm1 := le_max_left (cabs (dest.file - p._position.file))
      (cabs (dest.rank - p._position.rank))
    have hm2 := le_max_right (cabs (dest.file - p._position.file))
      (cabs (dest.rank - p._position.rank))
    have hm3 := max_choice (cabs (dest.file - p._position.file))
      (cabs (dest.rank - p._position.rank))
    generalize max (cabs (dest.file - p._position.file))
      (cabs (dest.rank - p._position.rank)) = m at hm1 hm2 hm3 hsq
    generalize cabs (dest.file - p._position.file) = af at h1 hal hm1 hm2 hm3
    generalize cabs (dest.rank - p._position.rank) = ar at h2 hal hm1 hm2 hm3
    generalize sgnDirection p._position.file dest.file = sf at hs1 hsq
    have hn : ((m - 1).toNat : Int) = m - 1 ∨ ((m - 1).toNat = 0 ∧ m - 1 ≤ 0) := by
      by_cases h : 0 ≤ m - 1
      · left; exact Int.toNat_of_nonneg h
      · right; exact ⟨Int.toNat_eq_zero.2 (by omega), by omega⟩
    generalize (m - 1).toNat = n at hn hsq
    obtain ⟨i, hi, e⟩ := List.mem_map.1 hsq
    rw [List.mem_range] at hi
    have e1 := congrArg Square.file e
    simp only at e1
    rcases hs1 with hs | hs | hs <;> (rw [hs.2] at e1; omega)
  cases hk : p.kind with
  | Pawn =>
    simp only [Piece.getPathTo, hk, Option.some.injEq] at hpath
    subst hpath
    unfold Pawn.getPathTo at hsq
    simp only at hsq
    split at hsq
    · simp only [List.mem_singleton] at hsq
      left
      rw [hsq]
    · cases hsq
  | Knight =>
    simp only [Piece.getPathTo, hk, Option.some.injEq] at hpath
    subst hpath
    cases hsq
  | King =>
    simp only [Piece.getPathTo, hk, Option.some.injEq] at hpath
    subst hpath
    cases hsq
  | Bishop => exact hslide (Or.inl hk) (by simp only [Piece.getPathTo, hk])
  | Rook => exact hslide (Or.inr (Or.inl hk)) (by simp only [Piece.getPathTo, hk])
  | Queen => exact hslide (Or.inr (Or.inr hk)) (by simp only [Piece.getPathTo, hk])


namespace Board

theorem Consistent.getPieces_color {b : Board} (h : b.Consistent) {c : Int}
    (hc : c = WHITE ∨ c = BLACK) {q : Piece} (hq : q ∈ b._getPieces c) :
    q ∈ b.allPieces ∧ q.getColor = c := by
  have hne : ¬ (BLACK = WHITE) := by decide
  rcases hc with rfl | rfl
  · simp only [_getPieces, if_true] at hq
    exact ⟨List.mem_append_left _ hq, h.2.2.2.2.2.1 q hq⟩
  · simp only [_getPieces, hne, if_false] at hq
    exact ⟨List.mem_append_right _ hq, h.2.2.2.2.2.2 q hq⟩

end Board

namespace GameMaster

/-- A piece of the colour `color` that leaves a corner file for an empty square does not put
the king of `color` in check, when the king stands on another file. -/
theorem isInCheck_corner_step (b b3 : Board) {t2 t3 : Board} (hc2 : t2.Consistent)
    {color : Int} (hcolor : color = WHITE ∨ color = BLACK) {K R : Piece}
    (hK : t2._getKing color = some K.addr) (hKd : t2.deref K.addr = some K)
    (hR : R ∈ t2.allPieces) (hRc : R.getColor = color)
    (hcorner : R.getPosition.file = MIN_FILE ∨ R.getPosition.file = MAX_FILE)
    {mid : Square} (hmid : t2._getPiece mid = some none)
    (hKf : K.getPosition.file ≠ R.getPosition.file)
    (ht3 : t2.tempMove R.getPosition mid = some t3)
    (h2 : (⟨b, t2⟩ : GameMaster).isInCheck color = some false) :
    (⟨b3, t3⟩ : GameMaster).isInCheck color = some false := by
  have hsrc := hc2.2.1 R hR
  have hmidIn := Board._getPiece_inBoard hmid
  have hne : mid ≠ R.getPosition := by
    intro e
    rw [e, hsrc] at hmid
    simp at hmid
  obtain ⟨t3', ht3', hw3, hb3, hwk3, hbk3, hget3, hc3⟩ := Board.tempMove_spec hc2 hsrc hmidIn hne
  rw [ht3] at ht3'
  simp only [Option.some.injEq] at ht3'
  subst ht3'
  obtain ⟨hKm, _⟩ := Board.deref_eq_some hKd
  have hKmid : K.getPosition ≠ mid := by
    intro e
    have := hc2.2.1 K hKm
    rw [e, hmid] at this
    simp at this
  have hKR : K.getPosition ≠ R.getPosition := fun e => hKf (by rw [e])
  have hother : ∀ x ∈ t2.allPieces, x.getPosition ≠ R.getPosition → x.getPosition ≠ mid →
      t3.deref x.addr = some x := by
    intro x hx h1 h2
    have := Board.deref_movedList hc3 hw3 hb3 hx h2
    have hxa : x.addr ≠ R.addr := fun e => h1 (by rw [hc2.addr_inj hx hR e])
    simpa [hxa] using this
  have hKd3 := hother K hKm hKR hKmid
  have hK3 : t3._getKing color = some K.addr := by
    simp only [Board._getKing, hwk3, hbk3]
    exact hK
  have hcol : ∀ sq, sq ≠ mid → sq ≠ R.getPosition → t3.colorAt sq = t2.colorAt sq := by
    intro sq h1 h2
    unfold Board.colorAt
    rw [hget3 sq]
    simp only [h1, h2, if_false]
    cases hv : t2._getPiece sq with
    | none => rfl
    | some v =>
      cases v with
      | none => rfl
      | some d =>
        obtain ⟨x, hx, hxa, hxpos, hxd⟩ := hc2.occupant hv
        subst hxa
        simp only [hxd, hother x hx (hxpos ▸ h2) (hxpos ▸ h1)]
  have hpieces : t3._getPieces (_reverseColor color)
      = movedList (t2._getPieces (_reverseColor color)) R.addr mid := by
    unfold Board._getPieces
    split
    · exact hw3
    · exact hb3
  have hrev : _reverseColor color = WHITE ∨ _reverseColor color = BLACK := by
    rcases hcolor with rfl | rfl
    · right; decide
    · left; decide
  have hrevne : _reverseColor color ≠ color := by
    rcases hcolor with rfl | rfl <;> decide
  obtain ⟨r3, hr3, hiff3⟩ := isInCheck_spec (⟨b3, t3⟩ : GameMaster) hc3 hK3 hKd3
  obtain ⟨r2, hr2, hiff2⟩ := isInCheck_spec (⟨b, t2⟩ : GameMaster) hc2 hK hKd
  rw [h2] at hr2
  simp only [Option.some.injEq] at hr2
  subst hr2
  rw [hr3]
  cases r3 with
  | false => rfl
  | true =>
    exfalso
    obtain ⟨p, hp, hin, v, hv, hvne, hreach, path, hpath, hempty⟩ := hiff3.1 rfl
    have hp' : p ∈ t3._getPieces (_reverseColor color) := hp
    rw [hpieces, mem_movedList] at hp'
    obtain ⟨q, hq, _, hpq⟩ := hp'
    obtain ⟨hqm, hqc⟩ := hc2.getPieces_color hrev hq
    have hqa : q.addr ≠ R.addr := by
      intro e
      have := hc2.addr_inj hqm hR e
      rw [this, hRc] at hqc
      exact hrevne hqc.symm
    simp only [hqa, if_false] at hpq
    subst hpq
    have hfalse : (false = true) := hiff2.2 ⟨p, hq, hin, v, by
      rw [← hcol _ hKmid hKR]
      exact hv, hvne, hreach, path, hpath, fun sq hsq => by
      have h3 := hempty sq hsq
      have hs1 : sq ≠ mid := by
        intro e
        rw [e, hc3.colorAt_eq_some_none, hget3 mid] at h3
        simp at h3
      have hs2 : sq ≠ R.getPosition := by
        intro e
        have hf := path_file (hc2.inBoard hqm) hin hreach hpath hsq
        rw [e] at hf
        simp only [MIN_FILE, MAX_FILE] at hf hcorner
        rcases hf with hf | hf
        · exact hKf hf.symm
        · omega
      rw [← hcol sq hs1 hs2]
      exact h3⟩
    cases hfalse

end GameMaster


namespace Board

/-- A piece of the board after `tempMove` is a piece of the board before it, or has moved. -/
theorem tempMove_mem {t t2 : Board} (hc : t.Consistent) {src dest : Square}
    (h : t.tempMove src dest = some t2) {q : Piece} (hq : q ∈ t2.allPieces) :
    q ∈ t.allPieces ∨ q.hasMoved = true := by
  obtain ⟨a, hsrc, hdest, hne⟩ := tempMove_inv hc h
  obtain ⟨t2', ht2', hw, hb, _⟩ := tempMove_spec hc hsrc hdest hne
  rw [h] at ht2'
  simp only [Option.some.injEq] at ht2'
  subst ht2'
  unfold allPieces at hq
  rw [hw, hb, ← movedList_append, mem_movedList] at hq
  obtain ⟨x, hx, _, e⟩ := hq
  by_cases hxa : x.addr = a
  · right
    simp only [hxa, if_true] at e
    rw [e]
    rfl
  · left
    simp only [hxa, if_false] at e
    rw [e]
    exact hx

/-- A piece of the board after `tempPromote` is a piece of the board before it, or has
moved. -/
theorem tempPromote_mem {t t2 : Board} (hc : t.Consistent) {a : Ptr} {pw : Piece}
    (hd : t.deref a = some pw) (h : t.tempPromote a = some t2) {q : Piece}
    (hq : q ∈ t2.allPieces) : q ∈ t.allPieces ∨ q.hasMoved = true := by
  obtain ⟨t2', fresh, ht2', hw, hb, _⟩ := tempPromote_spec hc hd
  rw [h] at ht2'
  simp only [Option.some.injEq] at ht2'
  subst ht2'
  unfold allPieces at hq ⊢
  rw [hw, hb] at hq
  simp only [List.mem_append, List.mem_filter] at hq ⊢
  rcases hq with (⟨hq, _⟩ | hq) | (⟨hq, _⟩ | hq)
  · exact Or.inl (Or.inl hq)
  · right
    split at hq
    · simp only [List.mem_singleton] at hq
      rw [hq]
      rfl
    · cases hq
  · exact Or.inl (Or.inr hq)
  · right
    split at hq
    · cases hq
    · simp only [List.mem_singleton] at hq
      rw [hq]
      rfl

end Board


/-- The kings of the fresh board stand on file E, White on rank 1 and Black on rank 8. -/
theorem startState_kings : ∀ K ∈ startState._board.allPieces, K.isKing = true →
    K.getPosition.file = 69 ∧ K.getPosition.rank = (if K.getColor = WHITE then 49 else 56) := by
  decide

/-- The pieces in the corners of the fresh board: White on rank 1 and Black on rank 8. -/
theorem startState_corners : ∀ R ∈ startState._board.allPieces,
    (R.getPosition.file = 65 ∨ R.getPosition.file = 72) →
    (R.getPosition.rank = 49 ∨ R.getPosition.rank = 56) →
    R.getPosition.rank = (if R.getColor = WHITE then 49 else 56) := by
  decide

namespace GameMaster

/-- After an accepted `move` the player is not in check. -/
theorem move_accepted_safe (g : GameMaster) (hwf : g.WF) (src dest : Square)
    (currentPlayer : Int) (isCurrentInCheck : Bool) (g2 : GameMaster)
    (h : g.move src dest currentPlayer isCurrentInCheck = some (true, g2)) :
    g2.isInCheck currentPlayer = some false := by
  have htwf : g._tempBoard.WF := hwf.2 ▸ hwf.1
  rcases move_spec g hwf src dest currentPlayer isCurrentInCheck with
    ⟨h1, _⟩ | ⟨a, p, t1, t2, hv, hderef, hp, hppos, hcol, hne, hdest, ht1, ht2, hm, hcond⟩
  · rw [h1] at h
    simp at h
  rw [hm] at h
  simp only [Option.some.injEq, Prod.mk.injEq, true_and] at h
  subst h
  obtain ⟨_, a2, p2, ha2, hp2, _, _, hpl, g1, hg1, hsafe⟩ := hcond
  obtain ⟨t1', ht1', hg1'⟩ := tempMove_eq hg1
  rw [ht1] at ht1'
  simp only [Option.some.injEq] at ht1'
  subst ht1' hg1'
  by_cases hpr : (p.isPawn &&
      decide (dest.rank = if p.getColor = WHITE then MAX_RANK else MIN_RANK)) = true
  · simp only [hpr, if_true] at ht2
    obtain ⟨t1', ht1', hw1, hb1, hwk1, hbk1, _, hc1⟩ :=
      Board.tempMove_spec htwf.consistent hv hdest hne
    rw [ht1] at ht1'
    simp only [Option.some.injEq] at ht1'
    subst ht1'
    have hpne : p.getPosition ≠ dest := by rw [hppos]; exact Ne.symm hne
    have hderef1 : t1.deref a = some (p.setPosition dest) := by
      have := Board.deref_movedList hc1 hw1 hb1 hp hpne
      have hpa := (Board.deref_eq_some hderef).2
      simpa [hpa] using this
    have hcp : currentPlayer = WHITE ∨ currentPlayer = BLACK := hcol ▸ htwf.consistent.color hp
    obtain ⟨K, hK1, _, hK3, hK4, hK5, _⟩ := htwf.king hcp
    have e2 : p2 = p := by
      simp only [getTempPiece, hv, Option.some.injEq] at ha2
      subst ha2
      rw [hderef] at hp2
      exact (Option.some.inj hp2).symm
    rw [e2] at hpl
    obtain ⟨_, v1, hv1, hv2, _, _⟩ := hpl
    have hKpos : K.getPosition ≠ dest := by
      intro e
      have := htwf.consistent.colorAt_of_mem hK3
      rw [e, hv1, hK5, ← hcol] at this
      simp only [Option.some.injEq] at this
      exact hv2 this
    have hpk : (p.setPosition dest).isKing = false := by
      simp only [Bool.and_eq_true] at hpr
      have := hpr.1
      simp only [Piece.isPawn] at this
      simp only [Piece.setPosition, Piece.isKing]
      split at this <;> simp_all
    have hmc : (p.setPosition dest).getColor = currentPlayer := by
      simpa [Piece.setPosition, Piece.getColor] using hcol
    have hKd1 := Board.deref_movedList hc1 hw1 hb1 hK3 hKpos
    have hKa : (if K.addr = a then K.setPosition dest else K).addr = K.addr := by
      by_cases e : K.addr = a <;> simp [e, Piece.setPosition]
    have hKk : (if K.addr = a then K.setPosition dest else K).isKing = true := by
      by_cases e : K.addr = a <;> simpa [e, Piece.setPosition, Piece.isKing] using hK4
    have hK1' : t1._getKing (p.setPosition dest).getColor =
        some (if K.addr = a then K.setPosition dest else K).addr := by
      rw [hKa, hmc]
      simp only [Board._getKing, hwk1, hbk1]
      exact hK1
    have := isInCheck_tempPromote g._board t2 hc1 hderef1 ht2 hpk hK1'
      (by rw [hKa]; exact hKd1) hKk
    rw [hmc] at this
    rw [this]
    exact hsafe
  · simp only [hpr] at ht2
    simp only [Bool.false_eq_true, if_false, Option.some.injEq] at ht2
    subst ht2
    exact (isInCheck_congr ({ g with _tempBoard := t1 } : GameMaster) ⟨t1, t1⟩ rfl
      currentPlayer).trans hsafe

/-- After an accepted `move` the pieces that have not moved are pieces of the state before. -/
theorem move_accepted_mem (g : GameMaster) (hwf : g.WF) (src dest : Square)
    (currentPlayer : Int) (isCurrentInCheck : Bool) (g2 : GameMaster)
    (h : g.move src dest currentPlayer isCurrentInCheck = some (true, g2)) :
    ∀ q ∈ g2._board.allPieces, q ∈ g._board.allPieces ∨ q.hasMoved = true := by
  have htwf : g._tempBoard.WF := hwf.2 ▸ hwf.1
  rcases move_spec g hwf src dest currentPlayer isCurrentInCheck with
    ⟨h1, _⟩ | ⟨a, p, t1, t2, hv, hderef, hp, hppos, hcol, hne, hdest, ht1, ht2, hm, hcond⟩
  · rw [h1] at h
    simp at h
  rw [hm] at h
  simp only [Option.some.injEq, Prod.mk.injEq, true_and] at h
  subst h
  intro q hq
  have hq2 : q ∈ t2.allPieces := hq
  obtain ⟨t1', ht1', hw1, hb1, hwk1, hbk1, _, hc1⟩ :=
    Board.tempMove_spec htwf.consistent hv hdest hne
  rw [ht1] at ht1'
  simp only [Option.some.injEq] at ht1'
  subst ht1'
  have hstep : ∀ x ∈ t1.allPieces, x ∈ g._board.allPieces ∨ x.hasMoved = true := by
    intro x hx
    rw [← hwf.2]
    exact Board.tempMove_mem htwf.consistent ht1 hx
  by_cases hpr : (p.isPawn &&
      decide (dest.rank = if p.getColor = WHITE then MAX_RANK else MIN_RANK)) = true
  · simp only [hpr, if_true] at ht2
    have hpne : p.getPosition ≠ dest := by rw [hppos]; exact Ne.symm hne
    have hderef1 : t1.deref a = some (p.setPosition dest) := by
      have := Board.deref_movedList hc1 hw1 hb1 hp hpne
      have hpa := (Board.deref_eq_some hderef).2
      simpa [hpa] using this
    rcases Board.tempPromote_mem hc1 hderef1 ht2 hq2 with h1 | h1
    · exact hstep q h1
    · exact Or.inr h1
  · simp only [hpr] at ht2
    simp only [Bool.false_eq_true, if_false, Option.some.injEq] at ht2
    subst ht2
    exact hstep q hq2

/-- The method `move` in a run: it rejects and leaves the state as it was, or it accepts, no
king stood on `dest`, and the state it leaves satisfies the invariants, its unmoved pieces
stand where the constructor put them, and the player is not in check. -/
theorem move_run {g : GameMaster} (hwf : g.WF) (hhome : g.Home) (src dest : Square)
    {currentPlayer : Int} (isCurrentInCheck : Bool)
    (hopp : g.isInCheck (_reverseColor currentPlayer) = some false) :
    g.move src dest currentPlayer isCurrentInCheck = some (false, g) ∨
    ∃ g2, g.move src dest currentPlayer isCurrentInCheck = some (true, g2) ∧ g2.WF ∧ g2.Home ∧
      g2.isInCheck currentPlayer = some false ∧
      ∀ q ∈ g._board.allPieces, q.isKing = true → q.getPosition ≠ dest := by
  rcases move_spec g hwf src dest currentPlayer isCurrentInCheck with
    ⟨h1, _⟩ | ⟨_, _, _, t2, _, _, _, _, _, _, _, _, _, hm, _⟩
  · exact Or.inl h1
  right
  obtain ⟨h1, h2⟩ := move_keeps_WF hwf hopp hm
  refine ⟨_, hm, h1, ?_, move_accepted_safe g hwf _ _ _ _ _ hm, ?_⟩
  · intro q hq hu
    rcases move_accepted_mem g hwf _ _ _ _ _ hm q hq with h3 | h3
    · exact hhome q h3 hu
    · rw [hu] at h3
      cases h3
  · intro q hq
    exact h2 rfl q (hwf.2 ▸ hq)

end GameMaster


namespace GameMaster

/-- The method `castling` in a run: it rejects and leaves the state as it was, or it accepts,
and the state it leaves satisfies the invariants, its unmoved pieces stand where the
constructor put them, and the player is not in check. -/
theorem castling_run {g : GameMaster} (hwf : g.WF) (hhome : g.Home) (castlingSide : Char)
    {currentPlayer : Int} (hcp : currentPlayer = WHITE ∨ currentPlayer = BLACK)
    (isCurrentInCheck : Bool)
    (hopp : g.isInCheck (_reverseColor currentPlayer) = some false) :
    g.castling castlingSide currentPlayer isCurrentInCheck = some (false, g) ∨
    ∃ g2, g.castling castlingSide currentPlayer isCurrentInCheck = some (true, g2) ∧ g2.WF ∧
      g2.Home ∧ g2.isInCheck currentPlayer = some false := by
  have htwf : g._tempBoard.WF := hwf.2 ▸ hwf.1
  have hcons := htwf.consistent
  have hE : ∀ K ∈ g._board.allPieces, K.isKing = true → K.getColor = currentPlayer →
      K.hasMoved = false → K.getPosition.file = 69 :=
    fun K hK hk _ hu => (startState_kings K (hhome K hK hu) hk).1
  obtain ⟨K, hK1, hK2, hK3, hsp⟩ := g._isPseudoLegalCastling_spec htwf castlingSide hcp
  rcases hsp with ⟨h1, _⟩ | ⟨hps, _, hKm, R, hRm, hR, hRpos, hRu, _⟩
  · left
    simp only [castling, h1]
  obtain ⟨K0, hK01, _, hK03, hK04, hK05, hK06⟩ := htwf.king hcp
  have hKK : K0 = K := by
    have e : g._tempBoard._getKing currentPlayer = some K.addr := hK1
    rw [hK01] at e
    simp only [Option.some.injEq] at e
    exact hcons.addr_inj hK03 hK3 e
  subst hKK
  obtain ⟨hKE, hKr⟩ := startState_kings K0 (hhome K0 (hwf.2 ▸ hK03) hKm) hK04
  have hRr : R.getPosition.rank = K0.getPosition.rank := by rw [hRpos]; rfl
  have hRf : R.getPosition.file = (if castlingSide = QUEENSIDE then MIN_FILE else MAX_FILE) := by
    rw [hRpos]; rfl
  have hRr2 := startState_corners R (hhome R (hwf.2 ▸ hRm) hRu)
    (by rw [hRf]; split <;> decide) (by rw [hRr, hKr]; split <;> simp)
  have hRc : R.getColor = currentPlayer := by
    rw [hRr, hKr, hK05] at hRr2
    rcases hcons.color hRm with h | h <;> rcases hcp with h2 | h2 <;>
      rw [h, h2] at hRr2 <;> rw [h, h2] <;> first | rfl | (exfalso; revert hRr2; decide)
  have hfile : if castlingSide = QUEENSIDE then MIN_FILE + 2 ≤ K0.getPosition.file
      else K0.getPosition.file ≤ MAX_FILE - 2 := by
    rw [hKE]
    split <;> decide
  obtain ⟨t1, t2, c1, c2, ht1, hc1, hchk1, ht2, hc2, hchk2, hrej, hacc⟩ :=
    castling_spec g hwf castlingSide isCurrentInCheck hK1 hK2 hR hps hfile
  by_cases hall : isCurrentInCheck = false ∧ c1 = false ∧ c2 = false
  swap
  · have hor : isCurrentInCheck = true ∨ c1 = true ∨ c2 = true := by
      cases isCurrentInCheck <;> cases c1 <;> cases c2 <;> simp at hall ⊢
    exact Or.inl (hrej hor)
  obtain ⟨t3, ht3, hres⟩ := hacc hall
  right
  refine ⟨_, hres, castling_keeps_WF hwf hcp hopp hE hres, ?_, ?_⟩
  · intro q hq hu
    have hq3 : q ∈ t3.allPieces := hq
    have hmoved : ¬ (q.hasMoved = true) := by rw [hu]; simp
    rcases Board.tempMove_mem hc2 ht3 hq3 with h3 | h3
    · rcases Board.tempMove_mem hc1 ht2 h3 with h2 | h2
      · rcases Board.tempMove_mem hcons ht1 h2 with h1 | h1
        · exact hhome q (hwf.2 ▸ h1) hu
        · exact absurd h1 hmoved
      · exact absurd h2 hmoved
    · exact absurd h3 hmoved
  -- the squares
  have hdir : (if castlingSide = QUEENSIDE then Q_DIRECTION else K_DIRECTION) = 1 ∨
      (if castlingSide = QUEENSIDE then Q_DIRECTION else K_DIRECTION) = -1 := by
    split
    · right; rfl
    · left; rfl
  have hrd : (rookCorner castlingSide K0.getPosition).file +
      (if castlingSide = QUEENSIDE then Q_ROOK else K_ROOK)
      = K0.getPosition.file + (if castlingSide = QUEENSIDE then Q_DIRECTION else K_DIRECTION) := by
    rw [hKE]
    unfold rookCorner
    simp only
    split <;> decide
  have hRfs : R.getPosition.file ≠ K0.getPosition.file ∧
      R.getPosition.file ≠ K0.getPosition.file +
        (if castlingSide = QUEENSIDE then Q_DIRECTION else K_DIRECTION) ∧
      R.getPosition.file ≠ K0.getPosition.file +
        (if castlingSide = QUEENSIDE then Q_DIRECTION else K_DIRECTION) +
        (if castlingSide = QUEENSIDE then Q_DIRECTION else K_DIRECTION) ∧
      (R.getPosition.file = MIN_FILE ∨ R.getPosition.file = MAX_FILE) := by
    rw [hRf, hKE]
    split <;> decide
  rw [hrd, ← hRpos] at ht3
  generalize (if castlingSide = QUEENSIDE then Q_DIRECTION else K_DIRECTION) = dir
    at hdir ht1 ht2 ht3 hRfs
  obtain ⟨hRf0, hRf1, hRf2, hcorner⟩ := hRfs
  have hmidne : Square.mk (K0.getPosition.file + dir) K0.getPosition.rank ≠ K0.getPosition := by
    intro e
    have := congrArg Square.file e
    simp only at this
    omega
  have hdestne : Square.mk (K0.getPosition.file + dir + dir) K0.getPosition.rank
      ≠ Square.mk (K0.getPosition.file + dir) K0.getPosition.rank := by
    intro e
    have := congrArg Square.file e
    simp only at this
    omega
  -- the first step of the king
  obtain ⟨a1, hsrc1, hdest1, hne1⟩ := Board.tempMove_inv hcons ht1
  obtain ⟨t1', ht1', hw1, hb1, hwk1, hbk1, hget1, _⟩ :=
    Board.tempMove_spec hcons hsrc1 hdest1 hne1
  rw [ht1] at ht1'
  simp only [Option.some.injEq] at ht1'
  subst ht1'
  have ha1 : a1 = K0.addr := by
    have := hcons.2.1 K0 hK03
    rw [hsrc1] at this
    simp only [Option.some.injEq] at this
    exact this
  subst ha1
  have hRK : R.addr ≠ K0.addr := fun e => hRf0 (by rw [hcons.addr_inj hRm hK03 e])
  have hKd1 := Board.deref_movedList hc1 hw1 hb1 hK03 (Ne.symm hmidne)
  simp only [if_true] at hKd1
  have hRd1 := Board.deref_movedList hc1 hw1 hb1 hRm
    (fun e => hRf1 (by rw [e]) : R.getPosition ≠ Square.mk (K0.getPosition.file + dir) _)
  simp only [hRK, if_false] at hRd1
  obtain ⟨hK1m, _⟩ := Board.deref_eq_some hKd1
  obtain ⟨hR1m, _⟩ := Board.deref_eq_some hRd1
  -- the second step of the king
  obtain ⟨a2, hsrc2, hdest2, hne2⟩ := Board.tempMove_inv hc1 ht2
  obtain ⟨t2', ht2', hw2, hb2, hwk2, hbk2, hget2, _⟩ :=
    Board.tempMove_spec hc1 hsrc2 hdest2 hne2
  rw [ht2] at ht2'
  simp only [Option.some.injEq] at ht2'
  subst ht2'
  have ha2 : a2 = K0.addr := by
    have := hget1 (Square.mk (K0.getPosition.file + dir) K0.getPosition.rank)
    rw [hsrc2] at this
    simp only [if_true, Option.some.injEq] at this
    exact this
  subst ha2
  have hKd2 := Board.deref_movedList hc2 hw2 hb2 hK1m
    (Ne.symm hdestne : (K0.setPosition _).getPosition ≠ _)
  have hK1a : (K0.setPosition
      (Square.mk (K0.getPosition.file + dir) K0.getPosition.rank)).addr = K0.addr := rfl
  simp only [hK1a, if_true] at hKd2
  have hRd2 := Board.deref_movedList hc2 hw2 hb2 hR1m
    (fun e => hRf2 (by rw [e]) :
      R.getPosition ≠ Square.mk (K0.getPosition.file + dir + dir) _)
  simp only [hRK, if_false] at hRd2
  obtain ⟨hR2m, _⟩ := Board.deref_eq_some hRd2
  have hmid2 : t2._getPiece (Square.mk (K0.getPosition.file + dir) K0.getPosition.rank)
      = some none := by
    rw [hget2]
    simp only [Ne.symm hdestne, if_false, if_true]
  have hK2 : t2._getKing currentPlayer = some ((K0.setPosition
      (Square.mk (K0.getPosition.file + dir) K0.getPosition.rank)).setPosition
      (Square.mk (K0.getPosition.file + dir + dir) K0.getPosition.rank)).addr := by
    simp only [Board._getKing, hwk2, hbk2, hwk1, hbk1]
    exact hK01
  rw [hall.2.2] at hchk2
  exact isInCheck_corner_step g._board t3 hc2 hcp hK2 hKd2 hR2m hRc hcorner hmid2
    (fun e => hRf2 e.symm) ht3 hchk2

end GameMaster


namespace GameMaster

/-- On a board that satisfies the invariants `isInCheck` returns. -/
theorem isInCheck_isSome (g : GameMaster) (hwf : g._tempBoard.WF) {color : Int}
    (hcolor : color = WHITE ∨ color = BLACK) : ∃ b, g.isInCheck color = some b := by
  obtain ⟨K, hK1, _, _, _, _, hK6⟩ := hwf.king hcolor
  obtain ⟨b, hb, _⟩ := isInCheck_spec g hwf.consistent
    (show g.getTempKing color = some K.addr from hK1) hK6
  exact ⟨b, hb⟩

/-- In a state that satisfies the invariants `isInCheckmate` returns, in the state it was
called in. -/
theorem isInCheckmate_isSome (g : GameMaster) (hwf : g.WF) {color : Int}
    (hcolor : color = WHITE ∨ color = BLACK) (isColorInCheck : Bool) :
    ∃ res, g.isInCheckmate color isColorInCheck = some (res, g) := by
  have htwf : g._tempBoard.WF := hwf.2 ▸ hwf.1
  cases isColorInCheck with
  | false => exact ⟨false, by simp [isInCheckmate]⟩
  | true =>
    obtain ⟨K, hK1, _, _, _, _, hK6⟩ := htwf.king hcolor
    have hk : g.getTempKing color = some K.addr := hK1
    obtain ⟨res, hres, _⟩ := isInCheckmateLoop_spec g hwf hk hK6 (_getKingMoves K.getPosition)
    exact ⟨res, by simp [isInCheckmate, hk, hK6, hres]⟩

theorem _reverseColor_twice {color : Int} (h : color = WHITE ∨ color = BLACK) :
    (_reverseColor color = WHITE ∨ _reverseColor color = BLACK) ∧
    _reverseColor (_reverseColor color) = color := by
  rcases h with rfl | rfl <;> decide

/-- The fresh state satisfies what holds at every point of a run. -/
theorem startState_run : startState.Home ∧ startState.isInCheck WHITE = some false ∧
    startState.isInCheck BLACK = some false :=
  ⟨fun _ h _ => h, by decide, by decide⟩

end GameMaster

namespace Run

/-- The test of the outer loop keeps what holds at every point of a run. -/
theorem outerTest_inv (game : Game) (isCurrentInCheck : Bool)
    (h : Inv { game := game, isCurrentInCheck := isCurrentInCheck, over := false }) :
    ∃ s, game.outerTest isCurrentInCheck = some s ∧ s.Inv := by
  obtain ⟨hwf, hcp, hopp, hhome, hflag⟩ := h
  obtain ⟨res, hres⟩ := game._gameMaster.isInCheckmate_isSome hwf hcp isCurrentInCheck
  refine ⟨_, by simp only [Game.outerTest, hres]; rfl, ?_⟩
  exact ⟨hwf, hcp, hopp, hhome, hflag⟩

/-- Reading a move keeps what holds at every point of a run, and returns. -/
theorem read_inv {s : Run} (h : s.Inv) (scanned : ScannedMove) :
    ∃ s2, s.read scanned = some s2 ∧ s2.Inv := by
  obtain ⟨hwf, hcp, hopp, hhome, hflag⟩ := h
  unfold read
  by_cases hover : s.over = true
  · simp only [hover, if_true]
    exact ⟨s, rfl, hwf, hcp, hopp, hhome, hflag⟩
  simp only [hover, if_false, Bool.false_eq_true]
  have hturn : s.game._runTurn s.isCurrentInCheck scanned = some (false, s.game) ∨
      ∃ g2, s.game._runTurn s.isCurrentInCheck scanned
          = some (true, { s.game with _gameMaster := g2 }) ∧
        g2.WF ∧ g2.Home ∧ g2.isInCheck s.game._currentPlayer = some false := by
    cases scanned with
    | regular src dest =>
      rcases GameMaster.move_run hwf hhome src dest s.isCurrentInCheck hopp with
        h1 | ⟨g2, h1, h2, h3, h4, _⟩
      · left
        simp only [Game._runTurn, h1]
      · right
        exact ⟨g2, by simp only [Game._runTurn, h1], h2, h3, h4⟩
    | castling castlingSide =>
      rcases GameMaster.castling_run hwf hhome castlingSide hcp s.isCurrentInCheck hopp with
        h1 | ⟨g2, h1, h2, h3, h4⟩
      · left
        simp only [Game._runTurn, h1]
      · right
        exact ⟨g2, by simp only [Game._runTurn, h1], h2, h3, h4⟩
  rcases hturn with h1 | ⟨g2, h1, h2, h3, h4⟩
  · rw [h1]
    exact ⟨_, rfl, hwf, hcp, hopp, hhome, hflag⟩
  · rw [h1]
    simp only
    obtain ⟨hrev, hrr⟩ := GameMaster._reverseColor_twice hcp
    have htwf2 : g2._tempBoard.WF := h2.2 ▸ h2.1
    obtain ⟨b, hb⟩ := g2.isInCheck_isSome htwf2 hrev
    have hb2 : g2.isInCheck (s.game._currentPlayer * REVERSE) = some b := hb
    rw [hb2]
    simp only
    exact outerTest_inv _ _ ⟨h2, hrev, by
      show g2.isInCheck (GameMaster._reverseColor (GameMaster._reverseColor _)) = some false
      rw [hrr]
      exact h4, h3, hb⟩

/-- Reading moves keeps what holds at every point of a run, and returns. -/
theorem reads_inv (moves : List ScannedMove) :
    ∀ {s : Run}, s.Inv → ∃ s2, s.reads moves = some s2 ∧ s2.Inv := by
  induction moves with
  | nil => exact fun {s} h => ⟨s, rfl, h⟩
  | cons scanned rest ih =>
    intro s h
    obtain ⟨s1, h1, hinv1⟩ := read_inv h scanned
    obtain ⟨s2, h2, hinv2⟩ := ih hinv1
    exact ⟨s2, by simp only [reads, h1, h2], hinv2⟩

end Run

/-- The method `Game::run` returns a point of the run for every input, and what holds at
every point of a run holds there. -/
theorem Game.run_inv (moves : List ScannedMove) : ∃ s, Game.run moves = some s ∧ s.Inv := by
  unfold Game.run
  rw [new_eq_startState]
  simp only
  obtain ⟨s0, h0, hinv0⟩ := Run.outerTest_inv
    ({ _gameMaster := startState, _currentPlayer := WHITE } : Game) false
    ⟨startState_WF, Or.inl rfl, GameMaster.startState_run.2.2, GameMaster.startState_run.1,
      GameMaster.startState_run.2.1⟩
  rw [h0]
  exact Run.reads_inv moves hinv0

/-- C25. Whatever moves are read, `Game::run` on a freshly constructed game reaches a point
(it calls `move` and `castling` for WHITE first, passes the turn to the other colour after
each accepted call only, and hands over the value of `isInCheck` for the player as
`isCurrentInCheck`), and at every point it reaches, in the saved board and in the board moves
are made on, which is equal to it, the vector of each colour holds exactly one king, the king
pointer of the colour designates that king, and no move that `_runTurn` has accepted there has
a king on its destination square. -/
theorem run_keeps_kings (moves : List ScannedMove) :
    ∃ s, Game.run moves = some s ∧
      (s.game._currentPlayer = WHITE ∨ s.game._currentPlayer = BLACK) ∧
      s.game._gameMaster.isInCheck s.game._currentPlayer = some s.isCurrentInCheck ∧
      s.game._gameMaster._tempBoard = s.game._gameMaster._board ∧
      (∃ K, s.game._gameMaster._board._whitePieces.filter Piece.isKing = [K] ∧
        s.game._gameMaster._board._whiteKing = some K.addr) ∧
      (∃ K, s.game._gameMaster._board._blackPieces.filter Piece.isKing = [K] ∧
        s.game._gameMaster._board._blackKing = some K.addr) ∧
      ∀ src dest game2,
        s.game._runTurn s.isCurrentInCheck (ScannedMove.regular src dest) = some (true, game2) →
        ∀ q ∈ s.game._gameMaster._board.allPieces, q.isKing = true → q.getPosition ≠ dest := by
  obtain ⟨s, hs, hwf, hcp, hopp, hhome, hflag⟩ := Game.run_inv moves
  refine ⟨s, hs, hcp, hflag, hwf.2, ?_, ?_, ?_⟩
  · obtain ⟨K, h1, _, _, h4⟩ := kingIs_spec hwf.1.2.2.2.2.2.1
    exact ⟨K, h4, h1⟩
  · obtain ⟨K, h1, _, _, h4⟩ := kingIs_spec hwf.1.2.2.2.2.2.2
    exact ⟨K, h4, h1⟩
  · intro src dest game2 h
    rcases GameMaster.move_run hwf hhome src dest s.isCurrentInCheck hopp with
      h1 | ⟨g2, _, _, _, _, h5⟩
    · simp only [Game._runTurn, h1, Option.some.injEq, Prod.mk.injEq] at h
      exact absurd h.1 (by decide)
    · exact h5

/-! ## The fresh board, the scanned text and the own square -/

namespace GameMaster

/-- C38. In a state that satisfies the data-model invariants, for every square `s`, every
player and either flag, `move(s, s, currentPlayer, flag)` returns false and leaves the state,
both boards, as it was; and this although `canReach` of a King, a Rook, a Queen and a Bishop
is true for the square the piece stands on. -/
theorem move_to_own_square_rejected (g : GameMaster) (hwf : g.WF) (s : Square)
    (currentPlayer : Int) (isCurrentInCheck : Bool) :
    g.move s s currentPlayer isCurrentInCheck = some (false, g) ∧
    ∀ (p : Piece) (isCapture : Bool),
      p.kind = Kind.King ∨ p.kind = Kind.Rook ∨ p.kind = Kind.Queen ∨ p.kind = Kind.Bishop →
      p.canReach p.getPosition isCapture = true := by
  constructor
  · rcases move_spec g hwf s s currentPlayer isCurrentInCheck with
      ⟨h, _⟩ | ⟨_, _, _, _, _, _, _, _, _, hne, _⟩
    · exact h
    · exact absurd rfl hne
  · intro p isCapture hk
    unfold Piece.canReach Piece.getPosition
    rcases hk with hk | hk | hk | hk <;> rw [hk] <;>
      simp [King.canReach, Rook.canReach, Queen.canReach, Bishop.canReach, cabs, KING_RANGE,
        ROOK_DIFF, QUEEN_DIFF]

theorem move_to_own_square_rejected_witness :
    pinnedState.WF ∧ pinnedState._tempBoard.kindAt E2 = some (some (Kind.Rook, WHITE)) ∧
    (Piece.new 1 Kind.Rook WHITE E2).canReach E2 false = true ∧
    pinnedState.move E2 E2 WHITE false = some (false, pinnedState) :=
  ⟨by decide, by decide, by decide,
    (move_to_own_square_rejected pinnedState (by decide) E2 WHITE false).1⟩

set_option maxRecDepth 100000 in
/-- C36. The freshly constructed `GameMaster` is `startState`, and on its saved board and on
the board moves are made on: each colour has 16 pieces, every piece has `hasMoved` false and
the colour of its vector, every square of the board holds what the standard starting position
has there (Rook, Knight, Bishop, Queen, King, Bishop, Knight, Rook on the files A to H of
rank 1 for White and of rank 8 for Black, pawns on rank 2 for White and on rank 7 for Black,
nothing on the other squares), the king pointers designate the kings on E1 and E8, and
`isInCheck` is false for both colours. -/
theorem fresh_board_standard :
    GameMaster.new = some startState ∧
    (∀ b, b = startState._board ∨ b = startState._tempBoard →
      b._whitePieces.length = 16 ∧ b._blackPieces.length = 16 ∧
      (∀ p ∈ b._whitePieces, p.hasMoved = false ∧ p.getColor = WHITE) ∧
      (∀ p ∈ b._blackPieces, p.hasMoved = false ∧ p.getColor = BLACK) ∧
      (∀ f ∈ files, ∀ r ∈ ranks,
        b.kindAt (Square.mk f r) = some (standardPosition (Square.mk f r))) ∧
      (∀ p ∈ b.allPieces, b._getPiece p.getPosition = some (some p.addr)) ∧
      b._whiteKing = b._getPiece E1 ∧ b._blackKing = b._getPiece E8) ∧
    startState.isInCheck WHITE = some false ∧ startState.isInCheck BLACK = some false := by
  refine ⟨by decide!, ?_, by decide!, by decide!⟩
  have h : startState._tempBoard = startState._board := rfl
  have hb : startState._board._whitePieces.length = 16 ∧
      startState._board._blackPieces.length = 16 ∧
      (∀ p ∈ startState._board._whitePieces, p.hasMoved = false ∧ p.getColor = WHITE) ∧
      (∀ p ∈ startState._board._blackPieces, p.hasMoved = false ∧ p.getColor = BLACK) ∧
      (∀ f ∈ files, ∀ r ∈ ranks,
        startState._board.kindAt (Square.mk f r) = some (standardPosition (Square.mk f r))) ∧
      (∀ p ∈ startState._board.allPieces,
        startState._board._getPiece p.getPosition = some (some p.addr)) ∧
      startState._board._whiteKing = startState._board._getPiece E1 ∧
      startState._board._blackKing = startState._board._getPiece E8 := by
    decide!
  intro b hbb
  rcases hbb with rfl | rfl
  · exact hb
  · rw [h]
    exact hb

end GameMaster

/-- C31. The method `_scanMove` on a token: `o-o-o` gives a castling with side `Q`, `o-o` a
castling with side `K`, and every token of exactly four characters (which is neither of the
two) gives a regular move whose `src` is its characters 0 and 1 and whose `dest` is its
characters 2 and 3, two strings of two characters each, that is two squares. -/
theorem scanMove_spec (move : List Char) (h : move.length = 4) :
    Game._scanMove ['o', '-', 'o', '-', 'o'] = some (ScannedText.castling 'Q') ∧
    Game._scanMove ['o', '-', 'o'] = some (ScannedText.castling 'K') ∧
    ∃ c0 c1 c2 c3, move = [c0, c1, c2, c3] ∧
      Game._scanMove move = some (ScannedText.regular [c0, c1] [c2, c3]) ∧
      (ScannedText.regular [c0, c1] [c2, c3]).toMove = some (ScannedMove.regular
        (Square.mk (c0.toNat : Int) (c1.toNat : Int))
        (Square.mk (c2.toNat : Int) (c3.toNat : Int))) := by
  refine ⟨by decide, by decide, ?_⟩
  match move, h with
  | [c0, c1, c2, c3], _ =>
    refine ⟨c0, c1, c2, c3, rfl, ?_, rfl⟩
    simp [Game._scanMove, Q_INPUT, K_INPUT, substr, SQUARE_SIZE, SQUARE_NUM]

theorem scanMove_spec_witness :
    ['E', '2', 'E', '4'].length = 4 ∧
    Game._scanMove ['E', '2', 'E', '4'] = some (ScannedText.regular ['E', '2'] ['E', '4']) ∧
    (Game._scanMove ['E', '2', 'E', '4']).bind ScannedText.toMove
      = some (ScannedMove.regular E2 ⟨69, 52⟩) ∧
    (Game._scanMove ['o', '-', 'o', '-', 'o'] = some (ScannedText.castling 'Q') ∧
      Game._scanMove ['o', '-', 'o'] = some (ScannedText.castling 'K')) :=
  ⟨by decide, by decide, by decide,
    (scanMove_spec ['E', '2', 'E', '4'] (by decide)).1,
    (scanMove_spec ['E', '2', 'E', '4'] (by decide)).2.1⟩

/-! ## Paths, pawns, checkmate and the flag of the session -/

/-- C35. For a Rook, a Bishop or a Queen standing on a square of the board and a square `dest`
of the board for which its `canReach` holds, the loop of `getPathTo` terminates: the call
returns a list, which is empty when `dest` is the square of the piece, has
`max(|Δfile|, |Δrank|) − 1` squares when it is not, and holds squares of the board only.
The call sites meet the precondition: `_isPseudoPath` returns false without building a path
when `dest` is outside the board or `canReach` is false, and it returns for every piece of a
consistent board; in `_isPseudoLegalCastling` the piece of the corner stands on the rank of
the king, where `canReach` of a Rook holds and the path is built for whatever piece stands
there, so that the test returns in every state that satisfies the invariants. -/
theorem getPathTo_terminates :
    (∀ (p : Piece) (dest : Square) (isCapture : Bool),
      p.kind = Kind.Rook ∨ p.kind = Kind.Bishop ∨ p.kind = Kind.Queen →
      isInBoard p.getPosition = true → isInBoard dest = true →
      p.canReach dest isCapture = true →
      ∃ path, p.getPathTo dest = some path ∧
        (p.getPosition = dest → path = []) ∧
        (p.getPosition ≠ dest → (path.length : Int) =
          max |dest.file - p.getPosition.file| |dest.rank - p.getPosition.rank| - 1) ∧
        ∀ sq ∈ path, isInBoard sq = true) ∧
    (∀ (g : GameMaster) (piece : Piece) (dest : Square),
      (isInBoard dest = false → g._isPseudoPath piece dest = some false) ∧
      (∀ isCapture, piece.canReach dest isCapture = false →
        g.reachAndPath piece dest isCapture = some false) ∧
      (g._tempBoard.Consistent → piece ∈ g._tempBoard.allPieces →
        ∃ b, g._isPseudoPath piece dest = some b)) ∧
    (∀ (rook : Piece) (kingSrc : Square) (isCapture : Bool),
      rook.kind = Kind.Rook → rook.getPosition.rank = kingSrc.rank →
      rook.canReach kingSrc isCapture = true) ∧
    (∀ (g : GameMaster) (castlingSide : Char) (currentPlayer : Int),
      g._tempBoard.WF → currentPlayer = WHITE ∨ currentPlayer = BLACK →
      ∃ r, g._isPseudoLegalCastling castlingSide currentPlayer = some r) := by
  refine ⟨?_, ?_, ?_, ?_⟩
  · intro p dest isCapture hkind hp hd hreach
    have hkind2 : p.kind = Kind.Bishop ∨ p.kind = Kind.Rook ∨ p.kind = Kind.Queen := by
      rcases hkind with h | h | h
      · exact Or.inr (Or.inl h)
      · exact Or.inl h
      · exact Or.inr (Or.inr h)
    have hal := sliding_canReach_aligned hkind2 hreach
    obtain ⟨hdef, hin⟩ := getPathToDefault_spec p dest hp hd hal
    have hget : p.getPathTo dest = p.getPathToDefault dest := by
      unfold Piece.getPathTo
      rcases hkind2 with hk | hk | hk <;> rw [hk]
    refine ⟨_, hget.trans hdef, ?_, ?_, hin⟩
    · intro e
      have e1 : dest.file - p._position.file = 0 := by
        rw [← e]; simp [Piece.getPosition]
      have e2 : dest.rank - p._position.rank = 0 := by
        rw [← e]; simp [Piece.getPosition]
      rw [e1, e2]
      rfl
    · intro hne
      rw [List.length_map, List.length_range]
      simp only [cabs_eq_abs, Piece.getPosition]
      have h1 := abs_nonneg (dest.file - p._position.file)
      have h2 := abs_nonneg (dest.rank - p._position.rank)
      have hpos : 0 < |dest.file - p._position.file| ∨ 0 < |dest.rank - p._position.rank| := by
        by_contra hcon
        simp only [not_or, not_lt] at hcon
        have e1 : dest.file - p._position.file = 0 := abs_eq_zero.1 (le_antisymm hcon.1 h1)
        have e2 : dest.rank - p._position.rank = 0 := abs_eq_zero.1 (le_antisymm hcon.2 h2)
        apply hne
        cases hd : dest
        cases hpp : p._position
        simp only [Piece.getPosition, hpp, Square.mk.injEq]
        rw [hd, hpp] at e1 e2
        simp only at e1 e2
        omega
      have hm1 := le_max_left |dest.file - p._position.file| |dest.rank - p._position.rank|
      have hm2 := le_max_right |dest.file - p._position.file| |dest.rank - p._position.rank|
      generalize max |dest.file - p._position.file| |dest.rank - p._position.rank| = m
        at hm1 hm2 ⊢
      exact Int.toNat_of_nonneg (by omega)
  · intro g piece dest
    refine ⟨?_, ?_, ?_⟩
    · intro hd
      simp [GameMaster._isPseudoPath, hd]
    · intro isCapture hr
      simp [GameMaster.reachAndPath, hr]
    · intro hc hp
      obtain ⟨b, hb, _⟩ := g._isPseudoPath_spec hc hp dest
      exact ⟨b, hb⟩
  · intro rook kingSrc isCapture hk hr
    have hr2 : kingSrc.rank - rook._position.rank = 0 := by
      have : rook._position.rank = kingSrc.rank := hr
      omega
    simp [Piece.canReach, hk, Rook.canReach, hr2, cabs, ROOK_DIFF]
  · intro g castlingSide currentPlayer hwf hcp
    obtain ⟨K, _, _, _, h⟩ := g._isPseudoLegalCastling_spec hwf castlingSide hcp
    rcases h with ⟨h, _⟩ | ⟨h, _⟩
    · exact ⟨_, h⟩
    · exact ⟨_, h⟩

theorem getPathTo_terminates_witness :
    (Piece.new 1 Kind.Queen WHITE A1).getPathTo H8
      = some [⟨66, 50⟩, ⟨67, 51⟩, ⟨68, 52⟩, ⟨69, 53⟩, ⟨70, 54⟩, ⟨71, 55⟩] ∧
    (Piece.new 1 Kind.Queen WHITE A1).getPathTo A1 = some [] ∧
    ∃ path, (Piece.new 1 Kind.Queen WHITE A1).getPathTo H8 = some path ∧
      ((Piece.new 1 Kind.Queen WHITE A1).getPosition = H8 → path = []) ∧
      ((Piece.new 1 Kind.Queen WHITE A1).getPosition ≠ H8 → (path.length : Int) =
        max |H8.file - (Piece.new 1 Kind.Queen WHITE A1).getPosition.file|
          |H8.rank - (Piece.new 1 Kind.Queen WHITE A1).getPosition.rank| - 1) ∧
      ∀ sq ∈ path, isInBoard sq = true :=
  ⟨by decide, by decide,
    getPathTo_terminates.1 (Piece.new 1 Kind.Queen WHITE A1) H8 false (by decide) (by decide)
      (by decide) (by decide)⟩


namespace GameMaster

/-- C37. In a state that satisfies the data-model invariants, for a pawn on `src`: a move to
an occupied square of the file of the pawn (the square directly ahead or two ahead, held by an
enemy piece or by any other) returns false and leaves the state as it was; a move one step
diagonally forward to an empty square returns false and leaves the state as it was (there is
no en passant); and a move of the pawn that is accepted either goes to an empty square of its
file, one rank forward (or two when the pawn has not moved), or goes one step diagonally
forward to a square held by a piece of the other colour. -/
theorem pawn_moves_as_stated (g : GameMaster) (hwf : g.WF) (src dest : Square)
    (currentPlayer : Int) (isCurrentInCheck : Bool) (a : Ptr) (p : Piece)
    (hsrc : g.getTempPiece src = some (some a)) (hd : g._tempBoard.deref a = some p)
    (hpawn : p.kind = Kind.Pawn) :
    (dest.file = src.file → (∃ x, g.getTempPiece dest = some (some x)) →
      g.move src dest currentPlayer isCurrentInCheck = some (false, g)) ∧
    (|dest.file - src.file| = 1 → p.getColor * (dest.rank - src.rank) = 1 →
      g.getTempPiece dest = some none →
      g.move src dest currentPlayer isCurrentInCheck = some (false, g)) ∧
    (∀ g2, g.move src dest currentPlayer isCurrentInCheck = some (true, g2) →
      (g.getTempPiece dest = some none ∧ dest.file = src.file ∧
        (p.getColor * (dest.rank - src.rank) = 1 ∨
          (p.getColor * (dest.rank - src.rank) = 2 ∧ p.hasMoved = false))) ∨
      (∃ x q, g.getTempPiece dest = some (some x) ∧ g._tempBoard.deref x = some q ∧
        q.getColor ≠ p.getColor ∧ |dest.file - src.file| = 1 ∧
        p.getColor * (dest.rank - src.rank) = 1)) := by
  have htwf : g._tempBoard.WF := hwf.2 ▸ hwf.1
  have hcons := htwf.consistent
  obtain ⟨p0, hp0, hp0a, hp0pos, hp0d⟩ := hcons.occupant
    (show g._tempBoard._getPiece src = some (some a) from hsrc)
  have hpp : p0 = p := by
    rw [hd] at hp0d
    simp only [Option.some.injEq] at hp0d
    exact hp0d.symm
  subst hpp
  have hpos : p0._position = src := hp0pos
  have hacc : ∀ g2, g.move src dest currentPlayer isCurrentInCheck = some (true, g2) →
      (g.getTempPiece dest = some none ∧ dest.file = src.file ∧
        (p0.getColor * (dest.rank - src.rank) = 1 ∨
          (p0.getColor * (dest.rank - src.rank) = 2 ∧ p0.hasMoved = false))) ∨
      (∃ x q, g.getTempPiece dest = some (some x) ∧ g._tempBoard.deref x = some q ∧
        q.getColor ≠ p0.getColor ∧ |dest.file - src.file| = 1 ∧
        p0.getColor * (dest.rank - src.rank) = 1) := by
    intro g2 hg2
    rcases move_spec g hwf src dest currentPlayer isCurrentInCheck with ⟨h1, _⟩ | h1
    · rw [h1] at hg2
      simp at hg2
    obtain ⟨_, _, _, _, _, _, _, _, _, _, _, _, _, _, hcond⟩ := h1
    obtain ⟨_, a2, p2, ha2, hp2, _, _, hpl, _⟩ := hcond
    rw [hsrc] at ha2
    simp only [Option.some.injEq] at ha2
    subst ha2
    rw [hd] at hp2
    simp only [Option.some.injEq] at hp2
    subst hp2
    obtain ⟨_, v, hv, hvne, hreach, _⟩ := hpl
    have hreach2 : Pawn.canReach p0 dest v.isSome = true := by
      simpa [Piece.canReach, hpawn] using hreach
    simp only [Pawn.canReach, PAWN_DIFF0, PAWN_DIFF1, PAWN_DIFF2, hpos] at hreach2
    have hfc := cabs_cases (dest.file - src.file)
    rw [cabs_eq_abs] at hfc
    rw [cabs_eq_abs] at hreach2
    cases v with
    | none =>
      left
      simp only [Option.isSome_none, Bool.false_eq_true, if_false, Bool.and_eq_true,
        decide_eq_true_eq, Bool.or_eq_true, Bool.not_eq_true'] at hreach2
      obtain ⟨hfile, hrank⟩ := hreach2
      refine ⟨hcons.colorAt_eq_some_none.1 hv, by omega, ?_⟩
      rcases hrank with h | ⟨h1, h2⟩
      · exact Or.inl h
      · exact Or.inr ⟨h2, h1⟩
    | some c =>
      right
      simp only [Option.isSome_some, if_true, Bool.and_eq_true, decide_eq_true_eq] at hreach2
      unfold Board.colorAt at hv
      cases hx : g._tempBoard._getPiece dest with
      | none => rw [hx] at hv; cases hv
      | some w =>
        cases w with
        | none => rw [hx] at hv; simp at hv
        | some x =>
          rw [hx] at hv
          simp only at hv
          cases hq : g._tempBoard.deref x with
          | none => rw [hq] at hv; cases hv
          | some q =>
            rw [hq] at hv
            simp only [Option.some.injEq] at hv
            refine ⟨x, q, hx, hq, ?_, hreach2.1, hreach2.2⟩
            intro e
            apply hvne
            rw [← hv, e]
  have hrej : (¬ ∃ g2, g.move src dest currentPlayer isCurrentInCheck = some (true, g2)) →
      g.move src dest currentPlayer isCurrentInCheck = some (false, g) := by
    intro hno
    rcases move_spec g hwf src dest currentPlayer isCurrentInCheck with ⟨h1, _⟩ | h1
    · exact h1
    · obtain ⟨_, _, _, t2, _, _, _, _, _, _, _, _, _, h13, _⟩ := h1
      exact absurd ⟨_, h13⟩ hno
  refine ⟨?_, ?_, hacc⟩
  · rintro hfile ⟨x, hx⟩
    apply hrej
    rintro ⟨g2, hg2⟩
    rcases hacc g2 hg2 with ⟨h1, _⟩ | ⟨_, _, _, _, _, h4, _⟩
    · rw [hx] at h1
      simp at h1
    · rw [hfile] at h4
      simp at h4
  · intro hfile _ hempty
    apply hrej
    rintro ⟨g2, hg2⟩
    rcases hacc g2 hg2 with ⟨_, h2, _⟩ | ⟨_, _, h1, _⟩
    · rw [h2] at hfile
      simp at hfile
    · rw [hempty] at h1
      simp at h1

end GameMaster


namespace GameMaster

theorem pawn_moves_as_stated_witness :
    pawnFacingState.WF ∧
    pawnFacingState.move E4 E5 WHITE false = some (false, pawnFacingState) ∧
    pawnFacingState.move E4 F5 WHITE false = some (false, pawnFacingState) ∧
    pawnFacingState.move E4 D5 WHITE false = some (true, pawnCapturedState) ∧
    ((pawnFacingState.getTempPiece D5 = some none ∧ D5.file = E4.file ∧
        (((Piece.new 1 Kind.Pawn WHITE E2).setPosition E4).getColor * (D5.rank - E4.rank) = 1 ∨
          (((Piece.new 1 Kind.Pawn WHITE E2).setPosition E4).getColor * (D5.rank - E4.rank) = 2 ∧
            ((Piece.new 1 Kind.Pawn WHITE E2).setPosition E4).hasMoved = false))) ∨
      (∃ x q, pawnFacingState.getTempPiece D5 = some (some x) ∧
        pawnFacingState._tempBoard.deref x = some q ∧
        q.getColor ≠ ((Piece.new 1 Kind.Pawn WHITE E2).setPosition E4).getColor ∧
        |D5.file - E4.file| = 1 ∧
        ((Piece.new 1 Kind.Pawn WHITE E2).setPosition E4).getColor * (D5.rank - E4.rank) = 1)) :=
  ⟨by decide,
    (pawn_moves_as_stated pawnFacingState (by decide) E4 E5 WHITE false 1
      ((Piece.new 1 Kind.Pawn WHITE E2).setPosition E4) (by decide) (by decide) rfl).1
      (by decide) ⟨3, by decide⟩,
    (pawn_moves_as_stated pawnFacingState (by decide) E4 F5 WHITE false 1
      ((Piece.new 1 Kind.Pawn WHITE E2).setPosition E4) (by decide) (by decide) rfl).2.1
      (by decide) (by decide) (by decide),
    by decide,
    (pawn_moves_as_stated pawnFacingState (by decide) E4 D5 WHITE false 1
      ((Piece.new 1 Kind.Pawn WHITE E2).setPosition E4) (by decide) (by decide) rfl).2.2
      pawnCapturedState (by decide)⟩

/-- With the flag true `castling` does not accept. -/
theorem castling_in_check_rejected {g g2 : GameMaster} {castlingSide : Char}
    {currentPlayer : Int} {res : Bool}
    (h : g.castling castlingSide currentPlayer true = some (res, g2)) : res = false := by
  rcases castling_inv h with ⟨h1, _⟩ | ⟨_, _, _, result1, _, _, _, h3, _, h5⟩
  · exact h1
  simp only [if_true, Option.some.injEq] at h3
  subst h3
  rcases h5 with ⟨_, h6, _⟩ | ⟨h6, _⟩
  · exact h6
  · simp at h6

/-- C32. In a state that satisfies the data-model invariants (the board moves are made on
equal to the saved board), for `c` WHITE or BLACK, `isInCheckmate(c, true)` returns, in the
state it was called in, and it returns true if and only if there are no `src` and `dest` for
which `move(src, dest, c, true)` returns true and no side for which `castling(side, c, true)`
returns true (and `castling` with the flag true never returns true). -/
theorem isInCheckmate_iff_no_move (g : GameMaster) (hwf : g.WF) (c : Int)
    (hc : c = WHITE ∨ c = BLACK) :
    ∃ res, g.isInCheckmate c true = some (res, g) ∧
      (res = true ↔
        (∀ src dest g2, g.move src dest c true ≠ some (true, g2)) ∧
        (∀ castlingSide g2, g.castling castlingSide c true ≠ some (true, g2))) ∧
      (∀ castlingSide g2, g.castling castlingSide c true ≠ some (true, g2)) := by
  have htwf : g._tempBoard.WF := hwf.2 ▸ hwf.1
  have hcons := htwf.consistent
  have hcast : ∀ castlingSide g2, g.castling castlingSide c true ≠ some (true, g2) := by
    intro castlingSide g2 h
    have := castling_in_check_rejected h
    cases this
  obtain ⟨K, hK1, _, hK3, hK4, hK5, hK6⟩ := htwf.king hc
  have hk : g.getTempKing c = some K.addr := hK1
  obtain ⟨res, hres, hiff⟩ := isInCheckmateLoop_spec g hwf hk hK6 (_getKingMoves K.getPosition)
  refine ⟨res, by simp [isInCheckmate, hk, hK6, hres], ?_, hcast⟩
  rw [hiff]
  constructor
  · intro hno
    refine ⟨?_, hcast⟩
    intro src dest g2 hm
    rcases move_spec g hwf src dest c true with ⟨h1, _⟩ | h1
    · rw [h1] at hm
      simp at hm
    obtain ⟨a, p, _, _, hv, hderef, hp, hppos, hcol, _, _, _, _, _, hcond⟩ := h1
    obtain ⟨_, a2, p2, ha2, hp2, _, hflag, hpl, hesc⟩ := hcond
    have ha : a2 = a := by
      simp only [getTempPiece, hv, Option.some.injEq] at ha2
      exact ha2.symm
    subst ha
    rw [hderef] at hp2
    simp only [Option.some.injEq] at hp2
    subst hp2
    have hpk : p.isKing = true := by
      rcases hflag with h | h
      · cases h
      · exact h
    obtain ⟨_, hpu⟩ := htwf.king_unique hp hpk
    rw [hcol, hK1] at hpu
    simp only [Option.some.injEq] at hpu
    have hpK : K = p := hcons.addr_inj hK3 hp hpu
    subst hpK
    have hmem : dest ∈ _getKingMoves K.getPosition := by
      rw [mem_getKingMoves]
      obtain ⟨_, v, _, _, hreach, _⟩ := hpl
      have hkind : K.kind = Kind.King := by
        unfold Piece.isKing at hpk
        split at hpk
        · assumption
        · cases hpk
      simpa [Piece.canReach, hkind, King.canReach, KING_RANGE, Piece.getPosition] using hreach
    rw [hppos] at hno hmem
    exact hno dest hmem ⟨hpl, hesc⟩
  · rintro ⟨hno, _⟩ d _ ⟨hpl, hesc⟩
    rcases move_spec g hwf K.getPosition d c true with ⟨_, h1⟩ | h1
    · apply h1
      refine ⟨hcons.inBoard hK3, K.addr, K, hcons.2.1 K hK3, hK6, hK5, Or.inr hK4, hpl, hesc⟩
    · obtain ⟨_, _, _, _, _, _, _, _, _, _, _, _, _, h13, _⟩ := h1
      exact hno _ _ _ h13

theorem isInCheckmate_iff_no_move_witness :
    rookCheckState.WF ∧ rookCheckState.isInCheckmate BLACK true = some (true, rookCheckState) ∧
    rookCheckState.move A1 E1 BLACK true = some (false, rookCheckState) ∧
    ∃ res, rookCheckState.isInCheckmate BLACK true = some (res, rookCheckState) ∧
      (res = true ↔
        (∀ src dest g2, rookCheckState.move src dest BLACK true ≠ some (true, g2)) ∧
        (∀ castlingSide g2, rookCheckState.castling castlingSide BLACK true ≠ some (true, g2))) ∧
      (∀ castlingSide g2, rookCheckState.castling castlingSide BLACK true ≠ some (true, g2)) :=
  ⟨by decide, by decide, by decide,
    isInCheckmate_iff_no_move rookCheckState (by decide) BLACK (Or.inr rfl)⟩

end GameMaster


namespace Run

/-- Reading the moves of an input and one more move. -/
theorem reads_append (scanned : ScannedMove) (moves : List ScannedMove) :
    ∀ s : Run, s.reads (moves ++ [scanned]) = (s.reads moves).bind (fun s2 => s2.read scanned) := by
  induction moves with
  | nil =>
    intro s
    simp only [List.nil_append, reads, Option.bind]
    cases s.read scanned <;> rfl
  | cons m rest ih =>
    intro s
    simp only [List.cons_append, reads]
    cases s.read m with
    | none => rfl
    | some s1 => exact ih s1

/-- One pass of the inner loop at a point of a run where the outer loop has not ended: the
move is rejected and the point stays as it is, or it is accepted, the player is switched and
the flag is the value of `isInCheck` for the new player in the new state. -/
theorem read_cases {s : Run} (h : s.Inv) (hover : s.over = false) (scanned : ScannedMove) :
    (s.game._runTurn s.isCurrentInCheck scanned = some (false, s.game) ∧
      s.read scanned = some s) ∨
    (∃ game2 s2, s.game._runTurn s.isCurrentInCheck scanned = some (true, game2) ∧
      s.read scanned = some s2 ∧ s2.game._gameMaster = game2._gameMaster ∧
      s2.game._currentPlayer = s.game._currentPlayer * REVERSE ∧
      s2.game._currentPlayer ≠ s.game._currentPlayer ∧
      s2.game._gameMaster.isInCheck s2.game._currentPlayer = some s2.isCurrentInCheck) := by
  obtain ⟨hwf, hcp, hopp, hhome, hflag⟩ := h
  have hturn : s.game._runTurn s.isCurrentInCheck scanned = some (false, s.game) ∨
      ∃ g2, s.game._runTurn s.isCurrentInCheck scanned
          = some (true, { s.game with _gameMaster := g2 }) ∧
        g2.WF ∧ g2.Home ∧ g2.isInCheck s.game._currentPlayer = some false := by
    cases scanned with
    | regular src dest =>
      rcases GameMaster.move_run hwf hhome src dest s.isCurrentInCheck hopp with
        h1 | ⟨g2, h1, h2, h3, h4, _⟩
      · left
        simp only [Game._runTurn, h1]
      · right
        exact ⟨g2, by simp only [Game._runTurn, h1], h2, h3, h4⟩
    | castling castlingSide =>
      rcases GameMaster.castling_run hwf hhome castlingSide hcp s.isCurrentInCheck hopp with
        h1 | ⟨g2, h1, h2, h3, h4⟩
      · left
        simp only [Game._runTurn, h1]
      · right
        exact ⟨g2, by simp only [Game._runTurn, h1], h2, h3, h4⟩
  rcases hturn with h1 | ⟨g2, h1, h2, h3, h4⟩
  · left
    refine ⟨h1, ?_⟩
    unfold read
    simp only [hover, Bool.false_eq_true, if_false, h1]
    cases s
    simp only at hover
    subst hover
    rfl
  · right
    obtain ⟨hrev, hrr⟩ := GameMaster._reverseColor_twice hcp
    have htwf2 : g2._tempBoard.WF := h2.2 ▸ h2.1
    obtain ⟨b, hb⟩ := g2.isInCheck_isSome htwf2 hrev
    have hb2 : g2.isInCheck (s.game._currentPlayer * REVERSE) = some b := hb
    obtain ⟨res, hres⟩ := g2.isInCheckmate_isSome h2 hrev b
    have hres2 : g2.isInCheckmate (s.game._currentPlayer * REVERSE) b = some (res, g2) := hres
    refine ⟨_, { game := { _gameMaster := g2,
                           _currentPlayer := s.game._currentPlayer * REVERSE }
                 isCurrentInCheck := b
                 over := res }, h1, ?_, rfl, rfl, ?_, hb2⟩
    · unfold read
      simp only [hover, Bool.false_eq_true, if_false, h1, hb2, Game.outerTest, hres2]
    · show s.game._currentPlayer * REVERSE ≠ s.game._currentPlayer
      rcases hcp with e | e <;> rw [e] <;> decide

end Run

/-- C40. In `Game::run` on a freshly constructed game: before any move is read the player is
WHITE and the flag is false, which is the value of `isInCheck(WHITE)` on the fresh board; and
at the point the run has reached after any moves, the local `isCurrentInCheck`, which
`_runTurn` hands to `move` and to `castling`, is the value of `isInCheck` for the player on
the board of that point.  The next move read there is either rejected, and then the board,
the player and the flag stay as they are, or accepted, and then the player is switched and the
flag is the value of `isInCheck` for the new player on the new board. -/
theorem run_flag_accurate (moves : List ScannedMove) :
    Game.run [] = some { game := { _gameMaster := startState, _currentPlayer := WHITE }
                         isCurrentInCheck := false
                         over := false } ∧
    startState.isInCheck WHITE = some false ∧
    ∃ s, Game.run moves = some s ∧
      s.game._gameMaster.isInCheck s.game._currentPlayer = some s.isCurrentInCheck ∧
      ∀ scanned, Game.run (moves ++ [scanned]) = s.read scanned ∧
        (s.over = false →
          (s.game._runTurn s.isCurrentInCheck scanned = some (false, s.game) ∧
            s.read scanned = some s) ∨
          (∃ game2 s2, s.game._runTurn s.isCurrentInCheck scanned = some (true, game2) ∧
            s.read scanned = some s2 ∧ s2.game._gameMaster = game2._gameMaster ∧
            s2.game._currentPlayer = s.game._currentPlayer * REVERSE ∧
            s2.game._currentPlayer ≠ s.game._currentPlayer ∧
            s2.game._gameMaster.isInCheck s2.game._currentPlayer
              = some s2.isCurrentInCheck)) := by
  refine ⟨?_, GameMaster.startState_run.2.1, ?_⟩
  · unfold Game.run
    rw [new_eq_startState]
    rfl
  obtain ⟨s, hs, hinv⟩ := Game.run_inv moves
  refine ⟨s, hs, hinv.2.2.2.2, ?_⟩
  intro scanned
  refine ⟨?_, fun hover => Run.read_cases hinv hover scanned⟩
  unfold Game.run at hs ⊢
  rw [new_eq_startState] at hs ⊢
  simp only at hs ⊢
  cases h0 : Game.outerTest { _gameMaster := startState, _currentPlayer := WHITE } false with
  | none =>
    rw [h0] at hs
    cases hs
  | some s0 =>
    rw [h0] at hs
    simp only at hs ⊢
    rw [Run.reads_append, hs]
    rfl

/-! ## What reachable states keep -/

theorem Piece.CameFrom.trans_came {q3 q2 q : Piece} (h2 : q3.CameFrom q2) (h1 : q2.CameFrom q) :
    q3.CameFrom q := by
  obtain ⟨a2, k2, c2, m2⟩ := h2
  obtain ⟨a1, k1, c1, m1⟩ := h1
  refine ⟨a2.trans a1, k2.trans k1, c2.trans c1, ?_⟩
  rcases m2 with rfl | m2
  · exact m1
  · exact Or.inr m2

theorem keepsPieces_refl (l : List Piece) : keepsPieces l l :=
  ⟨fun q hq => Or.inl ⟨q, hq, rfl, rfl, rfl, Or.inl rfl⟩, le_refl _⟩

theorem keepsPieces_trans {l l2 l3 : List Piece} (h1 : keepsPieces l l2)
    (h2 : keepsPieces l2 l3) : keepsPieces l l3 := by
  refine ⟨?_, le_trans h2.2 h1.2⟩
  intro q3 hq3
  rcases h2.1 q3 hq3 with ⟨q2, hq2, hc2⟩ | hq
  · rcases h1.1 q2 hq2 with ⟨q, hq, hc1⟩ | ⟨hk, hm⟩
    · exact Or.inl ⟨q, hq, hc2.trans_came hc1⟩
    · right
      refine ⟨hc2.2.1.trans hk, ?_⟩
      rcases hc2.2.2.2 with rfl | h
      · exact hm
      · exact h
  · exact Or.inr hq

theorem keepsPieces_movedList (l : List Piece) (a : Ptr) (dest : Square) :
    keepsPieces l (movedList l a dest) := by
  constructor
  · intro q2 hq2
    rw [mem_movedList] at hq2
    obtain ⟨q, hq, _, e⟩ := hq2
    left
    refine ⟨q, hq, ?_⟩
    by_cases h : q.addr = a
    · simp only [h, if_true] at e
      rw [e]
      exact ⟨rfl, rfl, rfl, Or.inr rfl⟩
    · simp only [h, if_false] at e
      rw [e]
      exact ⟨rfl, rfl, rfl, Or.inl rfl⟩
  · unfold movedList
    rw [List.length_map]
    exact List.length_filter_le _ _

namespace Board

theorem Keeps.refl_keeps (t : Board) : t.Keeps t :=
  ⟨keepsPieces_refl _, keepsPieces_refl _, rfl, rfl⟩

theorem Keeps.trans_keeps {t t2 t3 : Board} (h1 : t.Keeps t2) (h2 : t2.Keeps t3) : t.Keeps t3 :=
  ⟨keepsPieces_trans h1.1 h2.1, keepsPieces_trans h1.2.1 h2.2.1, h2.2.2.1.trans h1.2.2.1,
    h2.2.2.2.trans h1.2.2.2⟩

/-- The method `tempMove` keeps the pieces and the king pointers. -/
theorem Keeps.of_tempMove {t t2 : Board} (hc : t.Consistent) {src dest : Square}
    (h : t.tempMove src dest = some t2) : t.Keeps t2 := by
  obtain ⟨a, hsrc, hdest, hne⟩ := tempMove_inv hc h
  obtain ⟨t2', ht2', hw, hb, hwk, hbk, _⟩ := tempMove_spec hc hsrc hdest hne
  rw [h] at ht2'
  simp only [Option.some.injEq] at ht2'
  subst ht2'
  exact ⟨hw ▸ keepsPieces_movedList _ _ _, hb ▸ keepsPieces_movedList _ _ _, hwk, hbk⟩

/-- A vector without the piece on one square and with one new queen is not longer, when a
piece of the vector stood on the square. -/
theorem keeps_promoted (l : List Piece) (hnd : (l.map Piece.getPosition).Nodup) {pw : Piece}
    (hpw : pw ∈ l) (fresh : Ptr) :
    keepsPieces l (l.filter (fun q => q.getPosition ≠ pw.getPosition) ++
      [Piece.mk fresh Kind.Queen true pw.getColor pw.getPosition]) := by
  constructor
  · intro q2 hq2
    rcases List.mem_append.1 hq2 with h | h
    · exact Or.inl ⟨q2, (List.mem_filter.1 h).1, rfl, rfl, rfl, Or.inl rfl⟩
    · rw [List.mem_singleton] at h
      rw [h]
      exact Or.inr ⟨rfl, rfl⟩
  · rw [List.length_append, List.length_singleton, length_filter_ne_pos l hnd hpw]

theorem keeps_filtered (l : List Piece) (pos : Square) :
    keepsPieces l (l.filter (fun q => q.getPosition ≠ pos) ++ []) := by
  rw [List.append_nil]
  exact ⟨fun q2 h => Or.inl ⟨q2, (List.mem_filter.1 h).1, rfl, rfl, rfl, Or.inl rfl⟩,
    List.length_filter_le _ _⟩

/-- The method `tempPromote` keeps the pieces and the king pointers. -/
theorem Keeps.of_tempPromote {t t2 : Board} (hc : t.Consistent) {a : Ptr} {pw : Piece}
    (hd : t.deref a = some pw) (h : t.tempPromote a = some t2) : t.Keeps t2 := by
  obtain ⟨t2', fresh, ht2', hw, hb, hwk, hbk, _⟩ := tempPromote_spec hc hd
  rw [h] at ht2'
  simp only [Option.some.injEq] at ht2'
  subst ht2'
  obtain ⟨hpw, _⟩ := deref_eq_some hd
  have hnd := hc.2.2.2.1
  unfold allPieces at hnd
  rw [List.map_append] at hnd
  have hndw := (List.nodup_append.1 hnd).1
  have hndb := (List.nodup_append.1 hnd).2.1
  have hne : ¬ (BLACK = WHITE) := by decide
  rcases List.mem_append.1 hpw with hpww | hpwb
  · have hcol : pw.getColor = WHITE := hc.2.2.2.2.2.1 pw hpww
    refine ⟨?_, ?_, hwk, hbk⟩
    · rw [hw]
      simp only [hcol, if_true]
      have := keeps_promoted _ hndw hpww fresh
      rw [hcol] at this
      exact this
    · rw [hb]
      simp only [hcol, if_true]
      exact keeps_filtered _ _
  · have hcol : pw.getColor = BLACK := hc.2.2.2.2.2.2 pw hpwb
    refine ⟨?_, ?_, hwk, hbk⟩
    · rw [hw]
      simp only [hcol, hne, if_false]
      exact keeps_filtered _ _
    · rw [hb]
      simp only [hcol, hne, if_false]
      have := keeps_promoted _ hndb hpwb fresh
      rw [hcol] at this
      exact this

end Board


namespace GameMaster

/-- The paths through `move` in a sound state: the call rejects and leaves the state as it
was, or it accepts, and then the two boards are the board after `tempMove` and, for a
promotion, `tempPromote`. -/
theorem Sound.move_shape {g g2 : GameMaster} (hs : g.Sound) {src dest : Square}
    {currentPlayer : Int} {isCurrentInCheck res : Bool}
    (h : g.move src dest currentPlayer isCurrentInCheck = some (res, g2)) :
    (res = false ∧ g2 = g) ∨
    (res = true ∧ ∃ a p promotion t1 t2 moved,
      g._tempBoard._getPiece src = some (some a) ∧ g._tempBoard.deref a = some p ∧
      p.getColor = currentPlayer ∧ g._isPseudoPath p dest = some true ∧
      g._tempBoard.tempMove src dest = some t1 ∧ t1.Sound ∧ t1.deref a = some moved ∧
      ({ g with _tempBoard := t1 } : GameMaster).isInCheck moved.getColor = some false ∧
      g._isPromotion src dest = some promotion ∧
      (if promotion then t1.tempPromote a else some t1) = some t2 ∧ t2.Sound ∧
      g2 = ⟨t2, t2⟩) := by
  have hts : g._tempBoard.Sound := hs.2 ▸ hs.1
  rcases move_inv h with ⟨h1, h2⟩ | ⟨a, srcPiece, promotion, g1, moved, _, hsrc, hderef, hcol,
    _, hpath, hpromo, hmove, hmoved, hrest⟩
  · exact Or.inl ⟨h1, h2⟩
  obtain ⟨t1, ht1, rfl⟩ := tempMove_eq hmove
  obtain ⟨hs1, hwk1, hbk1⟩ := hts.tempMove_sound ht1
  rcases hrest with ⟨_, hres, hundo⟩ | ⟨hchk, hres, g3, hprom, hsave⟩
  · left
    rw [undoMoves_of_sound (g := { g with _tempBoard := t1 }) hs.1
      (by rw [hwk1, hs.2]) (by rw [hbk1, hs.2])] at hundo
    simp only [Option.some.injEq] at hundo
    subst hundo
    exact ⟨hres, mk_board_board hs.2⟩
  · right
    have h3 : ∃ t3, g3 = { g with _tempBoard := t3 } ∧ t3.Sound ∧
        t3._whiteKing = g._tempBoard._whiteKing ∧ t3._blackKing = g._tempBoard._blackKing ∧
        (if promotion then t1.tempPromote a else some t1) = some t3 := by
      cases promotion with
      | false =>
        simp only [Bool.false_eq_true, if_false, Option.some.injEq] at hprom
        exact ⟨t1, hprom.symm, hs1, hwk1, hbk1, by simp⟩
      | true =>
        simp only [if_true] at hprom
        unfold tempPromote at hprom
        simp only at hprom
        cases hp : t1.tempPromote a with
        | none => rw [hp] at hprom; cases hprom
        | some t3 =>
          rw [hp] at hprom
          simp only [Option.some.injEq] at hprom
          obtain ⟨hs3, hwk3, hbk3⟩ := hs1.tempPromote_sound hp
          exact ⟨t3, hprom.symm, hs3, hwk3.trans hwk1, hbk3.trans hbk1, by simp⟩
    obtain ⟨t3, rfl, hs3, hwk3, hbk3, hp3⟩ := h3
    rw [saveMoves_of_sound (g := { g with _tempBoard := t3 }) hs3
      (by rw [hwk3, hs.2]) (by rw [hbk3, hs.2])] at hsave
    simp only [Option.some.injEq] at hsave
    subst hsave
    exact ⟨hres, a, srcPiece, promotion, t1, t3, moved, hsrc, hderef, hcol, hpath, ht1, hs1,
      hmoved, hchk, hpromo, hp3, hs3, rfl⟩

/-- The paths through `castling` in a sound state: the call rejects and leaves the state as
it was, or it accepts, the flag was false, `isInCheck` was false after each of the two steps
of the king, and the two boards are the board after the three moves. -/
theorem Sound.castling_shape {g g2 : GameMaster} (hs : g.Sound) {castlingSide : Char}
    {currentPlayer : Int} {isCurrentInCheck res : Bool}
    (h : g.castling castlingSide currentPlayer isCurrentInCheck = some (res, g2)) :
    (res = false ∧ g2 = g) ∨
    (res = true ∧ isCurrentInCheck = false ∧ ∃ kingSrc rookSrc t1 t2 t3,
      g._isPseudoLegalCastling castlingSide currentPlayer = some (some (kingSrc, rookSrc)) ∧
      g._tempBoard.tempMove kingSrc (Square.mk (kingSrc.file +
        (if castlingSide = QUEENSIDE then Q_DIRECTION else K_DIRECTION)) kingSrc.rank)
        = some t1 ∧ t1.Sound ∧
      ({ g with _tempBoard := t1 } : GameMaster).isInCheck currentPlayer = some false ∧
      t1.tempMove (Square.mk (kingSrc.file +
          (if castlingSide = QUEENSIDE then Q_DIRECTION else K_DIRECTION)) kingSrc.rank)
        (Square.mk (kingSrc.file +
          (if castlingSide = QUEENSIDE then Q_DIRECTION else K_DIRECTION) +
          (if castlingSide = QUEENSIDE then Q_DIRECTION else K_DIRECTION)) kingSrc.rank)
        = some t2 ∧ t2.Sound ∧
      ({ g with _tempBoard := t2 } : GameMaster).isInCheck currentPlayer = some false ∧
      t2.tempMove rookSrc (Square.mk (rookSrc.file +
        (if castlingSide = QUEENSIDE then Q_ROOK else K_ROOK)) kingSrc.rank) = some t3 ∧
      t3.Sound ∧ g2 = ⟨t3, t3⟩) := by
  have hts : g._tempBoard.Sound := hs.2 ▸ hs.1
  rcases castling_inv h with ⟨h1, h2⟩ |
    ⟨kingSrc, rookSrc, g3, result1, g4, hps, h3, hr1, h4, h5⟩
  · exact Or.inl ⟨h1, h2⟩
  obtain ⟨t3, ht3, rfl⟩ := tempMove_eq h3
  obtain ⟨hs3, hwk3, hbk3⟩ := hts.tempMove_sound ht3
  obtain ⟨t4, ht4, rfl⟩ := tempMove_eq h4
  obtain ⟨hs4, hwk4, hbk4⟩ := hs3.tempMove_sound ht4
  rcases h5 with ⟨_, hres, hundo⟩ | ⟨hr2, hres, g5, h5, hsave⟩
  · left
    rw [undoMoves_of_sound (g := { g with _tempBoard := t4 }) hs.1
      (by rw [hwk4, hwk3, hs.2]) (by rw [hbk4, hbk3, hs.2])] at hundo
    simp only [Option.some.injEq] at hundo
    subst hundo
    exact ⟨hres, mk_board_board hs.2⟩
  · right
    obtain ⟨t5, ht5, rfl⟩ := tempMove_eq h5
    obtain ⟨hs5, hwk5, hbk5⟩ := hs4.tempMove_sound ht5
    rw [saveMoves_of_sound (g := { g with _tempBoard := t5 }) hs5
      (by rw [hwk5, hwk4, hwk3, hs.2]) (by rw [hbk5, hbk4, hbk3, hs.2])] at hsave
    simp only [Option.some.injEq] at hsave
    subst hsave
    have hres1 : result1 = false := by
      cases result1 with
      | false => rfl
      | true => simp at hr2
    subst hres1
    simp only [Bool.false_eq_true, if_false] at hr2
    have hflag : isCurrentInCheck = false := by
      cases isCurrentInCheck with
      | false => rfl
      | true => simp at hr1
    subst hflag
    simp only [Bool.false_eq_true, if_false] at hr1
    exact ⟨hres, rfl, kingSrc, rookSrc, t3, t4, t5, hps, ht3, hs3, hr1, ht4, hs4, hr2, ht5, hs5,
      rfl⟩

/-- Whatever a call returns in a sound state, the saved board after it keeps the pieces and
the king pointers of the saved board before it. -/
theorem Sound.call_keeps {g g2 : GameMaster} (hs : g.Sound) {c : Call}
    (h : g.call c = some g2) : g._board.Keeps g2._board := by
  have hts : g._tempBoard.Sound := hs.2 ▸ hs.1
  cases c with
  | move src dest currentPlayer isCurrentInCheck =>
    simp only [call, Option.map_eq_some', Prod.exists, exists_eq_right] at h
    obtain ⟨res, h⟩ := h
    rcases hs.move_shape h with ⟨_, rfl⟩ |
      ⟨_, a, p, promotion, t1, t2, moved, _, _, _, _, ht1, hs1, hmoved, _, _, hp, _, rfl⟩
    · exact Board.Keeps.refl_keeps _
    · have h1 : g._board.Keeps t1 := hs.2 ▸ Board.Keeps.of_tempMove hts.1 ht1
      cases promotion with
      | false =>
        simp only [Bool.false_eq_true, if_false, Option.some.injEq] at hp
        subst hp
        exact h1
      | true =>
        simp only [if_true] at hp
        exact h1.trans_keeps (Board.Keeps.of_tempPromote hs1.1 hmoved hp)
  | castling castlingSide currentPlayer isCurrentInCheck =>
    simp only [call, Option.map_eq_some', Prod.exists, exists_eq_right] at h
    obtain ⟨res, h⟩ := h
    rcases hs.castling_shape h with ⟨_, rfl⟩ |
      ⟨_, _, kingSrc, rookSrc, t1, t2, t3, _, ht1, hs1, _, ht2, hs2, _, ht3, _, rfl⟩
    · exact Board.Keeps.refl_keeps _
    · have h1 : g._board.Keeps t1 := hs.2 ▸ Board.Keeps.of_tempMove hts.1 ht1
      exact (h1.trans_keeps (Board.Keeps.of_tempMove hs1.1 ht2)).trans_keeps
        (Board.Keeps.of_tempMove hs2.1 ht3)
  | isInCheck color =>
    simp only [call, Option.map_eq_some', Prod.exists, exists_eq_right] at h
    obtain ⟨res, h⟩ := h
    rw [isInCheckCall_state h]
    exact Board.Keeps.refl_keeps _
  | isInCheckmate color isColorInCheck =>
    simp only [call, Option.map_eq_some', Prod.exists, exists_eq_right] at h
    obtain ⟨res, h⟩ := h
    rw [hs.isInCheckmate_state h]
    exact Board.Keeps.refl_keeps _

theorem Sound.calls_keeps {g : GameMaster} (hs : g.Sound) (cs : List Call) :
    ∀ g2, g.calls cs = some g2 → g._board.Keeps g2._board := by
  induction cs generalizing g with
  | nil =>
    intro g2 h
    simp only [calls, Option.some.injEq] at h
    subst h
    exact Board.Keeps.refl_keeps _
  | cons c rest ih =>
    intro g2 h
    unfold calls at h
    cases hc : g.call c with
    | none => rw [hc] at h; cases h
    | some g1 =>
      rw [hc] at h
      exact (hs.call_keeps hc).trans_keeps (ih (hs.call_sound hc) g2 h)

/-- A reachable state is sound, and its saved board keeps the pieces and the king pointers
of the fresh board. -/
theorem Reachable.keeps {g : GameMaster} (h : g.Reachable) :
    g.Sound ∧ startState._board.Keeps g._board := by
  obtain ⟨g0, cs, h0, hcs⟩ := h
  rw [new_eq_startState] at h0
  simp only [Option.some.injEq] at h0
  subst h0
  have hs0 : startState.Sound := startState_WF.sound_of_WF
  exact ⟨hs0.calls_sound cs g hcs, hs0.calls_keeps cs g hcs⟩

/-- In a reachable state the pieces that have not moved are pieces of the fresh board. -/
theorem Reachable.home {g : GameMaster} (h : g.Reachable) : g.Home := by
  obtain ⟨_, hw, hb, _⟩ := h.keeps
  intro p hp hu
  have hmoved : ¬ (p.hasMoved = true) := by rw [hu]; simp
  rcases List.mem_append.1 hp with hpw | hpb
  · rcases hw.1 p hpw with ⟨q, hq, _, _, _, hm⟩ | ⟨_, hm⟩
    · rcases hm with rfl | hm
      · exact List.mem_append_left _ hq
      · exact absurd hm hmoved
    · exact absurd hm hmoved
  · rcases hb.1 p hpb with ⟨q, hq, _, _, _, hm⟩ | ⟨_, hm⟩
    · rcases hm with rfl | hm
      · exact List.mem_append_right _ hq
      · exact absurd hm hmoved
    · exact absurd hm hmoved

end GameMaster


/-- The king pointers of the fresh board designate the kings of their colours. -/
theorem startState_king_pointers : ∀ q ∈ startState._board.allPieces,
    (startState._board._whiteKing = some q.addr → q.isKing = true ∧ q.getColor = WHITE) ∧
    (startState._board._blackKing = some q.addr → q.isKing = true ∧ q.getColor = BLACK) := by
  decide

/-- The pieces in the corners of the fresh board are rooks. -/
theorem startState_rooks : ∀ R ∈ startState._board.allPieces,
    (R.getPosition.file = 65 ∨ R.getPosition.file = 72) →
    (R.getPosition.rank = 49 ∨ R.getPosition.rank = 56) → R.kind = Kind.Rook := by
  decide

namespace Board

/-- The two steps of the king in a castling, on a consistent board: the board after them is
consistent, the king stands on the second square, the square between is empty, and the piece
of the corner and the king pointers are as they were. -/
theorem castling_steps {t t1 t2 : Board} (hc : t.Consistent) {K R : Piece}
    (hK : K ∈ t.allPieces) (hR : R ∈ t.allPieces) {dir : Int} (hdir : dir = 1 ∨ dir = -1)
    (hRf0 : R.getPosition.file ≠ K.getPosition.file)
    (hRf1 : R.getPosition.file ≠ K.getPosition.file + dir)
    (hRf2 : R.getPosition.file ≠ K.getPosition.file + dir + dir)
    (ht1 : t.tempMove K.getPosition (Square.mk (K.getPosition.file + dir) K.getPosition.rank)
      = some t1)
    (ht2 : t1.tempMove (Square.mk (K.getPosition.file + dir) K.getPosition.rank)
      (Square.mk (K.getPosition.file + dir + dir) K.getPosition.rank) = some t2) :
    t1.Consistent ∧ t2.Consistent ∧
    t2.deref K.addr = some ((K.setPosition
      (Square.mk (K.getPosition.file + dir) K.getPosition.rank)).setPosition
      (Square.mk (K.getPosition.file + dir + dir) K.getPosition.rank)) ∧
    R ∈ t2.allPieces ∧
    t2._getPiece (Square.mk (K.getPosition.file + dir) K.getPosition.rank) = some none ∧
    t2._whiteKing = t._whiteKing ∧ t2._blackKing = t._blackKing := by
  have hmidne : Square.mk (K.getPosition.file + dir) K.getPosition.rank ≠ K.getPosition := by
    intro e
    have := congrArg Square.file e
    simp only at this
    omega
  have hdestne : Square.mk (K.getPosition.file + dir + dir) K.getPosition.rank
      ≠ Square.mk (K.getPosition.file + dir) K.getPosition.rank := by
    intro e
    have := congrArg Square.file e
    simp only at this
    omega
  -- the first step of the king
  obtain ⟨a1, hsrc1, hdest1, hne1⟩ := tempMove_inv hc ht1
  obtain ⟨t1', ht1', hw1, hb1, hwk1, hbk1, hget1, hc1⟩ := tempMove_spec hc hsrc1 hdest1 hne1
  rw [ht1] at ht1'
  simp only [Option.some.injEq] at ht1'
  subst ht1'
  have ha1 : a1 = K.addr := by
    have := hc.2.1 K hK
    rw [hsrc1] at this
    simp only [Option.some.injEq] at this
    exact this
  subst ha1
  have hRK : R.addr ≠ K.addr := fun e => hRf0 (by rw [hc.addr_inj hR hK e])
  have hKd1 := deref_movedList hc1 hw1 hb1 hK (Ne.symm hmidne)
  simp only [if_true] at hKd1
  have hRd1 := deref_movedList hc1 hw1 hb1 hR
    (fun e => hRf1 (by rw [e]) : R.getPosition ≠ Square.mk (K.getPosition.file + dir) _)
  simp only [hRK, if_false] at hRd1
  obtain ⟨hK1m, _⟩ := deref_eq_some hKd1
  obtain ⟨hR1m, _⟩ := deref_eq_some hRd1
  -- the second step of the king
  obtain ⟨a2, hsrc2, hdest2, hne2⟩ := tempMove_inv hc1 ht2
  obtain ⟨t2', ht2', hw2, hb2, hwk2, hbk2, hget2, hc2⟩ := tempMove_spec hc1 hsrc2 hdest2 hne2
  rw [ht2] at ht2'
  simp only [Option.some.injEq] at ht2'
  subst ht2'
  have ha2 : a2 = K.addr := by
    have := hget1 (Square.mk (K.getPosition.file + dir) K.getPosition.rank)
    rw [hsrc2] at this
    simp only [if_true, Option.some.injEq] at this
    exact this
  subst ha2
  have hKd2 := deref_movedList hc2 hw2 hb2 hK1m
    (Ne.symm hdestne : (K.setPosition _).getPosition ≠ _)
  have hK1a : (K.setPosition
      (Square.mk (K.getPosition.file + dir) K.getPosition.rank)).addr = K.addr := rfl
  simp only [hK1a, if_true] at hKd2
  have hRd2 := deref_movedList hc2 hw2 hb2 hR1m
    (fun e => hRf2 (by rw [e]) :
      R.getPosition ≠ Square.mk (K.getPosition.file + dir + dir) _)
  simp only [hRK, if_false] at hRd2
  obtain ⟨hR2m, _⟩ := deref_eq_some hRd2
  have hmid2 : t2._getPiece (Square.mk (K.getPosition.file + dir) K.getPosition.rank)
      = some none := by
    rw [hget2]
    simp only [Ne.symm hdestne, if_false, if_true]
  exact ⟨hc1, hc2, hKd2, hR2m, hmid2, hwk2.trans hwk1, hbk2.trans hbk1⟩

end Board

namespace GameMaster

/-- The paths through `_isPseudoLegalCastling` on which it returns true. -/
theorem _isPseudoLegalCastling_inv {g : GameMaster} {castlingSide : Char} {currentPlayer : Int}
    {kingSrc rookSrc : Square}
    (h : g._isPseudoLegalCastling castlingSide currentPlayer = some (some (kingSrc, rookSrc))) :
    ∃ k king r rook path, g.getTempKing currentPlayer = some k ∧
      g._tempBoard.deref k = some king ∧ king.hasMoved = false ∧ kingSrc = king.getPosition ∧
      rookSrc = rookCorner castlingSide king.getPosition ∧
      g.getTempPiece rookSrc = some (some r) ∧ g._tempBoard.deref r = some rook ∧
      rook.hasMoved = false ∧ rook.getPathTo kingSrc = some path ∧
      g._isEmptyPath path = some true := by
  unfold _isPseudoLegalCastling at h
  cases hk : g.getTempKing currentPlayer with
  | none => rw [hk] at h; cases h
  | some k =>
    rw [hk] at h
    simp only at h
    cases hking : g._tempBoard.deref k with
    | none => rw [hking] at h; cases h
    | some king =>
      rw [hking] at h
      simp only at h
      cases hkm : king.hasMoved with
      | true => rw [hkm] at h; simp at h
      | false =>
        rw [hkm] at h
        simp only [Bool.false_eq_true, if_false] at h
        cases hr : g.getTempPiece (Square.mk (if castlingSide = QUEENSIDE then MIN_FILE
            else MAX_FILE) king.getPosition.rank) with
        | none => rw [hr] at h; cases h
        | some v =>
          rw [hr] at h
          cases v with
          | none => simp at h
          | some r =>
            simp only at h
            cases hrook : g._tempBoard.deref r with
            | none => rw [hrook] at h; cases h
            | some rook =>
              rw [hrook] at h
              simp only at h
              cases hrm : rook.hasMoved with
              | true => rw [hrm] at h; simp at h
              | false =>
                rw [hrm] at h
                simp only [Bool.false_eq_true, if_false] at h
                cases hpath : rook.getPathTo king.getPosition with
                | none => rw [hpath] at h; cases h
                | some path =>
                  rw [hpath] at h
                  simp only at h
                  cases he : g._isEmptyPath path with
                  | none => rw [he] at h; cases h
                  | some b =>
                    rw [he] at h
                    cases b with
                    | false => simp at h
                    | true =>
                      simp only [if_true, Option.some.injEq, Prod.mk.injEq] at h
                      obtain ⟨h1, h2⟩ := h
                      subst h1 h2
                      exact ⟨k, king, r, rook, path, rfl, hking, hkm, rfl, rfl, hr, hrook, hrm,
                        hpath, he⟩

end GameMaster


namespace GameMaster

/-- In a reachable state in which `_isPseudoLegalCastling` returns true for WHITE or BLACK,
the pointer it reads designates the unmoved king of the player, which stands on file E, the
piece of the corner is an unmoved rook of the player, and the squares between the two are
empty. -/
theorem Reachable.castling_test {g : GameMaster} (h : g.Reachable) {castlingSide : Char}
    {currentPlayer : Int} (hcp : currentPlayer = WHITE ∨ currentPlayer = BLACK)
    {kingSrc rookSrc : Square}
    (hps : g._isPseudoLegalCastling castlingSide currentPlayer
      = some (some (kingSrc, rookSrc))) :
    ∃ K R, K ∈ g._tempBoard.allPieces ∧ R ∈ g._tempBoard.allPieces ∧
      g._tempBoard._getKing currentPlayer = some K.addr ∧
      kingSrc = K.getPosition ∧ rookSrc = R.getPosition ∧
      K.isKing = true ∧ K.getColor = currentPlayer ∧ K.hasMoved = false ∧
      K.getPosition.file = 69 ∧
      R.kind = Kind.Rook ∧ R.getColor = currentPlayer ∧ R.hasMoved = false ∧
      R.getPosition = rookCorner castlingSide K.getPosition ∧
      g._tempBoard.emptyBetween R.getPosition K.getPosition := by
  obtain ⟨hs, hkeep⟩ := h.keeps
  have hhome := h.home
  have hts : g._tempBoard.Sound := hs.2 ▸ hs.1
  have hc := hts.1
  obtain ⟨k, K, r, R, path, hk, hK, hKu, rfl, rfl, hr, hR, hRu, hpath, hempty⟩ :=
    _isPseudoLegalCastling_inv hps
  obtain ⟨hKm, hKa⟩ := Board.deref_eq_some hK
  obtain ⟨hRm, hRa⟩ := Board.deref_eq_some hR
  subst hKa
  have hKs := hhome K (hs.2 ▸ hKm) hKu
  have hRs := hhome R (hs.2 ▸ hRm) hRu
  -- the king
  have hptr : startState._board._getKing currentPlayer = some K.addr := by
    have hk2 : g._tempBoard._getKing currentPlayer = some K.addr := hk
    rw [hs.2] at hk2
    unfold Board._getKing at hk2 ⊢
    rw [← hkeep.2.2.1, ← hkeep.2.2.2]
    exact hk2
  have hKking : K.isKing = true ∧ K.getColor = currentPlayer := by
    have hne : ¬ (BLACK = WHITE) := by decide
    rcases hcp with rfl | rfl
    · exact (startState_king_pointers K hKs).1 (by simpa [Board._getKing] using hptr)
    · exact (startState_king_pointers K hKs).2 (by simpa [Board._getKing, hne] using hptr)
  obtain ⟨hKE, hKr⟩ := startState_kings K hKs hKking.1
  -- the piece of the corner
  have hRpos : R.getPosition = rookCorner castlingSide K.getPosition := by
    obtain ⟨x, hx, hxa, hxpos, _⟩ := hc.occupant
      (show g._tempBoard._getPiece (rookCorner castlingSide K.getPosition) = some (some r)
        from hr)
    have : x = R := hc.addr_inj hx hRm (hxa.trans hRa.symm)
    rw [← this]
    exact hxpos
  have hRr : R.getPosition.rank = K.getPosition.rank := by rw [hRpos]; rfl
  have hRf : R.getPosition.file = (if castlingSide = QUEENSIDE then MIN_FILE else MAX_FILE) := by
    rw [hRpos]; rfl
  have hRf2 : R.getPosition.file = 65 ∨ R.getPosition.file = 72 := by
    rw [hRf]; split <;> decide
  have hRr3 : R.getPosition.rank = 49 ∨ R.getPosition.rank = 56 := by
    rw [hRr, hKr]; split <;> simp
  have hRr2 := startState_corners R hRs hRf2 hRr3
  have hRk := startState_rooks R hRs hRf2 hRr3
  have hRc : R.getColor = currentPlayer := by
    rw [hRr, hKr, hKking.2] at hRr2
    rcases hc.color hRm with h1 | h1 <;> rcases hcp with h2 | h2 <;>
      rw [h1, h2] at hRr2 <;> rw [h1, h2] <;> first | rfl | (exfalso; revert hRr2; decide)
  -- the squares between
  obtain ⟨path2, hpath2, hin, hiff⟩ := getPathTo_same_rank g._tempBoard R K.getPosition
    (hc.inBoard hRm) (hc.inBoard hKm) hRr
  rw [hpath] at hpath2
  simp only [Option.some.injEq] at hpath2
  subst hpath2
  obtain ⟨b, hb, hbiff⟩ := g._isEmptyPath_spec hc.1 path hin
  rw [hempty] at hb
  simp only [Option.some.injEq] at hb
  subst hb
  exact ⟨K, R, hKm, hRm, hk, rfl, hRpos.symm, hKking.1, hKking.2, hKu, hKE, hRk, hRc, hRu,
    hRpos, hiff.1 (hbiff.1 rfl) (Or.inl hRk)⟩

/-- An accepted castling in a reachable state: the unmoved king of the player goes from file
E two files towards its unmoved rook, the rook goes to the square the king has crossed, every
other piece stays as it is, and the player is not in check in the state after the call. -/
theorem Reachable.castling_accepted {g g2 : GameMaster} (h : g.Reachable)
    {castlingSide : Char} {currentPlayer : Int}
    (hcp : currentPlayer = WHITE ∨ currentPlayer = BLACK) {isCurrentInCheck : Bool}
    (hacc : g.castling castlingSide currentPlayer isCurrentInCheck = some (true, g2)) :
    ∃ K R, K ∈ g._board.allPieces ∧ R ∈ g._board.allPieces ∧
      K.isKing = true ∧ K.getColor = currentPlayer ∧ K.hasMoved = false ∧
      K.getPosition.file = 69 ∧
      R.kind = Kind.Rook ∧ R.getColor = currentPlayer ∧ R.hasMoved = false ∧
      R.getPosition = rookCorner castlingSide K.getPosition ∧
      g2._board._whitePieces = g._board._whitePieces.map (fun q =>
        if q.addr = K.addr then q.setPosition (Square.mk (K.getPosition.file +
          (if castlingSide = QUEENSIDE then Q_DIRECTION else K_DIRECTION) +
          (if castlingSide = QUEENSIDE then Q_DIRECTION else K_DIRECTION)) K.getPosition.rank)
        else if q.addr = R.addr then q.setPosition (Square.mk (K.getPosition.file +
          (if castlingSide = QUEENSIDE then Q_DIRECTION else K_DIRECTION)) K.getPosition.rank)
        else q) ∧
      g2._board._blackPieces = g._board._blackPieces.map (fun q =>
        if q.addr = K.addr then q.setPosition (Square.mk (K.getPosition.file +
          (if castlingSide = QUEENSIDE then Q_DIRECTION else K_DIRECTION) +
          (if castlingSide = QUEENSIDE then Q_DIRECTION else K_DIRECTION)) K.getPosition.rank)
        else if q.addr = R.addr then q.setPosition (Square.mk (K.getPosition.file +
          (if castlingSide = QUEENSIDE then Q_DIRECTION else K_DIRECTION)) K.getPosition.rank)
        else q) ∧
      g2._tempBoard = g2._board ∧ g2.isInCheck currentPlayer = some false := by
  obtain ⟨hs, hkeep⟩ := h.keeps
  have hts : g._tempBoard.Sound := hs.2 ▸ hs.1
  have hc := hts.1
  rcases hs.castling_shape hacc with ⟨h1, _⟩ |
    ⟨_, _, kingSrc, rookSrc, t1, t2, t3, hps, ht1, _, _, ht2, _, hchk2, ht3, _, rfl⟩
  · cases h1
  obtain ⟨K, R, hKm, hRm, hKp, rfl, rfl, hKk, hKc, hKu, hKE, hRk, hRc, hRu, hRpos, hbetween⟩ :=
    h.castling_test hcp hps
  have hRr : R.getPosition.rank = K.getPosition.rank := by rw [hRpos]; rfl
  have hRf : R.getPosition.file = (if castlingSide = QUEENSIDE then MIN_FILE else MAX_FILE) := by
    rw [hRpos]; rfl
  have hdir : (if castlingSide = QUEENSIDE then Q_DIRECTION else K_DIRECTION) = 1 ∨
      (if castlingSide = QUEENSIDE then Q_DIRECTION else K_DIRECTION) = -1 := by
    split
    · right; rfl
    · left; rfl
  have hrd : R.getPosition.file + (if castlingSide = QUEENSIDE then Q_ROOK else K_ROOK)
      = K.getPosition.file + (if castlingSide = QUEENSIDE then Q_DIRECTION else K_DIRECTION) := by
    rw [hRf, hKE]
    split <;> decide
  have hRfs : R.getPosition.file ≠ K.getPosition.file ∧
      R.getPosition.file ≠ K.getPosition.file +
        (if castlingSide = QUEENSIDE then Q_DIRECTION else K_DIRECTION) ∧
      R.getPosition.file ≠ K.getPosition.file +
        (if castlingSide = QUEENSIDE then Q_DIRECTION else K_DIRECTION) +
        (if castlingSide = QUEENSIDE then Q_DIRECTION else K_DIRECTION) ∧
      (R.getPosition.file = MIN_FILE ∨ R.getPosition.file = MAX_FILE) ∧
      ((R.getPosition.file < K.getPosition.file +
          (if castlingSide = QUEENSIDE then Q_DIRECTION else K_DIRECTION) +
          (if castlingSide = QUEENSIDE then Q_DIRECTION else K_DIRECTION) ∧
        K.getPosition.file +
          (if castlingSide = QUEENSIDE then Q_DIRECTION else K_DIRECTION) < K.getPosition.file) ∨
       (K.getPosition.file < K.getPosition.file +
          (if castlingSide = QUEENSIDE then Q_DIRECTION else K_DIRECTION) ∧
        K.getPosition.file +
          (if castlingSide = QUEENSIDE then Q_DIRECTION else K_DIRECTION) +
          (if castlingSide = QUEENSIDE then Q_DIRECTION else K_DIRECTION)
            < R.getPosition.file)) := by
    rw [hRf, hKE]
    split <;> decide
  rw [hrd] at ht3
  generalize (if castlingSide = QUEENSIDE then Q_DIRECTION else K_DIRECTION) = dir
    at hdir ht1 ht2 ht3 hRfs ⊢
  obtain ⟨hRf0, hRf1, hRf2, hcorner, hord⟩ := hRfs
  -- the two squares the king crosses are empty
  have hmidE : g._tempBoard._getPiece (Square.mk (K.getPosition.file + dir) K.getPosition.rank)
      = some none := by
    have := hbetween (K.getPosition.file + dir) (by omega)
    rw [hRr] at this
    exact this
  have hdestE : g._tempBoard._getPiece
      (Square.mk (K.getPosition.file + dir + dir) K.getPosition.rank) = some none := by
    have := hbetween (K.getPosition.file + dir + dir) (by omega)
    rw [hRr] at this
    exact this
  have hsq : ∀ a b : Square, a.file ≠ b.file → a ≠ b := fun a b hf e => hf (by rw [e])
  obtain ⟨hw3, hb3, _, _, _, hc3⟩ := Board.tempMove_three hc hKm hRm
    (Board._getPiece_inBoard hmidE) (Board._getPiece_inBoard hdestE)
    (hsq _ _ (by simp only; omega))
    (hsq _ _ (by simp only; omega))
    (hsq _ _ (by simp only; omega))
    (hsq _ _ hRf0)
    (hsq _ _ hRf1)
    (hsq _ _ hRf2)
    hmidE hdestE ht1 ht2 ht3
  obtain ⟨_, hc2, hKd2, hR2m, hmid2, hwk2, hbk2⟩ :=
    Board.castling_steps hc hKm hRm hdir hRf0 hRf1 hRf2 ht1 ht2
  have hK2 : t2._getKing currentPlayer = some ((K.setPosition
      (Square.mk (K.getPosition.file + dir) K.getPosition.rank)).setPosition
      (Square.mk (K.getPosition.file + dir + dir) K.getPosition.rank)).addr := by
    simp only [Board._getKing, hwk2, hbk2]
    exact hKp
  refine ⟨K, R, hs.2 ▸ hKm, hs.2 ▸ hRm, hKk, hKc, hKu, hKE, hRk, hRc, hRu, hRpos, ?_, ?_, rfl, ?_⟩
  · rw [← hs.2]
    exact hw3
  · rw [← hs.2]
    exact hb3
  · exact isInCheck_corner_step g._board t3 hc2 hcp hK2 hKd2 hR2m hRc hcorner hmid2
      (fun e => hRf2 e.symm) ht3 hchk2

end GameMaster


namespace Board

theorem Consistent.getPieces_nodup {b : Board} (h : b.Consistent) (c : Int) :
    ((b._getPieces c).map Piece.getPosition).Nodup := by
  have hnd := h.2.2.2.1
  unfold allPieces at hnd
  rw [List.map_append] at hnd
  unfold _getPieces
  split
  · exact (List.nodup_append.1 hnd).1
  · exact (List.nodup_append.1 hnd).2.1

/-- The method `tempPromote` changes the length of no vector. -/
theorem tempPromote_lengths {t t2 : Board} (hc : t.Consistent) {a : Ptr} {pw : Piece}
    (hd : t.deref a = some pw) (h : t.tempPromote a = some t2) :
    t2._whitePieces.length = t._whitePieces.length ∧
    t2._blackPieces.length = t._blackPieces.length := by
  obtain ⟨t2', fresh, ht2', hw, hb, _⟩ := tempPromote_spec hc hd
  rw [h] at ht2'
  simp only [Option.some.injEq] at ht2'
  subst ht2'
  obtain ⟨hpw, _⟩ := deref_eq_some hd
  have hndw := hc.getPieces_nodup WHITE
  have hndb := hc.getPieces_nodup BLACK
  have hne : ¬ (BLACK = WHITE) := by decide
  simp only [_getPieces, if_true, hne, if_false] at hndw hndb
  have hother : ∀ l : List Piece, (∀ q ∈ l, q ∈ t.allPieces) → pw ∉ l →
      l.filter (fun q => q.getPosition ≠ pw.getPosition) = l := by
    intro l hl hnot
    rw [List.filter_eq_self]
    intro q hq
    simp only [ne_eq, decide_eq_true_eq]
    intro e
    exact hnot (hc.pos_inj (hl q hq) hpw e ▸ hq)
  rcases List.mem_append.1 hpw with hpww | hpwb
  · have hcol : pw.getColor = WHITE := hc.2.2.2.2.2.1 pw hpww
    rw [hw, hb]
    simp only [hcol, if_true, List.append_nil, List.length_append, List.length_singleton]
    refine ⟨length_filter_ne_pos _ hndw hpww, ?_⟩
    rw [hother _ (fun q hq => List.mem_append_right _ hq) (fun hb2 => ?_)]
    have := hc.2.2.2.2.2.2 pw hb2
    rw [hcol] at this
    exact absurd this.symm hne
  · have hcol : pw.getColor = BLACK := hc.2.2.2.2.2.2 pw hpwb
    rw [hw, hb]
    simp only [hcol, hne, if_false, List.append_nil, List.length_append,
      List.length_singleton]
    refine ⟨?_, length_filter_ne_pos _ hndb hpwb⟩
    rw [hother _ (fun q hq => List.mem_append_left _ hq) (fun hw2 => ?_)]
    have := hc.2.2.2.2.2.1 pw hw2
    rw [hcol] at this
    exact absurd this hne

end Board

namespace GameMaster

/-- An accepted `move` in a sound state: the vector of the player keeps its length, and the
vector of the other colour loses one piece when `dest` was occupied and keeps its length when
it was empty. -/
theorem Sound.move_counts {g g2 : GameMaster} (hs : g.Sound) {src dest : Square}
    {currentPlayer : Int} {isCurrentInCheck : Bool}
    (h : g.move src dest currentPlayer isCurrentInCheck = some (true, g2)) :
    (currentPlayer = WHITE ∨ currentPlayer = BLACK) ∧
    (g2._board._getPieces currentPlayer).length = (g._board._getPieces currentPlayer).length ∧
    (g2._board._getPieces (_reverseColor currentPlayer)).length +
        (if g._board._getPiece dest = some none then 0 else 1)
      = (g._board._getPieces (_reverseColor currentPlayer)).length := by
  have hts : g._tempBoard.Sound := hs.2 ▸ hs.1
  have hc := hts.1
  rcases hs.move_shape h with ⟨h1, _⟩ |
    ⟨_, a, p, promotion, t1, t2, moved, hsrc, hderef, hcol, hpath, ht1, hs1, hmoved, _, _, hp,
      _, rfl⟩
  · cases h1
  obtain ⟨p0, hp0, hp0a, hp0pos, hp0d⟩ := hc.occupant hsrc
  have hpp : p0 = p := by
    rw [hderef] at hp0d
    simp only [Option.some.injEq] at hp0d
    exact hp0d.symm
  subst hpp
  have hcp : currentPlayer = WHITE ∨ currentPlayer = BLACK := hcol ▸ hc.color hp0
  obtain ⟨hrev, _⟩ := _reverseColor_twice hcp
  have hrevne : _reverseColor currentPlayer ≠ currentPlayer := by
    rcases hcp with rfl | rfl <;> decide
  obtain ⟨b, hb, hiff⟩ := g._isPseudoPath_spec hc hp0 dest
  rw [hpath] at hb
  simp only [Option.some.injEq] at hb
  subst hb
  obtain ⟨hin, v, hv, hvne, _⟩ := hiff.1 rfl
  have hne : dest ≠ src := by
    intro e
    have := hc.colorAt_of_mem hp0
    rw [hp0pos, ← e, hv] at this
    exact hvne (Option.some.inj this)
  obtain ⟨t1', ht1', hw1, hb1, _, _, _, hc1⟩ := Board.tempMove_spec hc hsrc hin hne
  rw [ht1] at ht1'
  simp only [Option.some.injEq] at ht1'
  subst ht1'
  have hvec : ∀ c, t1._getPieces c = movedList (g._tempBoard._getPieces c) a dest := by
    intro c
    unfold Board._getPieces
    split
    · exact hw1
    · exact hb1
  -- the promotion changes no length
  have hlen2 : ∀ c, (t2._getPieces c).length = (t1._getPieces c).length := by
    intro c
    cases promotion with
    | false =>
      simp only [Bool.false_eq_true, if_false, Option.some.injEq] at hp
      rw [hp]
    | true =>
      simp only [if_true] at hp
      obtain ⟨h1, h2⟩ := Board.tempPromote_lengths hc1 hmoved hp
      unfold Board._getPieces
      split
      · exact h1
      · exact h2
  refine ⟨hcp, ?_, ?_⟩
  · show (t2._getPieces currentPlayer).length = _
    rw [hlen2, hvec, ← hs.2]
    apply movedList_length_of_no_dest
    intro q hq e
    obtain ⟨hqm, hqc⟩ := hc.getPieces_color hcp hq
    have := hc.colorAt_of_mem hqm
    rw [e, hv, hqc, ← hcol] at this
    exact hvne (Option.some.inj this)
  · show (t2._getPieces (_reverseColor currentPlayer)).length + _ = _
    rw [hlen2, hvec, ← hs.2]
    by_cases hempty : g._tempBoard._getPiece dest = some none
    · simp only [hempty, if_true, add_zero]
      apply movedList_length_of_no_dest
      intro q hq e
      obtain ⟨hqm, _⟩ := hc.getPieces_color hrev hq
      have := hc.2.1 q hqm
      rw [e, hempty] at this
      simp at this
    · simp only [hempty, if_false]
      obtain ⟨w, hw⟩ := hc.getPiece_isSome hin
      cases w with
      | none => exact absurd hw hempty
      | some x =>
        obtain ⟨q, hq, _, hqpos, _⟩ := hc.occupant hw
        have hqcol := hc.colorAt_of_mem hq
        rw [hqpos, hv] at hqcol
        have hqne : q.getColor ≠ currentPlayer := by
          intro e
          apply hvne
          rw [Option.some.inj hqcol, e, hcol]
        have hqrev : q.getColor = _reverseColor currentPlayer := by
          rcases hc.color hq with h1 | h1 <;> rcases hcp with h2 | h2 <;>
            rw [h1, h2] at hqne <;> rw [h1, h2] <;> first | rfl | exact absurd rfl hqne
        have hqmem : q ∈ g._tempBoard._getPieces (_reverseColor currentPlayer) :=
          hqrev ▸ hc.mem_getPieces hq
        have := length_filter_ne_pos _ (hc.getPieces_nodup (_reverseColor currentPlayer)) hqmem
        rw [hqpos] at this
        unfold movedList
        rw [List.length_map]
        exact this

end GameMaster


namespace GameMaster

set_option maxRecDepth 100000 in
theorem kingsideClearedState_reachable : kingsideClearedState.Reachable :=
  ⟨startState, [Call.move G1 F3 WHITE false, Call.move E2 E4 WHITE false,
    Call.move F1 E2 WHITE false], new_eq_startState, by decide!⟩

set_option maxRecDepth 100000 in
theorem pawnsMetState_reachable : pawnsMetState.Reachable :=
  ⟨startState, [Call.move E2 E4 WHITE false, Call.move D7 D5 BLACK false],
    new_eq_startState, by decide!⟩

/-- C33. In every state reachable from the fresh board by calls of `move`, `castling`,
`isInCheck` and `isInCheckmate`, after a castling of WHITE or of BLACK that is accepted,
`isInCheck` of that colour is false in the state the call leaves, although the last test
`castling` makes is made after the second step of the king and before the rook is moved from
the corner to the square next to the king. -/
theorem castling_accepted_leaves_mover_safe (g : GameMaster) (h : g.Reachable)
    (castlingSide : Char) (c : Int) (hc : c = WHITE ∨ c = BLACK) (isCurrentInCheck : Bool)
    (g2 : GameMaster)
    (hacc : g.castling castlingSide c isCurrentInCheck = some (true, g2)) :
    g2.isInCheck c = some false := by
  obtain ⟨_, _, _, _, _, _, _, _, _, _, _, _, _, _, _, h2⟩ := h.castling_accepted hc hacc
  exact h2

set_option maxRecDepth 100000 in
theorem castling_accepted_leaves_mover_safe_witness :
    kingsideClearedState.Reachable ∧
    kingsideClearedState.castling KINGSIDE WHITE false = some (true, kingsideCastledState) ∧
    kingsideCastledState.isInCheck WHITE = some false :=
  ⟨kingsideClearedState_reachable, by decide!,
    castling_accepted_leaves_mover_safe kingsideClearedState kingsideClearedState_reachable
      KINGSIDE WHITE (Or.inl rfl) false kingsideCastledState (by decide!)⟩

/-- C34. In every state reachable from the fresh board by calls of `move` and `castling` (and
of the two queries), every piece with `hasMoved` false is a piece of the fresh board: it
stands on the square on which the constructor put it and has the kind and the colour it had
there; and every piece is a piece of the fresh board, moved or not, or a queen with `hasMoved`
true.  Hence whenever `_isPseudoLegalCastling` returns true for WHITE or BLACK, the king
pointer it reads designates the king of the player, which has not moved and stands on file E,
and the unmoved piece it finds in the corner of the rank of the king is a rook of the colour
of the player, although the code tests neither the kind nor the colour of that piece. -/
theorem reachable_unmoved_at_home (g : GameMaster) (h : g.Reachable) :
    (∀ p ∈ g._board.allPieces, p.hasMoved = false → p ∈ startState._board.allPieces) ∧
    (∀ p ∈ g._board.allPieces, (∃ q ∈ startState._board.allPieces, p.CameFrom q) ∨
      (p.kind = Kind.Queen ∧ p.hasMoved = true)) ∧
    (∀ castlingSide currentPlayer kingSrc rookSrc,
      currentPlayer = WHITE ∨ currentPlayer = BLACK →
      g._isPseudoLegalCastling castlingSide currentPlayer = some (some (kingSrc, rookSrc)) →
      ∃ K R, g.getTempKing currentPlayer = some K.addr ∧
        g._tempBoard.deref K.addr = some K ∧
        g.getTempPiece rookSrc = some (some R.addr) ∧ g._tempBoard.deref R.addr = some R ∧
        kingSrc = K.getPosition ∧ rookSrc = rookCorner castlingSide kingSrc ∧
        K.isKing = true ∧ K.getColor = currentPlayer ∧ K.hasMoved = false ∧
        kingSrc.file = 69 ∧
        R.kind = Kind.Rook ∧ R.getColor = currentPlayer ∧ R.hasMoved = false) := by
  obtain ⟨hs, hw, hb, _⟩ := h.keeps
  refine ⟨h.home, ?_, ?_⟩
  · intro p hp
    rcases List.mem_append.1 hp with hpw | hpb
    · rcases hw.1 p hpw with ⟨q, hq, hcf⟩ | hq
      · exact Or.inl ⟨q, List.mem_append_left _ hq, hcf⟩
      · exact Or.inr hq
    · rcases hb.1 p hpb with ⟨q, hq, hcf⟩ | hq
      · exact Or.inl ⟨q, List.mem_append_right _ hq, hcf⟩
      · exact Or.inr hq
  · intro castlingSide currentPlayer kingSrc rookSrc hcp hps
    have hc : g._tempBoard.Consistent := (hs.2 ▸ hs.1).1
    obtain ⟨K, R, hKm, hRm, hKp, rfl, rfl, hKk, hKc, hKu, hKE, hRk, hRc, hRu, hRpos, _⟩ :=
      h.castling_test hcp hps
    exact ⟨K, R, hKp, Board.deref_of_mem hc.2.2.2.2.1 hKm, hc.2.1 R hRm,
      Board.deref_of_mem hc.2.2.2.2.1 hRm, rfl, hRpos, hKk, hKc, hKu, hKE, hRk, hRc, hRu⟩

set_option maxRecDepth 100000 in
theorem reachable_unmoved_at_home_witness :
    kingsideClearedState.Reachable ∧
    kingsideClearedState._isPseudoLegalCastling KINGSIDE WHITE = some (some (E1, H1)) ∧
    ∃ K R, kingsideClearedState.getTempKing WHITE = some K.addr ∧
      kingsideClearedState._tempBoard.deref K.addr = some K ∧
      kingsideClearedState.getTempPiece H1 = some (some R.addr) ∧
      kingsideClearedState._tempBoard.deref R.addr = some R ∧
      E1 = K.getPosition ∧ H1 = rookCorner KINGSIDE E1 ∧
      K.isKing = true ∧ K.getColor = WHITE ∧ K.hasMoved = false ∧ E1.file = 69 ∧
      R.kind = Kind.Rook ∧ R.getColor = WHITE ∧ R.hasMoved = false :=
  ⟨kingsideClearedState_reachable, by decide!,
    (reachable_unmoved_at_home kingsideClearedState kingsideClearedState_reachable).2.2
      KINGSIDE WHITE E1 H1 (Or.inl rfl) (by decide!)⟩

/-- C39. In every state reachable from the fresh board: after an accepted `move` the vector
of the player has as many pieces as before, and the vector of the other colour has one piece
less when `dest` was occupied and as many as before when it was empty; after an accepted
castling of WHITE or of BLACK both vectors have as many pieces as before; and whatever a call
of `move`, `castling`, `isInCheck` or `isInCheckmate` returns, no vector has grown, every
piece of the White vector is White and every piece of the Black vector is Black, and every
piece is a piece of the same vector before the call with the same address, kind and colour,
or a queen made by a promotion. -/
theorem piece_counts_kept (g : GameMaster) (h : g.Reachable) :
    (∀ src dest currentPlayer isCurrentInCheck g2,
      g.move src dest currentPlayer isCurrentInCheck = some (true, g2) →
      (g2._board._getPieces currentPlayer).length
        = (g._board._getPieces currentPlayer).length ∧
      (g2._board._getPieces (_reverseColor currentPlayer)).length +
          (if g._board._getPiece dest = some none then 0 else 1)
        = (g._board._getPieces (_reverseColor currentPlayer)).length) ∧
    (∀ castlingSide currentPlayer isCurrentInCheck g2,
      currentPlayer = WHITE ∨ currentPlayer = BLACK →
      g.castling castlingSide currentPlayer isCurrentInCheck = some (true, g2) →
      g2._board._whitePieces.length = g._board._whitePieces.length ∧
      g2._board._blackPieces.length = g._board._blackPieces.length) ∧
    (∀ c g2, g.call c = some g2 →
      g2._board._whitePieces.length ≤ g._board._whitePieces.length ∧
      g2._board._blackPieces.length ≤ g._board._blackPieces.length ∧
      (∀ q2 ∈ g2._board._whitePieces, q2.getColor = WHITE ∧
        ((∃ q ∈ g._board._whitePieces, q2.CameFrom q) ∨
          (q2.kind = Kind.Queen ∧ q2.hasMoved = true))) ∧
      (∀ q2 ∈ g2._board._blackPieces, q2.getColor = BLACK ∧
        ((∃ q ∈ g._board._blackPieces, q2.CameFrom q) ∨
          (q2.kind = Kind.Queen ∧ q2.hasMoved = true)))) := by
  obtain ⟨hs, _⟩ := h.keeps
  refine ⟨?_, ?_, ?_⟩
  · intro src dest currentPlayer isCurrentInCheck g2 hm
    exact (hs.move_counts hm).2
  · intro castlingSide currentPlayer isCurrentInCheck g2 hcp hacc
    obtain ⟨_, _, _, _, _, _, _, _, _, _, _, _, hw, hb, _, _⟩ := h.castling_accepted hcp hacc
    rw [hw, hb, List.length_map, List.length_map]
    exact ⟨rfl, rfl⟩
  · intro c g2 hcall
    obtain ⟨hw, hb, _, _⟩ := hs.call_keeps hcall
    have hs2 := hs.call_sound hcall
    exact ⟨hw.2, hb.2, fun q2 hq2 => ⟨hs2.1.1.2.2.2.2.2.1 q2 hq2, hw.1 q2 hq2⟩,
      fun q2 hq2 => ⟨hs2.1.1.2.2.2.2.2.2 q2 hq2, hb.1 q2 hq2⟩⟩

set_option maxRecDepth 100000 in
theorem piece_counts_kept_witness :
    pawnsMetState.Reachable ∧
    pawnsMetState.move E4 D5 WHITE false = some (true, pawnsMetCapturedState) ∧
    pawnsMetState._board._whitePieces.length = 16 ∧
    pawnsMetState._board._blackPieces.length = 16 ∧
    pawnsMetCapturedState._board._whitePieces.length = 16 ∧
    pawnsMetCapturedState._board._blackPieces.length = 15 ∧
    ((pawnsMetCapturedState._board._getPieces WHITE).length
        = (pawnsMetState._board._getPieces WHITE).length ∧
      (pawnsMetCapturedState._board._getPieces (_reverseColor WHITE)).length +
          (if pawnsMetState._board._getPiece D5 = some none then 0 else 1)
        = (pawnsMetState._board._getPieces (_reverseColor WHITE)).length) :=
  ⟨pawnsMetState_reachable, by decide!, by decide, by decide, by decide, by decide,
    (piece_counts_kept pawnsMetState pawnsMetState_reachable).1 E4 D5 WHITE false
      pawnsMetCapturedState (by decide!)⟩

end GameMaster

end Chess
